import Mathlib

/-!
# Behavior-tree engine: shallow embedding

The Go package keeps a graph of node objects that call each other through the
`Node[T]` interface.  The embedding keeps

* a heap of node objects addressed by natural numbers,
* interface values as `Option Ref` (`none` is the nil interface), where a `Ref`
  pairs the object's address with the Go type through which it is seen (the
  dynamic type of the interface value, which selects the method set),
* a chronological trace of every method invocation,
* a fuel-indexed interpreter `invoke`: fuel bounds the depth of the call stack.

The context type parameter `T` is instantiated with `Nat`.
-/

namespace BT

/-- Context object type (the type parameter `T`). -/
abbrev Obj := Nat

/-- Go types of the package that carry a method set. -/
inductive Kind
  | BaseNode
  | Task
  | Sequence
  | Priority
  | BranchNode
  | Random
  | Decorator
  | AlwaysSucceedDecorator
  | AlwaysFailDecorator
  | InvertDecorator
  | UntilFailDecorator
  | BehaviorTree
  deriving DecidableEq, Repr

/-- Non-nil interface value: address of the object and its dynamic type. -/
structure Ref where
  id : Nat
  view : Kind
  deriving DecidableEq, Repr

/-- Upward verdicts. -/
inductive Signal
  | Running
  | Success
  | Fail
  deriving DecidableEq, Repr

/-- Operations of the `Node[T]` interface. -/
inductive Op
  | Start (object : Obj)
  | Finish (object : Obj)
  | Run (object : Obj)
  | SetControl (control : Option Ref)
  | Running
  | Success
  | Fail
  deriving DecidableEq, Repr

/-- Interface operation by which a verdict is reported. -/
def Signal.toOp : Signal → Op
  | .Running => .Running
  | .Success => .Success
  | .Fail => .Fail

/-- One method invocation: the receiver and the operation. -/
structure Event where
  target : Ref
  op : Op
  deriving DecidableEq, Repr

/-- Step function of a `Task` (`RunFunc`).  The Go function is arbitrary code
that may call `Running`, `Success` or `Fail` on the task it is given; it is
represented by the list of these calls, in order, as a function of the number
of earlier invocations of the same function and of the context object.  The
number of earlier invocations stands for the state the function reads besides
the value of the context object: variables captured by the closure, or what
its earlier invocations wrote through a context of pointer type. -/
abbrev StepFn := Nat → Obj → List Signal

/-- Union of the fields of all node structs of the package.  `calls` is not a
Go field: it stands for the state captured by the closure in `RunFunc`.
`ActualTask` is a Go `int`: it is kept as an integer without a bound, which
agrees with the 64-bit field as long as it stays below `2^63` (`Start` sets it
to `0` and each verdict of a child increments it at most once); statements
about a cursor that starts beyond the end of the child list bound it
explicitly. -/
structure NodeObj where
  ControlNode : Option Ref := none
  Object : Obj := 0
  Nodes : List (Option Ref) := []
  Node : Option Ref := none
  ActualTask : Int := 0
  NodeRunning : Bool := false
  RunFunc : Option StepFn := none
  RunCalled : Bool := false
  calls : Nat := 0
  RootNode : Option Ref := none
  Started : Bool := false

/-- Program state: heap, allocation pointer, trace, and the random source
(`rand.Intn` is taken from the stream `rand`, position `draws`). -/
structure State where
  heap : Nat → NodeObj
  next : Nat
  trace : List Event
  rand : Nat → Nat
  draws : Nat

/-- Ways in which a call does not return normally. -/
inductive Err
  | fault
  | fuel
  deriving DecidableEq, Repr

abbrev Result := Except Err State

/-- Dynamic dispatch: receiver, operation, state. -/
abbrev Call := Ref → Op → State → Result

/-- Empty program state with a given random stream. -/
def State.init (rand : Nat → Nat) : State :=
  { heap := fun _ => {}, next := 0, trace := [], rand := rand, draws := 0 }

/-- Update the object at an address. -/
def State.modify (st : State) (i : Nat) (f : NodeObj → NodeObj) : State :=
  { st with heap := Function.update st.heap i (f (st.heap i)) }

/-- Append an event to the trace. -/
def State.log (st : State) (e : Event) : State :=
  { st with trace := st.trace ++ [e] }

/-- Sequential composition of fallible state transformers. -/
def andThen (r : Result) (k : State → Result) : Result :=
  match r with
  | .ok st => k st
  | .error e => .error e

/-- Method call on an interface value; a nil receiver faults. -/
def send (rec : Call) (target : Option Ref) (op : Op) (st : State) : Result :=
  match target with
  | none => .error .fault
  | some r => rec r op st

/-- Guarded call `if c != nil { c.op() }`. -/
def notify (rec : Call) (c : Option Ref) (op : Op) (st : State) : Result :=
  match c with
  | none => .ok st
  | some r => rec r op st

/-- Slice indexing `nodes[i]` with a Go `int` index; out of range faults. -/
def index (nodes : List (Option Ref)) (i : Int) : Except Err (Option Ref) :=
  if i < 0 then .error .fault
  else
    match nodes[i.toNat]? with
    | some node => .ok node
    | none => .error .fault

/-- Loop `for _, x := range xs { body x }`. -/
def forEach {α : Type} (xs : List α) (body : α → State → Result) (st : State) : Result :=
  match xs with
  | [] => .ok st
  | x :: rest => andThen (body x st) (forEach rest body)

/-! ## node.go -/

def BaseNode.SetControl (self : Nat) (control : Option Ref) (st : State) : Result :=
  .ok (st.modify self fun n => { n with ControlNode := control })

def BaseNode.setObject (self : Nat) (object : Obj) (st : State) : State :=
  st.modify self fun n => { n with Object := object }

def BaseNode.Start (_self : Nat) (_object : Obj) (st : State) : Result := .ok st

def BaseNode.Finish (_self : Nat) (_object : Obj) (st : State) : Result := .ok st

def BaseNode.Run (_self : Nat) (_object : Obj) (st : State) : Result := .ok st

def BaseNode.Running (rec : Call) (self : Nat) (st : State) : Result :=
  notify rec (st.heap self).ControlNode .Running st

def BaseNode.Success (rec : Call) (self : Nat) (st : State) : Result :=
  notify rec (st.heap self).ControlNode .Success st

def BaseNode.Fail (rec : Call) (self : Nat) (st : State) : Result :=
  notify rec (st.heap self).ControlNode .Fail st

/-- Method set of `*BaseNode[T]`. -/
def BaseNode.method (rec : Call) (self : Nat) (op : Op) (st : State) : Result :=
  match op with
  | .Start o => BaseNode.Start self o st
  | .Finish o => BaseNode.Finish self o st
  | .Run o => BaseNode.Run self o st
  | .SetControl c => BaseNode.SetControl self c st
  | .Running => BaseNode.Running rec self st
  | .Success => BaseNode.Success rec self st
  | .Fail => BaseNode.Fail rec self st

/-! ## task.go -/

def NewTask (runFunc : Option StepFn) (st : State) : Ref × State :=
  (⟨st.next, .Task⟩,
   { st with heap := Function.update st.heap st.next { RunFunc := runFunc },
             next := st.next + 1 })

def Task.Run (rec : Call) (self : Nat) (object : Obj) (st : State) : Result :=
  match (st.heap self).RunFunc with
  | none => .ok st
  | some f =>
    let c := (st.heap self).calls
    let st := st.modify self fun n => { n with calls := c + 1 }
    andThen (forEach (f c object) (fun sig => rec ⟨self, .Task⟩ sig.toOp) st) fun st =>
    .ok (st.modify self fun n => { n with RunCalled := true })

/-- Method set of `*Task[T]`: `Run` is its own, the rest is promoted from `BaseNode`. -/
def Task.method (rec : Call) (self : Nat) (op : Op) (st : State) : Result :=
  match op with
  | .Run o => Task.Run rec self o st
  | op => BaseNode.method rec self op st

/-! ## sequence.go -/

def NewSequence (nodes : List (Option Ref)) (st : State) : Ref × State :=
  (⟨st.next, .Sequence⟩,
   { st with heap := Function.update st.heap st.next { Nodes := nodes },
             next := st.next + 1 })

def Sequence.SetControl (self : Nat) (control : Option Ref) (st : State) : Result :=
  .ok (st.modify self fun n => { n with ControlNode := control })

def Sequence.Start (rec : Call) (self : Nat) (object : Obj) (st : State) : Result :=
  let st := st.modify self fun n => { n with Object := object }
  let st := st.modify self fun n => { n with ActualTask := 0 }
  forEach (st.heap self).Nodes (fun node => send rec node (.Start object)) st

def Sequence.Run (rec : Call) (self : Nat) (object : Obj) (st : State) : Result :=
  if ((st.heap self).Nodes.length : Int) ≤ (st.heap self).ActualTask then
    rec ⟨self, .Sequence⟩ .Success st
  else
    match index (st.heap self).Nodes (st.heap self).ActualTask with
    | .error e => .error e
    | .ok currentNode =>
      andThen (send rec currentNode (.SetControl (some ⟨self, .Sequence⟩)) st) fun st =>
      send rec currentNode (.Run object) st

/-- The increment `s.ActualTask++` is taken on integers without a bound (see `NodeObj`). -/
def Sequence.Success (rec : Call) (self : Nat) (st : State) : Result :=
  let st := st.modify self fun n => { n with ActualTask := n.ActualTask + 1 }
  if (st.heap self).ActualTask < ((st.heap self).Nodes.length : Int) then
    rec ⟨self, .Sequence⟩ (.Run (st.heap self).Object) st
  else
    notify rec (st.heap self).ControlNode .Success st

def Sequence.Fail (rec : Call) (self : Nat) (st : State) : Result :=
  notify rec (st.heap self).ControlNode .Fail st

def Sequence.Finish (_self : Nat) (_object : Obj) (st : State) : Result := .ok st

def Sequence.Running (rec : Call) (self : Nat) (st : State) : Result :=
  notify rec (st.heap self).ControlNode .Running st

/-- Method set of `*Sequence[T]`. -/
def Sequence.method (rec : Call) (self : Nat) (op : Op) (st : State) : Result :=
  match op with
  | .Start o => Sequence.Start rec self o st
  | .Finish o => Sequence.Finish self o st
  | .Run o => Sequence.Run rec self o st
  | .SetControl c => Sequence.SetControl self c st
  | .Running => Sequence.Running rec self st
  | .Success => Sequence.Success rec self st
  | .Fail => Sequence.Fail rec self st

/-! ## priority.go -/

def NewPriority (nodes : List (Option Ref)) (st : State) : Ref × State :=
  (⟨st.next, .Priority⟩,
   { st with heap := Function.update st.heap st.next { Nodes := nodes },
             next := st.next + 1 })

def Priority.SetControl (self : Nat) (control : Option Ref) (st : State) : Result :=
  .ok (st.modify self fun n => { n with ControlNode := control })

def Priority.Start (self : Nat) (object : Obj) (st : State) : Result :=
  let st := st.modify self fun n => { n with Object := object }
  .ok (st.modify self fun n => { n with ActualTask := 0 })

def Priority.Run (rec : Call) (self : Nat) (object : Obj) (st : State) : Result :=
  if (st.heap self).ActualTask < ((st.heap self).Nodes.length : Int) then
    match index (st.heap self).Nodes (st.heap self).ActualTask with
    | .error e => .error e
    | .ok currentNode =>
      andThen (send rec currentNode (.SetControl (some ⟨self, .Priority⟩)) st) fun st =>
      andThen (send rec currentNode (.Start object) st) fun st =>
      send rec currentNode (.Run object) st
  else .ok st

def Priority.Success (rec : Call) (self : Nat) (st : State) : Result :=
  notify rec (st.heap self).ControlNode .Success st

/-- The increment `p.ActualTask++` is taken on integers without a bound (see `NodeObj`). -/
def Priority.Fail (rec : Call) (self : Nat) (st : State) : Result :=
  let st := st.modify self fun n => { n with ActualTask := n.ActualTask + 1 }
  if (st.heap self).ActualTask < ((st.heap self).Nodes.length : Int) then
    rec ⟨self, .Priority⟩ (.Run (st.heap self).Object) st
  else
    notify rec (st.heap self).ControlNode .Fail st

def Priority.Finish (_self : Nat) (_object : Obj) (st : State) : Result := .ok st

def Priority.Running (rec : Call) (self : Nat) (st : State) : Result :=
  notify rec (st.heap self).ControlNode .Running st

/-- Method set of `*Priority[T]`. -/
def Priority.method (rec : Call) (self : Nat) (op : Op) (st : State) : Result :=
  match op with
  | .Start o => Priority.Start self o st
  | .Finish o => Priority.Finish self o st
  | .Run o => Priority.Run rec self o st
  | .SetControl c => Priority.SetControl self c st
  | .Running => Priority.Running rec self st
  | .Success => Priority.Success rec self st
  | .Fail => Priority.Fail rec self st

/-! ## branch_node.go -/

def NewBranchNode (nodes : List (Option Ref)) (st : State) : Ref × State :=
  (⟨st.next, .BranchNode⟩,
   { st with heap := Function.update st.heap st.next { Nodes := nodes },
             next := st.next + 1 })

def BranchNode.Start (self : Nat) (object : Obj) (st : State) : Result :=
  if !(st.heap self).NodeRunning then
    let st := BaseNode.setObject self object st
    .ok (st.modify self fun n => { n with ActualTask := 0 })
  else .ok st

/-- Unexported helper `_run`. -/
def BranchNode._run (rec : Call) (self : Nat) (object : Obj) (st : State) : Result :=
  andThen
    (if !(st.heap self).NodeRunning then
      match index (st.heap self).Nodes (st.heap self).ActualTask with
      | .error e => .error e
      | .ok node =>
        let st := st.modify self fun n => { n with Node := node }
        andThen (send rec (st.heap self).Node (.Start object) st) fun st =>
        send rec (st.heap self).Node (.SetControl (some ⟨self, .BranchNode⟩)) st
    else .ok st) fun st =>
  send rec (st.heap self).Node (.Run object) st

def BranchNode.Run (rec : Call) (self : Nat) (object : Obj) (st : State) : Result :=
  if (st.heap self).ActualTask < ((st.heap self).Nodes.length : Int) then
    BranchNode._run rec self object st
  else .ok st

def BranchNode.Running (rec : Call) (self : Nat) (st : State) : Result :=
  let st := st.modify self fun n => { n with NodeRunning := true }
  notify rec (st.heap self).ControlNode .Running st

def BranchNode.Success (rec : Call) (self : Nat) (st : State) : Result :=
  let st := st.modify self fun n => { n with NodeRunning := false }
  andThen (notify rec (st.heap self).Node (.Finish (st.heap self).Object) st) fun st =>
  .ok (st.modify self fun n => { n with Node := none })

def BranchNode.Fail (rec : Call) (self : Nat) (st : State) : Result :=
  let st := st.modify self fun n => { n with NodeRunning := false }
  andThen (notify rec (st.heap self).Node (.Finish (st.heap self).Object) st) fun st =>
  .ok (st.modify self fun n => { n with Node := none })

/-- Method set of `*BranchNode[T]`: `Finish` and `SetControl` are promoted from `BaseNode`. -/
def BranchNode.method (rec : Call) (self : Nat) (op : Op) (st : State) : Result :=
  match op with
  | .Start o => BranchNode.Start self o st
  | .Run o => BranchNode.Run rec self o st
  | .Running => BranchNode.Running rec self st
  | .Success => BranchNode.Success rec self st
  | .Fail => BranchNode.Fail rec self st
  | op => BaseNode.method rec self op st

/-! ## random.go -/

/-- Library call `rand.Intn(n)` for `0 < n`: the next element of the random stream, reduced
into `[0, n)`. -/
def randIntn (n : Nat) (st : State) : Nat × State :=
  (st.rand st.draws % n, { st with draws := st.draws + 1 })

def NewRandom (nodes : List (Option Ref)) (st : State) : Ref × State :=
  (⟨st.next, .Random⟩, (NewBranchNode nodes st).2)

def Random.Start (rec : Call) (self : Nat) (object : Obj) (st : State) : Result :=
  andThen (rec ⟨self, .BranchNode⟩ (.Start object) st) fun st =>
  if 0 < (st.heap self).Nodes.length then
    let (k, st) := randIntn (st.heap self).Nodes.length st
    let st := st.modify self fun n => { n with ActualTask := (k : Int) }
    match index (st.heap self).Nodes (st.heap self).ActualTask with
    | .error e => .error e
    | .ok node => send rec node (.Start object) st
  else .ok st

def Random.Success (rec : Call) (self : Nat) (st : State) : Result :=
  andThen (rec ⟨self, .BaseNode⟩ .Success st) fun st =>
  notify rec (st.heap self).ControlNode .Success st

def Random.Fail (rec : Call) (self : Nat) (st : State) : Result :=
  andThen (rec ⟨self, .BaseNode⟩ .Fail st) fun st =>
  notify rec (st.heap self).ControlNode .Fail st

/-- Method set of `*Random[T]`: what `Random` does not define is promoted from the embedded
`BranchNode`, whose methods run with the embedded `*BranchNode[T]` as receiver. -/
def Random.method (rec : Call) (self : Nat) (op : Op) (st : State) : Result :=
  match op with
  | .Start o => Random.Start rec self o st
  | .Success => Random.Success rec self st
  | .Fail => Random.Fail rec self st
  | op => BranchNode.method rec self op st

/-! ## decorator.go -/

def Decorator.Start (rec : Call) (self : Nat) (object : Obj) (st : State) : Result :=
  send rec (st.heap self).Node (.Start object) st

def Decorator.Finish (rec : Call) (self : Nat) (object : Obj) (st : State) : Result :=
  send rec (st.heap self).Node (.Finish object) st

def Decorator.Run (rec : Call) (self : Nat) (object : Obj) (st : State) : Result :=
  send rec (st.heap self).Node (.Run object) st

/-- Method set of `*Decorator[T]`. -/
def Decorator.method (rec : Call) (self : Nat) (op : Op) (st : State) : Result :=
  match op with
  | .Start o => Decorator.Start rec self o st
  | .Finish o => Decorator.Finish rec self o st
  | .Run o => Decorator.Run rec self o st
  | op => BaseNode.method rec self op st

/-! ## always_succeed_decorator.go -/

def AlwaysSucceedDecorator.Success (rec : Call) (self : Nat) (st : State) : Result :=
  notify rec (st.heap self).ControlNode .Success st

def AlwaysSucceedDecorator.Fail (rec : Call) (self : Nat) (st : State) : Result :=
  notify rec (st.heap self).ControlNode .Success st

def AlwaysSucceedDecorator.method (rec : Call) (self : Nat) (op : Op) (st : State) : Result :=
  match op with
  | .Success => AlwaysSucceedDecorator.Success rec self st
  | .Fail => AlwaysSucceedDecorator.Fail rec self st
  | op => Decorator.method rec self op st

/-! ## always_fail_decorator.go -/

def AlwaysFailDecorator.Success (rec : Call) (self : Nat) (st : State) : Result :=
  notify rec (st.heap self).ControlNode .Fail st

def AlwaysFailDecorator.Fail (rec : Call) (self : Nat) (st : State) : Result :=
  notify rec (st.heap self).ControlNode .Fail st

def AlwaysFailDecorator.method (rec : Call) (self : Nat) (op : Op) (st : State) : Result :=
  match op with
  | .Success => AlwaysFailDecorator.Success rec self st
  | .Fail => AlwaysFailDecorator.Fail rec self st
  | op => Decorator.method rec self op st

/-! ## invert_decorator.go -/

def InvertDecorator.Success (rec : Call) (self : Nat) (st : State) : Result :=
  notify rec (st.heap self).ControlNode .Fail st

def InvertDecorator.Fail (rec : Call) (self : Nat) (st : State) : Result :=
  notify rec (st.heap self).ControlNode .Success st

def InvertDecorator.method (rec : Call) (self : Nat) (op : Op) (st : State) : Result :=
  match op with
  | .Success => InvertDecorator.Success rec self st
  | .Fail => InvertDecorator.Fail rec self st
  | op => Decorator.method rec self op st

/-! ## until_fail_decorator.go -/

def UntilFailDecorator.Start (rec : Call) (self : Nat) (object : Obj) (st : State) : Result :=
  let st := BaseNode.setObject self object st
  let st := st.modify self fun n => { n with NodeRunning := false }
  send rec (st.heap self).Node (.SetControl (some ⟨self, .UntilFailDecorator⟩)) st

def UntilFailDecorator.Run (rec : Call) (self : Nat) (object : Obj) (st : State) : Result :=
  andThen
    (if !(st.heap self).NodeRunning then send rec (st.heap self).Node (.Start object) st
     else .ok st) fun st =>
  send rec (st.heap self).Node (.Run object) st

def UntilFailDecorator.Running (rec : Call) (self : Nat) (st : State) : Result :=
  let st := st.modify self fun n => { n with NodeRunning := true }
  notify rec (st.heap self).ControlNode .Running st

def UntilFailDecorator.Success (rec : Call) (self : Nat) (st : State) : Result :=
  let st := st.modify self fun n => { n with NodeRunning := false }
  andThen (send rec (st.heap self).Node (.Start (st.heap self).Object) st) fun st =>
  send rec (st.heap self).Node (.Run (st.heap self).Object) st

def UntilFailDecorator.Fail (rec : Call) (self : Nat) (st : State) : Result :=
  let st := st.modify self fun n => { n with NodeRunning := false }
  andThen (send rec (st.heap self).Node (.Finish (st.heap self).Object) st) fun st =>
  notify rec (st.heap self).ControlNode .Success st

def UntilFailDecorator.method (rec : Call) (self : Nat) (op : Op) (st : State) : Result :=
  match op with
  | .Start o => UntilFailDecorator.Start rec self o st
  | .Run o => UntilFailDecorator.Run rec self o st
  | .Running => UntilFailDecorator.Running rec self st
  | .Success => UntilFailDecorator.Success rec self st
  | .Fail => UntilFailDecorator.Fail rec self st
  | op => Decorator.method rec self op st

/-! ## behaviortree.go -/

def NewBehaviorTree (rootNode : Option Ref) (st : State) : Ref × State :=
  (⟨st.next, .BehaviorTree⟩,
   { st with heap := Function.update st.heap st.next { RootNode := rootNode },
             next := st.next + 1 })

def BehaviorTree.SetControl (self : Nat) (control : Option Ref) (st : State) : Result :=
  .ok (st.modify self fun n => { n with ControlNode := control })

def BehaviorTree.SetObject (self : Nat) (object : Obj) (st : State) : State :=
  st.modify self fun n => { n with Object := object }

def BehaviorTree.Start (_self : Nat) (_object : Obj) (st : State) : Result := .ok st

def BehaviorTree.Finish (_self : Nat) (_object : Obj) (st : State) : Result := .ok st

def BehaviorTree.Run (rec : Call) (self : Nat) (object : Obj) (st : State) : Result :=
  let st := st.modify self fun n => { n with Object := object }
  andThen (send rec (st.heap self).RootNode (.SetControl (some ⟨self, .BehaviorTree⟩)) st) fun st =>
  andThen (send rec (st.heap self).RootNode (.Start (st.heap self).Object) st) fun st =>
  send rec (st.heap self).RootNode (.Run (st.heap self).Object) st

def BehaviorTree.Running (rec : Call) (self : Nat) (st : State) : Result :=
  andThen (notify rec (st.heap self).ControlNode .Running st) fun st =>
  .ok (st.modify self fun n => { n with Started := true })

def BehaviorTree.Success (rec : Call) (self : Nat) (st : State) : Result :=
  andThen (send rec (st.heap self).RootNode (.Finish (st.heap self).Object) st) fun st =>
  let st := st.modify self fun n => { n with Started := false }
  notify rec (st.heap self).ControlNode .Success st

def BehaviorTree.Fail (rec : Call) (self : Nat) (st : State) : Result :=
  andThen (send rec (st.heap self).RootNode (.Finish (st.heap self).Object) st) fun st =>
  let st := st.modify self fun n => { n with Started := false }
  notify rec (st.heap self).ControlNode .Fail st

/-- Method set of `*BehaviorTree[T]`. -/
def BehaviorTree.method (rec : Call) (self : Nat) (op : Op) (st : State) : Result :=
  match op with
  | .Start o => BehaviorTree.Start self o st
  | .Finish o => BehaviorTree.Finish self o st
  | .Run o => BehaviorTree.Run rec self o st
  | .SetControl c => BehaviorTree.SetControl self c st
  | .Running => BehaviorTree.Running rec self st
  | .Success => BehaviorTree.Success rec self st
  | .Fail => BehaviorTree.Fail rec self st

/-! ## Dispatch and the interpreter -/

/-- Method lookup by the dynamic type of the receiver. -/
def dispatch (rec : Call) (r : Ref) (op : Op) (st : State) : Result :=
  match r.view with
  | .BaseNode => BaseNode.method rec r.id op st
  | .Task => Task.method rec r.id op st
  | .Sequence => Sequence.method rec r.id op st
  | .Priority => Priority.method rec r.id op st
  | .BranchNode => BranchNode.method rec r.id op st
  | .Random => Random.method rec r.id op st
  | .Decorator => Decorator.method rec r.id op st
  | .AlwaysSucceedDecorator => AlwaysSucceedDecorator.method rec r.id op st
  | .AlwaysFailDecorator => AlwaysFailDecorator.method rec r.id op st
  | .InvertDecorator => InvertDecorator.method rec r.id op st
  | .UntilFailDecorator => UntilFailDecorator.method rec r.id op st
  | .BehaviorTree => BehaviorTree.method rec r.id op st

/-- One method invocation: record it, then run the method body, nested calls going to `rec`. -/
def step (rec : Call) (r : Ref) (op : Op) (st : State) : Result :=
  dispatch rec r op (st.log ⟨r, op⟩)

/-- Interpreter with a bound on the depth of the call stack. -/
def invoke : Nat → Call
  | 0 => fun _ _ _ => .error .fuel
  | fuel + 1 => step (invoke fuel)

/-! ## Constructors that call into the child -/

def NewDecorator (node : Option Ref) (st : State) : Ref × State :=
  (⟨st.next, .Decorator⟩,
   { st with heap := Function.update st.heap st.next { Node := node },
             next := st.next + 1 })

/-- Allocation shared by the four decorator constructors: a zero-valued struct whose `Node`
is then assigned, followed by `decorator.Node.SetControl(decorator)`. -/
def newDecorated (view : Kind) (node : Option Ref) (st : State) : Except Err (Ref × State) :=
  let self : Ref := ⟨st.next, view⟩
  let st := { st with heap := Function.update st.heap st.next { Node := node },
                      next := st.next + 1 }
  match send (invoke 1) (st.heap self.id).Node (.SetControl (some self)) st with
  | .ok st => .ok (self, st)
  | .error e => .error e

def NewAlwaysSucceedDecorator (node : Option Ref) (st : State) : Except Err (Ref × State) :=
  newDecorated .AlwaysSucceedDecorator node st

def NewAlwaysFailDecorator (node : Option Ref) (st : State) : Except Err (Ref × State) :=
  newDecorated .AlwaysFailDecorator node st

def NewInvertDecorator (node : Option Ref) (st : State) : Except Err (Ref × State) :=
  newDecorated .InvertDecorator node st

def NewUntilFailDecorator (node : Option Ref) (st : State) : Except Err (Ref × State) :=
  newDecorated .UntilFailDecorator node st

/-! ## Vocabulary of the specifications -/

/-- Signals issued by the step function of the task at `a` on its next `Run`
(none when the task has no step function). -/
def childSignals (st : State) (a : Nat) (o : Obj) : List Signal :=
  match (st.heap a).RunFunc with
  | none => []
  | some f => f (st.heap a).calls o

/-- Interface value of the task at an address (second component: its verdict, unused here). -/
def taskRef (p : Nat × Signal) : Option Ref := some ⟨p.1, .Task⟩

/-- `Start(o)` followed by `Run(o)` on the same node. -/
def startRun (fuel : Nat) (r : Ref) (o : Obj) (st : State) : Result :=
  andThen (invoke fuel r (.Start o) st) (invoke fuel r (.Run o))

/-- Operations received, in order, by the object at address `k`. -/
def eventsAt (E : List Event) (k : Nat) : List Op :=
  (E.filter fun e => e.target.id = k).map fun e => e.op

/-- Number of times the object at address `k` received operation `op`. -/
def received (E : List Event) (k : Nat) (op : Op) : Nat :=
  (eventsAt E k).count op

/-- Addresses, in order, of the objects other than `s` on which `Run` was invoked. -/
def runOrder (s : Nat) (E : List Event) : List Nat :=
  E.filterMap fun e =>
    match e.op with
    | .Run _ => if e.target.id = s then none else some e.target.id
    | _ => none

/-- Addresses among `cs`, in order, on which `Run` was invoked. -/
def runsAmong (cs : List Nat) (E : List Event) : List Nat :=
  E.filterMap fun e =>
    match e.op with
    | .Run _ => if e.target.id ∈ cs then some e.target.id else none
    | _ => none

/-- Addresses, in order, of the objects other than `s` on which `Start` was invoked. -/
def startOrder (s : Nat) (E : List Event) : List Nat :=
  E.filterMap fun e =>
    match e.op with
    | .Start _ => if e.target.id = s then none else some e.target.id
    | _ => none

/-- Addresses, in order, of the objects other than `s` on which `Start` or `Run` was invoked,
each with `true` for `Run` and `false` for `Start`. -/
def lifecycle (s : Nat) (E : List Event) : List (Nat × Bool) :=
  E.filterMap fun e =>
    match e.op with
    | .Start _ => if e.target.id = s then none else some (e.target.id, false)
    | .Run _ => if e.target.id = s then none else some (e.target.id, true)
    | _ => none

/-- Number of leading children whose verdict is `c`. -/
def leading (c : Signal) : List (Nat × Signal) → Nat
  | [] => 0
  | p :: rest => if p.2 = c then leading c rest + 1 else 0

/-- Verdict of a chain of children that continues on `c`: the first verdict other than `c`,
or `c` when there is none. -/
def outcome (c : Signal) : List (Nat × Signal) → Signal
  | [] => c
  | p :: rest => if p.2 = c then outcome c rest else p.2

/-- A composite at address `s` whose children are tasks: `ch` lists, for each child, its
address and the one verdict its step function signals on its next `Run` with object `o`.
The composite's control is a `BaseNode` at address `k` that has no control of its own. -/
structure TaskChildren (st : State) (s k : Nat) (ch : List (Nat × Signal)) (o : Obj) : Prop where
  nodes : (st.heap s).Nodes = ch.map taskRef
  control : (st.heap s).ControlNode = some ⟨k, .BaseNode⟩
  sink : (st.heap k).ControlNode = none
  verdict : ∀ p ∈ ch, childSignals st p.1 o = [p.2]
  apart : ∀ p ∈ ch, p.1 ≠ s ∧ p.1 ≠ k
  distinct : (ch.map Prod.fst).Nodup
  sk : s ≠ k

/-- Events of `Sequence.Run` over the remaining children, given the verdict of each. -/
def seqTrace (s k : Nat) (o : Obj) : List (Nat × Signal) → List Event
  | [] => []
  | p :: rest =>
    [⟨⟨s, .Sequence⟩, .Run o⟩, ⟨⟨p.1, .Task⟩, .SetControl (some ⟨s, .Sequence⟩)⟩,
     ⟨⟨p.1, .Task⟩, .Run o⟩, ⟨⟨p.1, .Task⟩, p.2.toOp⟩, ⟨⟨s, .Sequence⟩, p.2.toOp⟩] ++
    if p.2 = .Success ∧ rest ≠ [] then seqTrace s k o rest else [⟨⟨k, .BaseNode⟩, p.2.toOp⟩]

/-- Events of `Priority.Run` over the remaining children, given the verdict of each. -/
def prioTrace (s k : Nat) (o : Obj) : List (Nat × Signal) → List Event
  | [] => []
  | p :: rest =>
    [⟨⟨s, .Priority⟩, .Run o⟩, ⟨⟨p.1, .Task⟩, .SetControl (some ⟨s, .Priority⟩)⟩,
     ⟨⟨p.1, .Task⟩, .Start o⟩, ⟨⟨p.1, .Task⟩, .Run o⟩, ⟨⟨p.1, .Task⟩, p.2.toOp⟩,
     ⟨⟨s, .Priority⟩, p.2.toOp⟩] ++
    if p.2 = .Fail ∧ rest ≠ [] then prioTrace s k o rest else [⟨⟨k, .BaseNode⟩, p.2.toOp⟩]

/-- Verdict that a decorator of the given type reports upward when its child reports `v`
(for the three decorators that only translate verdicts; `Running` is never translated). -/
def verdictMap : Kind → Signal → Signal
  | .AlwaysSucceedDecorator, .Fail => .Success
  | .AlwaysFailDecorator, .Success => .Fail
  | .InvertDecorator, .Success => .Fail
  | .InvertDecorator, .Fail => .Success
  | _, v => v

/-- The three decorator types that only translate verdicts. -/
def Kind.isTranslator : Kind → Bool
  | .AlwaysSucceedDecorator => true
  | .AlwaysFailDecorator => true
  | .InvertDecorator => true
  | _ => false

/-- Result `r'` is at least as defined as `r`: when `r` returns a state, `r'` returns it. -/
def Below (r r' : Result) : Prop := ∀ st, r = .ok st → r' = .ok st

/-- Pointwise order on interpreters. -/
def CallBelow (f g : Call) : Prop := ∀ r op st, Below (f r op st) (g r op st)

/-! ## Trees and their layout on the heap -/

mutual
/-- Shape of a behavior tree made of tasks, sequences, priorities and decorators. -/
inductive Tree
  | task (f : StepFn)
  | seq (cs : Forest)
  | prio (cs : Forest)
  | deco (view : Kind) (c : Tree)
/-- Ordered children of a composite. -/
inductive Forest
  | nil
  | cons (t : Tree) (rest : Forest)
end

mutual
/-- Number of proper descendants of the root. -/
def Tree.span : Tree → Nat
  | .task _ => 0
  | .seq cs => cs.size
  | .prio cs => cs.size
  | .deco _ c => c.span + 1
/-- Number of nodes of a forest. -/
def Forest.size : Forest → Nat
  | .nil => 0
  | .cons t rest => (t.span + 1) + rest.size
end

/-- Number of nodes of a tree. -/
def Tree.size (t : Tree) : Nat := t.span + 1

/-- Go type of the root node. -/
def Tree.kind : Tree → Kind
  | .task _ => .Task
  | .seq _ => .Sequence
  | .prio _ => .Priority
  | .deco view _ => view

/-- A tree placed at base address `n` occupies the addresses `n .. n + span`, children first
and the root last (the order in which a tree is constructed bottom-up); this is the interface
value of its root. -/
def Tree.rootRef (t : Tree) (n : Nat) : Ref := ⟨n + t.span, t.kind⟩

/-- Interface values of the roots of a forest placed at base address `n`. -/
def Forest.refs : Forest → Nat → List (Option Ref)
  | .nil, _ => []
  | .cons t rest, n => some (t.rootRef n) :: rest.refs (n + t.size)

mutual
/-- Conditions on the parts of a tree: every step function signals exactly one verdict on
every invocation, every `Priority` has at least one child, every decorator is one of
`AlwaysSucceed`, `AlwaysFail`, `Invert`. -/
def Tree.WF : Tree → Prop
  | .task f => ∀ c o, ∃ v : Signal, f c o = [v]
  | .seq cs => cs.WF
  | .prio cs => cs ≠ .nil ∧ cs.WF
  | .deco view c => view.isTranslator = true ∧ c.WF
/-- Every tree of the forest satisfies `Tree.WF`. -/
def Forest.WF : Forest → Prop
  | .nil => True
  | .cons t rest => t.WF ∧ rest.WF
end

mutual
/-- The heap holds tree `t` at base address `n`: the fields that the constructors set (step
functions, child lists, decorated child and the control of a decorated child, which its
decorator's constructor sets and nothing changes) have the values the tree prescribes.
Nothing is required of the cursor, the stored object or the flags. -/
def Tree.Laid : Tree → Nat → State → Prop
  | .task f, n, st => (st.heap n).RunFunc = some f
  | .seq cs, n, st => cs.Laid n st ∧ (st.heap (n + cs.size)).Nodes = cs.refs n
  | .prio cs, n, st => cs.Laid n st ∧ (st.heap (n + cs.size)).Nodes = cs.refs n
  | .deco view c, n, st =>
    c.Laid n st ∧ (st.heap (n + c.size)).Node = some (c.rootRef n) ∧
      (st.heap (n + c.span)).ControlNode = some ⟨n + c.size, view⟩
/-- The heap holds the trees of a forest one after the other from base address `n`. -/
def Forest.Laid : Forest → Nat → State → Prop
  | .nil, _, _ => True
  | .cons t rest, n, st => t.Laid n st ∧ rest.Laid (n + t.size) st
end

mutual
/-- State of a tree after `Start` and before `Run`: the cursor of every `Sequence` and
`Priority` that `Start` reaches is at the first child.  (`Priority.Start` does not start the
children; `Priority.Run` starts a child right before running it.) -/
def Tree.Ready : Tree → Nat → State → Prop
  | .task _, _, _ => True
  | .seq cs, n, st => (st.heap (n + cs.size)).ActualTask = 0 ∧ cs.Ready n st
  | .prio cs, n, st => (st.heap (n + cs.size)).ActualTask = 0
  | .deco _ c, n, st => c.Ready n st
/-- Every tree of the forest is `Ready`. -/
def Forest.Ready : Forest → Nat → State → Prop
  | .nil, _, _ => True
  | .cons t rest, n, st => t.Ready n st ∧ rest.Ready (n + t.size) st
end

/-- The trace of `st1` extends that of `st` by calls on objects at addresses in `[lo, hi)`. -/
def TraceIn (lo hi : Nat) (st st1 : State) : Prop :=
  ∃ E, st1.trace = st.trace ++ E ∧ ∀ e ∈ E, lo ≤ e.target.id ∧ e.target.id < hi

/-- The heaps of `st` and `st1` agree outside the addresses `[lo, hi)`. -/
def HeapOut (lo hi : Nat) (st st1 : State) : Prop :=
  ∀ x, (x < lo ∨ hi ≤ x) → st1.heap x = st.heap x

/-- Two objects with the same links and behaviour: the fields that describe the shape of
the tree (control, children, decorated child, root, step function) are equal; the cursor,
the stored object, the flags and the call count may differ. -/
structure SameLayout (a b : NodeObj) : Prop where
  ControlNode : a.ControlNode = b.ControlNode
  Nodes : a.Nodes = b.Nodes
  Node : a.Node = b.Node
  RunFunc : a.RunFunc = b.RunFunc
  RootNode : a.RootNode = b.RootNode

/-- State `st1` has the trace of `st` and, at every address, the same layout. -/
def Settled (st st1 : State) : Prop :=
  st1.trace = st.trace ∧ ∀ x, SameLayout (st1.heap x) (st.heap x)

/-- `Run(o)` on node `r` in state `st` reports verdict `v` to the control `c`, once, in state
`st1`: whatever state `st2` the control's handler returns from `st1`, `Run` returns a state
that is `Settled` with respect to `st2` (the same trace: nothing more is called), using `d`
more levels of stack than the handler. -/
def Reports (r : Ref) (o : Obj) (st : State) (c : Ref) (v : Signal) (st1 : State) (d : Nat) :
    Prop :=
  ∀ G st2, invoke G c v.toOp st1 = .ok st2 →
    ∃ st3, (∀ fuel, G + d ≤ fuel → invoke fuel r (.Run o) st = .ok st3) ∧ Settled st2 st3

/-- `Run(o)` on node `r`, whose control is `c`, reports exactly one verdict: up to the moment
of the report only objects at addresses in `[lo, hi)` are called or changed, the state `st1`
in which the verdict is reported satisfies `P`, and `r` still has control `c`. -/
def RunsOk (r : Ref) (lo hi : Nat) (o : Obj) (st : State) (c : Ref) (P : State → Prop) : Prop :=
  ∃ v st1 d, Reports r o st c v st1 d ∧ P st1 ∧ HeapOut lo hi st st1 ∧ TraceIn lo hi st st1 ∧
    (st1.heap r.id).ControlNode = some c

/-- A `BehaviorTree` driver at address `b` whose root is the tree `t` laid out from base
address `n`, with an external control at address `k`: a `BaseNode` without a control of its
own.  The driver and the external control are not nodes of the tree. -/
structure DriverOver (st : State) (t : Tree) (n b k : Nat) : Prop where
  laid : t.Laid n st
  root : (st.heap b).RootNode = some (t.rootRef n)
  control : (st.heap b).ControlNode = some ⟨k, .BaseNode⟩
  sink : (st.heap k).ControlNode = none
  driverOut : b < n ∨ n + t.size ≤ b
  controlOut : k < n ∨ n + t.size ≤ k
  apart : b ≠ k

/-! ## Concrete worlds -/

/-- Composite literal `&BaseNode[T]{}`. -/
def NewBaseNode (st : State) : Ref × State :=
  (⟨st.next, .BaseNode⟩,
   { st with heap := Function.update st.heap st.next {}, next := st.next + 1 })

/-- One `NewTask` per verdict, each with a step function that signals that verdict. -/
def newTasks : List Signal → State → List (Option Ref) × State
  | [], st => ([], st)
  | v :: vs, st =>
    let t := NewTask (some fun _ _ => [v]) st
    let r := newTasks vs t.2
    (some t.1 :: r.1, r.2)

/-- A control (address `0`), one task per verdict (addresses `1 .. n`) and a `Sequence` over
them (address `n + 1`) whose control is set. -/
def sequenceWorld (vs : List Signal) : State :=
  let c := NewBaseNode (State.init fun _ => 0)
  let ts := newTasks vs c.2
  let s := NewSequence ts.1 ts.2
  s.2.modify s.1.id fun n => { n with ControlNode := some c.1 }

/-- As `sequenceWorld`, with a `Priority` in place of the `Sequence`. -/
def priorityWorld (vs : List Signal) : State :=
  let c := NewBaseNode (State.init fun _ => 0)
  let ts := newTasks vs c.2
  let s := NewPriority ts.1 ts.2
  s.2.modify s.1.id fun n => { n with ControlNode := some c.1 }

/-- A control (address `0`), a task signalling `v` (address `1`) and a decorator of the given
type around it (address `2`), built by the decorator's constructor, with its control set. -/
def decoratorWorld (view : Kind) (v : Signal) : State :=
  let c := NewBaseNode (State.init fun _ => 0)
  let t := NewTask (some fun _ _ => [v]) c.2
  match newDecorated view (some t.1) t.2 with
  | .ok d => d.2.modify d.1.id fun n => { n with ControlNode := some c.1 }
  | .error _ => t.2

/-- Step function that signals `Success` on its first `k` invocations and `Fail` afterwards. -/
def succeedsThenFails (k : Nat) : StepFn := fun c _ => if c < k then [.Success] else [.Fail]

/-- A control (address `0`), a task with step function `f` (address `1`) and an
`UntilFailDecorator` around it (address `2`), built by `NewUntilFailDecorator`, with its
control set. -/
def untilFailWorld (f : StepFn) : State :=
  let c := NewBaseNode (State.init fun _ => 0)
  let t := NewTask (some f) c.2
  match NewUntilFailDecorator (some t.1) t.2 with
  | .ok d => d.2.modify d.1.id fun n => { n with ControlNode := some c.1 }
  | .error _ => t.2

/-- Events of an `UntilFailDecorator` at `d` cycling its child task at `a`, from the child's
`Run` on, when the child succeeds `n` more times and then fails; `k` is the control. -/
def cycleTrace (d a k : Nat) (o : Obj) : Nat → List Event
  | 0 =>
    [⟨⟨a, .Task⟩, .Run o⟩, ⟨⟨a, .Task⟩, .Fail⟩, ⟨⟨d, .UntilFailDecorator⟩, .Fail⟩,
     ⟨⟨a, .Task⟩, .Finish o⟩, ⟨⟨k, .BaseNode⟩, .Success⟩]
  | n + 1 =>
    [⟨⟨a, .Task⟩, .Run o⟩, ⟨⟨a, .Task⟩, .Success⟩, ⟨⟨d, .UntilFailDecorator⟩, .Success⟩,
     ⟨⟨a, .Task⟩, .Start o⟩] ++ cycleTrace d a k o n

/-- A control (address `0`), a task signalling `v` (address `1`) and two nested
`InvertDecorator`s around it (inner at address `2`, outer at address `3`), built by
`NewInvertDecorator(NewInvertDecorator(child))`, the outer one with its control set. -/
def doubleInvertWorld (v : Signal) : State :=
  let c := NewBaseNode (State.init fun _ => 0)
  let t := NewTask (some fun _ _ => [v]) c.2
  match NewInvertDecorator (some t.1) t.2 with
  | .ok d1 =>
    match NewInvertDecorator (some d1.1) d1.2 with
    | .ok d2 => d2.2.modify d2.1.id fun n => { n with ControlNode := some c.1 }
    | .error _ => d1.2
  | .error _ => t.2

/-- A control (address `0`), one task per verdict (addresses `1 .. n`), a `Sequence` over them
(address `n + 1`) and a `BehaviorTree` with that root (address `n + 2`) whose control is set. -/
def driverSequenceWorld (vs : List Signal) : State :=
  let c := NewBaseNode (State.init fun _ => 0)
  let ts := newTasks vs c.2
  let s := NewSequence ts.1 ts.2
  let b := NewBehaviorTree (some s.1) s.2
  b.2.modify b.1.id fun n => { n with ControlNode := some c.1 }

/-- Observation of the state a call returns (`none` when it does not return normally). -/
def observe {α : Type} (r : Result) (f : State → α) : Option α :=
  match r with
  | .ok st => some (f st)
  | .error _ => none

/-- External ticks: `n` consecutive calls of `Run(o)` on the same node. -/
def ticks (fuel : Nat) (r : Ref) (o : Obj) : Nat → State → Result
  | 0, st => .ok st
  | n + 1, st => andThen (invoke fuel r (.Run o) st) (ticks fuel r o n)

mutual
/-- Construction of a tree bottom-up with the constructors of the package: children first,
then the node itself. -/
def Tree.build : Tree → State → Except Err (Ref × State)
  | .task f, st => .ok (NewTask (some f) st)
  | .seq cs, st =>
    match cs.build st with
    | .ok p => .ok (NewSequence p.1 p.2)
    | .error e => .error e
  | .prio cs, st =>
    match cs.build st with
    | .ok p => .ok (NewPriority p.1 p.2)
    | .error e => .error e
  | .deco view c, st =>
    match c.build st with
    | .ok p => newDecorated view (some p.1) p.2
    | .error e => .error e
/-- Construction of the children of a composite, in order. -/
def Forest.build : Forest → State → Except Err (List (Option Ref) × State)
  | .nil, st => .ok ([], st)
  | .cons t rest, st =>
    match t.build st with
    | .ok p =>
      match rest.build p.2 with
      | .ok q => .ok (some p.1 :: q.1, q.2)
      | .error e => .error e
    | .error e => .error e
end

/-- An external control (address `0`), a tree built from address `1` on, and a driver over
it with its control set. -/
def driverWorld (t : Tree) : State :=
  let c := NewBaseNode (State.init fun _ => 0)
  match t.build c.2 with
  | .ok p =>
    let b := NewBehaviorTree (some p.1) p.2
    b.2.modify b.1.id fun n => { n with ControlNode := some c.1 }
  | .error _ => c.2

/-- Step function that signals the same verdict on every invocation. -/
def always (v : Signal) : StepFn := fun _ _ => [v]

/-- The tree `Sequence[Task(Success), Priority[Task(Fail), Invert(Task(Success))],
AlwaysSucceed(Task(Fail))]`. -/
def demoTree : Tree :=
  .seq (.cons (.task (always .Success))
    (.cons (.prio (.cons (.task (always .Fail))
      (.cons (.deco .InvertDecorator (.task (always .Success))) .nil)))
    (.cons (.deco .AlwaysSucceedDecorator (.task (always .Fail))) .nil)))

/-- Calls made one after the other on the same node. -/
def callAll (fuel : Nat) (r : Ref) (ops : List Op) (st : State) : Result :=
  forEach ops (fun op => invoke fuel r op) st

/-- `Start` and `Run` are the two operations a parent invokes to tick a node. -/
def Op.isTick : Op → Bool
  | .Start _ => true
  | .Run _ => true
  | _ => false

/-- A control (address `0`), one task per verdict (addresses `1 .. n`) and a `Random` over
them (address `n + 1`) whose control is set; `rand` is the random stream. -/
def randomWorld (rand : Nat → Nat) (vs : List Signal) : State :=
  let c := NewBaseNode (State.init rand)
  let ts := newTasks vs c.2
  let s := NewRandom ts.1 ts.2
  s.2.modify s.1.id fun n => { n with ControlNode := some c.1 }

/-- As `randomWorld`, with a `BranchNode` in place of the `Random`. -/
def branchWorld (vs : List Signal) : State :=
  let c := NewBaseNode (State.init fun _ => 0)
  let ts := newTasks vs c.2
  let s := NewBranchNode ts.1 ts.2
  s.2.modify s.1.id fun n => { n with ControlNode := some c.1 }

/-- A control (address `0`) and a task with step function `f` (address `1`) whose control is
set. -/
def taskWorld (f : Option StepFn) : State :=
  let c := NewBaseNode (State.init fun _ => 0)
  let t := NewTask f c.2
  t.2.modify t.1.id fun n => { n with ControlNode := some c.1 }

/-- Interface value of a child of a composite that is either a task (at address `p.1`) or, when
`wrap p.1 = some b`, a `BehaviorTree` at address `b` whose root is that task. -/
def nestRef (wrap : Nat → Option Nat) (p : Nat × Signal) : Option Ref :=
  match wrap p.1 with
  | none => some ⟨p.1, .Task⟩
  | some b => some ⟨b, .BehaviorTree⟩

/-- Events of `Sequence.Run` over the remaining children, each a task or a driver over a task
(see `nestRef`), given the verdict of each task. -/
def nestTrace (wrap : Nat → Option Nat) (s k : Nat) (o : Obj) : List (Nat × Signal) → List Event
  | [] => []
  | p :: rest =>
    (match wrap p.1 with
      | none =>
        [⟨⟨s, .Sequence⟩, .Run o⟩, ⟨⟨p.1, .Task⟩, .SetControl (some ⟨s, .Sequence⟩)⟩,
         ⟨⟨p.1, .Task⟩, .Run o⟩, ⟨⟨p.1, .Task⟩, p.2.toOp⟩, ⟨⟨s, .Sequence⟩, p.2.toOp⟩]
      | some b =>
        [⟨⟨s, .Sequence⟩, .Run o⟩, ⟨⟨b, .BehaviorTree⟩, .SetControl (some ⟨s, .Sequence⟩)⟩,
         ⟨⟨b, .BehaviorTree⟩, .Run o⟩,
         ⟨⟨p.1, .Task⟩, .SetControl (some ⟨b, .BehaviorTree⟩)⟩, ⟨⟨p.1, .Task⟩, .Start o⟩,
         ⟨⟨p.1, .Task⟩, .Run o⟩, ⟨⟨p.1, .Task⟩, p.2.toOp⟩, ⟨⟨b, .BehaviorTree⟩, p.2.toOp⟩] ++
        (if p.2 = .Running then [] else [⟨⟨p.1, .Task⟩, .Finish o⟩]) ++
        [⟨⟨s, .Sequence⟩, p.2.toOp⟩]) ++
    if p.2 = .Success ∧ rest ≠ [] then nestTrace wrap s k o rest else [⟨⟨k, .BaseNode⟩, p.2.toOp⟩]

/-- As `TaskChildren`, for a `Sequence` whose children are tasks or drivers over tasks: child
`p` of `ch` is the task at `p.1`, or the `BehaviorTree` at `b` with that task as its root when
`wrap p.1 = some b`.  Drivers are objects of their own, one per wrapped task. -/
structure NestChildren (wrap : Nat → Option Nat) (st : State) (s k : Nat)
    (ch : List (Nat × Signal)) (o : Obj) : Prop where
  nodes : (st.heap s).Nodes = ch.map (nestRef wrap)
  control : (st.heap s).ControlNode = some ⟨k, .BaseNode⟩
  sink : (st.heap k).ControlNode = none
  verdict : ∀ p ∈ ch, childSignals st p.1 o = [p.2]
  apart : ∀ p ∈ ch, p.1 ≠ s ∧ p.1 ≠ k
  distinct : (ch.map Prod.fst).Nodup
  sk : s ≠ k
  driver : ∀ p ∈ ch, ∀ b, wrap p.1 = some b →
    b ≠ s ∧ b ≠ k ∧ (st.heap b).RootNode = some ⟨p.1, .Task⟩ ∧ (∀ q ∈ ch, q.1 ≠ b) ∧
      ∀ q ∈ ch, q.1 ≠ p.1 → wrap q.1 ≠ some b

/-- A control (address `0`), a task signalling `v1` (address `1`), a task signalling `v2`
(address `2`), a `BehaviorTree` whose root is the second task (address `3`) and a `Sequence`
over the first task and that driver (address `4`) whose control is set. -/
def nestedWorld (v1 v2 : Signal) : State :=
  let c := NewBaseNode (State.init fun _ => 0)
  let t1 := NewTask (some fun _ _ => [v1]) c.2
  let t2 := NewTask (some fun _ _ => [v2]) t1.2
  let b := NewBehaviorTree (some t2.1) t2.2
  let s := NewSequence [some t1.1, some b.1] b.2
  s.2.modify s.1.id fun n => { n with ControlNode := some c.1 }

/-! ## Trees whose tick is a function of the tree -/

/-- Verdict handed to the node `c` by the interpreter `rec`, if there is one. -/
def deliver (rec : Call) (c : Ref) (v : Option Signal) (st : State) : Result :=
  match v with
  | some v => rec c v.toOp st
  | none => .ok st

/-- Report of a verdict to the node `r` as a list of calls: one call, or none. -/
def reportTo (r : Ref) : Option Signal → List Event
  | some v => [⟨r, v.toOp⟩]
  | none => []

mutual
/-- Verdict that `Run(o)` on a started tree reports to its control, computed from the step
functions, or `none` when `Run` returns without a report.  A `Priority` without children
reports nothing (`Priority.Run` does nothing when the cursor is not below `len(Nodes)`), and a
node whose child reports nothing reports nothing.  An `UntilFailDecorator` reports `Success`
when its child reports `Fail`; no verdict is given for it when its child reports `Success`
(the decorator restarts the child). -/
def Tree.verdict : Tree → Obj → Option Signal
  | .task f, o => (f 0 o).head?
  | .seq cs, o => cs.seqVerdict o
  | .prio cs, o => cs.prioVerdict o true
  | .deco view c, o =>
    if view = .UntilFailDecorator then
      match c.verdict o with
      | some .Fail => some .Success
      | some .Running => some .Running
      | _ => none
    else (c.verdict o).map (verdictMap view)
/-- Verdict of a `Sequence` over the remaining children: the first verdict other than
`Success`, and `Success` when there is no child left. -/
def Forest.seqVerdict : Forest → Obj → Option Signal
  | .nil, _ => some .Success
  | .cons t rest, o => if t.verdict o = some .Success then rest.seqVerdict o else t.verdict o
/-- Verdict of a `Priority` over the remaining children: the first verdict other than `Fail`;
when there is no child left, `Fail` after the failure of the last child and nothing for the
`Run` that enters a `Priority` without children (`first`). -/
def Forest.prioVerdict : Forest → Obj → Bool → Option Signal
  | .nil, _, first => if first then none else some .Fail
  | .cons t rest, o, _ =>
    if t.verdict o = some .Fail then rest.prioVerdict o false else t.verdict o
end

mutual
/-- Conditions on the parts of a tree for the object `o`: every step function signals, on
every invocation with `o`, the same single verdict, `Success` or `Fail`; every decorator is
one of `AlwaysSucceed`, `AlwaysFail`, `Invert`, `UntilFail`. -/
def Tree.Shaped (o : Obj) : Tree → Prop
  | .task f => ∃ v : Signal, v ≠ .Running ∧ ∀ c, f c o = [v]
  | .seq cs => cs.Shaped o
  | .prio cs => cs.Shaped o
  | .deco view c => (view.isTranslator = true ∨ view = .UntilFailDecorator) ∧ c.Shaped o
/-- Every tree of the forest satisfies `Tree.Shaped`. -/
def Forest.Shaped (o : Obj) : Forest → Prop
  | .nil => True
  | .cons t rest => t.Shaped o ∧ rest.Shaped o
end

mutual
/-- No `UntilFailDecorator` that `Run(o)` on the tree reaches has a child that reports
`Success` for `o`.  A decorator reaches its child; a `Sequence` reaches a child when every
child before it reports `Success`, a `Priority` when every child before it reports `Fail`. -/
def Tree.Halts (o : Obj) : Tree → Prop
  | .task _ => True
  | .seq cs => cs.seqHalts o
  | .prio cs => cs.prioHalts o
  | .deco view c => c.Halts o ∧ (view = .UntilFailDecorator → c.verdict o ≠ some .Success)
/-- The children that a `Sequence` over the forest reaches satisfy `Tree.Halts`. -/
def Forest.seqHalts (o : Obj) : Forest → Prop
  | .nil => True
  | .cons t rest => t.Halts o ∧ (t.verdict o = some .Success → rest.seqHalts o)
/-- The children that a `Priority` over the forest reaches satisfy `Tree.Halts`. -/
def Forest.prioHalts (o : Obj) : Forest → Prop
  | .nil => True
  | .cons t rest => t.Halts o ∧ (t.verdict o = some .Fail → rest.prioHalts o)
end

mutual
/-- Calls made by `Start(o)` on a tree laid out from base address `n`.  `Priority.Start` calls
no child; `UntilFailDecorator.Start` calls `SetControl` on its child and does not start it. -/
def Tree.startEvents : Tree → Nat → Obj → List Event
  | .task _, n, o => [⟨⟨n, .Task⟩, .Start o⟩]
  | .seq cs, n, o => ⟨⟨n + cs.size, .Sequence⟩, .Start o⟩ :: cs.startEvents n o
  | .prio cs, n, o => [⟨⟨n + cs.size, .Priority⟩, .Start o⟩]
  | .deco view c, n, o =>
    if view = .UntilFailDecorator then
      [⟨⟨n + c.size, view⟩, .Start o⟩, ⟨c.rootRef n, .SetControl (some ⟨n + c.size, view⟩)⟩]
    else ⟨⟨n + c.size, view⟩, .Start o⟩ :: c.startEvents n o
/-- Calls made by `Start(o)` on each tree of a forest in turn. -/
def Forest.startEvents : Forest → Nat → Obj → List Event
  | .nil, _, _ => []
  | .cons t rest, n, o => t.startEvents n o ++ rest.startEvents (n + t.size) o
end

/-- Calls made by `Finish(o)` on a tree laid out from base address `n`. -/
def Tree.finishEvents : Tree → Nat → Obj → List Event
  | .task _, n, o => [⟨⟨n, .Task⟩, .Finish o⟩]
  | .seq cs, n, o => [⟨⟨n + cs.size, .Sequence⟩, .Finish o⟩]
  | .prio cs, n, o => [⟨⟨n + cs.size, .Priority⟩, .Finish o⟩]
  | .deco view c, n, o => ⟨⟨n + c.size, view⟩, .Finish o⟩ :: c.finishEvents n o

mutual
/-- Calls made by `Run(o)` on a started tree laid out from base address `n`, up to the moment
it reports its verdict to its control, or up to its return when it reports nothing. -/
def Tree.runEvents : Tree → Nat → Obj → List Event
  | .task f, n, o => ⟨⟨n, .Task⟩, .Run o⟩ :: reportTo ⟨n, .Task⟩ (f 0 o).head?
  | .seq cs, n, o => cs.seqEvents n (n + cs.size) o true
  | .prio cs, n, o => cs.prioEvents n (n + cs.size) o true
  | .deco view c, n, o =>
    if view = .UntilFailDecorator then
      ⟨⟨n + c.size, view⟩, .Run o⟩ :: (c.startEvents n o ++ c.runEvents n o ++
        match c.verdict o with
        | some .Fail => ⟨⟨n + c.size, view⟩, .Fail⟩ :: c.finishEvents n o
        | some .Running => [⟨⟨n + c.size, view⟩, .Running⟩]
        | _ => [])
    else
      ⟨⟨n + c.size, view⟩, .Run o⟩ :: (c.runEvents n o ++ reportTo ⟨n + c.size, view⟩ (c.verdict o))
/-- Calls made by `Run(o)` on the `Sequence` at address `a` over the remaining children, laid
out from base address `m`; `first` tells whether this is the `Run` that enters the sequence
(an empty sequence entered by `Run` calls its own `Success`). -/
def Forest.seqEvents : Forest → Nat → Nat → Obj → Bool → List Event
  | .nil, _, a, o, first =>
    if first then [⟨⟨a, .Sequence⟩, .Run o⟩, ⟨⟨a, .Sequence⟩, .Success⟩] else []
  | .cons t rest, m, a, o, _ =>
    [⟨⟨a, .Sequence⟩, .Run o⟩, ⟨t.rootRef m, .SetControl (some ⟨a, .Sequence⟩)⟩] ++
      t.runEvents m o ++ reportTo ⟨a, .Sequence⟩ (t.verdict o) ++
      if t.verdict o = some .Success then rest.seqEvents (m + t.size) a o false else []
/-- Calls made by `Run(o)` on the `Priority` at address `a` over the remaining children;
`first` tells whether this is the `Run` that enters the priority (a priority without children
entered by `Run` calls nothing). -/
def Forest.prioEvents : Forest → Nat → Nat → Obj → Bool → List Event
  | .nil, _, a, o, first => if first then [⟨⟨a, .Priority⟩, .Run o⟩] else []
  | .cons t rest, m, a, o, _ =>
    [⟨⟨a, .Priority⟩, .Run o⟩, ⟨t.rootRef m, .SetControl (some ⟨a, .Priority⟩)⟩] ++
      t.startEvents m o ++ t.runEvents m o ++ reportTo ⟨a, .Priority⟩ (t.verdict o) ++
      if t.verdict o = some .Fail then rest.prioEvents (m + t.size) a o false else []
end

/-- Calls made by one `BehaviorTree.Run(o)` of the driver at address `b`, with external
control `k`, over the tree laid out from base address `n`. -/
def tickEvents (t : Tree) (n b k : Nat) (o : Obj) : List Event :=
  [⟨⟨b, .BehaviorTree⟩, .Run o⟩, ⟨t.rootRef n, .SetControl (some ⟨b, .BehaviorTree⟩)⟩] ++
    t.startEvents n o ++ t.runEvents n o ++
    match t.verdict o with
    | some v =>
      [⟨⟨b, .BehaviorTree⟩, v.toOp⟩] ++ (if v = .Running then [] else t.finishEvents n o) ++
        [⟨⟨k, .BaseNode⟩, v.toOp⟩]
    | none => []

mutual
/-- State of a tree after `Start(o)` and before `Run(o)`: every `Sequence` and `Priority`
that `Start` reaches has its cursor at the first child and `o` as its stored object, and every
`UntilFailDecorator` that `Start` reaches has `NodeRunning` clear and `o` as its stored
object. -/
def Tree.Primed (o : Obj) : Tree → Nat → State → Prop
  | .task _, _, _ => True
  | .seq cs, n, st =>
    (st.heap (n + cs.size)).ActualTask = 0 ∧ (st.heap (n + cs.size)).Object = o ∧
      cs.Primed o n st
  | .prio cs, n, st =>
    (st.heap (n + cs.size)).ActualTask = 0 ∧ (st.heap (n + cs.size)).Object = o
  | .deco view c, n, st =>
    if view = .UntilFailDecorator then
      (st.heap (n + c.size)).NodeRunning = false ∧ (st.heap (n + c.size)).Object = o
    else c.Primed o n st
/-- Every tree of the forest is `Primed`. -/
def Forest.Primed (o : Obj) : Forest → Nat → State → Prop
  | .nil, _, _ => True
  | .cons t rest, n, st => t.Primed o n st ∧ rest.Primed o (n + t.size) st
end

/-- As `RunsOk`, with the verdict `v`, if any, and the calls `E` made up to the report given:
`Run(o)` on node `r` reaches state `st1` having made the calls `E`; there it hands `v` to the
control `c`, or nothing, and whatever state `st2` that returns, `Run` returns a state that is
`Settled` with respect to `st2`. -/
def RunsAs (r : Ref) (lo hi : Nat) (o : Obj) (st : State) (c : Ref) (P : State → Prop)
    (v : Option Signal) (E : List Event) : Prop :=
  ∃ st1 d,
    (∀ G st2, deliver (invoke G) c v st1 = .ok st2 →
      ∃ st3, (∀ fuel, G + d ≤ fuel → invoke fuel r (.Run o) st = .ok st3) ∧ Settled st2 st3) ∧
    P st1 ∧ HeapOut lo hi st st1 ∧ st1.trace = st.trace ++ E ∧
    (st1.heap r.id).ControlNode = some c

/-- The tree `Sequence[UntilFail(Task(Fail)), Priority[Task(Fail), Task(Success), Priority[],
UntilFail(Task(Success))], Invert(Task(Fail))]`: the `Priority` stops at its second child and
reaches neither the `Priority` without children nor the `UntilFail` over a task that
succeeds. -/
def loopTree : Tree :=
  .seq (.cons (.deco .UntilFailDecorator (.task (always .Fail)))
    (.cons (.prio (.cons (.task (always .Fail)) (.cons (.task (always .Success))
      (.cons (.prio .nil)
      (.cons (.deco .UntilFailDecorator (.task (always .Success))) .nil)))))
    (.cons (.deco .InvertDecorator (.task (always .Fail))) .nil)))

/-- The call exceeds every bound on the depth of the call stack: it does not return. -/
def NeverReturns (r : Ref) (op : Op) (st : State) : Prop :=
  ∀ fuel : Nat, invoke fuel r op st = .error .fuel

/-! # Theorems -/


@[simp] theorem andThen_ok (st : State) (k : State → Result) : andThen (.ok st) k = k st := rfl
@[simp] theorem andThen_error (e : Err) (k : State → Result) : andThen (.error e) k = .error e := rfl
@[simp] theorem andThen_ret (r : Result) : andThen r (fun st => .ok st) = r := by
  cases r <;> rfl
theorem andThen_assoc (r : Result) (k1 k2 : State → Result) :
    andThen (andThen r k1) k2 = andThen r (fun st => andThen (k1 st) k2) := by
  cases r <;> rfl
@[simp] theorem log_heap (st : State) (e : Event) : (st.log e).heap = st.heap := rfl
@[simp] theorem log_trace (st : State) (e : Event) : (st.log e).trace = st.trace ++ [e] := rfl
@[simp] theorem modify_trace (st : State) (i : Nat) (f : NodeObj → NodeObj) :
    (st.modify i f).trace = st.trace := rfl
@[simp] theorem modify_heap_same (st : State) (i : Nat) (f : NodeObj → NodeObj) :
    (st.modify i f).heap i = f (st.heap i) := by simp [State.modify]
@[simp] theorem modify_heap_ne (st : State) {i j : Nat} (f : NodeObj → NodeObj) (h : j ≠ i) :
    (st.modify i f).heap j = st.heap j := by simp [State.modify, h]
@[simp] theorem invoke_succ (fuel : Nat) : invoke (fuel + 1) = step (invoke fuel) := rfl

theorem invoke_SetControl (fuel : Nat) (r : Ref) (c : Option Ref) (st : State) :
    invoke (fuel + 1) r (.SetControl c) st
      = .ok ((st.log ⟨r, .SetControl c⟩).modify r.id fun n => { n with ControlNode := c }) := by
  obtain ⟨a, v⟩ := r
  cases v <;> rfl

theorem invoke_Task_Run (fuel : Nat) (a : Nat) (o : Obj) (v : Signal) (st : State)
    (h : childSignals st a o = [v]) (hf : (st.heap a).RunFunc ≠ none) :
    invoke (fuel + 2) ⟨a, .Task⟩ (.Run o) st
      = andThen
          (notify (invoke fuel) (st.heap a).ControlNode v.toOp
            (((st.log ⟨⟨a, .Task⟩, .Run o⟩).modify a fun n =>
                { n with calls := (st.heap a).calls + 1 }).log ⟨⟨a, .Task⟩, v.toOp⟩))
          (fun st => .ok (st.modify a fun n => { n with RunCalled := true })) := by
  unfold childSignals at h
  cases hrf : (st.heap a).RunFunc with
  | none => exact absurd hrf hf
  | some f =>
    rw [hrf] at h
    have h2 : f (st.heap a).calls o = [v] := h
    simp only [invoke_succ, step, dispatch, Task.method, Task.Run, log_heap, hrf, h2, forEach,
      andThen_ok]
    cases v <;>
      simp [Signal.toOp, BaseNode.method, BaseNode.Running, BaseNode.Success, BaseNode.Fail,
        forEach]

theorem invoke_sink (fuel : Nat) (k : Nat) (v : Signal) (st : State)
    (hK : (st.heap k).ControlNode = none) :
    invoke (fuel + 1) ⟨k, .BaseNode⟩ v.toOp st = .ok (st.log ⟨⟨k, .BaseNode⟩, v.toOp⟩) := by
  cases v <;>
    simp [step, dispatch, Signal.toOp, BaseNode.method, BaseNode.Running, BaseNode.Success,
      BaseNode.Fail, hK, notify]

theorem index_mid (pre rest : List (Nat × Signal)) (p : Nat × Signal) :
    index ((pre ++ p :: rest).map taskRef) (pre.length : Int) = .ok (taskRef p) := by
  have h0 : ¬ ((pre.length : Int) < 0) := by omega
  have h1 : ((pre ++ p :: rest).map taskRef)[pre.length]? = some (taskRef p) := by
    rw [List.getElem?_map, List.getElem?_append_right (le_refl _)]
    simp
  simp only [index, h0, if_false, Int.toNat_ofNat, h1]

theorem invoke_Sequence_Run_child (fuel s : Nat) (o : Obj) (st : State) (a : Ref)
    (hlt : ¬ (((st.heap s).Nodes.length : Int) ≤ (st.heap s).ActualTask))
    (hidx : index (st.heap s).Nodes (st.heap s).ActualTask = .ok (some a)) :
    invoke (fuel + 2) ⟨s, .Sequence⟩ (.Run o) st
      = invoke (fuel + 1) a (.Run o)
          (((st.log ⟨⟨s, .Sequence⟩, .Run o⟩).log
              ⟨a, .SetControl (some ⟨s, .Sequence⟩)⟩).modify a.id fun n =>
            { n with ControlNode := some ⟨s, .Sequence⟩ }) := by
  rw [show fuel + 2 = (fuel + 1) + 1 from rfl, invoke_succ]
  simp only [step, dispatch, Sequence.method, Sequence.Run, log_heap, hlt, if_false, hidx, send]
  rw [invoke_SetControl]
  rfl

theorem invoke_Sequence_Run_end (fuel s : Nat) (o : Obj) (st : State)
    (hge : ((st.heap s).Nodes.length : Int) ≤ (st.heap s).ActualTask) :
    invoke (fuel + 1) ⟨s, .Sequence⟩ (.Run o) st
      = invoke fuel ⟨s, .Sequence⟩ .Success (st.log ⟨⟨s, .Sequence⟩, .Run o⟩) := by
  simp only [invoke_succ, step, dispatch, Sequence.method, Sequence.Run, log_heap, hge, if_true]

theorem invoke_Sequence_Success_next (fuel s : Nat) (st : State)
    (hlt : (st.heap s).ActualTask + 1 < ((st.heap s).Nodes.length : Int)) :
    invoke (fuel + 1) ⟨s, .Sequence⟩ .Success st
      = invoke fuel ⟨s, .Sequence⟩ (.Run (st.heap s).Object)
          ((st.log ⟨⟨s, .Sequence⟩, .Success⟩).modify s fun n =>
            { n with ActualTask := n.ActualTask + 1 }) := by
  simp only [invoke_succ, step, dispatch, Sequence.method, Sequence.Success, log_heap,
    modify_heap_same, hlt, if_true]

theorem invoke_Sequence_Success_last (fuel s : Nat) (st : State)
    (hge : ¬ ((st.heap s).ActualTask + 1 < ((st.heap s).Nodes.length : Int))) :
    invoke (fuel + 1) ⟨s, .Sequence⟩ .Success st
      = notify (invoke fuel) (st.heap s).ControlNode .Success
          ((st.log ⟨⟨s, .Sequence⟩, .Success⟩).modify s fun n =>
            { n with ActualTask := n.ActualTask + 1 }) := by
  simp only [invoke_succ, step, dispatch, Sequence.method, Sequence.Success, log_heap,
    modify_heap_same, hge, if_false]

theorem invoke_Sequence_Fail (fuel s : Nat) (st : State) :
    invoke (fuel + 1) ⟨s, .Sequence⟩ .Fail st
      = notify (invoke fuel) (st.heap s).ControlNode .Fail (st.log ⟨⟨s, .Sequence⟩, .Fail⟩) := by
  simp only [invoke_succ, step, dispatch, Sequence.method, Sequence.Fail, log_heap]

theorem invoke_Sequence_Running (fuel s : Nat) (st : State) :
    invoke (fuel + 1) ⟨s, .Sequence⟩ .Running st
      = notify (invoke fuel) (st.heap s).ControlNode .Running
          (st.log ⟨⟨s, .Sequence⟩, .Running⟩) := by
  simp only [invoke_succ, step, dispatch, Sequence.method, Sequence.Running, log_heap]

theorem childSignals_congr {st st' : State} {a : Nat} (o : Obj)
    (h : st'.heap a = st.heap a) : childSignals st' a o = childSignals st a o := by
  simp [childSignals, h]

theorem notify_some (rec : Call) (r : Ref) (op : Op) (st : State) :
    notify rec (some r) op st = rec r op st := rfl

theorem seq_run (s k : Nat) (o : Obj) (hsk : s ≠ k) :
    ∀ (rest pre : List (Nat × Signal)) (st : State) (fuel : Nat), rest ≠ [] →
      4 * rest.length + 1 ≤ fuel →
      (st.heap s).Nodes = (pre ++ rest).map taskRef →
      (st.heap s).ActualTask = (pre.length : Int) →
      (st.heap s).Object = o →
      (st.heap s).ControlNode = some ⟨k, .BaseNode⟩ →
      (st.heap k).ControlNode = none →
      (∀ p ∈ rest, childSignals st p.1 o = [p.2]) →
      (∀ p ∈ rest, p.1 ≠ s ∧ p.1 ≠ k) →
      (rest.map Prod.fst).Nodup →
      ∃ st', invoke fuel ⟨s, .Sequence⟩ (.Run o) st = .ok st' ∧
        st'.trace = st.trace ++ seqTrace s k o rest ∧
        (st'.heap s).ActualTask = ((pre.length + leading .Success rest : Nat) : Int) := by
  intro rest
  induction rest with
  | nil => intro _ _ _ h; exact absurd rfl h
  | cons p rest ih =>
    intro pre st fuel _ hfuel hN hA hO hC hK hV hD hND
    obtain ⟨F, rfl⟩ : ∃ F, fuel = F + 4 := ⟨fuel - 4, by simp at hfuel; omega⟩
    have hF : 4 * rest.length + 1 ≤ F := by simp at hfuel; omega
    have hps : s ≠ p.1 := fun h => (hD p (by simp)).1 h.symm
    have hpk : k ≠ p.1 := fun h => (hD p (by simp)).2 h.symm
    have hVp := hV p (by simp)
    have hlen : (st.heap s).Nodes.length = pre.length + (rest.length + 1) := by
      rw [hN]; simp
    have hidx : index (st.heap s).Nodes (st.heap s).ActualTask = .ok (some ⟨p.1, .Task⟩) := by
      rw [hN, hA]; exact index_mid pre rest p
    rw [show F + 4 = (F + 2) + 2 from rfl,
      invoke_Sequence_Run_child (F + 2) s o st ⟨p.1, .Task⟩ (by rw [hlen, hA]; omega) hidx]
    generalize hst1 : (((st.log ⟨⟨s, .Sequence⟩, .Run o⟩).log
        ⟨⟨p.1, .Task⟩, .SetControl (some ⟨s, .Sequence⟩)⟩).modify p.1 fun n =>
        { n with ControlNode := some ⟨s, .Sequence⟩ }) = st1
    have h1s : st1.heap s = st.heap s := by subst hst1; simp [hps]
    have h1k : st1.heap k = st.heap k := by subst hst1; simp [hpk]
    have h1p : st1.heap p.1 = { st.heap p.1 with ControlNode := some ⟨s, .Sequence⟩ } := by
      subst hst1; simp
    have h1o : ∀ x, x ≠ p.1 → st1.heap x = st.heap x := by
      intro x hx; subst hst1; simp [hx]
    have h1t : st1.trace = st.trace ++ [⟨⟨s, .Sequence⟩, .Run o⟩,
        ⟨⟨p.1, .Task⟩, .SetControl (some ⟨s, .Sequence⟩)⟩] := by subst hst1; simp
    have hV1 : childSignals st1 p.1 o = [p.2] := by
      rw [← hVp]; unfold childSignals; rw [h1p]
    have hf1 : (st1.heap p.1).RunFunc ≠ none := by
      intro h; unfold childSignals at hV1; rw [h] at hV1; simp at hV1
    rw [show F + 2 + 1 = (F + 1) + 2 from rfl, invoke_Task_Run (F + 1) p.1 o p.2 st1 hV1 hf1]
    generalize hst2 : (((st1.log ⟨⟨p.1, .Task⟩, .Run o⟩).modify p.1 fun n =>
        { n with calls := (st1.heap p.1).calls + 1 }).log ⟨⟨p.1, .Task⟩, p.2.toOp⟩) = st2
    have h2o : ∀ x, x ≠ p.1 → st2.heap x = st.heap x := by
      intro x hx; subst hst2; simp [hx, h1o x hx]
    have h2t : st2.trace = st.trace ++ [⟨⟨s, .Sequence⟩, .Run o⟩,
        ⟨⟨p.1, .Task⟩, .SetControl (some ⟨s, .Sequence⟩)⟩, ⟨⟨p.1, .Task⟩, .Run o⟩,
        ⟨⟨p.1, .Task⟩, p.2.toOp⟩] := by subst hst2; simp [h1t]
    have hc1 : (st1.heap p.1).ControlNode = some ⟨s, .Sequence⟩ := by rw [h1p]
    rw [hc1, notify_some]
    suffices h : ∃ st4, invoke (F + 1) ⟨s, .Sequence⟩ p.2.toOp st2 = .ok st4 ∧
        st4.trace = st.trace ++ seqTrace s k o (p :: rest) ∧
        (st4.heap s).ActualTask = ((pre.length + leading .Success (p :: rest) : Nat) : Int) by
      obtain ⟨st4, h4, h4t, h4a⟩ := h
      refine ⟨st4.modify p.1 fun n => { n with RunCalled := true }, ?_, ?_, ?_⟩
      · rw [h4]; rfl
      · simpa using h4t
      · simpa [hps] using h4a
    have h2s := h2o s hps
    have h2k := h2o k hpk
    obtain ⟨a, v⟩ := p
    cases v with
    | Running =>
      rw [Signal.toOp, invoke_Sequence_Running, h2s, hC, notify_some]
      obtain ⟨G, rfl⟩ : ∃ G, F = G + 1 := ⟨F - 1, by omega⟩
      rw [show Op.Running = Signal.toOp .Running from rfl, invoke_sink]
      · refine ⟨_, rfl, ?_, ?_⟩
        · simp [h2t, seqTrace, Signal.toOp]
        · simp [h2s, hA, leading]
      · simpa [h2k] using hK
    | Fail =>
      rw [Signal.toOp, invoke_Sequence_Fail, h2s, hC, notify_some]
      obtain ⟨G, rfl⟩ : ∃ G, F = G + 1 := ⟨F - 1, by omega⟩
      rw [show Op.Fail = Signal.toOp .Fail from rfl, invoke_sink]
      · refine ⟨_, rfl, ?_, ?_⟩
        · simp [h2t, seqTrace, Signal.toOp]
        · simp [h2s, hA, leading]
      · simpa [h2k] using hK
    | Success =>
      by_cases hr : rest = []
      · subst hr
        rw [Signal.toOp, invoke_Sequence_Success_last _ _ _
          (by rw [h2s, hlen, hA]; simp), h2s, hC, notify_some]
        obtain ⟨G, rfl⟩ : ∃ G, F = G + 1 := ⟨F - 1, by omega⟩
        rw [show Op.Success = Signal.toOp .Success from rfl, invoke_sink]
        · refine ⟨_, rfl, ?_, ?_⟩
          · simp [h2t, seqTrace, Signal.toOp]
          · simp [h2s, hA, leading]
        · simpa [h2k, hsk.symm] using hK
      · have hrl : 0 < rest.length := List.length_pos.mpr hr
        rw [Signal.toOp, invoke_Sequence_Success_next _ _ _
          (by rw [h2s, hlen, hA]; push_cast; omega), h2s, hO]
        generalize hst3 : ((st2.log ⟨⟨s, .Sequence⟩, .Success⟩).modify s fun n =>
          { n with ActualTask := n.ActualTask + 1 }) = st3
        have h3o : ∀ x, x ≠ s → st3.heap x = st2.heap x := by
          intro x hx; subst hst3; simp [hx]
        have h3s : st3.heap s = { st.heap s with ActualTask := (st.heap s).ActualTask + 1 } := by
          subst hst3; simp [h2s]
        have h3t : st3.trace = st2.trace ++ [⟨⟨s, .Sequence⟩, .Success⟩] := by
          subst hst3; simp
        have hmem : ∀ q ∈ rest, q.1 ≠ a := by
          intro q hq hqa
          have hnd := (List.nodup_cons.mp hND).1
          exact hnd (List.mem_map.mpr ⟨q, hq, hqa⟩)
        obtain ⟨st4, h4, h4t, h4a⟩ := ih (pre ++ [(a, Signal.Success)]) st3 F hr hF
          (by rw [h3s]; simp [hN])
          (by rw [h3s]; simp [hA])
          (by rw [h3s]; simp [hO])
          (by rw [h3s]; simp [hC])
          (by rw [h3o k hsk.symm, h2k]; exact hK)
          (by
            intro q hq
            rw [childSignals_congr o (show st3.heap q.1 = st.heap q.1 by
              rw [h3o _ (hD q (by simp [hq])).1, h2o _ (hmem q hq)])]
            exact hV q (by simp [hq]))
          (fun q hq => hD q (by simp [hq]))
          (List.nodup_cons.mp hND).2
        refine ⟨st4, h4, ?_, ?_⟩
        · rw [h4t, h3t, h2t]; simp [seqTrace, Signal.toOp, hr]
        · rw [h4a]; simp [leading]; omega
theorem invoke_Task_Start (fuel a : Nat) (o : Obj) (st : State) :
    invoke (fuel + 1) ⟨a, .Task⟩ (.Start o) st = .ok (st.log ⟨⟨a, .Task⟩, .Start o⟩) := rfl

theorem forEach_start_tasks (fuel : Nat) (o : Obj) :
    ∀ (l : List (Nat × Signal)) (st : State),
      forEach (l.map taskRef) (fun node => send (invoke (fuel + 1)) node (.Start o)) st
        = .ok { st with trace := st.trace ++ l.map fun p => ⟨⟨p.1, .Task⟩, .Start o⟩ } := by
  intro l
  induction l with
  | nil => intro st; simp [forEach]
  | cons p rest ih =>
    intro st
    simp only [List.map_cons, forEach, taskRef, send, invoke_Task_Start, andThen_ok]
    rw [ih]
    simp [State.log]

theorem invoke_Sequence_Start (fuel s : Nat) (o : Obj) (st : State) (ch : List (Nat × Signal))
    (hN : (st.heap s).Nodes = ch.map taskRef) :
    invoke (fuel + 2) ⟨s, .Sequence⟩ (.Start o) st
      = .ok { ((st.log ⟨⟨s, .Sequence⟩, .Start o⟩).modify s fun n =>
                { n with Object := o, ActualTask := 0 }) with
              trace := st.trace ++ ⟨⟨s, .Sequence⟩, .Start o⟩ ::
                ch.map fun p => ⟨⟨p.1, .Task⟩, .Start o⟩ } := by
  rw [show fuel + 2 = (fuel + 1) + 1 from rfl, invoke_succ]
  simp only [step, dispatch, Sequence.method, Sequence.Start, modify_heap_same, log_heap, hN]
  rw [forEach_start_tasks]
  simp [State.modify, State.log]

theorem eventsAt_append (E F : List Event) (k : Nat) :
    eventsAt (E ++ F) k = eventsAt E k ++ eventsAt F k := by
  simp [eventsAt]

theorem runOrder_append (s : Nat) (E F : List Event) :
    runOrder s (E ++ F) = runOrder s E ++ runOrder s F := by
  simp [runOrder]

theorem startOrder_append (s : Nat) (E F : List Event) :
    startOrder s (E ++ F) = startOrder s E ++ startOrder s F := by
  simp [startOrder]

theorem received_append (E F : List Event) (k : Nat) (op : Op) :
    received (E ++ F) k op = received E k op + received F k op := by
  simp [received, eventsAt_append]

theorem eventsAt_seqTrace (s k : Nat) (o : Obj) (hsk : s ≠ k) :
    ∀ rest : List (Nat × Signal), rest ≠ [] → (∀ p ∈ rest, p.1 ≠ k) →
      eventsAt (seqTrace s k o rest) k = [(outcome .Success rest).toOp] := by
  intro rest
  induction rest with
  | nil => intro h; exact absurd rfl h
  | cons p rest ih =>
    intro _ hk
    have hpk : p.1 ≠ k := hk p (by simp)
    rw [seqTrace, eventsAt_append]
    have h0 : eventsAt [⟨⟨s, .Sequence⟩, .Run o⟩,
        ⟨⟨p.1, .Task⟩, .SetControl (some ⟨s, .Sequence⟩)⟩,
        ⟨⟨p.1, .Task⟩, .Run o⟩, ⟨⟨p.1, .Task⟩, p.2.toOp⟩, ⟨⟨s, .Sequence⟩, p.2.toOp⟩] k = [] := by
      simp [eventsAt, List.filter, hsk, hpk]
    rw [h0, List.nil_append]
    by_cases hc : p.2 = .Success ∧ rest ≠ []
    · rw [if_pos hc, ih hc.2 (fun q hq => hk q (by simp [hq]))]
      simp [outcome, hc.1]
    · rw [if_neg hc]
      by_cases hp : p.2 = .Success
      · have hr : rest = [] := by
          by_contra hr; exact hc ⟨hp, hr⟩
        subst hr
        simp [eventsAt, outcome, hp]
      · simp [eventsAt, outcome, hp]

theorem runOrder_seqTrace (s k : Nat) (o : Obj) :
    ∀ rest : List (Nat × Signal), (∀ p ∈ rest, p.1 ≠ s) →
      runOrder s (seqTrace s k o rest)
        = (rest.take (leading .Success rest + 1)).map Prod.fst := by
  intro rest
  induction rest with
  | nil => intro _; simp [seqTrace, runOrder]
  | cons p rest ih =>
    intro hs
    have hps : p.1 ≠ s := hs p (by simp)
    obtain ⟨a, v⟩ := p
    rw [seqTrace, runOrder_append]
    by_cases hc : v = .Success ∧ rest ≠ []
    · rw [if_pos hc, ih (fun q hq => hs q (by simp [hq]))]
      obtain ⟨rfl, _⟩ := hc
      simp [runOrder, leading, Signal.toOp, hps]
    · rw [if_neg hc]
      by_cases hp : v = .Success
      · have hr : rest = [] := by
          by_contra hr; exact hc ⟨hp, hr⟩
        subst hr; subst hp
        simp [runOrder, leading, Signal.toOp, hps]
      · cases v <;> simp [runOrder, leading, Signal.toOp, hps] at hp ⊢

theorem startOrder_seqTrace (s k : Nat) (o : Obj) :
    ∀ rest : List (Nat × Signal), startOrder s (seqTrace s k o rest) = [] := by
  intro rest
  induction rest with
  | nil => simp [seqTrace, startOrder]
  | cons p rest ih =>
    obtain ⟨a, v⟩ := p
    rw [seqTrace, startOrder_append]
    by_cases hc : v = .Success ∧ rest ≠ []
    · rw [if_pos hc, ih]; cases v <;> simp [startOrder, Signal.toOp]
    · rw [if_neg hc]; cases v <;> simp [startOrder, Signal.toOp]

theorem outcome_eq_iff (c : Signal) :
    ∀ ch : List (Nat × Signal), outcome c ch = c ↔ ∀ p ∈ ch, p.2 = c := by
  intro ch
  induction ch with
  | nil => simp [outcome]
  | cons p rest ih =>
    by_cases hp : p.2 = c
    · simp [outcome, hp, ih]
    · simp [outcome, hp]

theorem leading_all (c : Signal) :
    ∀ ch : List (Nat × Signal), (∀ p ∈ ch, p.2 = c) → leading c ch = ch.length := by
  intro ch
  induction ch with
  | nil => simp [leading]
  | cons p rest ih =>
    intro h
    simp [leading, h p (by simp), ih (fun q hq => h q (by simp [hq]))]

theorem leading_first (c v : Signal) (hvc : v ≠ c) :
    ∀ (ch : List (Nat × Signal)) (i a : Nat), ch[i]? = some (a, v) →
      (∀ j, j < i → ∀ q, ch[j]? = some q → q.2 = c) →
      leading c ch = i ∧ outcome c ch = v := by
  intro ch
  induction ch with
  | nil => intro i a h; simp at h
  | cons p rest ih =>
    intro i a h hb
    cases i with
    | zero =>
      simp at h
      subst h
      simp [leading, outcome, hvc]
    | succ i =>
      have hp : p.2 = c := hb 0 (by omega) p (by simp)
      have := ih i a (by simpa using h) (fun j hj q hq => hb (j + 1) (by omega) q (by simpa using hq))
      simp [leading, outcome, hp, this]

theorem sequence_startRun (st : State) (s k : Nat) (ch : List (Nat × Signal)) (o : Obj)
    (h : TaskChildren st s k ch o) (hne : ch ≠ []) (fuel : Nat) (hf : 4 * ch.length + 1 ≤ fuel) :
    ∃ st', startRun fuel ⟨s, .Sequence⟩ o st = .ok st' ∧
      st'.trace = st.trace ++
        ((⟨⟨s, .Sequence⟩, .Start o⟩ :: ch.map fun p => ⟨⟨p.1, .Task⟩, .Start o⟩)
          ++ seqTrace s k o ch) ∧
      (st'.heap s).ActualTask = (leading .Success ch : Nat) := by
  have hl : 0 < ch.length := List.length_pos.mpr hne
  obtain ⟨F, rfl⟩ : ∃ F, fuel = F + 2 := ⟨fuel - 2, by omega⟩
  unfold startRun
  rw [invoke_Sequence_Start F s o st ch h.nodes, andThen_ok]
  generalize hst1 : ({ ((st.log ⟨⟨s, .Sequence⟩, .Start o⟩).modify s fun n =>
      { n with Object := o, ActualTask := 0 }) with
      trace := st.trace ++ ⟨⟨s, .Sequence⟩, .Start o⟩ ::
        ch.map fun p => ⟨⟨p.1, .Task⟩, .Start o⟩ } : State) = st1
  have h1s : st1.heap s = { st.heap s with Object := o, ActualTask := 0 } := by
    subst hst1; simp [State.modify, State.log]
  have h1o : ∀ x, x ≠ s → st1.heap x = st.heap x := by
    intro x hx; subst hst1; simp [State.modify, State.log, hx]
  have h1t : st1.trace = st.trace ++ ⟨⟨s, .Sequence⟩, .Start o⟩ ::
      ch.map fun p => ⟨⟨p.1, .Task⟩, .Start o⟩ := by subst hst1; rfl
  obtain ⟨st', hr, ht, ha⟩ := seq_run s k o h.sk ch [] st1 (F + 2) hne hf
    (by rw [h1s]; simpa using h.nodes) (by rw [h1s]; simp) (by rw [h1s])
    (by rw [h1s]; simpa using h.control) (by rw [h1o k h.sk.symm]; exact h.sink)
    (fun p hp => by
      rw [childSignals_congr o (h1o p.1 (h.apart p hp).1)]; exact h.verdict p hp)
    h.apart h.distinct
  refine ⟨st', hr, ?_, ?_⟩
  · rw [ht, h1t]; simp
  · simpa using ha

theorem eventsAt_startEvents (s k : Nat) (o : Obj) (hsk : s ≠ k) :
    ∀ ch : List (Nat × Signal), (∀ p ∈ ch, p.1 ≠ k) →
      eventsAt ((⟨⟨s, .Sequence⟩, .Start o⟩ : Event) ::
        ch.map fun p => ⟨⟨p.1, .Task⟩, .Start o⟩) k = [] := by
  intro ch hk
  simp only [eventsAt, List.map_eq_nil_iff, List.filter_eq_nil_iff]
  intro e he
  simp only [List.mem_cons, List.mem_map] at he
  rcases he with rfl | ⟨p, hp, rfl⟩
  · simpa using hsk
  · simpa using hk p hp

theorem runOrder_startEvents (s : Nat) (o : Obj) (ch : List (Nat × Signal)) :
    runOrder s ((⟨⟨s, .Sequence⟩, .Start o⟩ : Event) ::
      ch.map fun p => ⟨⟨p.1, .Task⟩, .Start o⟩) = [] := by
  simp only [runOrder, List.filterMap_eq_nil_iff]
  intro e he
  simp only [List.mem_cons, List.mem_map] at he
  rcases he with rfl | ⟨p, hp, rfl⟩ <;> rfl

theorem startOrder_startEvents (s : Nat) (o : Obj) :
    ∀ ch : List (Nat × Signal), (∀ p ∈ ch, p.1 ≠ s) →
      startOrder s ((⟨⟨s, .Sequence⟩, .Start o⟩ : Event) ::
        ch.map fun p => ⟨⟨p.1, .Task⟩, .Start o⟩) = ch.map Prod.fst := by
  intro ch
  induction ch with
  | nil => intro _; simp [startOrder]
  | cons p rest ih =>
    intro hs
    have := ih (fun q hq => hs q (by simp [hq]))
    simp [startOrder, hs p (by simp)] at this ⊢
    exact this

theorem sequenceWorld_children :
    TaskChildren (sequenceWorld [.Success, .Success, .Success]) 4 0
      [(1, .Success), (2, .Success), (3, .Success)] 42 where
  nodes := by rfl
  control := by rfl
  sink := by rfl
  verdict := by
    intro p hp
    simp only [List.mem_cons, List.mem_singleton, List.not_mem_nil, or_false] at hp
    rcases hp with rfl | rfl | rfl <;> rfl
  apart := by decide
  distinct := by decide
  sk := by decide

/-- C1: a `Sequence` over a non-empty list of tasks, each signalling one verdict, after
`Start(o)` and `Run(o)`: its control receives `Success` if and only if every child signals
`Success`; in that case `Run` was invoked on each child exactly once, in list order, the
control received exactly one `Success` and no `Fail`, and `ActualTask` is the number of
children. -/
theorem sequence_success_iff_all_succeed (st : State) (s k : Nat) (ch : List (Nat × Signal))
    (o : Obj) (h : TaskChildren st s k ch o) (hne : ch ≠ []) (fuel : Nat)
    (hf : 4 * ch.length + 1 ≤ fuel) :
    ∃ st' E, startRun fuel ⟨s, .Sequence⟩ o st = .ok st' ∧ st'.trace = st.trace ++ E ∧
      (0 < received E k .Success ↔ ∀ p ∈ ch, p.2 = .Success) ∧
      ((∀ p ∈ ch, p.2 = .Success) →
        runOrder s E = ch.map Prod.fst ∧ received E k .Success = 1 ∧
        received E k .Fail = 0 ∧ (st'.heap s).ActualTask = (ch.length : Int)) := by
  obtain ⟨st', hr, ht, ha⟩ := sequence_startRun st s k ch o h hne fuel hf
  have hk : ∀ p ∈ ch, p.1 ≠ k := fun p hp => (h.apart p hp).2
  have hs : ∀ p ∈ ch, p.1 ≠ s := fun p hp => (h.apart p hp).1
  have hE : ∀ op, received ((⟨⟨s, .Sequence⟩, .Start o⟩ ::
      ch.map fun p => ⟨⟨p.1, .Task⟩, .Start o⟩) ++ seqTrace s k o ch) k op
      = if (outcome .Success ch).toOp = op then 1 else 0 := by
    intro op
    rw [received, eventsAt_append, eventsAt_startEvents s k o h.sk ch hk,
      eventsAt_seqTrace s k o h.sk ch hne hk]
    simp [List.count_singleton]
  refine ⟨st', _, hr, ht, ?_, ?_⟩
  · rw [hE, ← outcome_eq_iff]
    cases outcome .Success ch <;> simp [Signal.toOp]
  · intro hall
    have ho := (outcome_eq_iff .Success ch).mpr hall
    refine ⟨?_, ?_, ?_, ?_⟩
    · rw [runOrder_append, runOrder_startEvents, runOrder_seqTrace s k o ch hs,
        leading_all .Success ch hall]
      simp
    · rw [hE, ho]; simp [Signal.toOp]
    · rw [hE, ho]; simp [Signal.toOp]
    · rw [ha, leading_all .Success ch hall]

theorem sequence_success_iff_all_succeed_witness :
    ∃ st' E, startRun 13 ⟨4, .Sequence⟩ 42 (sequenceWorld [.Success, .Success, .Success])
        = .ok st' ∧
      st'.trace = (sequenceWorld [.Success, .Success, .Success]).trace ++ E ∧
      (0 < received E 0 .Success ↔
        ∀ p ∈ [(1, Signal.Success), (2, Signal.Success), (3, Signal.Success)],
          p.2 = .Success) ∧
      ((∀ p ∈ [(1, Signal.Success), (2, Signal.Success), (3, Signal.Success)],
          p.2 = .Success) →
        runOrder 4 E = [(1, Signal.Success), (2, Signal.Success), (3, Signal.Success)].map
          Prod.fst ∧
        received E 0 .Success = 1 ∧ received E 0 .Fail = 0 ∧
        (st'.heap 4).ActualTask = (([(1, Signal.Success), (2, Signal.Success),
          (3, Signal.Success)].length : Nat) : Int)) :=
  sequence_success_iff_all_succeed _ 4 0 _ 42 sequenceWorld_children (by simp) 13 (by decide)

theorem sequenceWorld_mixed :
    TaskChildren (sequenceWorld [.Success, .Fail, .Success]) 4 0
      [(1, .Success), (2, .Fail), (3, .Success)] 42 where
  nodes := by rfl
  control := by rfl
  sink := by rfl
  verdict := by
    intro p hp
    simp only [List.mem_cons, List.mem_singleton, List.not_mem_nil, or_false] at hp
    rcases hp with rfl | rfl | rfl <;> rfl
  apart := by decide
  distinct := by decide
  sk := by decide

/-- C2: a `Sequence` over tasks in which child `i` is the first to signal `Fail` (the earlier
ones signal `Success`), after `Start(o)` and `Run(o)`: the control received exactly one `Fail`
and no `Success`, `Run` was invoked exactly once, in order, on children `0 .. i` and on no
later child, and `ActualTask` is `i`. -/
theorem sequence_first_fail (st : State) (s k : Nat) (ch : List (Nat × Signal)) (o : Obj)
    (h : TaskChildren st s k ch o) (i a : Nat) (hi : ch[i]? = some (a, .Fail))
    (hb : ∀ j, j < i → ∀ q, ch[j]? = some q → q.2 = .Success) (fuel : Nat)
    (hf : 4 * ch.length + 1 ≤ fuel) :
    ∃ st' E, startRun fuel ⟨s, .Sequence⟩ o st = .ok st' ∧ st'.trace = st.trace ++ E ∧
      received E k .Fail = 1 ∧ received E k .Success = 0 ∧
      runOrder s E = (ch.take (i + 1)).map Prod.fst ∧
      (st'.heap s).ActualTask = (i : Int) := by
  have hne : ch ≠ [] := by rintro rfl; simp at hi
  obtain ⟨st', hr, ht, ha⟩ := sequence_startRun st s k ch o h hne fuel hf
  have hk : ∀ p ∈ ch, p.1 ≠ k := fun p hp => (h.apart p hp).2
  have hs : ∀ p ∈ ch, p.1 ≠ s := fun p hp => (h.apart p hp).1
  obtain ⟨hlead, hout⟩ := leading_first .Success .Fail (by decide) ch i a hi hb
  have hE : ∀ op, received ((⟨⟨s, .Sequence⟩, .Start o⟩ ::
      ch.map fun p => ⟨⟨p.1, .Task⟩, .Start o⟩) ++ seqTrace s k o ch) k op
      = if Op.Fail = op then 1 else 0 := by
    intro op
    rw [received, eventsAt_append, eventsAt_startEvents s k o h.sk ch hk,
      eventsAt_seqTrace s k o h.sk ch hne hk, hout]
    simp [List.count_singleton, Signal.toOp]
  refine ⟨st', _, hr, ht, ?_, ?_, ?_, ?_⟩
  · rw [hE]; simp
  · rw [hE]; simp
  · rw [runOrder_append, runOrder_startEvents, runOrder_seqTrace s k o ch hs, hlead]
    simp
  · rw [ha, hlead]

theorem sequence_first_fail_witness :
    ∃ st' E, startRun 13 ⟨4, .Sequence⟩ 42 (sequenceWorld [.Success, .Fail, .Success])
        = .ok st' ∧
      st'.trace = (sequenceWorld [.Success, .Fail, .Success]).trace ++ E ∧
      received E 0 .Fail = 1 ∧ received E 0 .Success = 0 ∧
      runOrder 4 E = ([(1, Signal.Success), (2, Signal.Fail), (3, Signal.Success)].take
        (1 + 1)).map Prod.fst ∧
      (st'.heap 4).ActualTask = ((1 : Nat) : Int) :=
  sequence_first_fail _ 4 0 _ 42 sequenceWorld_mixed 1 2 (by rfl)
    (by
      intro j hj q hq
      obtain rfl : j = 0 := by omega
      simp at hq
      subst hq
      rfl)
    13 (by decide)

theorem invoke_Priority_Start (fuel s : Nat) (o : Obj) (st : State) :
    invoke (fuel + 1) ⟨s, .Priority⟩ (.Start o) st
      = .ok ((st.log ⟨⟨s, .Priority⟩, .Start o⟩).modify s fun n =>
          { n with Object := o, ActualTask := 0 }) := by
  simp only [invoke_succ, step, dispatch, Priority.method, Priority.Start]
  simp [State.modify, State.log]

theorem invoke_Priority_Run_child (fuel s : Nat) (o : Obj) (st : State) (a : Ref)
    (hlt : (st.heap s).ActualTask < ((st.heap s).Nodes.length : Int))
    (hidx : index (st.heap s).Nodes (st.heap s).ActualTask = .ok (some a)) :
    invoke (fuel + 2) ⟨s, .Priority⟩ (.Run o) st
      = andThen (invoke (fuel + 1) a (.Start o)
          (((st.log ⟨⟨s, .Priority⟩, .Run o⟩).log
              ⟨a, .SetControl (some ⟨s, .Priority⟩)⟩).modify a.id fun n =>
            { n with ControlNode := some ⟨s, .Priority⟩ }))
          (invoke (fuel + 1) a (.Run o)) := by
  rw [show fuel + 2 = (fuel + 1) + 1 from rfl, invoke_succ]
  simp only [step, dispatch, Priority.method, Priority.Run, log_heap, hlt, if_true, hidx, send]
  rw [invoke_SetControl]
  rfl

theorem invoke_Priority_Run_end (fuel s : Nat) (o : Obj) (st : State)
    (hge : ¬ ((st.heap s).ActualTask < ((st.heap s).Nodes.length : Int))) :
    invoke (fuel + 1) ⟨s, .Priority⟩ (.Run o) st = .ok (st.log ⟨⟨s, .Priority⟩, .Run o⟩) := by
  simp only [invoke_succ, step, dispatch, Priority.method, Priority.Run, log_heap, hge, if_false]

theorem invoke_Priority_Fail_next (fuel s : Nat) (st : State)
    (hlt : (st.heap s).ActualTask + 1 < ((st.heap s).Nodes.length : Int)) :
    invoke (fuel + 1) ⟨s, .Priority⟩ .Fail st
      = invoke fuel ⟨s, .Priority⟩ (.Run (st.heap s).Object)
          ((st.log ⟨⟨s, .Priority⟩, .Fail⟩).modify s fun n =>
            { n with ActualTask := n.ActualTask + 1 }) := by
  simp only [invoke_succ, step, dispatch, Priority.method, Priority.Fail, log_heap,
    modify_heap_same, hlt, if_true]

theorem invoke_Priority_Fail_last (fuel s : Nat) (st : State)
    (hge : ¬ ((st.heap s).ActualTask + 1 < ((st.heap s).Nodes.length : Int))) :
    invoke (fuel + 1) ⟨s, .Priority⟩ .Fail st
      = notify (invoke fuel) (st.heap s).ControlNode .Fail
          ((st.log ⟨⟨s, .Priority⟩, .Fail⟩).modify s fun n =>
            { n with ActualTask := n.ActualTask + 1 }) := by
  simp only [invoke_succ, step, dispatch, Priority.method, Priority.Fail, log_heap,
    modify_heap_same, hge, if_false]

theorem invoke_Priority_Success (fuel s : Nat) (st : State) :
    invoke (fuel + 1) ⟨s, .Priority⟩ .Success st
      = notify (invoke fuel) (st.heap s).ControlNode .Success
          (st.log ⟨⟨s, .Priority⟩, .Success⟩) := by
  simp only [invoke_succ, step, dispatch, Priority.method, Priority.Success, log_heap]

theorem invoke_Priority_Running (fuel s : Nat) (st : State) :
    invoke (fuel + 1) ⟨s, .Priority⟩ .Running st
      = notify (invoke fuel) (st.heap s).ControlNode .Running
          (st.log ⟨⟨s, .Priority⟩, .Running⟩) := by
  simp only [invoke_succ, step, dispatch, Priority.method, Priority.Running, log_heap]

theorem prio_run (s k : Nat) (o : Obj) (hsk : s ≠ k) :
    ∀ (rest pre : List (Nat × Signal)) (st : State) (fuel : Nat), rest ≠ [] →
      4 * rest.length + 1 ≤ fuel →
      (st.heap s).Nodes = (pre ++ rest).map taskRef →
      (st.heap s).ActualTask = (pre.length : Int) →
      (st.heap s).Object = o →
      (st.heap s).ControlNode = some ⟨k, .BaseNode⟩ →
      (st.heap k).ControlNode = none →
      (∀ p ∈ rest, childSignals st p.1 o = [p.2]) →
      (∀ p ∈ rest, p.1 ≠ s ∧ p.1 ≠ k) →
      (rest.map Prod.fst).Nodup →
      ∃ st', invoke fuel ⟨s, .Priority⟩ (.Run o) st = .ok st' ∧
        st'.trace = st.trace ++ prioTrace s k o rest ∧
        (st'.heap s).ActualTask = ((pre.length + leading .Fail rest : Nat) : Int) := by
  intro rest
  induction rest with
  | nil => intro _ _ _ h; exact absurd rfl h
  | cons p rest ih =>
    intro pre st fuel _ hfuel hN hA hO hC hK hV hD hND
    obtain ⟨F, rfl⟩ : ∃ F, fuel = F + 4 := ⟨fuel - 4, by simp at hfuel; omega⟩
    have hF : 4 * rest.length + 1 ≤ F := by simp at hfuel; omega
    have hps : s ≠ p.1 := fun h => (hD p (by simp)).1 h.symm
    have hpk : k ≠ p.1 := fun h => (hD p (by simp)).2 h.symm
    have hVp := hV p (by simp)
    have hlen : (st.heap s).Nodes.length = pre.length + (rest.length + 1) := by
      rw [hN]; simp
    have hidx : index (st.heap s).Nodes (st.heap s).ActualTask = .ok (some ⟨p.1, .Task⟩) := by
      rw [hN, hA]; exact index_mid pre rest p
    rw [show F + 4 = (F + 2) + 2 from rfl,
      invoke_Priority_Run_child (F + 2) s o st ⟨p.1, .Task⟩ (by rw [hlen, hA]; omega) hidx,
      invoke_Task_Start, andThen_ok]
    generalize hst1 : ((((st.log ⟨⟨s, .Priority⟩, .Run o⟩).log
        ⟨⟨p.1, .Task⟩, .SetControl (some ⟨s, .Priority⟩)⟩).modify (Ref.mk p.1 Kind.Task).id fun n =>
        { n with ControlNode := some ⟨s, .Priority⟩ }).log ⟨⟨p.1, .Task⟩, .Start o⟩) = st1
    have h1p : st1.heap p.1 = { st.heap p.1 with ControlNode := some ⟨s, .Priority⟩ } := by
      subst hst1; simp
    have h1o : ∀ x, x ≠ p.1 → st1.heap x = st.heap x := by
      intro x hx; subst hst1; simp [hx]
    have h1t : st1.trace = st.trace ++ [⟨⟨s, .Priority⟩, .Run o⟩,
        ⟨⟨p.1, .Task⟩, .SetControl (some ⟨s, .Priority⟩)⟩, ⟨⟨p.1, .Task⟩, .Start o⟩] := by
      subst hst1; simp
    have hV1 : childSignals st1 p.1 o = [p.2] := by
      rw [← hVp]; unfold childSignals; rw [h1p]
    have hf1 : (st1.heap p.1).RunFunc ≠ none := by
      intro h; unfold childSignals at hV1; rw [h] at hV1; simp at hV1
    rw [show F + 2 + 1 = (F + 1) + 2 from rfl, invoke_Task_Run (F + 1) p.1 o p.2 st1 hV1 hf1]
    generalize hst2 : (((st1.log ⟨⟨p.1, .Task⟩, .Run o⟩).modify p.1 fun n =>
        { n with calls := (st1.heap p.1).calls + 1 }).log ⟨⟨p.1, .Task⟩, p.2.toOp⟩) = st2
    have h2o : ∀ x, x ≠ p.1 → st2.heap x = st.heap x := by
      intro x hx; subst hst2; simp [hx, h1o x hx]
    have h2t : st2.trace = st.trace ++ [⟨⟨s, .Priority⟩, .Run o⟩,
        ⟨⟨p.1, .Task⟩, .SetControl (some ⟨s, .Priority⟩)⟩, ⟨⟨p.1, .Task⟩, .Start o⟩,
        ⟨⟨p.1, .Task⟩, .Run o⟩, ⟨⟨p.1, .Task⟩, p.2.toOp⟩] := by subst hst2; simp [h1t]
    have hc1 : (st1.heap p.1).ControlNode = some ⟨s, .Priority⟩ := by rw [h1p]
    rw [hc1, notify_some]
    suffices h : ∃ st4, invoke (F + 1) ⟨s, .Priority⟩ p.2.toOp st2 = .ok st4 ∧
        st4.trace = st.trace ++ prioTrace s k o (p :: rest) ∧
        (st4.heap s).ActualTask = ((pre.length + leading .Fail (p :: rest) : Nat) : Int) by
      obtain ⟨st4, h4, h4t, h4a⟩ := h
      refine ⟨st4.modify p.1 fun n => { n with RunCalled := true }, ?_, ?_, ?_⟩
      · rw [h4]; rfl
      · simpa using h4t
      · simpa [hps] using h4a
    have h2s := h2o s hps
    have h2k := h2o k hpk
    obtain ⟨a, v⟩ := p
    cases v with
    | Running =>
      rw [Signal.toOp, invoke_Priority_Running, h2s, hC, notify_some]
      obtain ⟨G, rfl⟩ : ∃ G, F = G + 1 := ⟨F - 1, by omega⟩
      rw [show Op.Running = Signal.toOp .Running from rfl, invoke_sink]
      · refine ⟨_, rfl, ?_, ?_⟩
        · simp [h2t, prioTrace, Signal.toOp]
        · simp [h2s, hA, leading]
      · simpa [h2k] using hK
    | Success =>
      rw [Signal.toOp, invoke_Priority_Success, h2s, hC, notify_some]
      obtain ⟨G, rfl⟩ : ∃ G, F = G + 1 := ⟨F - 1, by omega⟩
      rw [show Op.Success = Signal.toOp .Success from rfl, invoke_sink]
      · refine ⟨_, rfl, ?_, ?_⟩
        · simp [h2t, prioTrace, Signal.toOp]
        · simp [h2s, hA, leading]
      · simpa [h2k] using hK
    | Fail =>
      by_cases hr : rest = []
      · subst hr
        rw [Signal.toOp, invoke_Priority_Fail_last _ _ _
          (by rw [h2s, hlen, hA]; simp), h2s, hC, notify_some]
        obtain ⟨G, rfl⟩ : ∃ G, F = G + 1 := ⟨F - 1, by omega⟩
        rw [show Op.Fail = Signal.toOp .Fail from rfl, invoke_sink]
        · refine ⟨_, rfl, ?_, ?_⟩
          · simp [h2t, prioTrace, Signal.toOp]
          · simp [h2s, hA, leading]
        · simpa [h2k, hsk.symm] using hK
      · have hrl : 0 < rest.length := List.length_pos.mpr hr
        rw [Signal.toOp, invoke_Priority_Fail_next _ _ _
          (by rw [h2s, hlen, hA]; push_cast; omega), h2s, hO]
        generalize hst3 : ((st2.log ⟨⟨s, .Priority⟩, .Fail⟩).modify s fun n =>
          { n with ActualTask := n.ActualTask + 1 }) = st3
        have h3o : ∀ x, x ≠ s → st3.heap x = st2.heap x := by
          intro x hx; subst hst3; simp [hx]
        have h3s : st3.heap s = { st.heap s with ActualTask := (st.heap s).ActualTask + 1 } := by
          subst hst3; simp [h2s]
        have h3t : st3.trace = st2.trace ++ [⟨⟨s, .Priority⟩, .Fail⟩] := by
          subst hst3; simp
        have hmem : ∀ q ∈ rest, q.1 ≠ a := by
          intro q hq hqa
          have hnd := (List.nodup_cons.mp hND).1
          exact hnd (List.mem_map.mpr ⟨q, hq, hqa⟩)
        obtain ⟨st4, h4, h4t, h4a⟩ := ih (pre ++ [(a, Signal.Fail)]) st3 F hr hF
          (by rw [h3s]; simp [hN])
          (by rw [h3s]; simp [hA])
          (by rw [h3s]; simp [hO])
          (by rw [h3s]; simp [hC])
          (by rw [h3o k hsk.symm, h2k]; exact hK)
          (by
            intro q hq
            rw [childSignals_congr o (show st3.heap q.1 = st.heap q.1 by
              rw [h3o _ (hD q (by simp [hq])).1, h2o _ (hmem q hq)])]
            exact hV q (by simp [hq]))
          (fun q hq => hD q (by simp [hq]))
          (List.nodup_cons.mp hND).2
        refine ⟨st4, h4, ?_, ?_⟩
        · rw [h4t, h3t, h2t]; simp [prioTrace, Signal.toOp, hr]
        · rw [h4a]; simp [leading]; omega

theorem lifecycle_append (s : Nat) (E F : List Event) :
    lifecycle s (E ++ F) = lifecycle s E ++ lifecycle s F := by
  simp [lifecycle]

theorem eventsAt_prioTrace (s k : Nat) (o : Obj) (hsk : s ≠ k) :
    ∀ rest : List (Nat × Signal), rest ≠ [] → (∀ p ∈ rest, p.1 ≠ k) →
      eventsAt (prioTrace s k o rest) k = [(outcome .Fail rest).toOp] := by
  intro rest
  induction rest with
  | nil => intro h; exact absurd rfl h
  | cons p rest ih =>
    intro _ hk
    have hpk : p.1 ≠ k := hk p (by simp)
    rw [prioTrace, eventsAt_append]
    have h0 : eventsAt [⟨⟨s, .Priority⟩, .Run o⟩,
        ⟨⟨p.1, .Task⟩, .SetControl (some ⟨s, .Priority⟩)⟩, ⟨⟨p.1, .Task⟩, .Start o⟩,
        ⟨⟨p.1, .Task⟩, .Run o⟩, ⟨⟨p.1, .Task⟩, p.2.toOp⟩, ⟨⟨s, .Priority⟩, p.2.toOp⟩] k = [] := by
      simp [eventsAt, List.filter, hsk, hpk]
    rw [h0, List.nil_append]
    by_cases hc : p.2 = .Fail ∧ rest ≠ []
    · rw [if_pos hc, ih hc.2 (fun q hq => hk q (by simp [hq]))]
      simp [outcome, hc.1]
    · rw [if_neg hc]
      by_cases hp : p.2 = .Fail
      · have hr : rest = [] := by
          by_contra hr; exact hc ⟨hp, hr⟩
        subst hr
        simp [eventsAt, outcome, hp]
      · simp [eventsAt, outcome, hp]

theorem runOrder_prioTrace (s k : Nat) (o : Obj) :
    ∀ rest : List (Nat × Signal), (∀ p ∈ rest, p.1 ≠ s) →
      runOrder s (prioTrace s k o rest)
        = (rest.take (leading .Fail rest + 1)).map Prod.fst := by
  intro rest
  induction rest with
  | nil => intro _; simp [prioTrace, runOrder]
  | cons p rest ih =>
    intro hs
    have hps : p.1 ≠ s := hs p (by simp)
    obtain ⟨a, v⟩ := p
    rw [prioTrace, runOrder_append]
    by_cases hc : v = .Fail ∧ rest ≠ []
    · rw [if_pos hc, ih (fun q hq => hs q (by simp [hq]))]
      obtain ⟨rfl, _⟩ := hc
      simp [runOrder, leading, Signal.toOp, hps]
    · rw [if_neg hc]
      by_cases hp : v = .Fail
      · have hr : rest = [] := by
          by_contra hr; exact hc ⟨hp, hr⟩
        subst hr; subst hp
        simp [runOrder, leading, Signal.toOp, hps]
      · cases v <;> simp [runOrder, leading, Signal.toOp, hps] at hp ⊢

theorem startOrder_prioTrace (s k : Nat) (o : Obj) :
    ∀ rest : List (Nat × Signal), (∀ p ∈ rest, p.1 ≠ s) →
      startOrder s (prioTrace s k o rest)
        = (rest.take (leading .Fail rest + 1)).map Prod.fst := by
  intro rest
  induction rest with
  | nil => intro _; simp [prioTrace, startOrder]
  | cons p rest ih =>
    intro hs
    have hps : p.1 ≠ s := hs p (by simp)
    obtain ⟨a, v⟩ := p
    rw [prioTrace, startOrder_append]
    by_cases hc : v = .Fail ∧ rest ≠ []
    · rw [if_pos hc, ih (fun q hq => hs q (by simp [hq]))]
      obtain ⟨rfl, _⟩ := hc
      simp [startOrder, leading, Signal.toOp, hps]
    · rw [if_neg hc]
      by_cases hp : v = .Fail
      · have hr : rest = [] := by
          by_contra hr; exact hc ⟨hp, hr⟩
        subst hr; subst hp
        simp [startOrder, leading, Signal.toOp, hps]
      · cases v <;> simp [startOrder, leading, Signal.toOp, hps] at hp ⊢

theorem lifecycle_prioTrace (s k : Nat) (o : Obj) :
    ∀ rest : List (Nat × Signal), (∀ p ∈ rest, p.1 ≠ s) →
      lifecycle s (prioTrace s k o rest)
        = (rest.take (leading .Fail rest + 1)).flatMap fun p => [(p.1, false), (p.1, true)] := by
  intro rest
  induction rest with
  | nil => intro _; simp [prioTrace, lifecycle]
  | cons p rest ih =>
    intro hs
    have hps : p.1 ≠ s := hs p (by simp)
    obtain ⟨a, v⟩ := p
    rw [prioTrace, lifecycle_append]
    by_cases hc : v = .Fail ∧ rest ≠ []
    · rw [if_pos hc, ih (fun q hq => hs q (by simp [hq]))]
      obtain ⟨rfl, _⟩ := hc
      simp [lifecycle, leading, Signal.toOp, hps]
    · rw [if_neg hc]
      by_cases hp : v = .Fail
      · have hr : rest = [] := by
          by_contra hr; exact hc ⟨hp, hr⟩
        subst hr; subst hp
        simp [lifecycle, leading, Signal.toOp, hps]
      · cases v <;> simp [lifecycle, leading, Signal.toOp, hps] at hp ⊢

theorem priority_startRun (st : State) (s k : Nat) (ch : List (Nat × Signal)) (o : Obj)
    (h : TaskChildren st s k ch o) (hne : ch ≠ []) (fuel : Nat) (hf : 4 * ch.length + 1 ≤ fuel) :
    ∃ st', startRun fuel ⟨s, .Priority⟩ o st = .ok st' ∧
      st'.trace = st.trace ++ (⟨⟨s, .Priority⟩, .Start o⟩ :: prioTrace s k o ch) ∧
      (st'.heap s).ActualTask = (leading .Fail ch : Nat) := by
  have hl : 0 < ch.length := List.length_pos.mpr hne
  obtain ⟨F, rfl⟩ : ∃ F, fuel = F + 1 := ⟨fuel - 1, by omega⟩
  unfold startRun
  rw [invoke_Priority_Start F s o st, andThen_ok]
  generalize hst1 : ((st.log ⟨⟨s, .Priority⟩, .Start o⟩).modify s fun n =>
      { n with Object := o, ActualTask := 0 }) = st1
  have h1s : st1.heap s = { st.heap s with Object := o, ActualTask := 0 } := by
    subst hst1; simp
  have h1o : ∀ x, x ≠ s → st1.heap x = st.heap x := by
    intro x hx; subst hst1; simp [hx]
  have h1t : st1.trace = st.trace ++ [⟨⟨s, .Priority⟩, .Start o⟩] := by subst hst1; simp
  obtain ⟨st', hr, ht, ha⟩ := prio_run s k o h.sk ch [] st1 (F + 1) hne hf
    (by rw [h1s]; simpa using h.nodes) (by rw [h1s]; simp) (by rw [h1s])
    (by rw [h1s]; simpa using h.control) (by rw [h1o k h.sk.symm]; exact h.sink)
    (fun p hp => by
      rw [childSignals_congr o (h1o p.1 (h.apart p hp).1)]; exact h.verdict p hp)
    h.apart h.distinct
  refine ⟨st', hr, ?_, ?_⟩
  · rw [ht, h1t]; simp
  · simpa using ha

theorem received_cons_prioTrace (s k : Nat) (o : Obj) (ch : List (Nat × Signal))
    (h : s ≠ k) (hne : ch ≠ []) (hk : ∀ p ∈ ch, p.1 ≠ k) (op : Op) :
    received (⟨⟨s, .Priority⟩, .Start o⟩ :: prioTrace s k o ch) k op
      = if (outcome .Fail ch).toOp = op then 1 else 0 := by
  rw [show (⟨⟨s, .Priority⟩, .Start o⟩ :: prioTrace s k o ch : List Event)
      = [⟨⟨s, .Priority⟩, .Start o⟩] ++ prioTrace s k o ch from rfl,
    received, eventsAt_append, eventsAt_prioTrace s k o h ch hne hk]
  simp [eventsAt, h, List.count_singleton]

theorem priorityWorld_mixed :
    TaskChildren (priorityWorld [.Fail, .Fail, .Success, .Fail]) 5 0
      [(1, .Fail), (2, .Fail), (3, .Success), (4, .Fail)] 42 where
  nodes := by rfl
  control := by rfl
  sink := by rfl
  verdict := by
    intro p hp
    simp only [List.mem_cons, List.mem_singleton, List.not_mem_nil, or_false] at hp
    rcases hp with rfl | rfl | rfl | rfl <;> rfl
  apart := by decide
  distinct := by decide
  sk := by decide

theorem priorityWorld_fails :
    TaskChildren (priorityWorld [.Fail, .Fail, .Fail]) 4 0
      [(1, .Fail), (2, .Fail), (3, .Fail)] 42 where
  nodes := by rfl
  control := by rfl
  sink := by rfl
  verdict := by
    intro p hp
    simp only [List.mem_cons, List.mem_singleton, List.not_mem_nil, or_false] at hp
    rcases hp with rfl | rfl | rfl <;> rfl
  apart := by decide
  distinct := by decide
  sk := by decide

/-- C3: a `Priority` over tasks in which child `i` is the first to signal `Success` (the
earlier ones signal `Fail`), after `Start(o)` and `Run(o)`: the control received exactly one
`Success` and no `Fail`; children `0 .. i` received `Start` then `Run`, once each and in list
order, and no later child received `Start` or `Run`. -/
theorem priority_first_success (st : State) (s k : Nat) (ch : List (Nat × Signal)) (o : Obj)
    (h : TaskChildren st s k ch o) (i a : Nat) (hi : ch[i]? = some (a, .Success))
    (hb : ∀ j, j < i → ∀ q, ch[j]? = some q → q.2 = .Fail) (fuel : Nat)
    (hf : 4 * ch.length + 1 ≤ fuel) :
    ∃ st' E, startRun fuel ⟨s, .Priority⟩ o st = .ok st' ∧ st'.trace = st.trace ++ E ∧
      received E k .Success = 1 ∧ received E k .Fail = 0 ∧
      startOrder s E = (ch.take (i + 1)).map Prod.fst ∧
      runOrder s E = (ch.take (i + 1)).map Prod.fst ∧
      lifecycle s E = (ch.take (i + 1)).flatMap fun p => [(p.1, false), (p.1, true)] := by
  have hne : ch ≠ [] := by rintro rfl; simp at hi
  obtain ⟨st', hr, ht, _⟩ := priority_startRun st s k ch o h hne fuel hf
  have hk : ∀ p ∈ ch, p.1 ≠ k := fun p hp => (h.apart p hp).2
  have hs : ∀ p ∈ ch, p.1 ≠ s := fun p hp => (h.apart p hp).1
  obtain ⟨hlead, hout⟩ := leading_first .Fail .Success (by decide) ch i a hi hb
  have hE := received_cons_prioTrace s k o ch h.sk hne hk
  have hcons : (⟨⟨s, .Priority⟩, .Start o⟩ :: prioTrace s k o ch : List Event)
      = [⟨⟨s, .Priority⟩, .Start o⟩] ++ prioTrace s k o ch := rfl
  refine ⟨st', _, hr, ht, ?_, ?_, ?_, ?_, ?_⟩
  · rw [hE, hout]; simp [Signal.toOp]
  · rw [hE, hout]; simp [Signal.toOp]
  · rw [hcons, startOrder_append, startOrder_prioTrace s k o ch hs, hlead]
    simp [startOrder]
  · rw [hcons, runOrder_append, runOrder_prioTrace s k o ch hs, hlead]
    simp [runOrder]
  · rw [hcons, lifecycle_append, lifecycle_prioTrace s k o ch hs, hlead]
    simp [lifecycle]

theorem priority_first_success_witness :
    ∃ st' E, startRun 17 ⟨5, .Priority⟩ 42 (priorityWorld [.Fail, .Fail, .Success, .Fail])
        = .ok st' ∧
      st'.trace = (priorityWorld [.Fail, .Fail, .Success, .Fail]).trace ++ E ∧
      received E 0 .Success = 1 ∧ received E 0 .Fail = 0 ∧
      startOrder 5 E = ([(1, Signal.Fail), (2, Signal.Fail), (3, Signal.Success),
        (4, Signal.Fail)].take (2 + 1)).map Prod.fst ∧
      runOrder 5 E = ([(1, Signal.Fail), (2, Signal.Fail), (3, Signal.Success),
        (4, Signal.Fail)].take (2 + 1)).map Prod.fst ∧
      lifecycle 5 E = ([(1, Signal.Fail), (2, Signal.Fail), (3, Signal.Success),
        (4, Signal.Fail)].take (2 + 1)).flatMap fun p => [(p.1, false), (p.1, true)] :=
  priority_first_success _ 5 0 _ 42 priorityWorld_mixed 2 3 (by rfl)
    (by
      intro j hj q hq
      have hj2 : j = 0 ∨ j = 1 := by omega
      rcases hj2 with rfl | rfl <;> simp at hq <;> subst hq <;> rfl)
    17 (by decide)

/-- C4: a `Priority` over a non-empty list of tasks, each signalling one verdict, after
`Start(o)` and `Run(o)`: its control receives `Fail` if and only if every child signals `Fail`;
in that case `Run` was invoked on every child exactly once, in list order, and the control
received exactly one `Fail` and no `Success`. -/
theorem priority_fail_iff_all_fail (st : State) (s k : Nat) (ch : List (Nat × Signal))
    (o : Obj) (h : TaskChildren st s k ch o) (hne : ch ≠ []) (fuel : Nat)
    (hf : 4 * ch.length + 1 ≤ fuel) :
    ∃ st' E, startRun fuel ⟨s, .Priority⟩ o st = .ok st' ∧ st'.trace = st.trace ++ E ∧
      (0 < received E k .Fail ↔ ∀ p ∈ ch, p.2 = .Fail) ∧
      ((∀ p ∈ ch, p.2 = .Fail) →
        runOrder s E = ch.map Prod.fst ∧ received E k .Fail = 1 ∧
        received E k .Success = 0) := by
  obtain ⟨st', hr, ht, _⟩ := priority_startRun st s k ch o h hne fuel hf
  have hk : ∀ p ∈ ch, p.1 ≠ k := fun p hp => (h.apart p hp).2
  have hs : ∀ p ∈ ch, p.1 ≠ s := fun p hp => (h.apart p hp).1
  have hE := received_cons_prioTrace s k o ch h.sk hne hk
  have hcons : (⟨⟨s, .Priority⟩, .Start o⟩ :: prioTrace s k o ch : List Event)
      = [⟨⟨s, .Priority⟩, .Start o⟩] ++ prioTrace s k o ch := rfl
  refine ⟨st', _, hr, ht, ?_, ?_⟩
  · rw [hE, ← outcome_eq_iff]
    cases outcome .Fail ch <;> simp [Signal.toOp]
  · intro hall
    have ho := (outcome_eq_iff .Fail ch).mpr hall
    refine ⟨?_, ?_, ?_⟩
    · rw [hcons, runOrder_append, runOrder_prioTrace s k o ch hs, leading_all .Fail ch hall]
      simp [runOrder]
    · rw [hE, ho]; simp [Signal.toOp]
    · rw [hE, ho]; simp [Signal.toOp]

theorem priority_fail_iff_all_fail_witness :
    ∃ st' E, startRun 13 ⟨4, .Priority⟩ 42 (priorityWorld [.Fail, .Fail, .Fail]) = .ok st' ∧
      st'.trace = (priorityWorld [.Fail, .Fail, .Fail]).trace ++ E ∧
      (0 < received E 0 .Fail ↔
        ∀ p ∈ [(1, Signal.Fail), (2, Signal.Fail), (3, Signal.Fail)], p.2 = .Fail) ∧
      ((∀ p ∈ [(1, Signal.Fail), (2, Signal.Fail), (3, Signal.Fail)], p.2 = .Fail) →
        runOrder 4 E = [(1, Signal.Fail), (2, Signal.Fail), (3, Signal.Fail)].map Prod.fst ∧
        received E 0 .Fail = 1 ∧ received E 0 .Success = 0) :=
  priority_fail_iff_all_fail _ 4 0 _ 42 priorityWorld_fails (by simp) 13 (by decide)

/-- C7: a `Sequence` with no children, after `Start(o)`, signals `Success` to its control
exactly once on the first `Run(o)`, and neither `Fail` nor `Running`. -/
theorem sequence_empty_succeeds (st : State) (s k : Nat) (o : Obj)
    (hN : (st.heap s).Nodes = []) (hC : (st.heap s).ControlNode = some ⟨k, .BaseNode⟩)
    (hK : (st.heap k).ControlNode = none) (hsk : s ≠ k) (fuel : Nat) (hf : 3 ≤ fuel) :
    ∃ st' E, startRun fuel ⟨s, .Sequence⟩ o st = .ok st' ∧ st'.trace = st.trace ++ E ∧
      eventsAt E k = [.Success] ∧ received E k .Success = 1 ∧ received E k .Fail = 0 ∧
      received E k .Running = 0 ∧ runOrder s E = [] := by
  obtain ⟨F, rfl⟩ : ∃ F, fuel = F + 3 := ⟨fuel - 3, by omega⟩
  unfold startRun
  rw [show F + 3 = (F + 1) + 2 from rfl,
    invoke_Sequence_Start (F + 1) s o st [] (by simpa using hN), andThen_ok]
  generalize hst1 : ({ ((st.log ⟨⟨s, .Sequence⟩, .Start o⟩).modify s fun n =>
      { n with Object := o, ActualTask := 0 }) with
      trace := st.trace ++ ⟨⟨s, .Sequence⟩, .Start o⟩ ::
        ([] : List (Nat × Signal)).map fun p => ⟨⟨p.1, .Task⟩, .Start o⟩ } : State) = st1
  have h1s : st1.heap s = { st.heap s with Object := o, ActualTask := 0 } := by
    subst hst1; simp [State.modify, State.log]
  have h1k : st1.heap k = st.heap k := by
    subst hst1; simp [State.modify, State.log, hsk.symm]
  have h1t : st1.trace = st.trace ++ [⟨⟨s, .Sequence⟩, .Start o⟩] := by subst hst1; rfl
  rw [show F + 1 + 2 = (F + 2) + 1 from rfl,
    invoke_Sequence_Run_end _ _ _ _ (by rw [h1s]; simp [hN]),
    show F + 2 = (F + 1) + 1 from rfl,
    invoke_Sequence_Success_last _ _ _ (by simp [h1s, hN]), log_heap, h1s]
  simp only [hC, notify_some]
  rw [show Op.Success = Signal.toOp .Success from rfl, invoke_sink]
  · refine ⟨_, [⟨⟨s, .Sequence⟩, .Start o⟩, ⟨⟨s, .Sequence⟩, .Run o⟩,
      ⟨⟨s, .Sequence⟩, .Success⟩, ⟨⟨k, .BaseNode⟩, .Success⟩], rfl, ?_, ?_⟩
    · simp [h1t, Signal.toOp]
    · simp [eventsAt, received, runOrder, hsk, Signal.toOp]
  · simpa [hsk.symm, h1k] using hK

theorem sequence_empty_succeeds_witness :
    ∃ st' E, startRun 3 ⟨1, .Sequence⟩ 42 (sequenceWorld []) = .ok st' ∧
      st'.trace = (sequenceWorld []).trace ++ E ∧
      eventsAt E 0 = [.Success] ∧ received E 0 .Success = 1 ∧ received E 0 .Fail = 0 ∧
      received E 0 .Running = 0 ∧ runOrder 1 E = [] :=
  sequence_empty_succeeds _ 1 0 42 (by rfl) (by rfl) (by rfl) (by decide) 3 (by decide)

theorem priority_empty_calls (s : Nat) (fuel : Nat) :
    ∀ (ops : List Op) (st : State), (st.heap s).Nodes = [] → 0 ≤ (st.heap s).ActualTask →
      (∀ op ∈ ops, op.isTick = true) →
      ∃ st', callAll (fuel + 1) ⟨s, .Priority⟩ ops st = .ok st' ∧
        st'.trace = st.trace ++ ops.map fun op => ⟨⟨s, .Priority⟩, op⟩ := by
  intro ops
  induction ops with
  | nil => intro st _ _ _; exact ⟨st, rfl, by simp⟩
  | cons op rest ih =>
    intro st hN hA hops
    have hrest : ∀ op ∈ rest, op.isTick = true := fun q hq => hops q (by simp [hq])
    have hop := hops op (by simp)
    unfold callAll at ih ⊢
    rw [forEach]
    cases op with
    | Start o =>
      rw [invoke_Priority_Start, andThen_ok]
      obtain ⟨st', hr, ht⟩ := ih ((st.log ⟨⟨s, .Priority⟩, .Start o⟩).modify s fun n =>
        { n with Object := o, ActualTask := 0 }) (by simpa using hN) (by simp) hrest
      exact ⟨st', hr, by rw [ht]; simp⟩
    | Run o =>
      rw [invoke_Priority_Run_end _ _ _ _ (by simpa [hN] using hA), andThen_ok]
      obtain ⟨st', hr, ht⟩ := ih (st.log ⟨⟨s, .Priority⟩, .Run o⟩) (by simpa using hN)
        (by simpa using hA) hrest
      exact ⟨st', hr, by rw [ht]; simp⟩
    | Finish o => simp [Op.isTick] at hop
    | SetControl c => simp [Op.isTick] at hop
    | Running => simp [Op.isTick] at hop
    | Success => simp [Op.isTick] at hop
    | Fail => simp [Op.isTick] at hop

/-- C8: a `Priority` with no children, under any sequence of `Start` and `Run` calls: the
calls return, and the only method invocations that take place are those calls themselves, so
that no `Start` or `Run` reaches any node and no `Running`, `Success` or `Fail` reaches its
control (or any other object).  The cursor is taken non-negative, as it is in every state
that the constructor, `Start` and `Fail` produce. -/
theorem priority_empty_silent (st : State) (s : Nat) (hN : (st.heap s).Nodes = [])
    (hA : 0 ≤ (st.heap s).ActualTask) (ops : List Op) (hops : ∀ op ∈ ops, op.isTick = true) (fuel : Nat) (hf : 1 ≤ fuel) :
    ∃ st' E, callAll fuel ⟨s, .Priority⟩ ops st = .ok st' ∧ st'.trace = st.trace ++ E ∧
      E = ops.map (fun op => ⟨⟨s, .Priority⟩, op⟩) ∧
      (∀ x, x ≠ s → eventsAt E x = []) ∧
      (∀ v : Signal, ∀ x, received E x v.toOp = 0) ∧
      runOrder s E = [] ∧ startOrder s E = [] := by
  obtain ⟨F, rfl⟩ : ∃ F, fuel = F + 1 := ⟨fuel - 1, by omega⟩
  obtain ⟨st', hr, ht⟩ := priority_empty_calls s F ops st hN hA hops
  refine ⟨st', _, hr, ht, rfl, ?_, ?_, ?_, ?_⟩
  · intro x hx
    simp only [eventsAt, List.map_eq_nil_iff, List.filter_eq_nil_iff]
    intro e he
    obtain ⟨op, _, rfl⟩ := List.mem_map.mp he
    simpa using hx.symm
  · intro v x
    simp only [received, eventsAt, List.count_eq_zero, List.mem_map, List.mem_filter,
      not_exists, not_and]
    rintro e ⟨⟨op, hop, rfl⟩, _⟩ hv
    have := hops op hop
    simp only at hv
    subst hv
    cases v <;> simp [Op.isTick, Signal.toOp] at this
  · simp only [runOrder, List.filterMap_eq_nil_iff]
    intro e he
    obtain ⟨op, _, rfl⟩ := List.mem_map.mp he
    cases op <;> simp
  · simp only [startOrder, List.filterMap_eq_nil_iff]
    intro e he
    obtain ⟨op, _, rfl⟩ := List.mem_map.mp he
    cases op <;> simp

theorem priority_empty_silent_witness :
    ∃ st' E, callAll 1 ⟨1, .Priority⟩ [.Start 42, .Run 42, .Run 42, .Start 7, .Run 7]
        (priorityWorld []) = .ok st' ∧
      st'.trace = (priorityWorld []).trace ++ E ∧
      E = [Op.Start 42, .Run 42, .Run 42, .Start 7, .Run 7].map
        (fun op => ⟨⟨1, .Priority⟩, op⟩) ∧
      (∀ x, x ≠ 1 → eventsAt E x = []) ∧
      (∀ v : Signal, ∀ x, received E x v.toOp = 0) ∧
      runOrder 1 E = [] ∧ startOrder 1 E = [] :=
  priority_empty_silent (priorityWorld []) 1 (by rfl) (by decide) _ (by decide) 1 (by decide)

theorem invoke_translator_signal (fuel d : Nat) (view : Kind) (hview : view.isTranslator = true)
    (v : Signal) (st : State) :
    invoke (fuel + 1) ⟨d, view⟩ v.toOp st
      = notify (invoke fuel) (st.heap d).ControlNode (verdictMap view v).toOp
          (st.log ⟨⟨d, view⟩, v.toOp⟩) := by
  cases view <;> simp [Kind.isTranslator] at hview <;> cases v <;> rfl

theorem invoke_translator_Run (fuel d : Nat) (view : Kind) (hview : view.isTranslator = true)
    (o : Obj) (st : State) :
    invoke (fuel + 1) ⟨d, view⟩ (.Run o) st
      = send (invoke fuel) (st.heap d).Node (.Run o) (st.log ⟨⟨d, view⟩, .Run o⟩) := by
  cases view <;> simp [Kind.isTranslator] at hview <;> rfl

theorem invoke_translator_Start (fuel d : Nat) (view : Kind) (hview : view.isTranslator = true)
    (o : Obj) (st : State) :
    invoke (fuel + 1) ⟨d, view⟩ (.Start o) st
      = send (invoke fuel) (st.heap d).Node (.Start o) (st.log ⟨⟨d, view⟩, .Start o⟩) := by
  cases view <;> simp [Kind.isTranslator] at hview <;> rfl

theorem invoke_translator_Finish (fuel d : Nat) (view : Kind) (hview : view.isTranslator = true)
    (o : Obj) (st : State) :
    invoke (fuel + 1) ⟨d, view⟩ (.Finish o) st
      = send (invoke fuel) (st.heap d).Node (.Finish o) (st.log ⟨⟨d, view⟩, .Finish o⟩) := by
  cases view <;> simp [Kind.isTranslator] at hview <;> rfl

theorem send_some (rec : Call) (r : Ref) (op : Op) (st : State) :
    send rec (some r) op st = rec r op st := rfl

/-- A verdict-translating decorator around a task, run once: the trace. -/
theorem translator_run (view : Kind) (hview : view.isTranslator = true) (st : State)
    (d a k : Nat) (o : Obj) (v : Signal)
    (hNode : (st.heap d).Node = some ⟨a, .Task⟩)
    (hCa : (st.heap a).ControlNode = some ⟨d, view⟩)
    (hC : (st.heap d).ControlNode = some ⟨k, .BaseNode⟩)
    (hK : (st.heap k).ControlNode = none)
    (hV : childSignals st a o = [v]) (hda : d ≠ a) (hka : k ≠ a) (fuel : Nat) :
    ∃ st', invoke (fuel + 5) ⟨d, view⟩ (.Run o) st = .ok st' ∧
      st'.trace = st.trace ++ [⟨⟨d, view⟩, .Run o⟩, ⟨⟨a, .Task⟩, .Run o⟩, ⟨⟨a, .Task⟩, v.toOp⟩,
        ⟨⟨d, view⟩, v.toOp⟩, ⟨⟨k, .BaseNode⟩, (verdictMap view v).toOp⟩] ∧
      (∀ x, x ≠ a → st'.heap x = st.heap x) := by
  have hf : (st.heap a).RunFunc ≠ none := by
    intro h; unfold childSignals at hV; rw [h] at hV; simp at hV
  rw [show fuel + 5 = (fuel + 4) + 1 from rfl, invoke_translator_Run _ _ _ hview, hNode, send_some,
    show fuel + 4 = (fuel + 2) + 2 from rfl,
    invoke_Task_Run _ _ _ v _ (by rw [← hV]; exact childSignals_congr o rfl) (by simpa using hf)]
  simp only [log_heap, hCa, notify_some]
  rw [show fuel + 2 = (fuel + 1) + 1 from rfl, invoke_translator_signal _ _ _ hview]
  simp only [log_heap, modify_heap_ne _ _ hda, hC, notify_some]
  rw [invoke_sink _ _ _ _ (by simpa [hka] using hK)]
  refine ⟨_, rfl, by simp, ?_⟩
  intro x hx
  simp [hx]

/-- C10: an `AlwaysSucceedDecorator` with its control set, around a task that signals
`Success` or `Fail`: on `Run(o)` the child is run once, signals its verdict once, and the
decorator's control receives exactly one `Success` and no `Fail` (nor anything else). -/
theorem alwaysSucceed_reports_success (st : State) (d a k : Nat) (o : Obj) (v : Signal)
    (hNode : (st.heap d).Node = some ⟨a, .Task⟩)
    (hCa : (st.heap a).ControlNode = some ⟨d, .AlwaysSucceedDecorator⟩)
    (hC : (st.heap d).ControlNode = some ⟨k, .BaseNode⟩)
    (hK : (st.heap k).ControlNode = none)
    (hV : childSignals st a o = [v]) (hv : v = .Success ∨ v = .Fail)
    (hda : d ≠ a) (hka : k ≠ a) (hdk : d ≠ k) (fuel : Nat) (hf : 5 ≤ fuel) :
    ∃ st' E, invoke fuel ⟨d, .AlwaysSucceedDecorator⟩ (.Run o) st = .ok st' ∧
      st'.trace = st.trace ++ E ∧
      eventsAt E a = [.Run o, v.toOp] ∧
      eventsAt E k = [.Success] ∧ received E k .Success = 1 ∧ received E k .Fail = 0 := by
  obtain ⟨F, rfl⟩ : ∃ F, fuel = F + 5 := ⟨fuel - 5, by omega⟩
  obtain ⟨st', hr, ht, _⟩ := translator_run .AlwaysSucceedDecorator rfl st d a k o v hNode hCa hC
    hK hV hda hka F
  refine ⟨st', _, hr, ht, ?_, ?_, ?_, ?_⟩ <;>
    rcases hv with rfl | rfl <;>
    simp [eventsAt, received, verdictMap, Signal.toOp, hda, hka, hdk, hka.symm]

theorem alwaysSucceed_reports_success_witness :
    ∃ st' E, invoke 5 ⟨2, .AlwaysSucceedDecorator⟩ (.Run 42)
        (decoratorWorld .AlwaysSucceedDecorator .Fail) = .ok st' ∧
      st'.trace = (decoratorWorld .AlwaysSucceedDecorator .Fail).trace ++ E ∧
      eventsAt E 1 = [.Run 42, Signal.Fail.toOp] ∧
      eventsAt E 0 = [.Success] ∧ received E 0 .Success = 1 ∧ received E 0 .Fail = 0 :=
  alwaysSucceed_reports_success (decoratorWorld .AlwaysSucceedDecorator .Fail) 2 1 0 42 .Fail
    (by rfl) (by rfl) (by rfl) (by rfl) (by rfl) (by decide) (by decide) (by decide) (by decide)
    5 (by decide)

theorem mem_runOrder_of_received (s x : Nat) (o : Obj) (E : List Event) (hx : x ≠ s)
    (h : received E x (.Run o) ≠ 0) : x ∈ runOrder s E := by
  have hmem : Op.Run o ∈ eventsAt E x := by
    by_contra hc
    exact h (List.count_eq_zero.mpr hc)
  obtain ⟨e, he, hop⟩ := List.mem_map.mp hmem
  obtain ⟨heE, hid⟩ := List.mem_filter.mp he
  have hid2 : e.target.id = x := by simpa using hid
  refine List.mem_filterMap.mpr ⟨e, heE, ?_⟩
  rw [hop]
  simp [hid2, hx]

theorem not_mem_take_of_later (ch : List (Nat × Signal)) (hnd : (ch.map Prod.fst).Nodup)
    (i j : Nat) (q : Nat × Signal) (hj : i < j) (hq : ch[j]? = some q) :
    q.1 ∉ (ch.take (i + 1)).map Prod.fst := by
  intro hmem
  obtain ⟨p, hp, hpq⟩ := List.mem_map.mp hmem
  obtain ⟨n, hn⟩ := List.mem_iff_getElem?.mp hp
  rw [List.getElem?_take] at hn
  by_cases hni : n < i + 1
  · rw [if_pos hni] at hn
    have hjl : j < (ch.map Prod.fst).length := by
      by_contra hc
      rw [List.getElem?_eq_none (by simpa using hc)] at hq
      exact absurd hq (by simp)
    have h1 : (ch.map Prod.fst)[n]? = (ch.map Prod.fst)[j]? := by
      rw [List.getElem?_map, List.getElem?_map, hn, hq]
      simp [hpq]
    exact (List.nodup_iff_getElem?_ne_getElem?.mp hnd) n j (by omega) hjl h1
  · rw [if_neg hni] at hn
    exact absurd hn (by simp)

/-- C9, as stated, fails: in `Sequence[Task(Fail), Task(Success)]` (tasks at addresses `1` and
`2`, the sequence at `3`) the first child is the first to fail, and the second child has
nevertheless received `Start`. -/
theorem sequence_later_child_started :
    ∃ st', startRun 9 ⟨3, .Sequence⟩ 42 (sequenceWorld [.Fail, .Success]) = .ok st' ∧
      eventsAt st'.trace 1 = [.Start 42, .SetControl (some ⟨3, .Sequence⟩), .Run 42, .Fail] ∧
      received st'.trace 0 .Fail = 1 ∧
      received st'.trace 2 (.Start 42) = 1 ∧ eventsAt st'.trace 2 = [.Start 42] :=
  ⟨_, rfl, by decide, by decide, by decide, by decide⟩

theorem sequenceWorld_failFirst :
    TaskChildren (sequenceWorld [.Fail, .Success]) 3 0 [(1, .Fail), (2, .Success)] 42 where
  nodes := by rfl
  control := by rfl
  sink := by rfl
  verdict := by
    intro p hp
    simp only [List.mem_cons, List.mem_singleton, List.not_mem_nil, or_false] at hp
    rcases hp with rfl | rfl <;> rfl
  apart := by decide
  distinct := by decide
  sk := by decide

/-- C9, amended: in a `Sequence` over tasks in which child `i` is the first to fail, after
`Start(o)` and `Run(o)`, every child (those after `i` included) has received `Start` exactly
once, in list order, from `Sequence.Start`, and `Run` has reached children `0 .. i` only: no
child with index greater than `i` has received `Run`. -/
theorem sequence_fail_starts_all_runs_prefix (st : State) (s k : Nat)
    (ch : List (Nat × Signal)) (o : Obj)
    (h : TaskChildren st s k ch o) (i a : Nat) (hi : ch[i]? = some (a, .Fail))
    (hb : ∀ j, j < i → ∀ q, ch[j]? = some q → q.2 = .Success) (fuel : Nat)
    (hf : 4 * ch.length + 1 ≤ fuel) :
    ∃ st' E, startRun fuel ⟨s, .Sequence⟩ o st = .ok st' ∧ st'.trace = st.trace ++ E ∧
      startOrder s E = ch.map Prod.fst ∧
      runOrder s E = (ch.take (i + 1)).map Prod.fst ∧
      (∀ j q, i < j → ch[j]? = some q → received E q.1 (.Run o) = 0) := by
  have hne : ch ≠ [] := by rintro rfl; simp at hi
  obtain ⟨st', hr, ht, _⟩ := sequence_startRun st s k ch o h hne fuel hf
  have hs : ∀ p ∈ ch, p.1 ≠ s := fun p hp => (h.apart p hp).1
  obtain ⟨hlead, _⟩ := leading_first .Success .Fail (by decide) ch i a hi hb
  have hrun : runOrder s ((⟨⟨s, .Sequence⟩, .Start o⟩ ::
      ch.map fun p => ⟨⟨p.1, .Task⟩, .Start o⟩) ++ seqTrace s k o ch)
      = (ch.take (i + 1)).map Prod.fst := by
    rw [runOrder_append, runOrder_startEvents, runOrder_seqTrace s k o ch hs, hlead]
    simp
  refine ⟨st', _, hr, ht, ?_, hrun, ?_⟩
  · rw [startOrder_append, startOrder_startEvents s o ch hs, startOrder_seqTrace]
    simp
  · intro j q hj hq
    by_contra hc
    have hqs : q.1 ≠ s := hs q (List.getElem?_mem hq)
    have := mem_runOrder_of_received s q.1 o _ hqs hc
    rw [hrun] at this
    exact not_mem_take_of_later ch h.distinct i j q hj hq this

theorem sequence_fail_starts_all_runs_prefix_witness :
    ∃ st' E, startRun 9 ⟨3, .Sequence⟩ 42 (sequenceWorld [.Fail, .Success]) = .ok st' ∧
      st'.trace = (sequenceWorld [.Fail, .Success]).trace ++ E ∧
      startOrder 3 E = [(1, Signal.Fail), (2, Signal.Success)].map Prod.fst ∧
      runOrder 3 E = ([(1, Signal.Fail), (2, Signal.Success)].take (0 + 1)).map Prod.fst ∧
      (∀ j q, 0 < j → [(1, Signal.Fail), (2, Signal.Success)][j]? = some q →
        received E q.1 (.Run 42) = 0) :=
  sequence_fail_starts_all_runs_prefix _ 3 0 _ 42 sequenceWorld_failFirst 0 1 (by rfl)
    (by intro j hj; omega) 9 (by decide)

/-- C6 on the code: a driver over `Sequence[Task(Success), Task(Running)]` (tasks at addresses
`1` and `2`, sequence at `3`, driver at `4`, external control at `0`).  In the first tick child
`0` succeeds and child `1` signals `Running`, which reaches the external control.  In the
second tick `BehaviorTree.Run` calls `Start` on the sequence again, the cursor is back at `0`,
and the first child to receive `Run` is child `0` (address `1`), which is run a second time. -/
theorem driver_sequence_restarts_after_running :
    observe (ticks 12 ⟨4, .BehaviorTree⟩ 42 1 (driverSequenceWorld [.Success, .Running]))
        (fun st => (runsAmong [1, 2] st.trace, eventsAt st.trace 0))
      = some ([1, 2], [.Running]) ∧
    observe (ticks 12 ⟨4, .BehaviorTree⟩ 42 1 (driverSequenceWorld [.Success, .Running]))
        (fun st => (st.heap 3).ActualTask) = some 1 ∧
    observe (ticks 12 ⟨4, .BehaviorTree⟩ 42 2 (driverSequenceWorld [.Success, .Running]))
        (fun st => (runsAmong [1, 2] st.trace, eventsAt st.trace 0))
      = some ([1, 2, 1, 2], [.Running, .Running]) := by
  decide!

/-! ## More fuel never changes a result -/

theorem Below.refl_below (r : Result) : Below r r := fun _ h => h

theorem Below.andThen {r r' : Result} {k k' : State → Result} (h : Below r r')
    (hk : ∀ st, Below (k st) (k' st)) : Below (andThen r k) (andThen r' k') := by
  intro x hx
  cases r with
  | error e => simp [BT.andThen] at hx
  | ok st =>
    rw [h st rfl]
    exact hk st x hx

theorem Below.send {f g : Call} (h : CallBelow f g) (t : Option Ref) (op : Op) (st : State) :
    Below (send f t op st) (send g t op st) := by
  cases t with
  | none => exact Below.refl_below _
  | some r => exact h r op st

theorem Below.notify {f g : Call} (h : CallBelow f g) (t : Option Ref) (op : Op) (st : State) :
    Below (notify f t op st) (notify g t op st) := by
  cases t with
  | none => exact Below.refl_below _
  | some r => exact h r op st

theorem Below.forEach {α : Type} {b b' : α → State → Result}
    (h : ∀ a st, Below (b a st) (b' a st)) :
    ∀ (xs : List α) (st : State), Below (forEach xs b st) (forEach xs b' st) := by
  intro xs
  induction xs with
  | nil => intro st; exact Below.refl_below _
  | cons x rest ih =>
    intro st
    exact Below.andThen (h x st) ih

theorem Below.ite {c : Prop} [Decidable c] {a a' b b' : Result} (ha : Below a a')
    (hb : Below b b') : Below (if c then a else b) (if c then a' else b') := by
  split
  · exact ha
  · exact hb

theorem BaseNode.method_mono_BaseNode {f g : Call} (h : CallBelow f g) (a : Nat) (op : Op) (st : State) :
    Below (BaseNode.method f a op st) (BaseNode.method g a op st) := by
  cases op
  case Running => exact Below.notify h _ _ _
  case Success => exact Below.notify h _ _ _
  case Fail => exact Below.notify h _ _ _
  all_goals exact Below.refl_below _

theorem Task.method_mono_Task {f g : Call} (h : CallBelow f g) (a : Nat) (op : Op) (st : State) :
    Below (Task.method f a op st) (Task.method g a op st) := by
  cases op
  case Run o =>
    simp only [Task.method, Task.Run]
    split
    · exact Below.refl_below _
    · exact Below.andThen (Below.forEach (fun _ _ => h _ _ _) _ _) (fun _ => Below.refl_below _)
  all_goals (simp only [Task.method]; exact BaseNode.method_mono_BaseNode h _ _ _)

theorem Sequence.method_mono_Sequence {f g : Call} (h : CallBelow f g) (a : Nat) (op : Op) (st : State) :
    Below (Sequence.method f a op st) (Sequence.method g a op st) := by
  cases op
  case Start o => exact Below.forEach (fun _ _ => Below.send h _ _ _) _ _
  case Run o =>
    simp only [Sequence.method, Sequence.Run]
    split
    · exact h _ _ _
    · split
      · exact Below.refl_below _
      · exact Below.andThen (Below.send h _ _ _) (fun _ => Below.send h _ _ _)
  case Success =>
    simp only [Sequence.method, Sequence.Success]
    split
    · exact h _ _ _
    · exact Below.notify h _ _ _
  case Running => exact Below.notify h _ _ _
  case Fail => exact Below.notify h _ _ _
  all_goals exact Below.refl_below _

theorem Priority.method_mono_Priority {f g : Call} (h : CallBelow f g) (a : Nat) (op : Op) (st : State) :
    Below (Priority.method f a op st) (Priority.method g a op st) := by
  cases op
  case Run o =>
    simp only [Priority.method, Priority.Run]
    split
    · split
      · exact Below.refl_below _
      · exact Below.andThen (Below.send h _ _ _) (fun _ =>
          Below.andThen (Below.send h _ _ _) (fun _ => Below.send h _ _ _))
    · exact Below.refl_below _
  case Fail =>
    simp only [Priority.method, Priority.Fail]
    split
    · exact h _ _ _
    · exact Below.notify h _ _ _
  case Running => exact Below.notify h _ _ _
  case Success => exact Below.notify h _ _ _
  all_goals exact Below.refl_below _

theorem BranchNode.method_mono_BranchNode {f g : Call} (h : CallBelow f g) (a : Nat) (op : Op)
    (st : State) : Below (BranchNode.method f a op st) (BranchNode.method g a op st) := by
  cases op
  case Start o => exact Below.refl_below _
  case Run o =>
    simp only [BranchNode.method, BranchNode.Run, BranchNode._run]
    split
    · refine Below.andThen ?_ (fun _ => Below.send h _ _ _)
      split
      · split
        · exact Below.refl_below _
        · exact Below.andThen (Below.send h _ _ _) (fun _ => Below.send h _ _ _)
      · exact Below.refl_below _
    · exact Below.refl_below _
  case Running => exact Below.notify h _ _ _
  case Success => exact Below.andThen (Below.notify h _ _ _) (fun _ => Below.refl_below _)
  case Fail => exact Below.andThen (Below.notify h _ _ _) (fun _ => Below.refl_below _)
  all_goals (simp only [BranchNode.method]; exact BaseNode.method_mono_BaseNode h _ _ _)

theorem Random.method_mono_Random {f g : Call} (h : CallBelow f g) (a : Nat) (op : Op) (st : State) :
    Below (Random.method f a op st) (Random.method g a op st) := by
  cases op
  case Start o =>
    simp only [Random.method, Random.Start]
    refine Below.andThen (h _ _ _) (fun _ => ?_)
    split
    · simp only [randIntn]
      split
      · exact Below.refl_below _
      · exact Below.send h _ _ _
    · exact Below.refl_below _
  case Success => exact Below.andThen (h _ _ _) (fun _ => Below.notify h _ _ _)
  case Fail => exact Below.andThen (h _ _ _) (fun _ => Below.notify h _ _ _)
  all_goals (simp only [Random.method]; exact BranchNode.method_mono_BranchNode h _ _ _)

theorem Decorator.method_mono_Decorator {f g : Call} (h : CallBelow f g) (a : Nat) (op : Op)
    (st : State) : Below (Decorator.method f a op st) (Decorator.method g a op st) := by
  cases op
  case Start o => exact Below.send h _ _ _
  case Finish o => exact Below.send h _ _ _
  case Run o => exact Below.send h _ _ _
  all_goals (simp only [Decorator.method]; exact BaseNode.method_mono_BaseNode h _ _ _)

theorem AlwaysSucceedDecorator.method_mono_AlwaysSucceedDecorator {f g : Call} (h : CallBelow f g) (a : Nat) (op : Op)
    (st : State) :
    Below (AlwaysSucceedDecorator.method f a op st) (AlwaysSucceedDecorator.method g a op st) := by
  cases op
  case Success => exact Below.notify h _ _ _
  case Fail => exact Below.notify h _ _ _
  all_goals (simp only [AlwaysSucceedDecorator.method]; exact Decorator.method_mono_Decorator h _ _ _)

theorem AlwaysFailDecorator.method_mono_AlwaysFailDecorator {f g : Call} (h : CallBelow f g) (a : Nat) (op : Op)
    (st : State) :
    Below (AlwaysFailDecorator.method f a op st) (AlwaysFailDecorator.method g a op st) := by
  cases op
  case Success => exact Below.notify h _ _ _
  case Fail => exact Below.notify h _ _ _
  all_goals (simp only [AlwaysFailDecorator.method]; exact Decorator.method_mono_Decorator h _ _ _)

theorem InvertDecorator.method_mono_InvertDecorator {f g : Call} (h : CallBelow f g) (a : Nat) (op : Op)
    (st : State) :
    Below (InvertDecorator.method f a op st) (InvertDecorator.method g a op st) := by
  cases op
  case Success => exact Below.notify h _ _ _
  case Fail => exact Below.notify h _ _ _
  all_goals (simp only [InvertDecorator.method]; exact Decorator.method_mono_Decorator h _ _ _)

theorem UntilFailDecorator.method_mono_UntilFailDecorator {f g : Call} (h : CallBelow f g) (a : Nat) (op : Op)
    (st : State) :
    Below (UntilFailDecorator.method f a op st) (UntilFailDecorator.method g a op st) := by
  cases op
  case Start o => exact Below.send h _ _ _
  case Run o =>
    simp only [UntilFailDecorator.method, UntilFailDecorator.Run]
    refine Below.andThen ?_ (fun _ => Below.send h _ _ _)
    split
    · exact Below.send h _ _ _
    · exact Below.refl_below _
  case Running => exact Below.notify h _ _ _
  case Success => exact Below.andThen (Below.send h _ _ _) (fun _ => Below.send h _ _ _)
  case Fail => exact Below.andThen (Below.send h _ _ _) (fun _ => Below.notify h _ _ _)
  all_goals (simp only [UntilFailDecorator.method]; exact Decorator.method_mono_Decorator h _ _ _)

theorem BehaviorTree.method_mono_BehaviorTree {f g : Call} (h : CallBelow f g) (a : Nat) (op : Op)
    (st : State) : Below (BehaviorTree.method f a op st) (BehaviorTree.method g a op st) := by
  cases op
  case Run o =>
    exact Below.andThen (Below.send h _ _ _) (fun _ =>
      Below.andThen (Below.send h _ _ _) (fun _ => Below.send h _ _ _))
  case Running => exact Below.andThen (Below.notify h _ _ _) (fun _ => Below.refl_below _)
  case Success => exact Below.andThen (Below.send h _ _ _) (fun _ => Below.notify h _ _ _)
  case Fail => exact Below.andThen (Below.send h _ _ _) (fun _ => Below.notify h _ _ _)
  all_goals exact Below.refl_below _

theorem step_mono {f g : Call} (h : CallBelow f g) : CallBelow (step f) (step g) := by
  intro r op st
  obtain ⟨a, view⟩ := r
  unfold step dispatch
  cases view
  case BaseNode => exact BaseNode.method_mono_BaseNode h _ _ _
  case Task => exact Task.method_mono_Task h _ _ _
  case Sequence => exact Sequence.method_mono_Sequence h _ _ _
  case Priority => exact Priority.method_mono_Priority h _ _ _
  case BranchNode => exact BranchNode.method_mono_BranchNode h _ _ _
  case Random => exact Random.method_mono_Random h _ _ _
  case Decorator => exact Decorator.method_mono_Decorator h _ _ _
  case AlwaysSucceedDecorator => exact AlwaysSucceedDecorator.method_mono_AlwaysSucceedDecorator h _ _ _
  case AlwaysFailDecorator => exact AlwaysFailDecorator.method_mono_AlwaysFailDecorator h _ _ _
  case InvertDecorator => exact InvertDecorator.method_mono_InvertDecorator h _ _ _
  case UntilFailDecorator => exact UntilFailDecorator.method_mono_UntilFailDecorator h _ _ _
  case BehaviorTree => exact BehaviorTree.method_mono_BehaviorTree h _ _ _

theorem invoke_mono_succ : ∀ fuel : Nat, CallBelow (invoke fuel) (invoke (fuel + 1)) := by
  intro fuel
  induction fuel with
  | zero => intro r op st x hx; simp [invoke] at hx
  | succ n ih => exact step_mono ih

theorem invoke_mono {n m : Nat} (hnm : n ≤ m) {r : Ref} {op : Op} {st st' : State}
    (h : invoke n r op st = .ok st') : invoke m r op st = .ok st' := by
  induction hnm with
  | refl => exact h
  | step _ ih => exact invoke_mono_succ _ r op st st' ih

/-! ## Trees: frame lemmas -/

theorem TraceIn.refl_trace (lo hi : Nat) (st : State) : TraceIn lo hi st st :=
  ⟨[], by simp, by simp⟩

theorem TraceIn.trans_trace {lo hi : Nat} {a b c : State} (h1 : TraceIn lo hi a b)
    (h2 : TraceIn lo hi b c) : TraceIn lo hi a c := by
  obtain ⟨E1, he1, hE1⟩ := h1
  obtain ⟨E2, he2, hE2⟩ := h2
  refine ⟨E1 ++ E2, by rw [he2, he1, List.append_assoc], ?_⟩
  intro e he
  rcases List.mem_append.mp he with h | h
  · exact hE1 e h
  · exact hE2 e h

theorem TraceIn.mono_trace {lo hi lo' hi' : Nat} {a b : State} (h : TraceIn lo hi a b)
    (hlo : lo' ≤ lo) (hhi : hi ≤ hi') : TraceIn lo' hi' a b := by
  obtain ⟨E, he, hE⟩ := h
  exact ⟨E, he, fun e hm => ⟨le_trans hlo (hE e hm).1, lt_of_lt_of_le (hE e hm).2 hhi⟩⟩

theorem TraceIn.log {lo hi : Nat} (st : State) (e : Event) (h1 : lo ≤ e.target.id)
    (h2 : e.target.id < hi) : TraceIn lo hi st (st.log e) :=
  ⟨[e], rfl, by simpa using ⟨h1, h2⟩⟩

theorem TraceIn.of_trace_eq {lo hi : Nat} {a b c : State} (h : TraceIn lo hi a b)
    (hc : c.trace = b.trace) : TraceIn lo hi a c := by
  obtain ⟨E, he, hE⟩ := h
  exact ⟨E, by rw [hc, he], hE⟩

theorem HeapOut.refl_heap (lo hi : Nat) (st : State) : HeapOut lo hi st st := fun _ _ => rfl

theorem HeapOut.trans_heap {lo hi : Nat} {a b c : State} (h1 : HeapOut lo hi a b)
    (h2 : HeapOut lo hi b c) : HeapOut lo hi a c :=
  fun x hx => (h2 x hx).trans (h1 x hx)

theorem HeapOut.mono_heap {lo hi lo' hi' : Nat} {a b : State} (h : HeapOut lo hi a b)
    (hlo : lo' ≤ lo) (hhi : hi ≤ hi') : HeapOut lo' hi' a b :=
  fun x hx => h x (by omega)

theorem Tree.size_eq (t : Tree) : t.size = t.span + 1 := rfl

theorem SameLayout.refl_layout (a : NodeObj) : SameLayout a a := ⟨rfl, rfl, rfl, rfl, rfl⟩

theorem SameLayout.of_eq {a b : NodeObj} (h : a = b) : SameLayout a b := by
  rw [h]; exact SameLayout.refl_layout b

theorem SameLayout.trans_layout {a b c : NodeObj} (h1 : SameLayout a b) (h2 : SameLayout b c) :
    SameLayout a c :=
  ⟨h1.1.trans h2.1, h1.2.trans h2.2, h1.3.trans h2.3, h1.4.trans h2.4, h1.5.trans h2.5⟩

theorem Settled.refl_settled (st : State) : Settled st st := ⟨rfl, fun _ => SameLayout.refl_layout _⟩

theorem Settled.trans_settled {a b c : State} (h1 : Settled a b) (h2 : Settled b c) : Settled a c :=
  ⟨h2.1.trans h1.1, fun x => (h2.2 x).trans_layout (h1.2 x)⟩

mutual
theorem Tree.laid_congr_root_tree : ∀ (t : Tree) (n : Nat) (st st' : State),
    (∀ x, n ≤ x → x < n + t.size →
      (st'.heap x).Nodes = (st.heap x).Nodes ∧ (st'.heap x).Node = (st.heap x).Node ∧
      (st'.heap x).RunFunc = (st.heap x).RunFunc ∧
      (x ≠ n + t.span → (st'.heap x).ControlNode = (st.heap x).ControlNode)) →
    t.Laid n st → t.Laid n st'
  | .task f, n, st, st', h, hl => by
    have := h n (le_refl _) (by simp [Tree.size])
    simp only [Tree.Laid] at hl ⊢
    rw [← hl]
    exact this.2.2.1
  | .seq cs, n, st, st', h, hl => by
    simp only [Tree.Laid] at hl ⊢
    have hsz : n + cs.size < n + (Tree.seq cs).size := by simp [Tree.size, Tree.span]
    refine ⟨Forest.laid_congr_root_forest cs n st st' (fun x h1 h2 => ?_) hl.1, ?_⟩
    · have := h x h1 (by omega)
      exact ⟨this.1, this.2.1, this.2.2.1, this.2.2.2 (by simp [Tree.span]; omega)⟩
    · rw [← hl.2]
      exact (h (n + cs.size) (by omega) hsz).1
  | .prio cs, n, st, st', h, hl => by
    simp only [Tree.Laid] at hl ⊢
    have hsz : n + cs.size < n + (Tree.prio cs).size := by simp [Tree.size, Tree.span]
    refine ⟨Forest.laid_congr_root_forest cs n st st' (fun x h1 h2 => ?_) hl.1, ?_⟩
    · have := h x h1 (by omega)
      exact ⟨this.1, this.2.1, this.2.2.1, this.2.2.2 (by simp [Tree.span]; omega)⟩
    · rw [← hl.2]
      exact (h (n + cs.size) (by omega) hsz).1
  | .deco view c, n, st, st', h, hl => by
    simp only [Tree.Laid] at hl ⊢
    have hsz : n + c.size < n + (Tree.deco view c).size := by simp [Tree.size, Tree.span]
    have hsp : (Tree.deco view c).span = c.span + 1 := rfl
    refine ⟨Tree.laid_congr_root_tree c n st st' (fun x h1 h2 => ?_) hl.1, ?_, ?_⟩
    · have := h x h1 (by omega)
      exact ⟨this.1, this.2.1, this.2.2.1, fun _ => this.2.2.2 (by rw [hsp]; simp [Tree.size] at h2; omega)⟩
    · rw [← hl.2.1]
      exact (h (n + c.size) (by omega) hsz).2.1
    · rw [← hl.2.2]
      exact (h (n + c.span) (by omega) (by simp [Tree.size] at hsz ⊢; omega)).2.2.2
        (by rw [hsp]; omega)
theorem Forest.laid_congr_root_forest : ∀ (cs : Forest) (n : Nat) (st st' : State),
    (∀ x, n ≤ x → x < n + cs.size →
      (st'.heap x).Nodes = (st.heap x).Nodes ∧ (st'.heap x).Node = (st.heap x).Node ∧
      (st'.heap x).RunFunc = (st.heap x).RunFunc ∧
      (st'.heap x).ControlNode = (st.heap x).ControlNode) →
    cs.Laid n st → cs.Laid n st'
  | .nil, _, _, _, _, _ => by simp [Forest.Laid]
  | .cons t rest, n, st, st', h, hl => by
    simp only [Forest.Laid] at hl ⊢
    have hsz : (Forest.cons t rest).size = t.size + rest.size := rfl
    refine ⟨Tree.laid_congr_root_tree t n st st' (fun x h1 h2 => ?_) hl.1,
      Forest.laid_congr_root_forest rest (n + t.size) st st' (fun x h1 h2 => h x (by omega) (by omega))
        hl.2⟩
    have := h x h1 (by omega)
    exact ⟨this.1, this.2.1, this.2.2.1, fun _ => this.2.2.2⟩
end

theorem Tree.laid_congr_tree (t : Tree) (n : Nat) (st st' : State)
    (h : ∀ x, n ≤ x → x < n + t.size → SameLayout (st'.heap x) (st.heap x))
    (hl : t.Laid n st) : t.Laid n st' :=
  Tree.laid_congr_root_tree t n st st'
    (fun x h1 h2 => ⟨(h x h1 h2).Nodes, (h x h1 h2).Node, (h x h1 h2).RunFunc,
      fun _ => (h x h1 h2).ControlNode⟩) hl

theorem Forest.laid_congr_forest (cs : Forest) (n : Nat) (st st' : State)
    (h : ∀ x, n ≤ x → x < n + cs.size → SameLayout (st'.heap x) (st.heap x))
    (hl : cs.Laid n st) : cs.Laid n st' :=
  Forest.laid_congr_root_forest cs n st st'
    (fun x h1 h2 => ⟨(h x h1 h2).Nodes, (h x h1 h2).Node, (h x h1 h2).RunFunc,
      (h x h1 h2).ControlNode⟩) hl

mutual
theorem Tree.ready_congr_tree : ∀ (t : Tree) (n : Nat) (st st' : State),
    (∀ x, n ≤ x → x < n + t.size → (st'.heap x).ActualTask = (st.heap x).ActualTask) →
    t.Ready n st → t.Ready n st'
  | .task _, _, _, _, _, _ => by simp [Tree.Ready]
  | .seq cs, n, st, st', h, hr => by
    simp only [Tree.Ready] at hr ⊢
    have hsz : n + cs.size < n + (Tree.seq cs).size := by simp [Tree.size, Tree.span]
    refine ⟨?_, Forest.ready_congr_forest cs n st st' (fun x h1 h2 => h x h1 (by omega)) hr.2⟩
    rw [h (n + cs.size) (by omega) hsz]; exact hr.1
  | .prio cs, n, st, st', h, hr => by
    simp only [Tree.Ready] at hr ⊢
    have hsz : n + cs.size < n + (Tree.prio cs).size := by simp [Tree.size, Tree.span]
    rw [h (n + cs.size) (by omega) hsz]; exact hr
  | .deco view c, n, st, st', h, hr => by
    simp only [Tree.Ready] at hr ⊢
    have hsz : n + c.size < n + (Tree.deco view c).size := by simp [Tree.size, Tree.span]
    exact Tree.ready_congr_tree c n st st' (fun x h1 h2 => h x h1 (by omega)) hr
theorem Forest.ready_congr_forest : ∀ (cs : Forest) (n : Nat) (st st' : State),
    (∀ x, n ≤ x → x < n + cs.size → (st'.heap x).ActualTask = (st.heap x).ActualTask) →
    cs.Ready n st → cs.Ready n st'
  | .nil, _, _, _, _, _ => by simp [Forest.Ready]
  | .cons t rest, n, st, st', h, hr => by
    simp only [Forest.Ready] at hr ⊢
    have hsz : (Forest.cons t rest).size = t.size + rest.size := rfl
    exact ⟨Tree.ready_congr_tree t n st st' (fun x h1 h2 => h x h1 (by omega)) hr.1,
      Forest.ready_congr_forest rest (n + t.size) st st' (fun x h1 h2 => h x (by omega) (by omega))
        hr.2⟩
end

theorem Tree.laid_of_heapOut_tree {t : Tree} {n lo hi : Nat} {st st' : State}
    (h : HeapOut lo hi st st') (hd : n + t.size ≤ lo ∨ hi ≤ n) (hl : t.Laid n st) :
    t.Laid n st' :=
  Tree.laid_congr_tree t n st st' (fun x h1 h2 => SameLayout.of_eq (h x (by omega))) hl

theorem Forest.laid_of_heapOut_forest {cs : Forest} {n lo hi : Nat} {st st' : State}
    (h : HeapOut lo hi st st') (hd : n + cs.size ≤ lo ∨ hi ≤ n) (hl : cs.Laid n st) :
    cs.Laid n st' :=
  Forest.laid_congr_forest cs n st st' (fun x h1 h2 => SameLayout.of_eq (h x (by omega))) hl

theorem Tree.ready_of_heapOut_tree {t : Tree} {n lo hi : Nat} {st st' : State}
    (h : HeapOut lo hi st st') (hd : n + t.size ≤ lo ∨ hi ≤ n) (hl : t.Ready n st) :
    t.Ready n st' :=
  Tree.ready_congr_tree t n st st' (fun x h1 h2 => by rw [h x (by omega)]) hl

theorem Forest.ready_of_heapOut_forest {cs : Forest} {n lo hi : Nat} {st st' : State}
    (h : HeapOut lo hi st st') (hd : n + cs.size ≤ lo ∨ hi ≤ n) (hl : cs.Ready n st) :
    cs.Ready n st' :=
  Forest.ready_congr_forest cs n st st' (fun x h1 h2 => by rw [h x (by omega)]) hl

theorem invoke_Task_Finish (fuel a : Nat) (o : Obj) (st : State) :
    invoke (fuel + 1) ⟨a, .Task⟩ (.Finish o) st = .ok (st.log ⟨⟨a, .Task⟩, .Finish o⟩) := rfl

theorem invoke_Sequence_Finish (fuel a : Nat) (o : Obj) (st : State) :
    invoke (fuel + 1) ⟨a, .Sequence⟩ (.Finish o) st
      = .ok (st.log ⟨⟨a, .Sequence⟩, .Finish o⟩) := rfl

theorem invoke_Priority_Finish (fuel a : Nat) (o : Obj) (st : State) :
    invoke (fuel + 1) ⟨a, .Priority⟩ (.Finish o) st
      = .ok (st.log ⟨⟨a, .Priority⟩, .Finish o⟩) := rfl

theorem invoke_Sequence_Start_children (fuel a : Nat) (o : Obj) (st : State) :
    invoke (fuel + 1) ⟨a, .Sequence⟩ (.Start o) st
      = forEach (st.heap a).Nodes (fun node => send (invoke fuel) node (.Start o))
          ((st.log ⟨⟨a, .Sequence⟩, .Start o⟩).modify a fun n =>
            { n with Object := o, ActualTask := 0 }) := by
  simp only [invoke_succ, step, dispatch, Sequence.method, Sequence.Start, modify_heap_same,
    log_heap]
  congr 1
  simp [State.modify, State.log]

theorem Tree.finish_ok : ∀ (t : Tree) (n : Nat) (o : Obj) (st : State), t.WF → t.Laid n st →
    ∃ st1, (∀ fuel, t.size ≤ fuel → invoke fuel (t.rootRef n) (.Finish o) st = .ok st1) ∧
      st1.heap = st.heap ∧ TraceIn n (n + t.size) st st1
  | .task f, n, o, st, _, _ => by
    refine ⟨st.log ⟨⟨n, .Task⟩, .Finish o⟩, ?_, rfl, TraceIn.log _ _ (by simp) (by simp [Tree.size])⟩
    intro fuel hf
    obtain ⟨F, rfl⟩ : ∃ F, fuel = F + 1 := ⟨fuel - 1, by simp [Tree.size] at hf; omega⟩
    rfl
  | .seq cs, n, o, st, _, _ => by
    refine ⟨st.log ⟨⟨n + cs.size, .Sequence⟩, .Finish o⟩, ?_, rfl,
      TraceIn.log _ _ (by simp) (by simp [Tree.size, Tree.span])⟩
    intro fuel hf
    obtain ⟨F, rfl⟩ : ∃ F, fuel = F + 1 := ⟨fuel - 1, by simp [Tree.size] at hf; omega⟩
    rfl
  | .prio cs, n, o, st, _, _ => by
    refine ⟨st.log ⟨⟨n + cs.size, .Priority⟩, .Finish o⟩, ?_, rfl,
      TraceIn.log _ _ (by simp) (by simp [Tree.size, Tree.span])⟩
    intro fuel hf
    obtain ⟨F, rfl⟩ : ∃ F, fuel = F + 1 := ⟨fuel - 1, by simp [Tree.size] at hf; omega⟩
    rfl
  | .deco view c, n, o, st, hw, hl => by
    simp only [Tree.WF] at hw
    simp only [Tree.Laid] at hl
    obtain ⟨st1, h1, hh, ht⟩ := Tree.finish_ok c n o (st.log ⟨⟨n + c.size, view⟩, .Finish o⟩)
      hw.2 (Tree.laid_congr_tree c n st _ (fun x _ _ => SameLayout.refl_layout _) hl.1)
    refine ⟨st1, ?_, by rw [hh]; rfl, ?_⟩
    · intro fuel hf
      obtain ⟨F, rfl⟩ : ∃ F, fuel = F + 1 := ⟨fuel - 1, by simp [Tree.size] at hf; omega⟩
      have hr : (Tree.deco view c).rootRef n = ⟨n + c.size, view⟩ := rfl
      rw [hr, invoke_translator_Finish _ _ _ hw.1, hl.2.1, send_some]
      exact h1 F (by simp [Tree.size, Tree.span] at hf ⊢; omega)
    · exact TraceIn.trans_trace (TraceIn.log _ _ (by simp) (by simp [Tree.size, Tree.span]))
        (ht.mono_trace (le_refl _) (by simp [Tree.size, Tree.span]))

theorem sameLayout_modify (st : State) (a : Nat) (f : NodeObj → NodeObj)
    (hf : SameLayout (f (st.heap a)) (st.heap a)) (x : Nat) :
    SameLayout ((st.modify a f).heap x) (st.heap x) := by
  by_cases hx : x = a
  · subst hx; simpa using hf
  · simpa [hx] using SameLayout.refl_layout _

theorem heapOut_modify (st : State) (a lo hi : Nat) (f : NodeObj → NodeObj) (h1 : lo ≤ a)
    (h2 : a < hi) : HeapOut lo hi st (st.modify a f) := by
  intro x hx
  exact modify_heap_ne st f (by omega)

theorem heapOut_log_modify (st : State) (e : Event) (a lo hi : Nat) (f : NodeObj → NodeObj)
    (h1 : lo ≤ a) (h2 : a < hi) : HeapOut lo hi st ((st.log e).modify a f) := by
  intro x hx
  exact modify_heap_ne (st.log e) f (by omega)

mutual
theorem Tree.start_ok_tree : ∀ (t : Tree) (n : Nat) (o : Obj) (st : State), t.WF → t.Laid n st →
    ∃ st1, (∀ fuel, t.size ≤ fuel → invoke fuel (t.rootRef n) (.Start o) st = .ok st1) ∧
      (∀ x, SameLayout (st1.heap x) (st.heap x)) ∧ t.Ready n st1 ∧
      HeapOut n (n + t.size) st st1 ∧ TraceIn n (n + t.size) st st1
  | .task f, n, o, st, _, _ => by
    refine ⟨st.log ⟨⟨n, .Task⟩, .Start o⟩, ?_, fun _ => SameLayout.refl_layout _, by simp [Tree.Ready],
      HeapOut.refl_heap _ _ _, TraceIn.log _ _ (by simp) (by simp [Tree.size])⟩
    intro fuel hf
    obtain ⟨F, rfl⟩ : ∃ F, fuel = F + 1 := ⟨fuel - 1, by simp [Tree.size] at hf; omega⟩
    rfl
  | .seq cs, n, o, st, hw, hl => by
    simp only [Tree.WF] at hw
    simp only [Tree.Laid] at hl
    have hlay0 : ∀ x, SameLayout (((st.log ⟨⟨n + cs.size, .Sequence⟩, .Start o⟩).modify
        (n + cs.size) fun m => { m with Object := o, ActualTask := 0 }).heap x) (st.heap x) :=
      fun x => sameLayout_modify _ _ _ ⟨rfl, rfl, rfl, rfl, rfl⟩ x
    obtain ⟨st1, h1, hlay, hrdy, hout, htr⟩ := Forest.start_ok_forest cs n o
      ((st.log ⟨⟨n + cs.size, .Sequence⟩, .Start o⟩).modify (n + cs.size) fun m =>
        { m with Object := o, ActualTask := 0 }) hw
      (Forest.laid_congr_forest cs n st _ (fun x _ _ => hlay0 x) hl.1)
    refine ⟨st1, ?_, fun x => (hlay x).trans_layout (hlay0 x), ?_, ?_, ?_⟩
    · intro fuel hf
      obtain ⟨F, rfl⟩ : ∃ F, fuel = F + 1 := ⟨fuel - 1, by simp [Tree.size] at hf; omega⟩
      have hr : (Tree.seq cs).rootRef n = ⟨n + cs.size, .Sequence⟩ := rfl
      rw [hr, invoke_Sequence_Start_children, hl.2]
      exact h1 F (by simp [Tree.size, Tree.span] at hf; omega)
    · simp only [Tree.Ready]
      refine ⟨?_, hrdy⟩
      rw [hout (n + cs.size) (Or.inr (le_refl _))]
      simp
    · have hsz : n + cs.size < n + (Tree.seq cs).size := by simp [Tree.size, Tree.span]
      exact HeapOut.trans_heap (heapOut_log_modify st _ (n + cs.size) n _ _ (by omega) hsz)
        (hout.mono_heap (le_refl _) (le_of_lt hsz))
    · have hsz : n + cs.size < n + (Tree.seq cs).size := by simp [Tree.size, Tree.span]
      exact TraceIn.trans_trace
        (TraceIn.of_trace_eq (TraceIn.log st _ (by simp) hsz) rfl)
        (htr.mono_trace (le_refl _) (le_of_lt hsz))
  | .prio cs, n, o, st, _, _ => by
    have hsz : n + cs.size < n + (Tree.prio cs).size := by simp [Tree.size, Tree.span]
    refine ⟨(st.log ⟨⟨n + cs.size, .Priority⟩, .Start o⟩).modify (n + cs.size) fun m =>
        { m with Object := o, ActualTask := 0 }, ?_,
      fun x => sameLayout_modify _ _ _ ⟨rfl, rfl, rfl, rfl, rfl⟩ x, by simp [Tree.Ready],
      heapOut_log_modify st _ (n + cs.size) n _ _ (by omega) hsz,
      TraceIn.of_trace_eq (TraceIn.log st _ (by simp) hsz) rfl⟩
    intro fuel hf
    obtain ⟨F, rfl⟩ : ∃ F, fuel = F + 1 := ⟨fuel - 1, by simp [Tree.size] at hf; omega⟩
    exact invoke_Priority_Start F _ o st
  | .deco view c, n, o, st, hw, hl => by
    simp only [Tree.WF] at hw
    simp only [Tree.Laid] at hl
    obtain ⟨st1, h1, hlay, hrdy, hout, htr⟩ := Tree.start_ok_tree c n o
      (st.log ⟨⟨n + c.size, view⟩, .Start o⟩) hw.2
      (Tree.laid_congr_tree c n st _ (fun x _ _ => SameLayout.refl_layout _) hl.1)
    have hsz : n + c.size < n + (Tree.deco view c).size := by simp [Tree.size, Tree.span]
    refine ⟨st1, ?_, hlay, hrdy, hout.mono_heap (le_refl _) (le_of_lt hsz), ?_⟩
    · intro fuel hf
      obtain ⟨F, rfl⟩ : ∃ F, fuel = F + 1 := ⟨fuel - 1, by simp [Tree.size] at hf; omega⟩
      have hr : (Tree.deco view c).rootRef n = ⟨n + c.size, view⟩ := rfl
      rw [hr, invoke_translator_Start _ _ _ hw.1, hl.2.1, send_some]
      exact h1 F (by simp [Tree.size, Tree.span] at hf ⊢; omega)
    · exact TraceIn.trans_trace (TraceIn.log _ _ (by simp) hsz)
        (htr.mono_trace (le_refl _) (le_of_lt hsz))
theorem Forest.start_ok_forest : ∀ (cs : Forest) (n : Nat) (o : Obj) (st : State), cs.WF →
    cs.Laid n st →
    ∃ st1, (∀ fuel, cs.size ≤ fuel →
        forEach (cs.refs n) (fun node => send (invoke fuel) node (.Start o)) st = .ok st1) ∧
      (∀ x, SameLayout (st1.heap x) (st.heap x)) ∧ cs.Ready n st1 ∧
      HeapOut n (n + cs.size) st st1 ∧ TraceIn n (n + cs.size) st st1
  | .nil, n, o, st, _, _ =>
    ⟨st, fun _ _ => rfl, fun _ => SameLayout.refl_layout _, by simp [Forest.Ready], HeapOut.refl_heap _ _ _,
      TraceIn.refl_trace _ _ _⟩
  | .cons t rest, n, o, st, hw, hl => by
    simp only [Forest.WF] at hw
    simp only [Forest.Laid] at hl
    obtain ⟨st1, h1, hlay1, hrdy1, hout1, htr1⟩ := Tree.start_ok_tree t n o st hw.1 hl.1
    obtain ⟨st2, h2, hlay2, hrdy2, hout2, htr2⟩ := Forest.start_ok_forest rest (n + t.size) o st1 hw.2
      (Forest.laid_congr_forest rest _ st _ (fun x _ _ => hlay1 x) hl.2)
    have hsz : (Forest.cons t rest).size = t.size + rest.size := rfl
    refine ⟨st2, ?_, fun x => (hlay2 x).trans_layout (hlay1 x), ?_, ?_, ?_⟩
    · intro fuel hf
      simp only [Forest.refs, forEach, send_some]
      rw [h1 fuel (by omega), andThen_ok]
      exact h2 fuel (by omega)
    · simp only [Forest.Ready]
      exact ⟨Tree.ready_of_heapOut_tree hout2 (Or.inl (le_refl _)) hrdy1, hrdy2⟩
    · exact HeapOut.trans_heap (hout1.mono_heap (le_refl _) (by omega)) (hout2.mono_heap (by omega) (by omega))
    · exact TraceIn.trans_trace (htr1.mono_trace (le_refl _) (by omega)) (htr2.mono_trace (by omega) (by omega))
end

theorem index_of_drop (l : List (Option Ref)) (i : Nat) (x : Option Ref) (tl : List (Option Ref))
    (h : l.drop i = x :: tl) :
    index l (i : Int) = .ok x ∧ l.drop (i + 1) = tl ∧ l.length = i + 1 + tl.length := by
  have hlen : l.length = i + 1 + tl.length := by
    have := congrArg List.length h
    simp at this
    omega
  have hget : l[i]? = some x := by
    have := congrArg (fun m => m[0]?) h
    simpa [List.getElem?_drop] using this
  have hdrop : l.drop (i + 1) = tl := by
    have := congrArg (List.drop 1) h
    simpa [List.drop_drop, Nat.add_comm] using this
  refine ⟨?_, hdrop, hlen⟩
  have h0 : ¬ ((i : Int) < 0) := by omega
  simp only [index, h0, if_false, Int.toNat_ofNat, hget]

theorem settled_modify (st : State) (a : Nat) (f : NodeObj → NodeObj)
    (hf : SameLayout (f (st.heap a)) (st.heap a)) : Settled st (st.modify a f) :=
  ⟨rfl, sameLayout_modify st a f hf⟩

theorem Tree.run_task (f : StepFn) (n : Nat) (o : Obj) (st : State) (c : Ref)
    (hw : (Tree.task f).WF) (hl : (Tree.task f).Laid n st)
    (hc : (st.heap n).ControlNode = some c) :
    RunsOk ((Tree.task f).rootRef n) n (n + (Tree.task f).size) o st c
      ((Tree.task f).Laid n) := by
  simp only [Tree.WF] at hw
  simp only [Tree.Laid] at hl
  obtain ⟨v, hv⟩ := hw (st.heap n).calls o
  have hV : childSignals st n o = [v] := by simp [childSignals, hl, hv]
  refine ⟨v, ((st.log ⟨⟨n, .Task⟩, .Run o⟩).modify n fun m =>
      { m with calls := (st.heap n).calls + 1 }).log ⟨⟨n, .Task⟩, v.toOp⟩, 2, ?_, ?_, ?_, ?_, ?_⟩
  · intro G st2 h2
    refine ⟨st2.modify n fun m => { m with RunCalled := true }, ?_,
      settled_modify _ _ _ ⟨rfl, rfl, rfl, rfl, rfl⟩⟩
    intro fuel hf
    apply invoke_mono hf
    have hr : (Tree.task f).rootRef n = ⟨n, .Task⟩ := rfl
    rw [hr, invoke_Task_Run G n o v st hV (by simp [hl]), hc, notify_some, h2]
    rfl
  · simp [Tree.Laid, hl]
  · intro x hx
    have : x ≠ n := by simp [Tree.size, Tree.span] at hx; omega
    simp [this]
  · refine ⟨[⟨⟨n, .Task⟩, .Run o⟩, ⟨⟨n, .Task⟩, v.toOp⟩], by simp, ?_⟩
    intro e he
    simp only [List.mem_cons, List.mem_singleton, List.not_mem_nil, or_false] at he
    rcases he with rfl | rfl <;> simp [Tree.size]
  · simpa [Tree.rootRef, Tree.span] using hc

theorem Tree.run_deco (view : Kind) (c : Tree) (n : Nat) (o : Obj) (st : State) (cc : Ref)
    (hview : view.isTranslator = true) (hl : (Tree.deco view c).Laid n st)
    (hc : (st.heap (n + c.size)).ControlNode = some cc)
    (ih : RunsOk (c.rootRef n) n (n + c.size) o (st.log ⟨⟨n + c.size, view⟩, .Run o⟩)
      ⟨n + c.size, view⟩ (c.Laid n)) :
    RunsOk ((Tree.deco view c).rootRef n) n (n + (Tree.deco view c).size) o st cc
      ((Tree.deco view c).Laid n) := by
  simp only [Tree.Laid] at hl
  obtain ⟨v0, st1, d0, hrep, hlaid, hout, htr, hctl⟩ := ih
  have hsz : n + c.size < n + (Tree.deco view c).size := by simp [Tree.size, Tree.span]
  have hr : (Tree.deco view c).rootRef n = ⟨n + c.size, view⟩ := rfl
  have h1a : st1.heap (n + c.size) = st.heap (n + c.size) := hout _ (Or.inr (le_refl _))
  refine ⟨verdictMap view v0, st1.log ⟨⟨n + c.size, view⟩, v0.toOp⟩, d0 + 2, ?_, ?_, ?_, ?_, ?_⟩
  · intro G st2 h2
    have hh : invoke (G + 1) ⟨n + c.size, view⟩ v0.toOp st1 = .ok st2 := by
      rw [invoke_translator_signal _ _ _ hview, h1a, hc, notify_some]
      exact h2
    obtain ⟨st3, h3, hset⟩ := hrep (G + 1) st2 hh
    refine ⟨st3, ?_, hset⟩
    intro fuel hf
    obtain ⟨F, rfl⟩ : ∃ F, fuel = F + 1 := ⟨fuel - 1, by omega⟩
    rw [hr, invoke_translator_Run _ _ _ hview, hl.2.1, send_some]
    exact h3 F (by omega)
  · simp only [Tree.Laid]
    refine ⟨Tree.laid_congr_tree c n st1 _ (fun x _ _ => SameLayout.refl_layout _) hlaid, ?_, ?_⟩
    · rw [log_heap, h1a]; exact hl.2.1
    · rw [log_heap]; exact hctl
  · exact HeapOut.trans_heap (hout.mono_heap (le_refl _) (le_of_lt hsz)) (fun x _ => rfl)
  · exact TraceIn.trans_trace
      (TraceIn.trans_trace (TraceIn.log st _ (by simp) hsz) (htr.mono_trace (le_refl _) (le_of_lt hsz)))
      (TraceIn.log _ _ (by simp) hsz)
  · rw [hr, log_heap, h1a]; exact hc

theorem Forest.refs_cons (t : Tree) (rest : Forest) (m : Nat) :
    (Forest.cons t rest).refs m = some (t.rootRef m) :: rest.refs (m + t.size) := rfl

theorem Forest.refs_length_pos : ∀ (cs : Forest) (m : Nat), cs ≠ .nil → 0 < (cs.refs m).length
  | .nil, _, h => absurd rfl h
  | .cons _ _, _, _ => by simp [Forest.refs]

theorem Forest.size_cons (t : Tree) (rest : Forest) :
    (Forest.cons t rest).size = t.size + rest.size := rfl

/-- One step of a `Sequence` over trees: the child at the cursor runs and reports; on
`Success` the remaining children take over, otherwise the verdict goes to the control. -/
theorem seq_step (t : Tree) (rest : Forest) (m a i : Nat) (o : Obj) (st : State) (c : Ref)
    (hl : (Forest.cons t rest).Laid m st) (hrdy : (Forest.cons t rest).Ready m st)
    (hma : m + (Forest.cons t rest).size ≤ a)
    (hA : (st.heap a).ActualTask = (i : Int))
    (hN : (st.heap a).Nodes.drop i = (Forest.cons t rest).refs m)
    (hC : (st.heap a).ControlNode = some c)
    (hchild : ∀ sta, t.Laid m sta → t.Ready m sta →
      (sta.heap (m + t.span)).ControlNode = some ⟨a, .Sequence⟩ →
      RunsOk (t.rootRef m) m (m + t.size) o sta ⟨a, .Sequence⟩ (t.Laid m))
    (hrest : rest ≠ .nil → ∀ st' o', rest.Laid (m + t.size) st' → rest.Ready (m + t.size) st' →
      (st'.heap a).ActualTask = ((i + 1 : Nat) : Int) →
      (st'.heap a).Nodes.drop (i + 1) = rest.refs (m + t.size) →
      (st'.heap a).ControlNode = some c →
      RunsOk ⟨a, .Sequence⟩ (m + t.size) (a + 1) o' st' c
        (fun st1 => rest.Laid (m + t.size) st1 ∧ (st1.heap a).Nodes = (st'.heap a).Nodes)) :
    RunsOk ⟨a, .Sequence⟩ m (a + 1) o st c
      (fun st1 => (Forest.cons t rest).Laid m st1 ∧ (st1.heap a).Nodes = (st.heap a).Nodes) := by
  simp only [Forest.Laid] at hl
  simp only [Forest.Ready] at hrdy
  rw [Forest.size_cons] at hma
  rw [Forest.refs_cons] at hN
  obtain ⟨hidx, hdrop, hlen⟩ := index_of_drop _ _ _ _ hN
  have hsz : t.size = t.span + 1 := rfl
  have hra : m + t.span ≠ a := by omega
  have hrid : (t.rootRef m).id = m + t.span := rfl
  -- the state in which the child is run
  generalize hsta : (((st.log ⟨⟨a, .Sequence⟩, .Run o⟩).log
      ⟨t.rootRef m, .SetControl (some ⟨a, .Sequence⟩)⟩).modify (t.rootRef m).id fun n =>
      { n with ControlNode := some ⟨a, .Sequence⟩ }) = sta
  have hrun : ∀ F, invoke (F + 2) ⟨a, .Sequence⟩ (.Run o) st
      = invoke (F + 1) (t.rootRef m) (.Run o) sta := by
    intro F
    rw [invoke_Sequence_Run_child F a o st (t.rootRef m) (by rw [hlen, hA]; omega)
      (by rw [hA]; exact hidx), hsta]
  have hao : ∀ x, x ≠ m + t.span → sta.heap x = st.heap x := by
    intro x hx; subst hsta; rw [hrid]; simp [hx]
  have har : sta.heap (m + t.span)
      = { st.heap (m + t.span) with ControlNode := some ⟨a, .Sequence⟩ } := by
    subst hsta; rw [hrid]; simp
  have hatr : TraceIn m (a + 1) st sta := by
    subst hsta
    exact TraceIn.of_trace_eq (TraceIn.trans_trace (TraceIn.log st _ (by simp; omega) (by simp))
      (TraceIn.log _ _ (by rw [hrid]; omega) (by rw [hrid]; omega))) rfl
  have hlaida : t.Laid m sta := by
    refine Tree.laid_congr_root_tree t m st sta (fun x _ _ => ?_) hl.1
    by_cases hx : x = m + t.span
    · subst hx; rw [har]; exact ⟨rfl, rfl, rfl, fun h => absurd rfl h⟩
    · rw [hao x hx]; exact ⟨rfl, rfl, rfl, fun _ => rfl⟩
  have hrdya : t.Ready m sta := by
    refine Tree.ready_congr_tree t m st sta (fun x _ _ => ?_) hrdy.1
    by_cases hx : x = m + t.span
    · subst hx; rw [har]
    · rw [hao x hx]
  obtain ⟨v0, st1, d0, hrep, hlaid1, hout1, htr1, hctl1⟩ :=
    hchild sta hlaida hrdya (by rw [har])
  have h1o : ∀ x, (x < m ∨ m + t.size ≤ x) → st1.heap x = st.heap x := by
    intro x hx
    rw [hout1 x hx, hao x (by omega)]
  have h1a : st1.heap a = st.heap a := h1o a (Or.inr (by omega))
  have h1tr : TraceIn m (a + 1) st st1 :=
    TraceIn.trans_trace hatr (htr1.mono_trace (le_refl _) (by omega))
  have hrestLaid1 : rest.Laid (m + t.size) st1 :=
    Forest.laid_congr_forest rest _ st st1 (fun x h1 _ => SameLayout.of_eq (h1o x (Or.inr h1))) hl.2
  have hrestRdy1 : rest.Ready (m + t.size) st1 :=
    Forest.ready_congr_forest rest _ st st1 (fun x h1 _ => by rw [h1o x (Or.inr h1)]) hrdy.2
  -- a verdict other than Success, and Success of the last child, go to the control
  have hup : ∀ (v : Signal) (st1' : State) (_ : HeapOut a (a + 1) st1 st1')
      (_ : TraceIn a (a + 1) st1 st1') (_ : (st1'.heap a).ControlNode = some c)
      (_ : (st1'.heap a).Nodes = (st.heap a).Nodes)
      (_ : ∀ G, invoke (G + 1) ⟨a, .Sequence⟩ v0.toOp st1
        = notify (invoke G) (some c) v.toOp st1'),
      RunsOk ⟨a, .Sequence⟩ m (a + 1) o st c
        (fun st1 => (Forest.cons t rest).Laid m st1 ∧ (st1.heap a).Nodes = (st.heap a).Nodes) := by
    intro v st1' ho ht hcc hnn heq
    refine ⟨v, st1', d0 + 2, ?_, ⟨?_, hnn⟩, ?_, TraceIn.trans_trace h1tr (ht.mono_trace (by omega) (le_refl _)),
      hcc⟩
    · intro G st2 h2
      obtain ⟨st3, h3, hset⟩ := hrep (G + 1) st2 (by rw [heq, notify_some]; exact h2)
      refine ⟨st3, ?_, hset⟩
      intro fuel hf
      obtain ⟨F, rfl⟩ : ∃ F, fuel = F + 2 := ⟨fuel - 2, by omega⟩
      rw [hrun]
      exact h3 (F + 1) (by omega)
    · simp only [Forest.Laid]
      exact ⟨Tree.laid_of_heapOut_tree ho (Or.inl (by omega)) hlaid1,
        Forest.laid_of_heapOut_forest ho (Or.inl (by omega)) hrestLaid1⟩
    · intro x hx
      rw [ho x (by omega), h1o x (by omega)]
  cases v0 with
  | Running =>
    refine hup .Running (st1.log ⟨⟨a, .Sequence⟩, .Running⟩) (fun _ _ => rfl)
      (TraceIn.log _ _ (by simp) (by simp)) (by rw [log_heap, h1a, hC]) (by rw [log_heap, h1a])
      (fun G => ?_)
    rw [Signal.toOp, invoke_Sequence_Running, h1a, hC]
  | Fail =>
    refine hup .Fail (st1.log ⟨⟨a, .Sequence⟩, .Fail⟩) (fun _ _ => rfl)
      (TraceIn.log _ _ (by simp) (by simp)) (by rw [log_heap, h1a, hC]) (by rw [log_heap, h1a])
      (fun G => ?_)
    rw [Signal.toOp, invoke_Sequence_Fail, h1a, hC]
  | Success =>
    generalize hst1' : ((st1.log ⟨⟨a, .Sequence⟩, .Success⟩).modify a fun n =>
      { n with ActualTask := n.ActualTask + 1 }) = st1'
    have h1'a : st1'.heap a = { st.heap a with ActualTask := (st.heap a).ActualTask + 1 } := by
      subst hst1'; simp [h1a]
    have h1'o : HeapOut a (a + 1) st1 st1' := by
      subst hst1'; exact heapOut_log_modify st1 _ a a (a + 1) _ (le_refl _) (by omega)
    have h1't : TraceIn a (a + 1) st1 st1' := by
      subst hst1'
      exact TraceIn.of_trace_eq (TraceIn.log st1 _ (by simp) (by simp)) rfl
    by_cases hr : rest = .nil
    · subst hr
      refine hup .Success st1' h1'o h1't (by rw [h1'a]; exact hC) (by rw [h1'a]) (fun G => ?_)
      rw [Signal.toOp, invoke_Sequence_Success_last G a st1
        (by rw [h1a, hlen, hA]; simp [Forest.refs]), h1a, hC, hst1']
    · have hpos := Forest.refs_length_pos rest (m + t.size) hr
      have hnext : ∀ G, invoke (G + 1) ⟨a, .Sequence⟩ .Success st1
          = invoke G ⟨a, .Sequence⟩ (.Run (st1.heap a).Object) st1' := by
        intro G
        rw [invoke_Sequence_Success_next G a st1 (by rw [h1a, hlen, hA]; push_cast; omega), hst1']
      obtain ⟨v, st1s, ds, hreps, ⟨hlaids, hnodes⟩, houts, htrs, hctls⟩ :=
        hrest hr st1' (st1.heap a).Object
          (Forest.laid_of_heapOut_forest h1'o (Or.inl (by omega)) hrestLaid1)
          (Forest.ready_of_heapOut_forest h1'o (Or.inl (by omega)) hrestRdy1)
          (by rw [h1'a]; simp [hA])
          (by rw [h1'a]; exact hdrop)
          (by rw [h1'a]; exact hC)
      refine ⟨v, st1s, ds + d0 + 3, ?_, ⟨?_, ?_⟩, ?_, ?_, hctls⟩
      · intro G st2 h2
        obtain ⟨st3', h3', hset'⟩ := hreps G st2 h2
        obtain ⟨st3, h3, hset⟩ := hrep (G + ds + 1) st3'
          (by rw [Signal.toOp, hnext]; exact h3' (G + ds) (le_refl _))
        refine ⟨st3, ?_, hset'.trans_settled hset⟩
        intro fuel hf
        obtain ⟨F, rfl⟩ : ∃ F, fuel = F + 2 := ⟨fuel - 2, by omega⟩
        rw [hrun]
        exact h3 (F + 1) (by omega)
      · simp only [Forest.Laid]
        refine ⟨?_, hlaids⟩
        exact Tree.laid_of_heapOut_tree houts (Or.inl (le_refl _))
          (Tree.laid_of_heapOut_tree h1'o (Or.inl (by omega)) hlaid1)
      · rw [hnodes, h1'a]
      · intro x hx
        rw [houts x (by omega), h1'o x (by omega), h1o x (by omega)]
      · exact TraceIn.trans_trace h1tr
          (TraceIn.trans_trace (h1't.mono_trace (by omega) (le_refl _)) (htrs.mono_trace (by omega) (le_refl _)))

/-- One step of a `Priority` over trees: the child at the cursor is started, runs and
reports; on `Fail` the remaining children take over, otherwise the verdict goes to the
control. -/
theorem prio_step (t : Tree) (rest : Forest) (m a i : Nat) (o : Obj) (st : State) (c : Ref)
    (hw : t.WF) (hl : (Forest.cons t rest).Laid m st)
    (hma : m + (Forest.cons t rest).size ≤ a)
    (hA : (st.heap a).ActualTask = (i : Int))
    (hN : (st.heap a).Nodes.drop i = (Forest.cons t rest).refs m)
    (hC : (st.heap a).ControlNode = some c)
    (hchild : ∀ stb, t.Laid m stb → t.Ready m stb →
      (stb.heap (m + t.span)).ControlNode = some ⟨a, .Priority⟩ →
      RunsOk (t.rootRef m) m (m + t.size) o stb ⟨a, .Priority⟩ (t.Laid m))
    (hrest : rest ≠ .nil → ∀ st' o', rest.Laid (m + t.size) st' →
      (st'.heap a).ActualTask = ((i + 1 : Nat) : Int) →
      (st'.heap a).Nodes.drop (i + 1) = rest.refs (m + t.size) →
      (st'.heap a).ControlNode = some c →
      RunsOk ⟨a, .Priority⟩ (m + t.size) (a + 1) o' st' c
        (fun st1 => rest.Laid (m + t.size) st1 ∧ (st1.heap a).Nodes = (st'.heap a).Nodes)) :
    RunsOk ⟨a, .Priority⟩ m (a + 1) o st c
      (fun st1 => (Forest.cons t rest).Laid m st1 ∧ (st1.heap a).Nodes = (st.heap a).Nodes) := by
  simp only [Forest.Laid] at hl
  rw [Forest.size_cons] at hma
  rw [Forest.refs_cons] at hN
  obtain ⟨hidx, hdrop, hlen⟩ := index_of_drop _ _ _ _ hN
  have hsz : t.size = t.span + 1 := rfl
  have hra : m + t.span ≠ a := by omega
  have hrid : (t.rootRef m).id = m + t.span := rfl
  -- the state in which the child is started
  generalize hsta : (((st.log ⟨⟨a, .Priority⟩, .Run o⟩).log
      ⟨t.rootRef m, .SetControl (some ⟨a, .Priority⟩)⟩).modify (t.rootRef m).id fun n =>
      { n with ControlNode := some ⟨a, .Priority⟩ }) = sta
  have hao : ∀ x, x ≠ m + t.span → sta.heap x = st.heap x := by
    intro x hx; subst hsta; rw [hrid]; simp [hx]
  have har : sta.heap (m + t.span)
      = { st.heap (m + t.span) with ControlNode := some ⟨a, .Priority⟩ } := by
    subst hsta; rw [hrid]; simp
  have hatr : TraceIn m (a + 1) st sta := by
    subst hsta
    exact TraceIn.of_trace_eq (TraceIn.trans_trace (TraceIn.log st _ (by simp; omega) (by simp))
      (TraceIn.log _ _ (by rw [hrid]; omega) (by rw [hrid]; omega))) rfl
  have hlaida : t.Laid m sta := by
    refine Tree.laid_congr_root_tree t m st sta (fun x _ _ => ?_) hl.1
    by_cases hx : x = m + t.span
    · subst hx; rw [har]; exact ⟨rfl, rfl, rfl, fun h => absurd rfl h⟩
    · rw [hao x hx]; exact ⟨rfl, rfl, rfl, fun _ => rfl⟩
  -- the state in which the child is run
  obtain ⟨stb, hstart, hlayb, hrdyb, houtb, htrb⟩ := Tree.start_ok_tree t m o sta hw hlaida
  have hrun : ∀ F, t.size ≤ F + 1 → invoke (F + 2) ⟨a, .Priority⟩ (.Run o) st
      = invoke (F + 1) (t.rootRef m) (.Run o) stb := by
    intro F hF
    rw [invoke_Priority_Run_child F a o st (t.rootRef m) (by rw [hlen, hA]; omega)
      (by rw [hA]; exact hidx), hsta, hstart (F + 1) hF, andThen_ok]
  obtain ⟨v0, st1, d0, hrep, hlaid1, hout1, htr1, hctl1⟩ :=
    hchild stb (Tree.laid_congr_tree t m sta stb (fun x _ _ => hlayb x) hlaida) hrdyb
      (by rw [(hlayb (m + t.span)).ControlNode, har])
  have h1o : ∀ x, (x < m ∨ m + t.size ≤ x) → st1.heap x = st.heap x := by
    intro x hx
    rw [hout1 x hx, houtb x hx, hao x (by omega)]
  have h1a : st1.heap a = st.heap a := h1o a (Or.inr (by omega))
  have h1tr : TraceIn m (a + 1) st st1 :=
    TraceIn.trans_trace hatr (TraceIn.trans_trace (htrb.mono_trace (le_refl _) (by omega))
      (htr1.mono_trace (le_refl _) (by omega)))
  have hrestLaid1 : rest.Laid (m + t.size) st1 :=
    Forest.laid_congr_forest rest _ st st1 (fun x h1 _ => SameLayout.of_eq (h1o x (Or.inr h1))) hl.2
  -- a verdict other than Fail, and Fail of the last child, go to the control
  have hup : ∀ (v : Signal) (st1' : State) (_ : HeapOut a (a + 1) st1 st1')
      (_ : TraceIn a (a + 1) st1 st1') (_ : (st1'.heap a).ControlNode = some c)
      (_ : (st1'.heap a).Nodes = (st.heap a).Nodes)
      (_ : ∀ G, invoke (G + 1) ⟨a, .Priority⟩ v0.toOp st1
        = notify (invoke G) (some c) v.toOp st1'),
      RunsOk ⟨a, .Priority⟩ m (a + 1) o st c
        (fun st1 => (Forest.cons t rest).Laid m st1 ∧ (st1.heap a).Nodes = (st.heap a).Nodes) := by
    intro v st1' ho ht hcc hnn heq
    refine ⟨v, st1', d0 + 2 + t.size, ?_, ⟨?_, hnn⟩, ?_,
      TraceIn.trans_trace h1tr (ht.mono_trace (by omega) (le_refl _)), hcc⟩
    · intro G st2 h2
      obtain ⟨st3, h3, hset⟩ := hrep (G + 1) st2 (by rw [heq, notify_some]; exact h2)
      refine ⟨st3, ?_, hset⟩
      intro fuel hf
      obtain ⟨F, rfl⟩ : ∃ F, fuel = F + 2 := ⟨fuel - 2, by omega⟩
      rw [hrun F (by omega)]
      exact h3 (F + 1) (by omega)
    · simp only [Forest.Laid]
      exact ⟨Tree.laid_of_heapOut_tree ho (Or.inl (by omega)) hlaid1,
        Forest.laid_of_heapOut_forest ho (Or.inl (by omega)) hrestLaid1⟩
    · intro x hx
      rw [ho x (by omega), h1o x (by omega)]
  cases v0 with
  | Running =>
    refine hup .Running (st1.log ⟨⟨a, .Priority⟩, .Running⟩) (fun _ _ => rfl)
      (TraceIn.log _ _ (by simp) (by simp)) (by rw [log_heap, h1a, hC]) (by rw [log_heap, h1a])
      (fun G => ?_)
    rw [Signal.toOp, invoke_Priority_Running, h1a, hC]
  | Success =>
    refine hup .Success (st1.log ⟨⟨a, .Priority⟩, .Success⟩) (fun _ _ => rfl)
      (TraceIn.log _ _ (by simp) (by simp)) (by rw [log_heap, h1a, hC]) (by rw [log_heap, h1a])
      (fun G => ?_)
    rw [Signal.toOp, invoke_Priority_Success, h1a, hC]
  | Fail =>
    generalize hst1' : ((st1.log ⟨⟨a, .Priority⟩, .Fail⟩).modify a fun n =>
      { n with ActualTask := n.ActualTask + 1 }) = st1'
    have h1'a : st1'.heap a = { st.heap a with ActualTask := (st.heap a).ActualTask + 1 } := by
      subst hst1'; simp [h1a]
    have h1'o : HeapOut a (a + 1) st1 st1' := by
      subst hst1'; exact heapOut_log_modify st1 _ a a (a + 1) _ (le_refl _) (by omega)
    have h1't : TraceIn a (a + 1) st1 st1' := by
      subst hst1'
      exact TraceIn.of_trace_eq (TraceIn.log st1 _ (by simp) (by simp)) rfl
    by_cases hr : rest = .nil
    · subst hr
      refine hup .Fail st1' h1'o h1't (by rw [h1'a]; exact hC) (by rw [h1'a]) (fun G => ?_)
      rw [Signal.toOp, invoke_Priority_Fail_last G a st1
        (by rw [h1a, hlen, hA]; simp [Forest.refs]), h1a, hC, hst1']
    · have hpos := Forest.refs_length_pos rest (m + t.size) hr
      have hnext : ∀ G, invoke (G + 1) ⟨a, .Priority⟩ .Fail st1
          = invoke G ⟨a, .Priority⟩ (.Run (st1.heap a).Object) st1' := by
        intro G
        rw [invoke_Priority_Fail_next G a st1 (by rw [h1a, hlen, hA]; push_cast; omega), hst1']
      obtain ⟨v, st1s, ds, hreps, ⟨hlaids, hnodes⟩, houts, htrs, hctls⟩ :=
        hrest hr st1' (st1.heap a).Object
          (Forest.laid_of_heapOut_forest h1'o (Or.inl (by omega)) hrestLaid1)
          (by rw [h1'a]; simp [hA])
          (by rw [h1'a]; exact hdrop)
          (by rw [h1'a]; exact hC)
      refine ⟨v, st1s, ds + d0 + 3 + t.size, ?_, ⟨?_, ?_⟩, ?_, ?_, hctls⟩
      · intro G st2 h2
        obtain ⟨st3', h3', hset'⟩ := hreps G st2 h2
        obtain ⟨st3, h3, hset⟩ := hrep (G + ds + 1) st3'
          (by rw [Signal.toOp, hnext]; exact h3' (G + ds) (le_refl _))
        refine ⟨st3, ?_, hset'.trans_settled hset⟩
        intro fuel hf
        obtain ⟨F, rfl⟩ : ∃ F, fuel = F + 2 := ⟨fuel - 2, by omega⟩
        rw [hrun F (by omega)]
        exact h3 (F + 1) (by omega)
      · simp only [Forest.Laid]
        refine ⟨?_, hlaids⟩
        exact Tree.laid_of_heapOut_tree houts (Or.inl (le_refl _))
          (Tree.laid_of_heapOut_tree h1'o (Or.inl (by omega)) hlaid1)
      · rw [hnodes, h1'a]
      · intro x hx
        rw [houts x (by omega), h1'o x (by omega), h1o x (by omega)]
      · exact TraceIn.trans_trace h1tr
          (TraceIn.trans_trace (h1't.mono_trace (by omega) (le_refl _)) (htrs.mono_trace (by omega) (le_refl _)))

theorem RunsOk.imp {r : Ref} {lo hi : Nat} {o : Obj} {st : State} {c : Ref}
    {P Q : State → Prop} (h : RunsOk r lo hi o st c P) (hPQ : ∀ s, P s → Q s) :
    RunsOk r lo hi o st c Q := by
  obtain ⟨v, st1, d, h1, h2, h3, h4, h5⟩ := h
  exact ⟨v, st1, d, h1, hPQ st1 h2, h3, h4, h5⟩

theorem Tree.run_seq_nil (n : Nat) (o : Obj) (st : State) (c : Ref)
    (hl : (Tree.seq .nil).Laid n st) (hrdy : (Tree.seq .nil).Ready n st)
    (hc : (st.heap n).ControlNode = some c) :
    RunsOk ((Tree.seq .nil).rootRef n) n (n + (Tree.seq .nil).size) o st c
      ((Tree.seq .nil).Laid n) := by
  simp only [Tree.Laid, Forest.Laid, Forest.size, Forest.refs, Nat.add_zero, true_and] at hl
  simp only [Tree.Ready, Forest.Ready, Forest.size, Nat.add_zero, and_true] at hrdy
  have hr : (Tree.seq .nil).rootRef n = ⟨n, .Sequence⟩ := rfl
  have hsz : (Tree.seq .nil).size = 1 := rfl
  rw [hr, hsz]
  refine ⟨.Success, ((st.log ⟨⟨n, .Sequence⟩, .Run o⟩).log ⟨⟨n, .Sequence⟩, .Success⟩).modify n
    fun m => { m with ActualTask := m.ActualTask + 1 }, 2, ?_, ?_, ?_, ?_, ?_⟩
  · intro G st2 h2
    refine ⟨st2, ?_, Settled.refl_settled _⟩
    intro fuel hf
    apply invoke_mono hf
    rw [show G + 2 = (G + 1) + 1 from rfl,
      invoke_Sequence_Run_end _ _ _ _ (by simp [hl, hrdy]),
      invoke_Sequence_Success_last _ _ _ (by simp [hl, hrdy]), log_heap, hc, notify_some]
    exact h2
  · simp [Tree.Laid, Forest.Laid, Forest.size, Forest.refs, hl]
  · intro x hx
    have : x ≠ n := by omega
    simp [this]
  · refine ⟨[⟨⟨n, .Sequence⟩, .Run o⟩, ⟨⟨n, .Sequence⟩, .Success⟩], by simp, ?_⟩
    intro e he
    simp only [List.mem_cons, List.mem_singleton, List.not_mem_nil, or_false] at he
    rcases he with rfl | rfl <;> simp
  · simpa using hc

mutual
theorem Tree.run_ok : ∀ (t : Tree) (n : Nat) (o : Obj) (st : State) (c : Ref), t.WF →
    t.Laid n st → t.Ready n st → (st.heap (n + t.span)).ControlNode = some c →
    RunsOk (t.rootRef n) n (n + t.size) o st c (t.Laid n)
  | .task f, n, o, st, c, hw, hl, _, hc => Tree.run_task f n o st c hw hl hc
  | .deco view ch, n, o, st, c, hw, hl, hrdy, hc =>
    Tree.run_deco view ch n o st c hw.1 hl hc
      (Tree.run_ok ch n o (st.log ⟨⟨n + ch.size, view⟩, .Run o⟩) ⟨n + ch.size, view⟩ hw.2
        (Tree.laid_congr_tree ch n st _ (fun _ _ _ => SameLayout.refl_layout _) hl.1)
        (Tree.ready_congr_tree ch n st _ (fun _ _ _ => rfl) hrdy) hl.2.2)
  | .seq cs, n, o, st, c, hw, hl, hrdy, hc => by
    by_cases hcs : cs = .nil
    · subst hcs
      exact Tree.run_seq_nil n o st c hl hrdy hc
    · simp only [Tree.WF] at hw
      simp only [Tree.Laid] at hl
      simp only [Tree.Ready] at hrdy
      have h := Forest.seq_run_ok cs n (n + cs.size) 0 o st c hcs hw hl.1 hrdy.2 (le_refl _)
        (by simpa using hrdy.1) (by simpa using hl.2) hc
      refine RunsOk.imp h (fun s hs => ?_)
      simp only [Tree.Laid]
      exact ⟨hs.1, by rw [hs.2, hl.2]⟩
  | .prio cs, n, o, st, c, hw, hl, hrdy, hc => by
    simp only [Tree.WF] at hw
    simp only [Tree.Laid] at hl
    simp only [Tree.Ready] at hrdy
    have h := Forest.prio_run_ok cs n (n + cs.size) 0 o st c hw.1 hw.2 hl.1 (le_refl _)
      (by simpa using hrdy) (by simpa using hl.2) hc
    refine RunsOk.imp h (fun s hs => ?_)
    simp only [Tree.Laid]
    exact ⟨hs.1, by rw [hs.2, hl.2]⟩
theorem Forest.seq_run_ok : ∀ (cs : Forest) (m a i : Nat) (o : Obj) (st : State) (c : Ref),
    cs ≠ .nil → cs.WF → cs.Laid m st → cs.Ready m st → m + cs.size ≤ a →
    (st.heap a).ActualTask = (i : Int) → (st.heap a).Nodes.drop i = cs.refs m →
    (st.heap a).ControlNode = some c →
    RunsOk ⟨a, .Sequence⟩ m (a + 1) o st c
      (fun st1 => cs.Laid m st1 ∧ (st1.heap a).Nodes = (st.heap a).Nodes)
  | .nil, _, _, _, _, _, _, h, _, _, _, _, _, _, _ => absurd rfl h
  | .cons t rest, m, a, i, o, st, c, _, hw, hl, hrdy, hma, hA, hN, hC =>
    seq_step t rest m a i o st c hl hrdy hma hA hN hC
      (fun sta h1 h2 h3 => Tree.run_ok t m o sta ⟨a, .Sequence⟩ hw.1 h1 h2 h3)
      (fun hr st' o' h1 h2 h3 h4 h5 =>
        Forest.seq_run_ok rest (m + t.size) a (i + 1) o' st' c hr hw.2 h1 h2
          (by rw [Forest.size_cons] at hma; omega) h3 h4 h5)
theorem Forest.prio_run_ok : ∀ (cs : Forest) (m a i : Nat) (o : Obj) (st : State) (c : Ref),
    cs ≠ .nil → cs.WF → cs.Laid m st → m + cs.size ≤ a →
    (st.heap a).ActualTask = (i : Int) → (st.heap a).Nodes.drop i = cs.refs m →
    (st.heap a).ControlNode = some c →
    RunsOk ⟨a, .Priority⟩ m (a + 1) o st c
      (fun st1 => cs.Laid m st1 ∧ (st1.heap a).Nodes = (st.heap a).Nodes)
  | .nil, _, _, _, _, _, _, h, _, _, _, _, _, _ => absurd rfl h
  | .cons t rest, m, a, i, o, st, c, _, hw, hl, hma, hA, hN, hC =>
    prio_step t rest m a i o st c hw.1 hl hma hA hN hC
      (fun stb h1 h2 h3 => Tree.run_ok t m o stb ⟨a, .Priority⟩ hw.1 h1 h2 h3)
      (fun hr st' o' h1 h3 h4 h5 =>
        Forest.prio_run_ok rest (m + t.size) a (i + 1) o' st' c hr hw.2 h1
          (by rw [Forest.size_cons] at hma; omega) h3 h4 h5)
end

theorem invoke_BehaviorTree_Run (fuel b : Nat) (o : Obj) (st : State) (r : Ref)
    (hroot : (st.heap b).RootNode = some r) (hrb : r.id ≠ b) :
    invoke (fuel + 2) ⟨b, .BehaviorTree⟩ (.Run o) st
      = andThen (invoke (fuel + 1) r (.Start o)
          ((((st.log ⟨⟨b, .BehaviorTree⟩, .Run o⟩).modify b fun n => { n with Object := o }).log
            ⟨r, .SetControl (some ⟨b, .BehaviorTree⟩)⟩).modify r.id fun n =>
              { n with ControlNode := some ⟨b, .BehaviorTree⟩ }))
          (fun s => send (invoke (fuel + 1)) (s.heap b).RootNode (.Run (s.heap b).Object) s) := by
  rw [show fuel + 2 = (fuel + 1) + 1 from rfl, invoke_succ]
  simp only [step, dispatch, BehaviorTree.method, BehaviorTree.Run, modify_heap_same, log_heap,
    hroot, send_some]
  rw [invoke_SetControl, andThen_ok]
  simp only [log_heap, modify_heap_ne _ _ (Ne.symm hrb), modify_heap_same, hroot, send_some]

theorem invoke_BehaviorTree_Running (fuel b k : Nat) (st : State)
    (hc : (st.heap b).ControlNode = some ⟨k, .BaseNode⟩) (hk : (st.heap k).ControlNode = none) :
    invoke (fuel + 2) ⟨b, .BehaviorTree⟩ .Running st
      = .ok (((st.log ⟨⟨b, .BehaviorTree⟩, .Running⟩).log ⟨⟨k, .BaseNode⟩, .Running⟩).modify b
          fun n => { n with Started := true }) := by
  rw [show fuel + 2 = (fuel + 1) + 1 from rfl, invoke_succ]
  simp only [step, dispatch, BehaviorTree.method, BehaviorTree.Running, log_heap, hc, notify_some]
  rw [show Op.Running = Signal.toOp .Running from rfl, invoke_sink _ _ _ _ (by simpa using hk)]
  rfl

theorem eventsAt_of_range {E : List Event} {lo hi k : Nat}
    (h : ∀ e ∈ E, lo ≤ e.target.id ∧ e.target.id < hi) (hk : k < lo ∨ hi ≤ k) :
    eventsAt E k = [] := by
  simp only [eventsAt, List.map_eq_nil_iff, List.filter_eq_nil_iff]
  intro e he
  have := h e he
  simp only [decide_eq_true_eq]
  omega

theorem invoke_BehaviorTree_verdict (fuel b : Nat) (v : Signal) (hv : v ≠ .Running)
    (st : State) :
    invoke (fuel + 1) ⟨b, .BehaviorTree⟩ v.toOp st
      = andThen (send (invoke fuel) (st.heap b).RootNode (.Finish (st.heap b).Object)
          (st.log ⟨⟨b, .BehaviorTree⟩, v.toOp⟩))
          (fun s => notify (invoke fuel) ((s.modify b fun n => { n with Started := false }).heap
            b).ControlNode v.toOp (s.modify b fun n => { n with Started := false })) := by
  cases v with
  | Running => exact absurd rfl hv
  | Success => rfl
  | Fail => rfl

/-- What the driver does with a verdict of its root: the external control receives that
verdict once, and the layout of the heap is unchanged. -/
theorem driver_handler (t : Tree) (n b k : Nat) (st1 : State) (v : Signal) (hw : t.WF)
    (h : DriverOver st1 t n b k) :
    ∃ st2 E, (∀ G, t.size + 2 ≤ G → invoke G ⟨b, .BehaviorTree⟩ v.toOp st1 = .ok st2) ∧
      st2.trace = st1.trace ++ E ∧ eventsAt E k = [v.toOp] ∧
      (∀ x, SameLayout (st2.heap x) (st1.heap x)) := by
  by_cases hv : v = .Running
  · subst hv
    refine ⟨((st1.log ⟨⟨b, .BehaviorTree⟩, .Running⟩).log ⟨⟨k, .BaseNode⟩, .Running⟩).modify b
        fun m => { m with Started := true },
      [⟨⟨b, .BehaviorTree⟩, .Running⟩, ⟨⟨k, .BaseNode⟩, .Running⟩], ?_, ?_, ?_, ?_⟩
    · intro G hG
      obtain ⟨F, rfl⟩ : ∃ F, G = F + 2 := ⟨G - 2, by omega⟩
      exact invoke_BehaviorTree_Running F b k st1 h.control h.sink
    · simp
    · simp [eventsAt, h.apart, Signal.toOp]
    · exact fun x => sameLayout_modify _ _ _ ⟨rfl, rfl, rfl, rfl, rfl⟩ x
  · obtain ⟨stf, hfin, hheap, E, hE, hEr⟩ := Tree.finish_ok t n (st1.heap b).Object
      (st1.log ⟨⟨b, .BehaviorTree⟩, v.toOp⟩) hw
      (Tree.laid_congr_tree t n st1 _ (fun _ _ _ => SameLayout.refl_layout _) h.laid)
    have hfb : stf.heap = st1.heap := hheap
    refine ⟨(stf.modify b fun m => { m with Started := false }).log ⟨⟨k, .BaseNode⟩, v.toOp⟩,
      ⟨⟨b, .BehaviorTree⟩, v.toOp⟩ :: (E ++ [⟨⟨k, .BaseNode⟩, v.toOp⟩]), ?_, ?_, ?_, ?_⟩
    · intro G hG
      obtain ⟨F, rfl⟩ : ∃ F, G = F + 2 := ⟨G - 2, by omega⟩
      rw [show F + 2 = (F + 1) + 1 from rfl, invoke_BehaviorTree_verdict _ _ _ hv, h.root,
        send_some, hfin (F + 1) (by omega), andThen_ok]
      simp only [modify_heap_same, hfb, h.control, notify_some]
      rw [invoke_sink]
      simp [hfb, h.apart.symm, h.sink]
    · simp [hE]
    · rw [show (⟨⟨b, .BehaviorTree⟩, v.toOp⟩ :: (E ++ [⟨⟨k, .BaseNode⟩, v.toOp⟩]) : List Event)
          = [⟨⟨b, .BehaviorTree⟩, v.toOp⟩] ++ (E ++ [⟨⟨k, .BaseNode⟩, v.toOp⟩]) from rfl,
        eventsAt_append, eventsAt_append, eventsAt_of_range hEr h.controlOut]
      simp [eventsAt, h.apart]
    · intro x
      rw [log_heap]
      refine (sameLayout_modify stf b _ ⟨rfl, rfl, rfl, rfl, rfl⟩ x).trans_layout ?_
      rw [hfb]
      exact SameLayout.refl_layout _

theorem DriverOver.of_sameLayout {st st' : State} {t : Tree} {n b k : Nat}
    (h : DriverOver st t n b k) (hlay : ∀ x, SameLayout (st'.heap x) (st.heap x)) :
    DriverOver st' t n b k where
  laid := Tree.laid_congr_tree t n st st' (fun x _ _ => hlay x) h.laid
  root := by rw [(hlay b).RootNode]; exact h.root
  control := by rw [(hlay b).ControlNode]; exact h.control
  sink := by rw [(hlay k).ControlNode]; exact h.sink
  driverOut := h.driverOut
  controlOut := h.controlOut
  apart := h.apart

/-- One tick of a driver over a tree: it returns, the external control receives exactly one
verdict, and the layout is as before. -/
theorem driver_tick_core (t : Tree) (n b k : Nat) (o : Obj) (st : State) (hw : t.WF)
    (h : DriverOver st t n b k) :
    ∃ fuel st' E, (∀ f, fuel ≤ f → invoke f ⟨b, .BehaviorTree⟩ (.Run o) st = .ok st') ∧
      st'.trace = st.trace ++ E ∧ (∃ v : Signal, eventsAt E k = [v.toOp]) ∧
      DriverOver st' t n b k := by
  have hsz : t.size = t.span + 1 := rfl
  have hrid : (t.rootRef n).id = n + t.span := rfl
  have hrb : (t.rootRef n).id ≠ b := by rw [hrid]; have := h.driverOut; omega
  have hrk : (t.rootRef n).id ≠ k := by rw [hrid]; have := h.controlOut; omega
  generalize hsta : ((((st.log ⟨⟨b, .BehaviorTree⟩, .Run o⟩).modify b fun m =>
      { m with Object := o }).log ⟨t.rootRef n, .SetControl (some ⟨b, .BehaviorTree⟩)⟩).modify
      (t.rootRef n).id fun m => { m with ControlNode := some ⟨b, .BehaviorTree⟩ }) = sta
  have hab : sta.heap b = { st.heap b with Object := o } := by
    subst hsta; simp [Ne.symm hrb]
  have har : sta.heap (n + t.span)
      = { st.heap (n + t.span) with ControlNode := some ⟨b, .BehaviorTree⟩ } := by
    subst hsta; rw [hrid]; rw [hrid] at hrb; simp [hrb]
  have hao : ∀ x, x ≠ b → x ≠ n + t.span → sta.heap x = st.heap x := by
    intro x h1 h2; subst hsta; rw [hrid]; simp [h1, h2]
  have hat : sta.trace = st.trace ++ [⟨⟨b, .BehaviorTree⟩, .Run o⟩,
      ⟨t.rootRef n, .SetControl (some ⟨b, .BehaviorTree⟩)⟩] := by subst hsta; simp
  have hlaida : t.Laid n sta := by
    refine Tree.laid_congr_root_tree t n st sta (fun x h1 h2 => ?_) h.laid
    have hxb : x ≠ b := by have := h.driverOut; omega
    by_cases hx : x = n + t.span
    · subst hx; rw [har]; exact ⟨rfl, rfl, rfl, fun hh => absurd rfl hh⟩
    · rw [hao x hxb hx]; exact ⟨rfl, rfl, rfl, fun _ => rfl⟩
  obtain ⟨stb, hstart, hlayb, hrdyb, houtb, Eb, hEb, hEbr⟩ := Tree.start_ok_tree t n o sta hw hlaida
  have hbb : stb.heap b = { st.heap b with Object := o } := by
    rw [houtb b (by have := h.driverOut; omega), hab]
  obtain ⟨v, st1, d, hrep, hlaid1, hout1, ⟨E1, hE1, hE1r⟩, hctl1⟩ :=
    Tree.run_ok t n o stb ⟨b, .BehaviorTree⟩ hw
      (Tree.laid_congr_tree t n sta stb (fun x _ _ => hlayb x) hlaida) hrdyb
      (by rw [(hlayb (n + t.span)).ControlNode, har])
  have h1b : st1.heap b = { st.heap b with Object := o } := by
    rw [hout1 b (by have := h.driverOut; omega), hbb]
  have h1k : st1.heap k = st.heap k := by
    rw [hout1 k (by have := h.controlOut; omega), houtb k (by have := h.controlOut; omega),
      hao k h.apart.symm (by rw [hrid] at hrk; exact Ne.symm hrk)]
  have hd1 : DriverOver st1 t n b k :=
    { laid := hlaid1
      root := by rw [h1b]; exact h.root
      control := by rw [h1b]; exact h.control
      sink := by rw [h1k]; exact h.sink
      driverOut := h.driverOut
      controlOut := h.controlOut
      apart := h.apart }
  obtain ⟨st2, Eh, hH, hEh, hevk, hlay2⟩ := driver_handler t n b k st1 v hw hd1
  obtain ⟨st3, h3, hset⟩ := hrep (t.size + 2) st2 (hH _ (le_refl _))
  refine ⟨t.size + 2 + d + 1, st3,
    [⟨⟨b, .BehaviorTree⟩, .Run o⟩, ⟨t.rootRef n, .SetControl (some ⟨b, .BehaviorTree⟩)⟩] ++
      (Eb ++ (E1 ++ Eh)), ?_, ?_, ⟨v, ?_⟩, ?_⟩
  · intro f hf
    obtain ⟨F, rfl⟩ : ∃ F, f = F + 2 := ⟨f - 2, by omega⟩
    rw [invoke_BehaviorTree_Run F b o st (t.rootRef n) h.root hrb, hsta,
      hstart (F + 1) (by omega), andThen_ok, hbb]
    simp only [h.root, send_some]
    exact h3 (F + 1) (by omega)
  · rw [hset.1, hEh, hE1, hEb, hat]
    simp
  · rw [eventsAt_append, eventsAt_append, eventsAt_append, eventsAt_of_range hEbr h.controlOut,
      eventsAt_of_range hE1r h.controlOut, hevk]
    simp [eventsAt, h.apart, hrk]
  · exact (hd1.of_sameLayout hlay2).of_sameLayout hset.2

/-- C5: a driver whose root is a tree of tasks that signal exactly one verdict per `Run`,
sequences, priorities with at least one child, and `AlwaysSucceed`/`AlwaysFail`/`Invert`
decorators, every node at its own address.  One call of `BehaviorTree.Run` returns (with
every sufficient bound on the depth of the call stack), and during it the external control
receives exactly one call, which is one of `Running`, `Success`, `Fail`.  The tree is laid out
afterwards as before, so the same holds for every later call. -/
theorem driver_tick_one_verdict (t : Tree) (n b k : Nat) (o : Obj) (st : State) (hw : t.WF)
    (h : DriverOver st t n b k) :
    ∃ fuel st' E, (∀ f, fuel ≤ f → invoke f ⟨b, .BehaviorTree⟩ (.Run o) st = .ok st') ∧
      st'.trace = st.trace ++ E ∧ (∃ v : Signal, eventsAt E k = [v.toOp]) ∧
      DriverOver st' t n b k :=
  driver_tick_core t n b k o st hw h

theorem demoTree_wf : demoTree.WF := by
  simp only [demoTree, Tree.WF, Forest.WF, Kind.isTranslator, always]
  simp

theorem demoTree_driver : DriverOver (driverWorld demoTree) demoTree 1 9 0 where
  laid := by
    simp only [demoTree, Tree.Laid, Forest.Laid, Forest.size, Tree.span, Tree.size, Forest.refs,
      Tree.rootRef, Tree.kind]
    refine ⟨⟨?_, ⟨⟨?_, ⟨?_, ?_, ?_⟩, ?_⟩, ?_⟩, ⟨?_, ?_, ?_⟩, ?_⟩, ?_⟩ <;> first | rfl | trivial
  root := by rfl
  control := by rfl
  sink := by rfl
  driverOut := by decide
  controlOut := by decide
  apart := by decide

theorem driver_tick_one_verdict_witness :
    ∃ fuel st' E,
      (∀ f, fuel ≤ f → invoke f ⟨9, .BehaviorTree⟩ (.Run 42) (driverWorld demoTree) = .ok st') ∧
      st'.trace = (driverWorld demoTree).trace ++ E ∧ (∃ v : Signal, eventsAt E 0 = [v.toOp]) ∧
      DriverOver st' demoTree 1 9 0 :=
  driver_tick_one_verdict demoTree 1 9 0 42 (driverWorld demoTree) demoTree_wf demoTree_driver

/-! ## Decorators (C11 .. C18) -/

/-- C11: an `AlwaysFailDecorator` with its control set, around a task that signals `Success`
or `Fail`: on `Run(o)` the child is run once, signals its verdict once, and the decorator's
control receives exactly one `Fail` and no `Success` (nor anything else). -/
theorem alwaysFail_reports_fail (st : State) (d a k : Nat) (o : Obj) (v : Signal)
    (hNode : (st.heap d).Node = some ⟨a, .Task⟩)
    (hCa : (st.heap a).ControlNode = some ⟨d, .AlwaysFailDecorator⟩)
    (hC : (st.heap d).ControlNode = some ⟨k, .BaseNode⟩)
    (hK : (st.heap k).ControlNode = none)
    (hV : childSignals st a o = [v]) (hv : v = .Success ∨ v = .Fail)
    (hda : d ≠ a) (hka : k ≠ a) (hdk : d ≠ k) (fuel : Nat) (hf : 5 ≤ fuel) :
    ∃ st' E, invoke fuel ⟨d, .AlwaysFailDecorator⟩ (.Run o) st = .ok st' ∧
      st'.trace = st.trace ++ E ∧
      eventsAt E a = [.Run o, v.toOp] ∧
      eventsAt E k = [.Fail] ∧ received E k .Fail = 1 ∧ received E k .Success = 0 := by
  obtain ⟨F, rfl⟩ : ∃ F, fuel = F + 5 := ⟨fuel - 5, by omega⟩
  obtain ⟨st', hr, ht, _⟩ := translator_run .AlwaysFailDecorator rfl st d a k o v hNode hCa hC
    hK hV hda hka F
  refine ⟨st', _, hr, ht, ?_, ?_, ?_, ?_⟩ <;>
    rcases hv with rfl | rfl <;>
    simp [eventsAt, received, verdictMap, Signal.toOp, hda, hka, hdk, hka.symm]

theorem alwaysFail_reports_fail_witness :
    ∃ st' E, invoke 5 ⟨2, .AlwaysFailDecorator⟩ (.Run 42)
        (decoratorWorld .AlwaysFailDecorator .Success) = .ok st' ∧
      st'.trace = (decoratorWorld .AlwaysFailDecorator .Success).trace ++ E ∧
      eventsAt E 1 = [.Run 42, Signal.Success.toOp] ∧
      eventsAt E 0 = [.Fail] ∧ received E 0 .Fail = 1 ∧ received E 0 .Success = 0 :=
  alwaysFail_reports_fail (decoratorWorld .AlwaysFailDecorator .Success) 2 1 0 42 .Success
    (by rfl) (by rfl) (by rfl) (by rfl) (by rfl) (by decide) (by decide) (by decide) (by decide)
    5 (by decide)

/-- C12: an `InvertDecorator` with its control set, around a task that signals one verdict
`v`: on `Run(o)` the control receives exactly one call; it is `Fail` if and only if the child
signalled `Success`, and `Success` if and only if the child signalled `Fail`. -/
theorem invert_swaps_verdict (st : State) (d a k : Nat) (o : Obj) (v : Signal)
    (hNode : (st.heap d).Node = some ⟨a, .Task⟩)
    (hCa : (st.heap a).ControlNode = some ⟨d, .InvertDecorator⟩)
    (hC : (st.heap d).ControlNode = some ⟨k, .BaseNode⟩)
    (hK : (st.heap k).ControlNode = none)
    (hV : childSignals st a o = [v])
    (hda : d ≠ a) (hka : k ≠ a) (hdk : d ≠ k) (fuel : Nat) (hf : 5 ≤ fuel) :
    ∃ st' E w, invoke fuel ⟨d, .InvertDecorator⟩ (.Run o) st = .ok st' ∧
      st'.trace = st.trace ++ E ∧
      eventsAt E a = [.Run o, v.toOp] ∧ eventsAt E k = [Signal.toOp w] ∧
      (w = .Fail ↔ v = .Success) ∧ (w = .Success ↔ v = .Fail) ∧
      (received E k .Fail = 1 ↔ v = .Success) ∧ (received E k .Success = 1 ↔ v = .Fail) := by
  obtain ⟨F, rfl⟩ : ∃ F, fuel = F + 5 := ⟨fuel - 5, by omega⟩
  obtain ⟨st', hr, ht, _⟩ := translator_run .InvertDecorator rfl st d a k o v hNode hCa hC
    hK hV hda hka F
  refine ⟨st', _, verdictMap .InvertDecorator v, hr, ht, ?_, ?_, ?_, ?_, ?_, ?_⟩ <;>
    cases v <;>
    simp [eventsAt, received, verdictMap, Signal.toOp, hda, hka, hdk, hka.symm]

theorem invert_swaps_verdict_witness :
    ∃ st' E w, invoke 5 ⟨2, .InvertDecorator⟩ (.Run 42)
        (decoratorWorld .InvertDecorator .Success) = .ok st' ∧
      st'.trace = (decoratorWorld .InvertDecorator .Success).trace ++ E ∧
      eventsAt E 1 = [.Run 42, Signal.Success.toOp] ∧ eventsAt E 0 = [Signal.toOp w] ∧
      (w = .Fail ↔ Signal.Success = .Success) ∧ (w = .Success ↔ Signal.Success = .Fail) ∧
      (received E 0 .Fail = 1 ↔ Signal.Success = .Success) ∧
      (received E 0 .Success = 1 ↔ Signal.Success = .Fail) :=
  invert_swaps_verdict (decoratorWorld .InvertDecorator .Success) 2 1 0 42 .Success
    (by rfl) (by rfl) (by rfl) (by rfl) (by rfl) (by decide) (by decide) (by decide)
    5 (by decide)

/-- C13: `NewInvertDecorator(NewInvertDecorator(child))` around a task that signals one
verdict `v` (one of `Running`, `Success`, `Fail`).  On `Start(o)` and `Run(o)` the control
receives exactly that verdict, once, and the child receives `Start(o)` once and then
`Run(o)` once (followed by its own signal), as from a direct parent; `Finish(o)` reaches the
child as exactly one `Finish(o)` and the control receives nothing. -/
theorem invert_invert_is_identity (st : State) (d2 d1 a k : Nat) (o : Obj) (v : Signal)
    (hN2 : (st.heap d2).Node = some ⟨d1, .InvertDecorator⟩)
    (hN1 : (st.heap d1).Node = some ⟨a, .Task⟩)
    (hCa : (st.heap a).ControlNode = some ⟨d1, .InvertDecorator⟩)
    (hC1 : (st.heap d1).ControlNode = some ⟨d2, .InvertDecorator⟩)
    (hC2 : (st.heap d2).ControlNode = some ⟨k, .BaseNode⟩)
    (hK : (st.heap k).ControlNode = none)
    (hV : childSignals st a o = [v])
    (h1a : d1 ≠ a) (h2a : d2 ≠ a) (hka : k ≠ a) (h1k : d1 ≠ k) (h2k : d2 ≠ k)
    (fuel : Nat) (hf : 7 ≤ fuel) :
    (∃ st' E, startRun fuel ⟨d2, .InvertDecorator⟩ o st = .ok st' ∧ st'.trace = st.trace ++ E ∧
      eventsAt E k = [v.toOp] ∧ eventsAt E a = [.Start o, .Run o, v.toOp]) ∧
    (∃ st' E, invoke fuel ⟨d2, .InvertDecorator⟩ (.Finish o) st = .ok st' ∧
      st'.trace = st.trace ++ E ∧ eventsAt E k = [] ∧ eventsAt E a = [.Finish o]) := by
  obtain ⟨F, rfl⟩ : ∃ F, fuel = F + 7 := ⟨fuel - 7, by omega⟩
  have hf0 : (st.heap a).RunFunc ≠ none := by
    intro h; unfold childSignals at hV; rw [h] at hV; simp at hV
  constructor
  · unfold startRun
    rw [show F + 7 = (F + 6) + 1 from rfl, invoke_translator_Start _ _ .InvertDecorator rfl, hN2, send_some,
      show F + 6 = (F + 5) + 1 from rfl, invoke_translator_Start _ _ .InvertDecorator rfl, log_heap, hN1,
      send_some, invoke_Task_Start, andThen_ok,
      show F + 5 + 1 + 1 = (F + 6) + 1 from rfl, invoke_translator_Run _ _ .InvertDecorator rfl]
    simp only [log_heap, hN2, send_some]
    rw [show F + 6 = (F + 5) + 1 from rfl, invoke_translator_Run _ _ .InvertDecorator rfl]
    simp only [log_heap, hN1, send_some]
    rw [show F + 5 = (F + 3) + 2 from rfl,
      invoke_Task_Run _ _ _ v _ (by rw [← hV]; exact childSignals_congr o rfl)
        (by simpa using hf0)]
    simp only [log_heap, hCa, notify_some]
    rw [show F + 3 = (F + 2) + 1 from rfl, invoke_translator_signal _ _ .InvertDecorator rfl]
    simp only [log_heap, modify_heap_ne _ _ h1a, hC1, notify_some]
    rw [show F + 2 = (F + 1) + 1 from rfl, invoke_translator_signal _ _ .InvertDecorator rfl]
    simp only [log_heap, modify_heap_ne _ _ h2a, hC2, notify_some]
    rw [invoke_sink _ _ _ _ (by simpa [hka] using hK)]
    refine ⟨_, [⟨⟨d2, .InvertDecorator⟩, .Start o⟩, ⟨⟨d1, .InvertDecorator⟩, .Start o⟩,
      ⟨⟨a, .Task⟩, .Start o⟩, ⟨⟨d2, .InvertDecorator⟩, .Run o⟩, ⟨⟨d1, .InvertDecorator⟩, .Run o⟩,
      ⟨⟨a, .Task⟩, .Run o⟩, ⟨⟨a, .Task⟩, v.toOp⟩, ⟨⟨d1, .InvertDecorator⟩, v.toOp⟩,
      ⟨⟨d2, .InvertDecorator⟩, (verdictMap .InvertDecorator v).toOp⟩,
      ⟨⟨k, .BaseNode⟩, (verdictMap .InvertDecorator (verdictMap .InvertDecorator v)).toOp⟩],
      rfl, by simp, ?_, ?_⟩ <;>
      cases v <;>
      simp [eventsAt, verdictMap, Signal.toOp, h1a, h2a, hka, h1k, h2k, hka.symm]
  · rw [show F + 7 = (F + 6) + 1 from rfl, invoke_translator_Finish _ _ .InvertDecorator rfl, hN2, send_some,
      show F + 6 = (F + 5) + 1 from rfl, invoke_translator_Finish _ _ .InvertDecorator rfl, log_heap, hN1,
      send_some, invoke_Task_Finish]
    refine ⟨_, [⟨⟨d2, .InvertDecorator⟩, .Finish o⟩, ⟨⟨d1, .InvertDecorator⟩, .Finish o⟩,
      ⟨⟨a, .Task⟩, .Finish o⟩], rfl, by simp, ?_, ?_⟩ <;>
      simp [eventsAt, h1a, h2a, hka, h1k, h2k, hka.symm]

theorem invert_invert_is_identity_witness :
    (∃ st' E, startRun 7 ⟨3, .InvertDecorator⟩ 42 (doubleInvertWorld .Fail) = .ok st' ∧
      st'.trace = (doubleInvertWorld .Fail).trace ++ E ∧
      eventsAt E 0 = [Signal.Fail.toOp] ∧
      eventsAt E 1 = [.Start 42, .Run 42, Signal.Fail.toOp]) ∧
    (∃ st' E, invoke 7 ⟨3, .InvertDecorator⟩ (.Finish 42) (doubleInvertWorld .Fail) = .ok st' ∧
      st'.trace = (doubleInvertWorld .Fail).trace ++ E ∧ eventsAt E 0 = [] ∧
      eventsAt E 1 = [.Finish 42]) :=
  invert_invert_is_identity (doubleInvertWorld .Fail) 3 2 1 0 42 .Fail
    (by rfl) (by rfl) (by rfl) (by rfl) (by rfl) (by rfl) (by rfl)
    (by decide) (by decide) (by decide) (by decide) (by decide) 7 (by decide)

theorem invoke_UntilFail_Start (fuel d : Nat) (o : Obj) (st : State) (c : Ref)
    (hN : (st.heap d).Node = some c) :
    invoke (fuel + 2) ⟨d, .UntilFailDecorator⟩ (.Start o) st
      = .ok ((((st.log ⟨⟨d, .UntilFailDecorator⟩, .Start o⟩).modify d fun n =>
            { n with Object := o, NodeRunning := false }).log
          ⟨c, .SetControl (some ⟨d, .UntilFailDecorator⟩)⟩).modify c.id fun n =>
            { n with ControlNode := some ⟨d, .UntilFailDecorator⟩ }) := by
  rw [show fuel + 2 = (fuel + 1) + 1 from rfl, invoke_succ]
  simp only [step, dispatch, UntilFailDecorator.method, UntilFailDecorator.Start,
    BaseNode.setObject, modify_heap_same, log_heap, hN, send_some]
  rw [invoke_SetControl]
  congr 3
  simp [State.modify, State.log]

theorem invoke_UntilFail_Run_fresh (fuel d : Nat) (o : Obj) (st : State)
    (hR : (st.heap d).NodeRunning = false) :
    invoke (fuel + 1) ⟨d, .UntilFailDecorator⟩ (.Run o) st
      = andThen (send (invoke fuel) (st.heap d).Node (.Start o)
          (st.log ⟨⟨d, .UntilFailDecorator⟩, .Run o⟩))
          (fun s => send (invoke fuel) (s.heap d).Node (.Run o) s) := by
  simp only [invoke_succ, step, dispatch, UntilFailDecorator.method, UntilFailDecorator.Run,
    log_heap, hR]
  rfl

theorem invoke_UntilFail_Run_running (fuel d : Nat) (o : Obj) (st : State)
    (hR : (st.heap d).NodeRunning = true) :
    invoke (fuel + 1) ⟨d, .UntilFailDecorator⟩ (.Run o) st
      = send (invoke fuel) (st.heap d).Node (.Run o)
          (st.log ⟨⟨d, .UntilFailDecorator⟩, .Run o⟩) := by
  simp only [invoke_succ, step, dispatch, UntilFailDecorator.method, UntilFailDecorator.Run,
    log_heap, hR]
  rfl

theorem invoke_UntilFail_Success (fuel d : Nat) (st : State) :
    invoke (fuel + 1) ⟨d, .UntilFailDecorator⟩ .Success st
      = andThen (send (invoke fuel) (st.heap d).Node (.Start (st.heap d).Object)
          ((st.log ⟨⟨d, .UntilFailDecorator⟩, .Success⟩).modify d fun n =>
            { n with NodeRunning := false }))
          (fun s => send (invoke fuel) (s.heap d).Node (.Run (s.heap d).Object) s) := by
  simp only [invoke_succ, step, dispatch, UntilFailDecorator.method, UntilFailDecorator.Success,
    modify_heap_same, log_heap]

theorem invoke_UntilFail_Fail (fuel d : Nat) (st : State) :
    invoke (fuel + 1) ⟨d, .UntilFailDecorator⟩ .Fail st
      = andThen (send (invoke fuel) (st.heap d).Node (.Finish (st.heap d).Object)
          ((st.log ⟨⟨d, .UntilFailDecorator⟩, .Fail⟩).modify d fun n =>
            { n with NodeRunning := false }))
          (fun s => notify (invoke fuel) (s.heap d).ControlNode .Success s) := by
  simp only [invoke_succ, step, dispatch, UntilFailDecorator.method, UntilFailDecorator.Fail,
    modify_heap_same, log_heap]

theorem invoke_UntilFail_Running (fuel d : Nat) (st : State) :
    invoke (fuel + 1) ⟨d, .UntilFailDecorator⟩ .Running st
      = notify (invoke fuel) (st.heap d).ControlNode .Running
          ((st.log ⟨⟨d, .UntilFailDecorator⟩, .Running⟩).modify d fun n =>
            { n with NodeRunning := true }) := by
  simp only [invoke_succ, step, dispatch, UntilFailDecorator.method, UntilFailDecorator.Running,
    modify_heap_same, log_heap]

theorem untilFail_cycle (d a k : Nat) (o : Obj) (f : StepFn) (hda : d ≠ a) (hka : k ≠ a)
    (hdk : d ≠ k) :
    ∀ (n : Nat) (st : State) (F : Nat),
      (st.heap d).Node = some ⟨a, .Task⟩ →
      (st.heap a).ControlNode = some ⟨d, .UntilFailDecorator⟩ →
      (st.heap d).ControlNode = some ⟨k, .BaseNode⟩ →
      (st.heap k).ControlNode = none →
      (st.heap d).Object = o →
      (st.heap a).RunFunc = some f →
      (∀ j, j < n → f ((st.heap a).calls + j) o = [.Success]) →
      f ((st.heap a).calls + n) o = [.Fail] →
      ∃ st', invoke (F + 3 * n + 4) ⟨a, .Task⟩ (.Run o) st = .ok st' ∧
        st'.trace = st.trace ++ cycleTrace d a k o n ∧
        (st'.heap d).NodeRunning = false := by
  intro n
  induction n with
  | zero =>
    intro st F hN hCa hC hK hO hf _ hfail
    have hV : childSignals st a o = [.Fail] := by
      simp only [childSignals, hf]; simpa using hfail
    rw [show F + 3 * 0 + 4 = (F + 2) + 2 from rfl,
      invoke_Task_Run _ _ _ .Fail _ hV (by simp [hf])]
    simp only [log_heap, modify_heap_same, hCa, notify_some, Signal.toOp]
    rw [show F + 2 = (F + 1) + 1 from rfl, invoke_UntilFail_Fail]
    simp only [log_heap, modify_heap_same, modify_heap_ne _ _ hda, hN, hO, hC, send_some,
      invoke_Task_Finish, andThen_ok, notify_some]
    rw [show Op.Success = Signal.Success.toOp from rfl,
      invoke_sink _ _ _ _ (by simpa [hka, hdk.symm] using hK)]
    refine ⟨_, rfl, ?_, ?_⟩
    · simp [cycleTrace, Signal.toOp]
    · simp [hda]
  | succ n ih =>
    intro st F hN hCa hC hK hO hf hsucc hfail
    have hV : childSignals st a o = [.Success] := by
      simp only [childSignals, hf]; simpa using hsucc 0 (by omega)
    rw [show F + 3 * (n + 1) + 4 = (F + 3 * n + 5) + 2 from by ring,
      invoke_Task_Run _ _ _ .Success _ hV (by simp [hf])]
    simp only [log_heap, modify_heap_same, hCa, notify_some, Signal.toOp]
    rw [show F + 3 * n + 5 = (F + 3 * n + 4) + 1 from rfl, invoke_UntilFail_Success]
    simp only [log_heap, modify_heap_same, modify_heap_ne _ _ hda, hN, hO, send_some]
    rw [show F + 3 * n + 4 = (F + 3 * n + 3) + 1 from rfl, invoke_Task_Start]
    simp only [andThen_ok, log_heap, modify_heap_same, modify_heap_ne _ _ hda, hN, hO, send_some]
    rw [show F + 3 * n + 3 + 1 = F + 3 * n + 4 from rfl]
    generalize hs : State.log _ _ = s1
    have e1 : s1.heap d = { (st.heap d) with NodeRunning := false } := by
      subst hs; simp [hda]
    have e2 : s1.heap a = { (st.heap a) with calls := (st.heap a).calls + 1 } := by
      subst hs; simp [hda.symm]
    have e3 : s1.heap k = st.heap k := by
      subst hs; simp [hka, hdk.symm]
    have e4 : s1.trace = st.trace ++ [⟨⟨a, .Task⟩, .Run o⟩, ⟨⟨a, .Task⟩, .Success⟩,
        ⟨⟨d, .UntilFailDecorator⟩, .Success⟩, ⟨⟨a, .Task⟩, .Start o⟩] := by
      subst hs; simp
    obtain ⟨st', hr, ht, hnr⟩ := ih s1 F (by rw [e1]; exact hN) (by rw [e2]; exact hCa)
      (by rw [e1]; exact hC) (by rw [e3]; exact hK) (by rw [e1]; exact hO)
      (by rw [e2]; exact hf)
      (by intro j hj; rw [e2]; simpa [Nat.add_assoc, Nat.add_comm 1 j] using hsucc (j + 1) (by omega))
      (by rw [e2]; simpa [Nat.add_assoc, Nat.add_comm 1 n] using hfail)
    rw [hr]
    refine ⟨_, rfl, ?_, ?_⟩
    · simp [ht, e4, cycleTrace]
    · simpa [hda] using hnr
theorem cycleTrace_counts (d a k : Nat) (o : Obj) (hda : d ≠ a) (hka : k ≠ a) (hdk : d ≠ k) :
    ∀ n, ∃ B, cycleTrace d a k o n = B ++ [⟨⟨k, .BaseNode⟩, .Success⟩] ∧
      received B a (.Run o) = n + 1 ∧ received B a (.Start o) = n ∧ eventsAt B k = [] := by
  intro n
  induction n with
  | zero =>
    refine ⟨[⟨⟨a, .Task⟩, .Run o⟩, ⟨⟨a, .Task⟩, .Fail⟩, ⟨⟨d, .UntilFailDecorator⟩, .Fail⟩,
      ⟨⟨a, .Task⟩, .Finish o⟩], rfl, ?_, ?_, ?_⟩ <;>
      simp [received, eventsAt, hda, hka.symm, hdk]
  | succ n ih =>
    obtain ⟨B, hB, h1, h2, h3⟩ := ih
    refine ⟨[⟨⟨a, .Task⟩, .Run o⟩, ⟨⟨a, .Task⟩, .Success⟩, ⟨⟨d, .UntilFailDecorator⟩, .Success⟩,
      ⟨⟨a, .Task⟩, .Start o⟩] ++ B, by simp [cycleTrace, hB], ?_, ?_, ?_⟩
    · simp only [received, eventsAt] at h1 ⊢
      simp [hda, List.filter_cons, h1]
    · simp only [received, eventsAt] at h2 ⊢
      simp [hda, List.filter_cons, h2]
    · simp only [eventsAt] at h3 ⊢
      simp [hda, hka.symm, hdk, List.filter_cons, h3]

/-- C14: an `UntilFailDecorator` that has been started with `o` (flag `NodeRunning` clear,
stored object `o`), with its control set, around a task that signals `Success` on its next
`n` runs and `Fail` on the one after: a single `Run(o)` returns, has invoked the child's
`Start` exactly `n + 1` times and the child's `Run` exactly `n + 1` times, and the control has
received exactly one call, `Success`, made after all of these. -/
theorem untilFail_runs_until_fail (st : State) (d a k : Nat) (o : Obj) (f : StepFn) (n : Nat)
    (hN : (st.heap d).Node = some ⟨a, .Task⟩)
    (hCa : (st.heap a).ControlNode = some ⟨d, .UntilFailDecorator⟩)
    (hC : (st.heap d).ControlNode = some ⟨k, .BaseNode⟩)
    (hK : (st.heap k).ControlNode = none)
    (hO : (st.heap d).Object = o)
    (hR : (st.heap d).NodeRunning = false)
    (hf : (st.heap a).RunFunc = some f)
    (hsucc : ∀ j, j < n → f ((st.heap a).calls + j) o = [.Success])
    (hfail : f ((st.heap a).calls + n) o = [.Fail])
    (hda : d ≠ a) (hka : k ≠ a) (hdk : d ≠ k) (fuel : Nat) (hfuel : 3 * n + 5 ≤ fuel) :
    ∃ st' E, invoke fuel ⟨d, .UntilFailDecorator⟩ (.Run o) st = .ok st' ∧
      st'.trace = st.trace ++ E ++ [⟨⟨k, .BaseNode⟩, .Success⟩] ∧
      received E a (.Start o) = n + 1 ∧ received E a (.Run o) = n + 1 ∧
      eventsAt E k = [] := by
  obtain ⟨F, rfl⟩ : ∃ F, fuel = (F + 3 * n + 4) + 1 := ⟨fuel - (3 * n + 5), by omega⟩
  rw [invoke_UntilFail_Run_fresh _ _ _ _ hR]
  simp only [log_heap, hN, send_some]
  rw [show F + 3 * n + 4 = (F + 3 * n + 3) + 1 from rfl, invoke_Task_Start]
  simp only [andThen_ok, log_heap, hN, send_some]
  rw [show F + 3 * n + 3 + 1 = F + 3 * n + 4 from rfl]
  obtain ⟨st', hr, ht, _⟩ := untilFail_cycle d a k o f hda hka hdk n
    ((st.log ⟨⟨d, .UntilFailDecorator⟩, .Run o⟩).log ⟨⟨a, .Task⟩, .Start o⟩) F
    hN hCa hC hK hO hf hsucc hfail
  obtain ⟨B, hB, h1, h2, h3⟩ := cycleTrace_counts d a k o hda hka hdk n
  refine ⟨st', [⟨⟨d, .UntilFailDecorator⟩, .Run o⟩, ⟨⟨a, .Task⟩, .Start o⟩] ++ B, hr, ?_, ?_, ?_,
    ?_⟩
  · rw [ht, hB]; simp
  · simp only [received, eventsAt] at h2 ⊢
    simp [hda, List.filter_cons, h2]
  · simp only [received, eventsAt] at h1 ⊢
    simp [hda, List.filter_cons, h1]
  · simp only [eventsAt] at h3 ⊢
    simp [hda, hka.symm, hdk, List.filter_cons, h3]

theorem untilFail_runs_until_fail_witness :
    ∃ st' E, invoke 11 ⟨2, .UntilFailDecorator⟩ (.Run 0) (untilFailWorld (succeedsThenFails 2))
        = .ok st' ∧
      st'.trace = (untilFailWorld (succeedsThenFails 2)).trace ++ E ++
        [⟨⟨0, .BaseNode⟩, .Success⟩] ∧
      received E 1 (.Start 0) = 2 + 1 ∧ received E 1 (.Run 0) = 2 + 1 ∧ eventsAt E 0 = [] :=
  untilFail_runs_until_fail (untilFailWorld (succeedsThenFails 2)) 2 1 0 0
    (succeedsThenFails 2) 2 (by rfl) (by rfl) (by rfl) (by rfl) (by rfl) (by rfl) (by rfl)
    (by intro j hj; have h0 : ((untilFailWorld (succeedsThenFails 2)).heap 1).calls = 0 := rfl; simp [succeedsThenFails, h0]; exact hj) (by rfl)
    (by decide) (by decide) (by decide) 11 (by decide)

/-- C15 on the code: an `UntilFailDecorator` (address `2`) around a task (address `1`) that
signals `Success` on its first run and `Fail` on its second.  During `Run(0)` the child
receives `Start`, `Run`, signals `Success`, and then receives `Start` and `Run` again: there is
no `Finish` between the child's `Success` and its restart.  The only `Finish` follows the
child's `Fail`. -/
theorem untilFail_success_no_finish :
    observe (invoke 8 ⟨2, .UntilFailDecorator⟩ (.Run 0) (untilFailWorld (succeedsThenFails 1)))
        (fun st => eventsAt st.trace 1)
      = some [.SetControl (some ⟨2, .UntilFailDecorator⟩), .Start 0, .Run 0, .Success,
          .Start 0, .Run 0, .Fail, .Finish 0] := by
  decide!

/-- C16: when its child, a task, signals `Fail`, an `UntilFailDecorator` returns having called
`Finish` on the child once with the stored object and, if its control is set (`ctl = some k`),
`Success` on the control once; nothing else is called, and `NodeRunning` is `false`
afterwards. -/
theorem untilFail_child_fail (st : State) (d a : Nat) (ctl : Option Nat)
    (hN : (st.heap d).Node = some ⟨a, .Task⟩)
    (hC : (st.heap d).ControlNode = ctl.map fun k => ⟨k, .BaseNode⟩)
    (hK : ∀ k, ctl = some k → (st.heap k).ControlNode = none ∧ k ≠ d)
    (fuel : Nat) (hfuel : 3 ≤ fuel) :
    ∃ st', invoke fuel ⟨d, .UntilFailDecorator⟩ .Fail st = .ok st' ∧
      st'.trace = st.trace ++
        [⟨⟨d, .UntilFailDecorator⟩, .Fail⟩, ⟨⟨a, .Task⟩, .Finish (st.heap d).Object⟩] ++
        (match ctl with
          | some k => [⟨⟨k, .BaseNode⟩, .Success⟩]
          | none => []) ∧
      (st'.heap d).NodeRunning = false := by
  obtain ⟨F, rfl⟩ : ∃ F, fuel = (F + 1) + 2 := ⟨fuel - 3, by omega⟩
  rw [show F + 1 + 2 = (F + 2) + 1 from rfl, invoke_UntilFail_Fail]
  simp only [log_heap, modify_heap_same, hN, send_some]
  rw [show F + 2 = (F + 1) + 1 from rfl, invoke_Task_Finish]
  simp only [andThen_ok, log_heap, modify_heap_same, hC]
  cases ctl with
  | none => exact ⟨_, rfl, by simp, by simp⟩
  | some k =>
    obtain ⟨hk, hkd⟩ := hK k rfl
    simp only [Option.map_some', notify_some]
    rw [show Op.Success = Signal.Success.toOp from rfl,
      invoke_sink _ _ _ _ (by simpa [hkd] using hk)]
    exact ⟨_, rfl, by simp [Signal.toOp], by simp⟩

theorem untilFail_child_fail_witness :
    ∃ st', invoke 3 ⟨2, .UntilFailDecorator⟩ .Fail (untilFailWorld (succeedsThenFails 0))
        = .ok st' ∧
      st'.trace = (untilFailWorld (succeedsThenFails 0)).trace ++
        [⟨⟨2, .UntilFailDecorator⟩, .Fail⟩,
         ⟨⟨1, .Task⟩, .Finish ((untilFailWorld (succeedsThenFails 0)).heap 2).Object⟩] ++
        (match some 0 with
          | some k => [⟨⟨k, .BaseNode⟩, .Success⟩]
          | none => []) ∧
      (st'.heap 2).NodeRunning = false :=
  untilFail_child_fail (untilFailWorld (succeedsThenFails 0)) 2 1 (some 0) (by rfl) (by rfl)
    (by intro k hk; cases hk; exact ⟨by rfl, by decide⟩) 3 (by decide)

/-- C18 on the code: `Start(42)` on an `UntilFailDecorator` (address `2`) does not invoke the
child's `Start`: the child (address `1`) receives `SetControl` only (once from the
constructor, once from `Start`), and `Run(42)` on the started decorator invokes the child's
`Start(42)` before its `Run(42)`. -/
theorem untilFail_start_not_passed :
    observe (invoke 3 ⟨2, .UntilFailDecorator⟩ (.Start 42) (untilFailWorld fun _ _ => []))
        (fun st => eventsAt st.trace 1)
      = some [.SetControl (some ⟨2, .UntilFailDecorator⟩),
          .SetControl (some ⟨2, .UntilFailDecorator⟩)] ∧
    observe (callAll 3 ⟨2, .UntilFailDecorator⟩ [.Start 42, .Run 42]
          (untilFailWorld fun _ _ => []))
        (fun st => eventsAt st.trace 1)
      = some [.SetControl (some ⟨2, .UntilFailDecorator⟩),
          .SetControl (some ⟨2, .UntilFailDecorator⟩), .Start 42, .Run 42] := by
  decide!

/-- C18, amended: for `AlwaysSucceed`, `AlwaysFail` and `Invert`, each of `Start(o)`,
`Run(o)` and `Finish(o)` is exactly the same call on the child; for `UntilFail` this holds of
`Finish(o)` only: its `Start(o)` stores `o`, clears `NodeRunning` and calls `SetControl` on
the child, not `Start`, and its `Run(o)`, when `NodeRunning` is clear, calls the child's
`Start(o)` and then the child's `Run(o)`. -/
theorem decorator_pass_through (st : State) (d : Nat) (c : Ref) (o : Obj) (fuel : Nat)
    (hN : (st.heap d).Node = some c) :
    (∀ view : Kind, view.isTranslator = true →
      invoke (fuel + 1) ⟨d, view⟩ (.Start o) st
        = invoke fuel c (.Start o) (st.log ⟨⟨d, view⟩, .Start o⟩) ∧
      invoke (fuel + 1) ⟨d, view⟩ (.Run o) st
        = invoke fuel c (.Run o) (st.log ⟨⟨d, view⟩, .Run o⟩) ∧
      invoke (fuel + 1) ⟨d, view⟩ (.Finish o) st
        = invoke fuel c (.Finish o) (st.log ⟨⟨d, view⟩, .Finish o⟩)) ∧
    invoke (fuel + 1) ⟨d, .UntilFailDecorator⟩ (.Finish o) st
      = invoke fuel c (.Finish o) (st.log ⟨⟨d, .UntilFailDecorator⟩, .Finish o⟩) ∧
    invoke (fuel + 2) ⟨d, .UntilFailDecorator⟩ (.Start o) st
      = .ok ((((st.log ⟨⟨d, .UntilFailDecorator⟩, .Start o⟩).modify d fun n =>
            { n with Object := o, NodeRunning := false }).log
          ⟨c, .SetControl (some ⟨d, .UntilFailDecorator⟩)⟩).modify c.id fun n =>
            { n with ControlNode := some ⟨d, .UntilFailDecorator⟩ }) ∧
    ((st.heap d).NodeRunning = false →
      invoke (fuel + 1) ⟨d, .UntilFailDecorator⟩ (.Run o) st
        = andThen (invoke fuel c (.Start o) (st.log ⟨⟨d, .UntilFailDecorator⟩, .Run o⟩))
            (fun s => send (invoke fuel) (s.heap d).Node (.Run o) s)) := by
  refine ⟨?_, ?_, invoke_UntilFail_Start fuel d o st c hN, ?_⟩
  · intro view hview
    rw [invoke_translator_Start _ _ _ hview, invoke_translator_Run _ _ _ hview,
      invoke_translator_Finish _ _ _ hview, hN]
    exact ⟨rfl, rfl, rfl⟩
  · simp only [invoke_succ, step, dispatch, UntilFailDecorator.method, Decorator.method,
      Decorator.Finish, log_heap, hN, send_some]
  · intro hR
    rw [invoke_UntilFail_Run_fresh _ _ _ _ hR, hN]
    rfl

theorem decorator_pass_through_witness :
    (∀ view : Kind, view.isTranslator = true →
      invoke (3 + 1) ⟨2, view⟩ (.Start 42) (decoratorWorld .InvertDecorator .Success)
        = invoke 3 ⟨1, .Task⟩ (.Start 42)
            ((decoratorWorld .InvertDecorator .Success).log ⟨⟨2, view⟩, .Start 42⟩) ∧
      invoke (3 + 1) ⟨2, view⟩ (.Run 42) (decoratorWorld .InvertDecorator .Success)
        = invoke 3 ⟨1, .Task⟩ (.Run 42)
            ((decoratorWorld .InvertDecorator .Success).log ⟨⟨2, view⟩, .Run 42⟩) ∧
      invoke (3 + 1) ⟨2, view⟩ (.Finish 42) (decoratorWorld .InvertDecorator .Success)
        = invoke 3 ⟨1, .Task⟩ (.Finish 42)
            ((decoratorWorld .InvertDecorator .Success).log ⟨⟨2, view⟩, .Finish 42⟩)) ∧
    invoke (3 + 1) ⟨2, .UntilFailDecorator⟩ (.Finish 42)
        (decoratorWorld .InvertDecorator .Success)
      = invoke 3 ⟨1, .Task⟩ (.Finish 42)
          ((decoratorWorld .InvertDecorator .Success).log
            ⟨⟨2, .UntilFailDecorator⟩, .Finish 42⟩) ∧
    invoke (3 + 2) ⟨2, .UntilFailDecorator⟩ (.Start 42)
        (decoratorWorld .InvertDecorator .Success)
      = .ok (((((decoratorWorld .InvertDecorator .Success).log
            ⟨⟨2, .UntilFailDecorator⟩, .Start 42⟩).modify 2 fun n =>
            { n with Object := 42, NodeRunning := false }).log
          ⟨⟨1, .Task⟩, .SetControl (some ⟨2, .UntilFailDecorator⟩)⟩).modify
            (Ref.mk 1 .Task).id fun n =>
            { n with ControlNode := some ⟨2, .UntilFailDecorator⟩ }) ∧
    (((decoratorWorld .InvertDecorator .Success).heap 2).NodeRunning = false →
      invoke (3 + 1) ⟨2, .UntilFailDecorator⟩ (.Run 42)
          (decoratorWorld .InvertDecorator .Success)
        = andThen (invoke 3 ⟨1, .Task⟩ (.Start 42)
            ((decoratorWorld .InvertDecorator .Success).log
              ⟨⟨2, .UntilFailDecorator⟩, .Run 42⟩))
            (fun s => send (invoke 3) (s.heap 2).Node (.Run 42) s)) :=
  decorator_pass_through (decoratorWorld .InvertDecorator .Success) 2 ⟨1, .Task⟩ 42 3 (by rfl)

/-- C33: an `UntilFailDecorator` whose child is a task and whose control is set.  When the
child signals `Running`, the handler returns with `NodeRunning` set and the control has
received exactly one call, `Running`.  In the resulting state `Run(o)` is the child's `Run(o)`
and nothing before it (no `Start`); in any state in which `NodeRunning` is clear, `Run(o)`
calls the child's `Start(o)` and then the child's `Run(o)`. -/
theorem untilFail_running_component (st : State) (d a k : Nat)
    (hN : (st.heap d).Node = some ⟨a, .Task⟩)
    (hC : (st.heap d).ControlNode = some ⟨k, .BaseNode⟩)
    (hK : (st.heap k).ControlNode = none) (hdk : d ≠ k) (fuel : Nat) (hfuel : 2 ≤ fuel) :
    ∃ st1, invoke fuel ⟨d, .UntilFailDecorator⟩ .Running st = .ok st1 ∧
      st1.trace = st.trace ++ [⟨⟨d, .UntilFailDecorator⟩, .Running⟩, ⟨⟨k, .BaseNode⟩, .Running⟩] ∧
      (st1.heap d).NodeRunning = true ∧
      (∀ (o : Obj) (G : Nat),
        invoke (G + 1) ⟨d, .UntilFailDecorator⟩ (.Run o) st1
          = invoke G ⟨a, .Task⟩ (.Run o) (st1.log ⟨⟨d, .UntilFailDecorator⟩, .Run o⟩)) ∧
      (∀ (s : State) (o : Obj) (G : Nat), (s.heap d).Node = some ⟨a, .Task⟩ →
        (s.heap d).NodeRunning = false →
        invoke (G + 2) ⟨d, .UntilFailDecorator⟩ (.Run o) s
          = invoke (G + 1) ⟨a, .Task⟩ (.Run o)
              ((s.log ⟨⟨d, .UntilFailDecorator⟩, .Run o⟩).log ⟨⟨a, .Task⟩, .Start o⟩)) := by
  obtain ⟨F, rfl⟩ : ∃ F, fuel = (F + 1) + 1 := ⟨fuel - 2, by omega⟩
  rw [invoke_UntilFail_Running]
  simp only [log_heap, modify_heap_same, hC, notify_some]
  rw [show Op.Running = Signal.Running.toOp from rfl,
    invoke_sink _ _ _ _ (by simpa [hdk.symm] using hK)]
  refine ⟨_, rfl, by simp [Signal.toOp], by simp, ?_, ?_⟩
  · intro o G
    rw [invoke_UntilFail_Run_running _ _ _ _ (by simp)]
    simp [hN, send_some]
  · intro s o G hN' hR
    rw [show G + 2 = (G + 1) + 1 from rfl, invoke_UntilFail_Run_fresh _ _ _ _ hR]
    simp only [log_heap, hN', send_some]
    rw [invoke_Task_Start]
    simp only [andThen_ok, log_heap, hN', send_some]

theorem untilFail_running_component_witness :
    ∃ st1, invoke 2 ⟨2, .UntilFailDecorator⟩ .Running (untilFailWorld (succeedsThenFails 0))
        = .ok st1 ∧
      st1.trace = (untilFailWorld (succeedsThenFails 0)).trace ++
        [⟨⟨2, .UntilFailDecorator⟩, .Running⟩, ⟨⟨0, .BaseNode⟩, .Running⟩] ∧
      (st1.heap 2).NodeRunning = true ∧
      (∀ (o : Obj) (G : Nat),
        invoke (G + 1) ⟨2, .UntilFailDecorator⟩ (.Run o) st1
          = invoke G ⟨1, .Task⟩ (.Run o) (st1.log ⟨⟨2, .UntilFailDecorator⟩, .Run o⟩)) ∧
      (∀ (s : State) (o : Obj) (G : Nat), (s.heap 2).Node = some ⟨1, .Task⟩ →
        (s.heap 2).NodeRunning = false →
        invoke (G + 2) ⟨2, .UntilFailDecorator⟩ (.Run o) s
          = invoke (G + 1) ⟨1, .Task⟩ (.Run o)
              ((s.log ⟨⟨2, .UntilFailDecorator⟩, .Run o⟩).log ⟨⟨1, .Task⟩, .Start o⟩)) :=
  untilFail_running_component (untilFailWorld (succeedsThenFails 0)) 2 1 0 (by rfl) (by rfl)
    (by rfl) (by decide) 2 (by decide)

/-- C17 on the code: a driver (address `3`) whose root is an `UntilFailDecorator` (address
`2`) around a task (address `1`) that signals `Running`.  In the first tick the external
control (address `0`) receives `Running`; in the second tick `BehaviorTree.Run` calls `Start`
on the decorator, which clears `NodeRunning`, so `Run` starts the child again: over the two
ticks the child receives `Start` twice. -/
theorem driver_untilFail_restarts_after_running :
    observe (ticks 8 ⟨3, .BehaviorTree⟩ 42 1
          (driverWorld (.deco .UntilFailDecorator (.task (always .Running)))))
        (fun st => (eventsAt st.trace 0, received st.trace 1 (.Start 42),
          received st.trace 1 (.Run 42), (st.heap 2).NodeRunning))
      = some ([.Running], 1, 1, true) ∧
    observe (ticks 8 ⟨3, .BehaviorTree⟩ 42 2
          (driverWorld (.deco .UntilFailDecorator (.task (always .Running)))))
        (fun st => (eventsAt st.trace 0, received st.trace 1 (.Start 42),
          received st.trace 1 (.Run 42)))
      = some ([.Running, .Running], 2, 2) := by
  decide!

theorem invoke_BranchNode_Start (fuel b : Nat) (o : Obj) (st : State) :
    ∃ s1, invoke (fuel + 1) ⟨b, .BranchNode⟩ (.Start o) st = .ok s1 ∧
      s1.trace = st.trace ++ [⟨⟨b, .BranchNode⟩, .Start o⟩] ∧
      (∀ x, (s1.heap x).Nodes = (st.heap x).Nodes) ∧
      s1.rand = st.rand ∧ s1.draws = st.draws := by
  simp only [invoke_succ, step, dispatch, BranchNode.method, BranchNode.Start, log_heap]
  cases (st.heap b).NodeRunning with
  | true => exact ⟨_, rfl, by simp, by simp, rfl, rfl⟩
  | false =>
    refine ⟨_, rfl, by simp [BaseNode.setObject], ?_, rfl, rfl⟩
    intro x
    by_cases hx : x = b
    · subst hx; simp [BaseNode.setObject]
    · simp [BaseNode.setObject, hx]

theorem index_tasks (ch : List (Nat × Signal)) (i : Nat) (p : Nat × Signal)
    (h : ch[i]? = some p) : index (ch.map taskRef) (i : Int) = .ok (taskRef p) := by
  have h0 : ¬ ((i : Int) < 0) := by omega
  simp only [index, h0, if_false, Int.toNat_ofNat, List.getElem?_map, h, Option.map_some']

/-- C19: a `Random` whose children are `n > 0` tasks, in any state: `Start(o)` returns, the
cursor `ActualTask` is the index `i` that the random source returned (`0 <= i < n`), and
`Start(o)` has been called on exactly one child, `Nodes[i]`, once: besides the `Random` itself
(its own `Start` and that of the embedded `BranchNode`) no other object is called. -/
theorem random_start_one_child (st : State) (r : Nat) (ch : List (Nat × Signal)) (o : Obj)
    (hN : (st.heap r).Nodes = ch.map taskRef) (hne : ch ≠ []) (fuel : Nat) (hfuel : 2 ≤ fuel) :
    ∃ st' p, invoke fuel ⟨r, .Random⟩ (.Start o) st = .ok st' ∧
      st.rand st.draws % ch.length < ch.length ∧
      (st'.heap r).ActualTask = ((st.rand st.draws % ch.length : Nat) : Int) ∧
      ch[st.rand st.draws % ch.length]? = some p ∧
      st'.trace = st.trace ++ [⟨⟨r, .Random⟩, .Start o⟩, ⟨⟨r, .BranchNode⟩, .Start o⟩,
        ⟨⟨p.1, .Task⟩, .Start o⟩] := by
  obtain ⟨F, rfl⟩ : ∃ F, fuel = (F + 1) + 1 := ⟨fuel - 2, by omega⟩
  have hl : 0 < ch.length := List.length_pos.mpr hne
  have hi : st.rand st.draws % ch.length < ch.length := Nat.mod_lt _ hl
  obtain ⟨p, hp⟩ : ∃ p, ch[st.rand st.draws % ch.length]? = some p :=
    ⟨ch[st.rand st.draws % ch.length], List.getElem?_eq_getElem hi⟩
  obtain ⟨s1, h1, ht1, hn1, hr1, hd1⟩ :=
    invoke_BranchNode_Start F r o (st.log ⟨⟨r, .Random⟩, .Start o⟩)
  have hr1 : s1.rand = st.rand := hr1
  have hd1 : s1.draws = st.draws := hd1
  rw [invoke_succ]
  simp only [step, dispatch, Random.method, Random.Start, h1, andThen_ok, randIntn]
  have hN1 : (s1.heap r).Nodes = ch.map taskRef := by rw [hn1]; simpa using hN
  simp only [hN1, List.length_map, hl, if_true, modify_heap_same, hr1, hd1,
    index_tasks ch _ p hp, taskRef, send_some, invoke_Task_Start]
  refine ⟨_, p, rfl, hi, by simp [State.log], hp, ?_⟩
  simp [State.log, State.modify, ht1]

theorem random_start_one_child_witness :
    ∃ st' p, invoke 2 ⟨4, .Random⟩ (.Start 42)
        (randomWorld (fun i => i + 1) [.Success, .Fail, .Success]) = .ok st' ∧
      (randomWorld (fun i => i + 1) [.Success, .Fail, .Success]).rand
          (randomWorld (fun i => i + 1) [.Success, .Fail, .Success]).draws %
        [((1 : Nat), Signal.Success), (2, .Fail), (3, .Success)].length
        < [((1 : Nat), Signal.Success), (2, .Fail), (3, .Success)].length ∧
      (st'.heap 4).ActualTask
        = (((randomWorld (fun i => i + 1) [.Success, .Fail, .Success]).rand
          (randomWorld (fun i => i + 1) [.Success, .Fail, .Success]).draws %
          [((1 : Nat), Signal.Success), (2, .Fail), (3, .Success)].length : Nat) : Int) ∧
      [((1 : Nat), Signal.Success), (2, .Fail), (3, .Success)][
        (randomWorld (fun i => i + 1) [.Success, .Fail, .Success]).rand
          (randomWorld (fun i => i + 1) [.Success, .Fail, .Success]).draws %
        [((1 : Nat), Signal.Success), (2, .Fail), (3, .Success)].length]? = some p ∧
      st'.trace = (randomWorld (fun i => i + 1) [.Success, .Fail, .Success]).trace ++
        [⟨⟨4, .Random⟩, .Start 42⟩, ⟨⟨4, .BranchNode⟩, .Start 42⟩, ⟨⟨p.1, .Task⟩, .Start 42⟩] :=
  random_start_one_child (randomWorld (fun i => i + 1) [.Success, .Fail, .Success]) 4
    [(1, .Success), (2, .Fail), (3, .Success)] 42 (by rfl) (by simp) 2 (by decide)

/-- C20 on the code: a `Random` (address `2`) with its control set (address `0`) over one
task (address `1`) that signals `Success`, resp. `Fail`.  After `Start(42)` and `Run(42)` the
control has received nothing: `_run` made the embedded `BranchNode` the child's control, so
the verdict is handled by `BranchNode.Success`, resp. `BranchNode.Fail`, which do not notify
the control; `Random.Success` and `Random.Fail` are never called. -/
theorem random_verdict_not_forwarded :
    observe (callAll 6 ⟨2, .Random⟩ [.Start 42, .Run 42] (randomWorld (fun _ => 0) [.Success]))
        (fun st => (eventsAt st.trace 0, eventsAt st.trace 2))
      = some ([], [.Start 42, .Start 42, .Run 42, .Success]) ∧
    observe (callAll 6 ⟨2, .Random⟩ [.Start 42, .Run 42] (randomWorld (fun _ => 0) [.Success]))
        (fun st => st.trace.filter fun e => e.op = .Success)
      = some [⟨⟨1, .Task⟩, .Success⟩, ⟨⟨2, .BranchNode⟩, .Success⟩] ∧
    observe (callAll 6 ⟨2, .Random⟩ [.Start 42, .Run 42] (randomWorld (fun _ => 0) [.Fail]))
        (fun st => (eventsAt st.trace 0, st.trace.filter fun e => e.op = .Fail))
      = some ([], [⟨⟨1, .Task⟩, .Fail⟩, ⟨⟨2, .BranchNode⟩, .Fail⟩]) := by
  decide!

/-- C26 on the code: a `Random` (address `2`) over one task (address `1`), `NodeRunning`
clear.  `Start(42)` followed by `Run(42)` calls `Start` on the chosen child twice before its
`Run`: once in `Random.Start` and once more in `BranchNode._run`. -/
theorem random_child_started_twice :
    observe (callAll 6 ⟨2, .Random⟩ [.Start 42, .Run 42] (randomWorld (fun _ => 0) [.Running]))
        (fun st => eventsAt st.trace 1)
      = some [.Start 42, .Start 42, .SetControl (some ⟨2, .BranchNode⟩), .Run 42, .Running] := by
  decide!

/-- C39 on the code: a `Random` (address `3`) over two tasks (addresses `1`, `2`) that signal
`Running`, with a random source that returns `0` and then `1`.  After `Start`, `Run` the
first child is running.  The second `Start` draws index `1`, stores it in `ActualTask` and
starts the second child, but the second `Run` runs the child held in `Node`, the first one:
the child run is not `Nodes[ActualTask]`. -/
theorem random_runs_stale_child :
    observe (callAll 6 ⟨3, .Random⟩ [.Start 42, .Run 42]
          (randomWorld (fun i => i) [.Running, .Running]))
        (fun st => (runsAmong [1, 2] st.trace, (st.heap 3).ActualTask, (st.heap 3).NodeRunning))
      = some ([1], 0, true) ∧
    observe (callAll 6 ⟨3, .Random⟩ [.Start 42, .Run 42, .Start 42]
          (randomWorld (fun i => i) [.Running, .Running]))
        (fun st => ((st.heap 3).ActualTask, (st.heap 3).Nodes, (st.heap 3).Node))
      = some (1, [some ⟨1, .Task⟩, some ⟨2, .Task⟩], some ⟨1, .Task⟩) ∧
    observe (callAll 6 ⟨3, .Random⟩ [.Start 42, .Run 42, .Start 42, .Run 42]
          (randomWorld (fun i => i) [.Running, .Running]))
        (fun st => (runsAmong [1, 2] st.trace, (st.heap 3).ActualTask))
      = some ([1, 1], 1) := by
  decide!

/-- C21: `BehaviorTree.Run(o)` on a driver whose root `r` is not nil is: store `o` in `Object`,
then `SetControl(tree)` on the root, then `Start(o)` on the root, then `Run(o)` on the root,
and nothing after it.  With a task as root whose step function signals nothing, `Run(o)`
returns and these three calls, once each and in this order, are all that the root receives. -/
theorem driver_run_protocol (st : State) (b : Nat) (r : Ref) (o : Obj) (fuel : Nat)
    (hroot : (st.heap b).RootNode = some r) (hrb : r.id ≠ b) :
    invoke (fuel + 2) ⟨b, .BehaviorTree⟩ (.Run o) st
      = andThen (invoke (fuel + 1) r (.Start o)
          ((((st.log ⟨⟨b, .BehaviorTree⟩, .Run o⟩).modify b fun n => { n with Object := o }).log
            ⟨r, .SetControl (some ⟨b, .BehaviorTree⟩)⟩).modify r.id fun n =>
              { n with ControlNode := some ⟨b, .BehaviorTree⟩ }))
          (fun s => send (invoke (fuel + 1)) (s.heap b).RootNode (.Run (s.heap b).Object) s) ∧
    (r.view = .Task → childSignals st r.id o = [] →
      ∃ st', invoke (fuel + 2) ⟨b, .BehaviorTree⟩ (.Run o) st = .ok st' ∧
        st'.trace = st.trace ++ [⟨⟨b, .BehaviorTree⟩, .Run o⟩,
          ⟨r, .SetControl (some ⟨b, .BehaviorTree⟩)⟩, ⟨r, .Start o⟩, ⟨r, .Run o⟩] ∧
        (st'.heap b).Object = o ∧ (st'.heap r.id).ControlNode = some ⟨b, .BehaviorTree⟩) := by
  refine ⟨invoke_BehaviorTree_Run fuel b o st r hroot hrb, ?_⟩
  intro hview hsil
  obtain ⟨a, view⟩ := r
  simp only at hview hrb hsil
  subst hview
  rw [invoke_BehaviorTree_Run fuel b o st _ hroot hrb, invoke_Task_Start]
  simp only [andThen_ok, log_heap, modify_heap_ne _ _ (Ne.symm hrb), modify_heap_same, hroot,
    send_some]
  simp only [invoke_succ, step, dispatch, Task.method, Task.Run, log_heap, modify_heap_same,
    modify_heap_ne _ _ hrb]
  unfold childSignals at hsil
  cases hf : (st.heap a).RunFunc with
  | none =>
    simp only [hf]
    exact ⟨_, rfl, by simp, by simp [Ne.symm hrb], by simp⟩
  | some f =>
    rw [hf] at hsil
    have h2 : f (st.heap a).calls o = [] := hsil
    simp only [hf, h2, forEach, andThen_ok]
    refine ⟨_, rfl, by simp, ?_, by simp⟩
    simp [Ne.symm hrb]

theorem driver_run_protocol_witness :
    invoke (3 + 2) ⟨2, .BehaviorTree⟩ (.Run 42) (driverWorld (.task fun _ _ => []))
      = andThen (invoke (3 + 1) ⟨1, .Task⟩ (.Start 42)
          (((((driverWorld (.task fun _ _ => [])).log ⟨⟨2, .BehaviorTree⟩, .Run 42⟩).modify 2
            fun n => { n with Object := 42 }).log
            ⟨⟨1, .Task⟩, .SetControl (some ⟨2, .BehaviorTree⟩)⟩).modify (Ref.mk 1 .Task).id fun n =>
              { n with ControlNode := some ⟨2, .BehaviorTree⟩ }))
          (fun s => send (invoke (3 + 1)) (s.heap 2).RootNode (.Run (s.heap 2).Object) s) ∧
    ((Ref.mk 1 .Task).view = .Task →
      childSignals (driverWorld (.task fun _ _ => [])) (Ref.mk 1 .Task).id 42 = [] →
      ∃ st', invoke (3 + 2) ⟨2, .BehaviorTree⟩ (.Run 42) (driverWorld (.task fun _ _ => []))
          = .ok st' ∧
        st'.trace = (driverWorld (.task fun _ _ => [])).trace ++ [⟨⟨2, .BehaviorTree⟩, .Run 42⟩,
          ⟨⟨1, .Task⟩, .SetControl (some ⟨2, .BehaviorTree⟩)⟩, ⟨⟨1, .Task⟩, .Start 42⟩,
          ⟨⟨1, .Task⟩, .Run 42⟩] ∧
        (st'.heap 2).Object = 42 ∧
        (st'.heap (Ref.mk 1 .Task).id).ControlNode = some ⟨2, .BehaviorTree⟩) :=
  driver_run_protocol (driverWorld (.task fun _ _ => [])) 2 ⟨1, .Task⟩ 42 3 (by rfl) (by decide)

/-- C22: a driver whose root is a task and whose external control, if set (`ctl = some k`),
is a `BaseNode` without a control of its own.  When the root signals `Success` or `Fail`, the
driver calls `Finish` on the root once with the stored object, then the same verdict once on
the external control if it is set, and `Started` is `false` afterwards.  When the root signals
`Running`, the driver calls `Running` once on the external control if it is set, calls nothing
on the root, and `Started` is `true` afterwards. -/
theorem driver_verdict_handling (st : State) (b a : Nat) (ctl : Option Nat) (v : Signal)
    (hroot : (st.heap b).RootNode = some ⟨a, .Task⟩)
    (hC : (st.heap b).ControlNode = ctl.map fun k => ⟨k, .BaseNode⟩)
    (hK : ∀ k, ctl = some k → (st.heap k).ControlNode = none ∧ k ≠ b)
    (fuel : Nat) (hfuel : 2 ≤ fuel) :
    ∃ st', invoke fuel ⟨b, .BehaviorTree⟩ v.toOp st = .ok st' ∧
      st'.trace = st.trace ++ [⟨⟨b, .BehaviorTree⟩, v.toOp⟩] ++
        (if v = .Running then [] else [⟨⟨a, .Task⟩, .Finish (st.heap b).Object⟩]) ++
        (match ctl with
          | some k => [⟨⟨k, .BaseNode⟩, v.toOp⟩]
          | none => []) ∧
      (st'.heap b).Started = decide (v = .Running) := by
  obtain ⟨F, rfl⟩ : ∃ F, fuel = (F + 1) + 1 := ⟨fuel - 2, by omega⟩
  by_cases hv : v = .Running
  · subst hv
    simp only [invoke_succ, step, dispatch, BehaviorTree.method, BehaviorTree.Running, log_heap,
      Signal.toOp, hC]
    cases ctl with
    | none => exact ⟨_, rfl, by simp, by simp⟩
    | some k =>
      obtain ⟨hk, _⟩ := hK k rfl
      simp only [Option.map_some', notify_some]
      have := invoke_sink F k .Running (st.log ⟨⟨b, .BehaviorTree⟩, .Running⟩) (by simpa using hk)
      simp only [Signal.toOp, invoke_succ] at this
      rw [this]
      exact ⟨_, rfl, by simp, by simp⟩
  · rw [invoke_BehaviorTree_verdict _ _ _ hv]
    simp only [log_heap, hroot, send_some, invoke_Task_Finish, andThen_ok, modify_heap_same, hC]
    cases ctl with
    | none => exact ⟨_, rfl, by simp [hv], by simp [hv]⟩
    | some k =>
      obtain ⟨hk, hkb⟩ := hK k rfl
      simp only [Option.map_some', notify_some]
      rw [invoke_sink _ _ _ _ (by simpa [hkb] using hk)]
      exact ⟨_, rfl, by simp [hv], by simp [hv]⟩

theorem driver_verdict_handling_witness :
    ∃ st', invoke 2 ⟨2, .BehaviorTree⟩ Signal.Fail.toOp (driverWorld (.task (always .Fail)))
        = .ok st' ∧
      st'.trace = (driverWorld (.task (always .Fail))).trace ++
        [⟨⟨2, .BehaviorTree⟩, Signal.Fail.toOp⟩] ++
        (if Signal.Fail = .Running then []
          else [⟨⟨1, .Task⟩, .Finish ((driverWorld (.task (always .Fail))).heap 2).Object⟩]) ++
        (match some 0 with
          | some k => [⟨⟨k, .BaseNode⟩, Signal.Fail.toOp⟩]
          | none => []) ∧
      (st'.heap 2).Started = decide (Signal.Fail = .Running) :=
  driver_verdict_handling (driverWorld (.task (always .Fail))) 2 1 (some 0) .Fail (by rfl)
    (by rfl) (by intro k hk; cases hk; exact ⟨by rfl, by decide⟩) 2 (by decide)

/-- C23 on the code: `BehaviorTree.Run` on a driver constructed with a nil root faults, for
every object: `bt.RootNode.SetControl(bt)` is a method call on a nil interface value. -/
theorem driver_rootless_faults (fuel : Nat) (o : Obj) :
    invoke (fuel + 1) (NewBehaviorTree none (State.init fun _ => 0)).1 (.Run o)
        (NewBehaviorTree none (State.init fun _ => 0)).2 = .error .fault := by
  rfl

/-- C30: for a `BaseNode` and for a `Task` (which inherits these methods), and each of
`Running`, `Success`, `Fail`: when the control is `c`, the call is exactly the same call on
`c` and nothing else; when the control is nil, the call returns at once, having called
nothing. -/
theorem baseNode_forwards (st : State) (a : Nat) (view : Kind)
    (hview : view = .BaseNode ∨ view = .Task) (v : Signal) (fuel : Nat) (ctl : Option Ref) :
    (st.heap a).ControlNode = ctl →
    invoke (fuel + 1) ⟨a, view⟩ v.toOp st
      = match ctl with
        | some c => invoke fuel c v.toOp (st.log ⟨⟨a, view⟩, v.toOp⟩)
        | none => .ok (st.log ⟨⟨a, view⟩, v.toOp⟩) := by
  intro hC
  rcases hview with rfl | rfl <;> cases v <;> cases ctl <;>
    simp [step, dispatch, Signal.toOp, Task.method, BaseNode.method, BaseNode.Running,
      BaseNode.Success, BaseNode.Fail, hC, notify]

theorem baseNode_forwards_witness :
    invoke (1 + 1) ⟨1, .Task⟩ Signal.Success.toOp (taskWorld none)
      = match some (Ref.mk 0 .BaseNode) with
        | some c => invoke 1 c Signal.Success.toOp
            ((taskWorld none).log ⟨⟨1, .Task⟩, Signal.Success.toOp⟩)
        | none => .ok ((taskWorld none).log ⟨⟨1, .Task⟩, Signal.Success.toOp⟩) :=
  baseNode_forwards (taskWorld none) 1 .Task (Or.inr rfl) .Success 1 (some ⟨0, .BaseNode⟩)
    (by rfl)

theorem task_signal_forwarded (st : State) (a : Nat) (v : Signal) (fuel : Nat) :
    ∀ c, (st.heap a).ControlNode = some c →
      invoke (fuel + 1) ⟨a, .Task⟩ v.toOp st
        = invoke fuel c v.toOp (st.log ⟨⟨a, .Task⟩, v.toOp⟩) := by
  intro c hc
  cases v <;>
    simp [step, dispatch, Signal.toOp, Task.method, BaseNode.method, BaseNode.Running,
      BaseNode.Success, BaseNode.Fail, hc, notify]

theorem forEach_signals (fuel a k : Nat) :
    ∀ (sigs : List Signal) (st : State), (st.heap a).ControlNode = some ⟨k, .BaseNode⟩ →
      (st.heap k).ControlNode = none →
      ∃ st', forEach sigs (fun sig => invoke (fuel + 2) ⟨a, .Task⟩ sig.toOp) st = .ok st' ∧
        st'.heap = st.heap ∧
        st'.trace = st.trace ++
          sigs.flatMap fun v => [⟨⟨a, .Task⟩, v.toOp⟩, ⟨⟨k, .BaseNode⟩, v.toOp⟩] := by
  intro sigs
  induction sigs with
  | nil => intro st _ _; exact ⟨st, rfl, rfl, by simp⟩
  | cons v rest ih =>
    intro st hCa hK
    have h1 : invoke (fuel + 2) ⟨a, .Task⟩ v.toOp st
        = .ok ((st.log ⟨⟨a, .Task⟩, v.toOp⟩).log ⟨⟨k, .BaseNode⟩, v.toOp⟩) := by
      rw [show fuel + 2 = (fuel + 1) + 1 from rfl,
        (task_signal_forwarded st a v (fuel + 1)) _ hCa, invoke_sink _ _ _ _ (by simpa using hK)]
    obtain ⟨st', hr, hh, ht⟩ := ih ((st.log ⟨⟨a, .Task⟩, v.toOp⟩).log ⟨⟨k, .BaseNode⟩, v.toOp⟩)
      (by simpa using hCa) (by simpa using hK)
    refine ⟨st', ?_, by rw [hh]; simp, ?_⟩
    · simp only [forEach, h1, andThen_ok, hr]
    · rw [ht]; simp

/-- C31: `Task.Run(o)` on a task whose control is a `BaseNode` without a control of its own.
With a step function `f`, the function is invoked once (the count of invocations grows by
one) with the task and `o`, every verdict it signals on the task reaches the control once, in
order, and `Run` returns.  Without a step function `Run(o)` returns having called nothing. -/
theorem task_run_once (st : State) (a k : Nat) (o : Obj) (fo : Option StepFn)
    (hf : (st.heap a).RunFunc = fo)
    (hCa : (st.heap a).ControlNode = some ⟨k, .BaseNode⟩)
    (hK : (st.heap k).ControlNode = none) (hak : a ≠ k) (fuel : Nat) (hfuel : 3 ≤ fuel) :
    ∃ st', invoke fuel ⟨a, .Task⟩ (.Run o) st = .ok st' ∧
      (st'.heap a).calls = (st.heap a).calls + (if fo.isSome then 1 else 0) ∧
      st'.trace = st.trace ++ ⟨⟨a, .Task⟩, .Run o⟩ ::
        (match fo with
          | some f => (f (st.heap a).calls o).flatMap fun v =>
              [⟨⟨a, .Task⟩, v.toOp⟩, ⟨⟨k, .BaseNode⟩, v.toOp⟩]
          | none => []) := by
  obtain ⟨F, rfl⟩ : ∃ F, fuel = (F + 2) + 1 := ⟨fuel - 3, by omega⟩
  cases fo with
  | some f =>
    rw [invoke_succ]
    simp only [step, dispatch, Task.method, Task.Run, log_heap, hf]
    obtain ⟨st', hr, hh, ht⟩ := forEach_signals F a k (f (st.heap a).calls o)
      ((st.log ⟨⟨a, .Task⟩, .Run o⟩).modify a fun n => { n with calls := (st.heap a).calls + 1 })
      (by simpa using hCa) (by simpa [Ne.symm hak] using hK)
    rw [hr, andThen_ok]
    refine ⟨_, rfl, ?_, ?_⟩
    · simp [hh]
    · simp [ht]
  | none =>
    simp only [invoke_succ, step, dispatch, Task.method, Task.Run, log_heap, hf]
    exact ⟨_, rfl, by simp, by simp⟩

theorem task_run_once_witness :
    ∃ st', invoke 3 ⟨1, .Task⟩ (.Run 42) (taskWorld (some (succeedsThenFails 1))) = .ok st' ∧
      (st'.heap 1).calls = ((taskWorld (some (succeedsThenFails 1))).heap 1).calls +
        (if (some (succeedsThenFails 1)).isSome then 1 else 0) ∧
      st'.trace = (taskWorld (some (succeedsThenFails 1))).trace ++ ⟨⟨1, .Task⟩, .Run 42⟩ ::
        (match some (succeedsThenFails 1) with
          | some f => (f ((taskWorld (some (succeedsThenFails 1))).heap 1).calls 42).flatMap
              fun v => [⟨⟨1, .Task⟩, v.toOp⟩, ⟨⟨0, .BaseNode⟩, v.toOp⟩]
          | none => []) :=
  task_run_once (taskWorld (some (succeedsThenFails 1))) 1 0 42 (some (succeedsThenFails 1))
    (by rfl) (by rfl) (by rfl) (by decide) 3 (by decide)

/-- C37 on the code: `Run(42)` on a task constructed with a nil step function returns and
leaves `RunCalled` false: the flag is set inside the `if t.RunFunc != nil` block. -/
theorem task_nil_run_not_recorded :
    observe (invoke 1 (NewTask none (State.init fun _ => 0)).1 (.Run 42)
          (NewTask none (State.init fun _ => 0)).2)
        (fun st => ((st.heap 0).RunCalled, received st.trace 0 (.Run 42)))
      = some (false, 1) := by
  decide!

/-- C34 on the code: a `BranchNode` (address `2`) over a task that signals `Running`.  After
`Start(1)`, `Run(1)` the child is running; `Start(2)` then changes nothing: the stored object
is still `1`, not `2`. -/
theorem branchNode_start_guarded :
    observe (callAll 6 ⟨2, .BranchNode⟩ [.Start 1, .Run 1] (branchWorld [.Running]))
        (fun st => ((st.heap 2).NodeRunning, (st.heap 2).Object))
      = some (true, 1) ∧
    observe (callAll 6 ⟨2, .BranchNode⟩ [.Start 1, .Run 1, .Start 2] (branchWorld [.Running]))
        (fun st => ((st.heap 2).NodeRunning, (st.heap 2).Object))
      = some (true, 1) := by
  decide!

/-- C34, amended: `Start(o)` on a `Sequence` whose children are tasks, and on a `Priority`,
returns and leaves `ActualTask = 0` and `Object = o` in every prior state; `Start(o)` on a
`BranchNode` does so when `NodeRunning` is clear, and when `NodeRunning` is set it leaves
the cursor, the stored object and every other field as they were. -/
theorem start_resets_cursor (st : State) (s : Nat) (o : Obj) (ch : List (Nat × Signal))
    (hN : (st.heap s).Nodes = ch.map taskRef) (fuel : Nat) (hfuel : 2 ≤ fuel) :
    (∃ st', invoke fuel ⟨s, .Sequence⟩ (.Start o) st = .ok st' ∧
      (st'.heap s).ActualTask = 0 ∧ (st'.heap s).Object = o) ∧
    (∃ st', invoke fuel ⟨s, .Priority⟩ (.Start o) st = .ok st' ∧
      (st'.heap s).ActualTask = 0 ∧ (st'.heap s).Object = o) ∧
    (∃ st', invoke fuel ⟨s, .BranchNode⟩ (.Start o) st = .ok st' ∧
      ((st.heap s).NodeRunning = false →
        (st'.heap s).ActualTask = 0 ∧ (st'.heap s).Object = o) ∧
      ((st.heap s).NodeRunning = true → st'.heap = st.heap)) := by
  obtain ⟨F, rfl⟩ : ∃ F, fuel = F + 2 := ⟨fuel - 2, by omega⟩
  refine ⟨?_, ?_, ?_⟩
  · rw [invoke_Sequence_Start F s o st ch hN]
    exact ⟨_, rfl, by simp [State.modify, State.log], by simp [State.modify, State.log]⟩
  · rw [show F + 2 = (F + 1) + 1 from rfl, invoke_Priority_Start]
    exact ⟨_, rfl, by simp, by simp⟩
  · simp only [invoke_succ, step, dispatch, BranchNode.method, BranchNode.Start, log_heap]
    cases hR : (st.heap s).NodeRunning with
    | true => exact ⟨_, rfl, by simp, by simp⟩
    | false =>
      exact ⟨_, rfl, by simp [BaseNode.setObject], by simp⟩

theorem start_resets_cursor_witness :
    (∃ st', invoke 2 ⟨3, .Sequence⟩ (.Start 42) (sequenceWorld [.Success, .Fail]) = .ok st' ∧
      (st'.heap 3).ActualTask = 0 ∧ (st'.heap 3).Object = 42) ∧
    (∃ st', invoke 2 ⟨3, .Priority⟩ (.Start 42) (sequenceWorld [.Success, .Fail]) = .ok st' ∧
      (st'.heap 3).ActualTask = 0 ∧ (st'.heap 3).Object = 42) ∧
    (∃ st', invoke 2 ⟨3, .BranchNode⟩ (.Start 42) (sequenceWorld [.Success, .Fail]) = .ok st' ∧
      (((sequenceWorld [.Success, .Fail]).heap 3).NodeRunning = false →
        (st'.heap 3).ActualTask = 0 ∧ (st'.heap 3).Object = 42) ∧
      (((sequenceWorld [.Success, .Fail]).heap 3).NodeRunning = true →
        st'.heap = (sequenceWorld [.Success, .Fail]).heap)) :=
  start_resets_cursor (sequenceWorld [.Success, .Fail]) 3 42 [(1, .Success), (2, .Fail)]
    (by rfl) 2 (by decide)

/-- C35: `Success` and `Fail` on a `BranchNode` whose active child `Node` is a task (the state
after `Start` and `Run` on a non-empty `BranchNode` over tasks): the handler returns having
called `Finish` on that child once with the stored object and nothing else, `NodeRunning` is
`false` and `Node` is nil afterwards.  When `Node` is already nil the handler returns having
called nothing, with the same effect on the two fields. -/
theorem branchNode_verdict_finishes (st : State) (b : Nat) (v : Signal) (hv : v ≠ .Running)
    (node : Option Nat) (fuel : Nat) (hfuel : 2 ≤ fuel) :
    (st.heap b).Node = node.map (fun a => ⟨a, .Task⟩) →
    ∃ st', invoke fuel ⟨b, .BranchNode⟩ v.toOp st = .ok st' ∧
      st'.trace = st.trace ++ ⟨⟨b, .BranchNode⟩, v.toOp⟩ ::
        (match node with
          | some a => [⟨⟨a, .Task⟩, .Finish (st.heap b).Object⟩]
          | none => []) ∧
      (st'.heap b).NodeRunning = false ∧ (st'.heap b).Node = none := by
  intro hN
  obtain ⟨F, rfl⟩ : ∃ F, fuel = (F + 1) + 1 := ⟨fuel - 2, by omega⟩
  cases v with
  | Running => exact absurd rfl hv
  | Success =>
    simp only [invoke_succ, step, dispatch, Signal.toOp, BranchNode.method, BranchNode.Success,
      log_heap, modify_heap_same, hN]
    cases node with
    | none => exact ⟨_, rfl, by simp, by simp, by simp⟩
    | some a =>
      simp only [Option.map_some', notify_some]
      have h := invoke_Task_Finish F a (st.heap b).Object
        ((st.log ⟨⟨b, .BranchNode⟩, .Success⟩).modify b fun n => { n with NodeRunning := false })
      simp only [invoke_succ] at h
      rw [h]
      exact ⟨_, rfl, by simp, by simp, by simp⟩
  | Fail =>
    simp only [invoke_succ, step, dispatch, Signal.toOp, BranchNode.method, BranchNode.Fail,
      log_heap, modify_heap_same, hN]
    cases node with
    | none => exact ⟨_, rfl, by simp, by simp, by simp⟩
    | some a =>
      simp only [Option.map_some', notify_some]
      have h := invoke_Task_Finish F a (st.heap b).Object
        ((st.log ⟨⟨b, .BranchNode⟩, .Fail⟩).modify b fun n => { n with NodeRunning := false })
      simp only [invoke_succ] at h
      rw [h]
      exact ⟨_, rfl, by simp, by simp, by simp⟩

theorem branchNode_verdict_finishes_witness :
    ∃ st', invoke 2 ⟨2, .BranchNode⟩ Signal.Success.toOp
        ((branchWorld [.Success]).modify 2 fun n => { n with Node := some ⟨1, .Task⟩ })
        = .ok st' ∧
      st'.trace = ((branchWorld [.Success]).modify 2 fun n =>
          { n with Node := some ⟨1, .Task⟩ }).trace ++
        ⟨⟨2, .BranchNode⟩, Signal.Success.toOp⟩ ::
        (match some 1 with
          | some a => [⟨⟨a, .Task⟩, .Finish (((branchWorld [.Success]).modify 2 fun n =>
              { n with Node := some ⟨1, .Task⟩ }).heap 2).Object⟩]
          | none => []) ∧
      (st'.heap 2).NodeRunning = false ∧ (st'.heap 2).Node = none :=
  branchNode_verdict_finishes
    ((branchWorld [.Success]).modify 2 fun n => { n with Node := some ⟨1, .Task⟩ }) 2 .Success
    (by decide) (some 1) 2 (by decide) (by rfl)

/-- C36 on the code: a `BranchNode` (address `2`) with its control set (address `0`) over one
task (address `1`) that fails.  After `Start(42)` and `Run(42)` the child has signalled `Fail`
to the `BranchNode`, which has finished the child and reset its state (`NodeRunning` false,
`Node` nil), and the control has received nothing: `BranchNode.Fail` does not call `Fail` on
the control. -/
theorem branchNode_fail_not_reported :
    observe (callAll 6 ⟨2, .BranchNode⟩ [.Start 42, .Run 42] (branchWorld [.Fail]))
        (fun st => (eventsAt st.trace 1, eventsAt st.trace 2, eventsAt st.trace 0))
      = some ([.Start 42, .SetControl (some ⟨2, .BranchNode⟩), .Run 42, .Fail, .Finish 42],
          [.Start 42, .Run 42, .Fail], []) ∧
    observe (callAll 6 ⟨2, .BranchNode⟩ [.Start 42, .Run 42] (branchWorld [.Fail]))
        (fun st => ((st.heap 2).ControlNode, (st.heap 2).NodeRunning, (st.heap 2).Node))
      = some (some ⟨0, .BaseNode⟩, false, none) := by
  decide!

/-- C27 on the code: a `Priority` (address `2`) over one task (address `1`) that signals
`Running`.  `Start(42)`, `Run(42)`, `Run(42)`: the second `Run`, with no `Start` on the
`Priority` in between, calls `Start` on the running child again before its `Run`. -/
theorem priority_restarts_running_child :
    observe (callAll 6 ⟨2, .Priority⟩ [.Start 42, .Run 42] (priorityWorld [.Running]))
        (fun st => (eventsAt st.trace 1, eventsAt st.trace 0))
      = some ([.SetControl (some ⟨2, .Priority⟩), .Start 42, .Run 42, .Running], [.Running]) ∧
    observe (callAll 6 ⟨2, .Priority⟩ [.Start 42, .Run 42, .Run 42] (priorityWorld [.Running]))
        (fun st => eventsAt st.trace 1)
      = some [.SetControl (some ⟨2, .Priority⟩), .Start 42, .Run 42, .Running,
          .SetControl (some ⟨2, .Priority⟩), .Start 42, .Run 42, .Running] := by
  decide!

/-- C28 on the code: a `Sequence` over tasks that signal `Success` and `Fail`, and a
`Priority` over tasks that signal `Fail` and `Success` (tasks at addresses `1`, `2`, composite
at `3`, control at `0`).  After `Start(42)` and `Run(42)` the composite has signalled its
verdict to the control and no child has received `Finish`. -/
theorem composite_children_not_finished :
    observe (callAll 9 ⟨3, .Sequence⟩ [.Start 42, .Run 42] (sequenceWorld [.Success, .Fail]))
        (fun st => (eventsAt st.trace 0, received st.trace 1 (.Finish 42),
          received st.trace 2 (.Finish 42)))
      = some ([.Fail], 0, 0) ∧
    observe (callAll 9 ⟨3, .Priority⟩ [.Start 42, .Run 42] (priorityWorld [.Fail, .Success]))
        (fun st => (eventsAt st.trace 0, received st.trace 1 (.Finish 42),
          received st.trace 2 (.Finish 42)))
      = some ([.Success], 0, 0) := by
  decide!

/-- C32: a `Sequence` or `Priority` at `s`, with control `k` (a `BaseNode` without a control
of its own), whose child at the cursor is the task `a`, which signals `Running` on its next
run.  `Run(o)` returns; the control has received exactly one call, `Running`; `Run` was
invoked on `a` and on no other child; `ActualTask` is unchanged; and a following `Run(o)` on
the composite invokes `Run(o)` on `a` again (for `Priority`, after another `Start(o)`). -/
theorem composite_running_keeps_cursor (st : State) (s a k : Nat) (o : Obj)
    (hlt : (st.heap s).ActualTask < ((st.heap s).Nodes.length : Int))
    (hidx : index (st.heap s).Nodes (st.heap s).ActualTask = .ok (some ⟨a, .Task⟩))
    (hC : (st.heap s).ControlNode = some ⟨k, .BaseNode⟩)
    (hK : (st.heap k).ControlNode = none)
    (hV : childSignals st a o = [.Running])
    (has : a ≠ s) (hak : a ≠ k) (fuel : Nat) (hfuel : 5 ≤ fuel) :
    (∃ st1, invoke fuel ⟨s, .Sequence⟩ (.Run o) st = .ok st1 ∧
      st1.trace = st.trace ++ [⟨⟨s, .Sequence⟩, .Run o⟩,
        ⟨⟨a, .Task⟩, .SetControl (some ⟨s, .Sequence⟩)⟩, ⟨⟨a, .Task⟩, .Run o⟩,
        ⟨⟨a, .Task⟩, .Running⟩, ⟨⟨s, .Sequence⟩, .Running⟩, ⟨⟨k, .BaseNode⟩, .Running⟩] ∧
      (st1.heap s).ActualTask = (st.heap s).ActualTask ∧
      ∀ G, invoke (G + 2) ⟨s, .Sequence⟩ (.Run o) st1
        = invoke (G + 1) ⟨a, .Task⟩ (.Run o)
            (((st1.log ⟨⟨s, .Sequence⟩, .Run o⟩).log
                ⟨⟨a, .Task⟩, .SetControl (some ⟨s, .Sequence⟩)⟩).modify a fun n =>
              { n with ControlNode := some ⟨s, .Sequence⟩ })) ∧
    (∃ st1, invoke fuel ⟨s, .Priority⟩ (.Run o) st = .ok st1 ∧
      st1.trace = st.trace ++ [⟨⟨s, .Priority⟩, .Run o⟩,
        ⟨⟨a, .Task⟩, .SetControl (some ⟨s, .Priority⟩)⟩, ⟨⟨a, .Task⟩, .Start o⟩,
        ⟨⟨a, .Task⟩, .Run o⟩, ⟨⟨a, .Task⟩, .Running⟩, ⟨⟨s, .Priority⟩, .Running⟩,
        ⟨⟨k, .BaseNode⟩, .Running⟩] ∧
      (st1.heap s).ActualTask = (st.heap s).ActualTask ∧
      ∀ G, invoke (G + 2) ⟨s, .Priority⟩ (.Run o) st1
        = invoke (G + 1) ⟨a, .Task⟩ (.Run o)
            ((((st1.log ⟨⟨s, .Priority⟩, .Run o⟩).log
                ⟨⟨a, .Task⟩, .SetControl (some ⟨s, .Priority⟩)⟩).modify a fun n =>
              { n with ControlNode := some ⟨s, .Priority⟩ }).log ⟨⟨a, .Task⟩, .Start o⟩)) := by
  obtain ⟨F, rfl⟩ : ∃ F, fuel = F + 5 := ⟨fuel - 5, by omega⟩
  have hf : (st.heap a).RunFunc ≠ none := by
    intro h; unfold childSignals at hV; rw [h] at hV; simp at hV
  have hnl : ¬ (((st.heap s).Nodes.length : Int) ≤ (st.heap s).ActualTask) := by omega
  constructor
  · rw [show F + 5 = (F + 3) + 2 from rfl, invoke_Sequence_Run_child _ _ _ _ _ hnl hidx,
      show F + 3 + 1 = (F + 2) + 2 from rfl,
      invoke_Task_Run _ _ _ .Running _ (by unfold childSignals at hV ⊢; simpa using hV)
        (by simpa using hf)]
    simp only [log_heap, modify_heap_same, notify_some, Signal.toOp]
    rw [show F + 2 = (F + 1) + 1 from rfl, invoke_Sequence_Running]
    simp only [log_heap, modify_heap_ne _ _ (Ne.symm has), hC, notify_some]
    rw [show Op.Running = Signal.Running.toOp from rfl,
      invoke_sink _ _ _ _ (by simpa [Ne.symm hak] using hK), andThen_ok]
    refine ⟨_, rfl, by simp [Signal.toOp], by simp [Ne.symm has], ?_⟩
    intro G
    rw [invoke_Sequence_Run_child]
    · simpa [Ne.symm has] using hnl
    · simpa [Ne.symm has] using hidx
  · rw [show F + 5 = (F + 3) + 2 from rfl, invoke_Priority_Run_child _ _ _ _ _ hlt hidx,
      invoke_Task_Start, andThen_ok, show F + 3 + 1 = (F + 2) + 2 from rfl,
      invoke_Task_Run _ _ _ .Running _ (by unfold childSignals at hV ⊢; simpa using hV)
        (by simpa using hf)]
    simp only [log_heap, modify_heap_same, notify_some, Signal.toOp]
    rw [show F + 2 = (F + 1) + 1 from rfl, invoke_Priority_Running]
    simp only [log_heap, modify_heap_ne _ _ (Ne.symm has), hC, notify_some]
    rw [show Op.Running = Signal.Running.toOp from rfl,
      invoke_sink _ _ _ _ (by simpa [Ne.symm hak] using hK), andThen_ok]
    refine ⟨_, rfl, by simp [Signal.toOp], by simp [Ne.symm has], ?_⟩
    intro G
    rw [invoke_Priority_Run_child, invoke_Task_Start, andThen_ok]
    · simpa [Ne.symm has] using hlt
    · simpa [Ne.symm has] using hidx

theorem composite_running_keeps_cursor_witness :
    (∃ st1, invoke 5 ⟨3, .Sequence⟩ (.Run 0) (sequenceWorld [.Running, .Success]) = .ok st1 ∧
      st1.trace = (sequenceWorld [.Running, .Success]).trace ++ [⟨⟨3, .Sequence⟩, .Run 0⟩,
        ⟨⟨1, .Task⟩, .SetControl (some ⟨3, .Sequence⟩)⟩, ⟨⟨1, .Task⟩, .Run 0⟩,
        ⟨⟨1, .Task⟩, .Running⟩, ⟨⟨3, .Sequence⟩, .Running⟩, ⟨⟨0, .BaseNode⟩, .Running⟩] ∧
      (st1.heap 3).ActualTask = ((sequenceWorld [.Running, .Success]).heap 3).ActualTask ∧
      ∀ G, invoke (G + 2) ⟨3, .Sequence⟩ (.Run 0) st1
        = invoke (G + 1) ⟨1, .Task⟩ (.Run 0)
            (((st1.log ⟨⟨3, .Sequence⟩, .Run 0⟩).log
                ⟨⟨1, .Task⟩, .SetControl (some ⟨3, .Sequence⟩)⟩).modify 1 fun n =>
              { n with ControlNode := some ⟨3, .Sequence⟩ })) ∧
    (∃ st1, invoke 5 ⟨3, .Priority⟩ (.Run 0) (sequenceWorld [.Running, .Success]) = .ok st1 ∧
      st1.trace = (sequenceWorld [.Running, .Success]).trace ++ [⟨⟨3, .Priority⟩, .Run 0⟩,
        ⟨⟨1, .Task⟩, .SetControl (some ⟨3, .Priority⟩)⟩, ⟨⟨1, .Task⟩, .Start 0⟩,
        ⟨⟨1, .Task⟩, .Run 0⟩, ⟨⟨1, .Task⟩, .Running⟩, ⟨⟨3, .Priority⟩, .Running⟩,
        ⟨⟨0, .BaseNode⟩, .Running⟩] ∧
      (st1.heap 3).ActualTask = ((sequenceWorld [.Running, .Success]).heap 3).ActualTask ∧
      ∀ G, invoke (G + 2) ⟨3, .Priority⟩ (.Run 0) st1
        = invoke (G + 1) ⟨1, .Task⟩ (.Run 0)
            ((((st1.log ⟨⟨3, .Priority⟩, .Run 0⟩).log
                ⟨⟨1, .Task⟩, .SetControl (some ⟨3, .Priority⟩)⟩).modify 1 fun n =>
              { n with ControlNode := some ⟨3, .Priority⟩ }).log ⟨⟨1, .Task⟩, .Start 0⟩)) :=
  composite_running_keeps_cursor (sequenceWorld [.Running, .Success]) 3 1 0 0 (by decide)
    (by rfl) (by rfl) (by rfl) (by rfl) (by decide) (by decide) 5 (by decide)

/-- C29 on the code: an `InvertDecorator` (address `2`) around a task (address `1`) that
succeeds, after `SetControl(control)` has been called on the task (the control is at address
`0`).  `Run(42)` on the decorator runs the child without rebinding its control: the child's
`Success` goes to the control directly, the decorator receives no verdict, and the control
receives `Success`, not the inverted verdict. -/
theorem decorator_run_keeps_stale_control :
    observe (andThen (invoke 2 ⟨1, .Task⟩ (.SetControl (some ⟨0, .BaseNode⟩))
          (decoratorWorld .InvertDecorator .Success))
          (invoke 6 ⟨2, .InvertDecorator⟩ (.Run 42)))
        (fun st => (eventsAt st.trace 1, eventsAt st.trace 2, eventsAt st.trace 0))
      = some ([.SetControl (some ⟨2, .InvertDecorator⟩), .SetControl (some ⟨0, .BaseNode⟩),
          .Run 42, .Success], [.Run 42], [.Success]) := by
  decide!

/-- C40: a `Sequence` or `Priority` over `n` tasks at distinct addresses that each signal
exactly one verdict per `Run`, with the cursor at `c <= n` and the object `o` stored.  A
single `Run(o)` returns; the children on which `Run` was invoked are children at positions
`c` and later, each at most once, and there are at most `n - c` of them. -/
theorem composite_run_bounded (st : State) (s k : Nat) (ch : List (Nat × Signal)) (o : Obj)
    (h : TaskChildren st s k ch o) (c : Nat) (hc : c ≤ ch.length)
    (hA : (st.heap s).ActualTask = (c : Int)) (hO : (st.heap s).Object = o)
    (view : Kind) (hview : view = .Sequence ∨ view = .Priority)
    (fuel : Nat) (hf : 4 * ch.length + 3 ≤ fuel) :
    ∃ st' E, invoke fuel ⟨s, view⟩ (.Run o) st = .ok st' ∧ st'.trace = st.trace ++ E ∧
      (runOrder s E).length ≤ ch.length - c ∧ (runOrder s E).Nodup ∧
      ∀ a ∈ runOrder s E, a ∈ (ch.drop c).map Prod.fst := by
  by_cases hcn : c = ch.length
  · -- the cursor is past the last child: no child is run
    obtain ⟨F, rfl⟩ : ∃ F, fuel = F + 3 := ⟨fuel - 3, by omega⟩
    have hlen : ((st.heap s).Nodes.length : Int) = (ch.length : Int) := by
      rw [h.nodes]; simp
    rcases hview with rfl | rfl
    · rw [show F + 3 = (F + 2) + 1 from rfl,
        invoke_Sequence_Run_end _ _ _ _ (by rw [hlen, hA, hcn]),
        show F + 2 = (F + 1) + 1 from rfl,
        invoke_Sequence_Success_last _ _ _ (by rw [log_heap, hlen, hA, hcn]; omega)]
      simp only [log_heap, modify_heap_same, h.control, notify_some]
      rw [show Op.Success = Signal.Success.toOp from rfl,
        invoke_sink _ _ _ _ (by simpa [Ne.symm h.sk] using h.sink)]
      refine ⟨_, [⟨⟨s, .Sequence⟩, .Run o⟩, ⟨⟨s, .Sequence⟩, .Success⟩,
        ⟨⟨k, .BaseNode⟩, .Success⟩], rfl, by simp [Signal.toOp], ?_, ?_, ?_⟩ <;>
        simp [runOrder]
    · rw [show F + 3 = (F + 2) + 1 from rfl,
        invoke_Priority_Run_end _ _ _ _ (by rw [hlen, hA, hcn]; omega)]
      refine ⟨_, [⟨⟨s, .Priority⟩, .Run o⟩], rfl, by simp, ?_, ?_, ?_⟩ <;> simp [runOrder]
  · have hlt : c < ch.length := lt_of_le_of_ne hc hcn
    have hrest : ch.drop c ≠ [] := by
      intro h0
      have := congrArg List.length h0
      simp at this; omega
    have hsplit : ch.take c ++ ch.drop c = ch := List.take_append_drop c ch
    have hpre : (ch.take c).length = c := by simp; omega
    have hmem : ∀ p ∈ ch.drop c, p ∈ ch := fun p hp => List.mem_of_mem_drop hp
    have hnd : ((ch.drop c).map Prod.fst).Nodup :=
      List.Nodup.sublist ((List.drop_sublist c ch).map Prod.fst) h.distinct
    have hfuel : 4 * (ch.drop c).length + 1 ≤ fuel := by simp; omega
    have hbound : ∀ l : Nat, ((ch.drop c).take l).length ≤ ch.length - c := by
      intro l; simp
    rcases hview with rfl | rfl
    · obtain ⟨st', hr, ht, _⟩ := seq_run s k o h.sk (ch.drop c) (ch.take c) st fuel hrest hfuel
        (by rw [hsplit]; exact h.nodes) (by rw [hpre]; exact hA) hO h.control h.sink
        (fun p hp => h.verdict p (hmem p hp)) (fun p hp => h.apart p (hmem p hp)) hnd
      refine ⟨st', _, hr, ht, ?_, ?_, ?_⟩
      · rw [runOrder_seqTrace s k o _ (fun p hp => (h.apart p (hmem p hp)).1), List.length_map]
        exact hbound _
      · rw [runOrder_seqTrace s k o _ (fun p hp => (h.apart p (hmem p hp)).1)]
        exact List.Nodup.sublist ((List.take_sublist _ _).map Prod.fst) hnd
      · intro a ha
        rw [runOrder_seqTrace s k o _ (fun p hp => (h.apart p (hmem p hp)).1)] at ha
        exact ((List.take_sublist _ _).map Prod.fst).subset ha
    · obtain ⟨st', hr, ht, _⟩ := prio_run s k o h.sk (ch.drop c) (ch.take c) st fuel hrest hfuel
        (by rw [hsplit]; exact h.nodes) (by rw [hpre]; exact hA) hO h.control h.sink
        (fun p hp => h.verdict p (hmem p hp)) (fun p hp => h.apart p (hmem p hp)) hnd
      refine ⟨st', _, hr, ht, ?_, ?_, ?_⟩
      · rw [runOrder_prioTrace s k o _ (fun p hp => (h.apart p (hmem p hp)).1), List.length_map]
        exact hbound _
      · rw [runOrder_prioTrace s k o _ (fun p hp => (h.apart p (hmem p hp)).1)]
        exact List.Nodup.sublist ((List.take_sublist _ _).map Prod.fst) hnd
      · intro a ha
        rw [runOrder_prioTrace s k o _ (fun p hp => (h.apart p (hmem p hp)).1)] at ha
        exact ((List.take_sublist _ _).map Prod.fst).subset ha

theorem composite_run_bounded_witness :
    ∃ st' E, invoke 15 ⟨4, .Sequence⟩ (.Run 0) (sequenceWorld [.Success, .Fail, .Success])
        = .ok st' ∧
      st'.trace = (sequenceWorld [.Success, .Fail, .Success]).trace ++ E ∧
      (runOrder 4 E).length ≤ [((1 : Nat), Signal.Success), (2, .Fail), (3, .Success)].length - 0 ∧
      (runOrder 4 E).Nodup ∧
      ∀ a ∈ runOrder 4 E,
        a ∈ ([((1 : Nat), Signal.Success), (2, .Fail), (3, .Success)].drop 0).map Prod.fst :=
  composite_run_bounded (sequenceWorld [.Success, .Fail, .Success]) 4 0
    [(1, .Success), (2, .Fail), (3, .Success)] 0
    ⟨by rfl, by rfl, by rfl,
      by
        intro p hp
        simp only [List.mem_cons, List.mem_singleton, List.not_mem_nil, or_false] at hp
        rcases hp with rfl | rfl | rfl <;> rfl,
      by decide, by decide, by decide⟩
    0 (by decide) (by rfl)
    (by rfl) .Sequence (Or.inl rfl) 15 (by decide)

theorem leading_le_length (c : Signal) : ∀ l : List (Nat × Signal), leading c l ≤ l.length := by
  intro l
  induction l with
  | nil => simp [leading]
  | cons p rest ih =>
    simp only [leading, List.length_cons]
    split <;> omega

/-- C38 on the code: a `Sequence` (address `2`) over one task that succeeds, built by
`NewSequence`.  After `Start(42)`, `Run(42)` the cursor is `1 = len(Nodes)`; a second `Run(42)`
finds the cursor at the end, calls `Success`, which increments it: `ActualTask = 2 > 1`.  For
an empty `Sequence` the first `Run` already leaves `ActualTask = 1 > 0`. -/
theorem sequence_cursor_overshoots :
    observe (callAll 9 ⟨2, .Sequence⟩ [.Start 42, .Run 42] (sequenceWorld [.Success]))
        (fun st => ((st.heap 2).ActualTask, (st.heap 2).Nodes.length))
      = some (1, 1) ∧
    observe (callAll 9 ⟨2, .Sequence⟩ [.Start 42, .Run 42, .Run 42] (sequenceWorld [.Success]))
        (fun st => ((st.heap 2).ActualTask, (st.heap 2).Nodes.length))
      = some (2, 1) ∧
    observe (callAll 9 (NewSequence [] (State.init fun _ => 0)).1 [.Start 42, .Run 42]
          (NewSequence [] (State.init fun _ => 0)).2)
        (fun st => ((st.heap 0).ActualTask, (st.heap 0).Nodes.length))
      = some (1, 0) := by
  decide!

/-- C38, amended: a `Sequence` over tasks that each signal exactly one verdict per `Run`, with
`len(Nodes)` and the cursor `ActualTask = c >= 0` below the largest 64-bit `int`, so that no
increment of the cursor wraps.  `Start(o)` returns with `ActualTask = 0`.  `Run(o)` returns
with the cursor still below `2^63`; if `c < len(Nodes)` then `c <= ActualTask <= len(Nodes)`
afterwards; if `c >= len(Nodes)` then `ActualTask = c + 1 > len(Nodes)` afterwards.  So the
cursor stays within `len(Nodes)` only as long as `Run` is called with the cursor inside the
list. -/
theorem sequence_cursor_step (st : State) (s k : Nat) (ch : List (Nat × Signal)) (o : Obj)
    (h : TaskChildren st s k ch o) (c : Nat)
    (hA : (st.heap s).ActualTask = (c : Int)) (hO : (st.heap s).Object = o)
    (hc : c + 1 < 2 ^ 63) (hn : ch.length < 2 ^ 63)
    (fuel : Nat) (hf : 4 * ch.length + 3 ≤ fuel) :
    (∃ st', invoke fuel ⟨s, .Sequence⟩ (.Start o) st = .ok st' ∧ (st'.heap s).ActualTask = 0) ∧
    (∃ st', invoke fuel ⟨s, .Sequence⟩ (.Run o) st = .ok st' ∧
      (st'.heap s).ActualTask < 2 ^ 63 ∧
      (c < ch.length →
        (c : Int) ≤ (st'.heap s).ActualTask ∧ (st'.heap s).ActualTask ≤ (ch.length : Int)) ∧
      (ch.length ≤ c → (st'.heap s).ActualTask = (c : Int) + 1)) := by
  constructor
  · obtain ⟨F, rfl⟩ : ∃ F, fuel = F + 2 := ⟨fuel - 2, by omega⟩
    rw [invoke_Sequence_Start F s o st ch h.nodes]
    exact ⟨_, rfl, by simp [State.modify, State.log]⟩
  · have hlen : ((st.heap s).Nodes.length : Int) = (ch.length : Int) := by
      rw [h.nodes]; simp
    by_cases hcn : ch.length ≤ c
    · obtain ⟨F, rfl⟩ : ∃ F, fuel = F + 3 := ⟨fuel - 3, by omega⟩
      rw [show F + 3 = (F + 2) + 1 from rfl,
        invoke_Sequence_Run_end _ _ _ _ (by rw [hlen, hA]; omega),
        show F + 2 = (F + 1) + 1 from rfl,
        invoke_Sequence_Success_last _ _ _ (by rw [log_heap, hlen, hA]; omega)]
      simp only [log_heap, modify_heap_same, h.control, notify_some]
      rw [show Op.Success = Signal.Success.toOp from rfl,
        invoke_sink _ _ _ _ (by simpa [Ne.symm h.sk] using h.sink)]
      refine ⟨_, rfl, ?_, fun hlt => absurd hcn (by omega), fun _ => ?_⟩
      · simp only [log_heap, modify_heap_same, hA]
        exact_mod_cast hc
      · simp [hA]
    · have hlt : c < ch.length := by omega
      have hrest : ch.drop c ≠ [] := by
        intro h0
        have := congrArg List.length h0
        simp at this; omega
      have hsplit : ch.take c ++ ch.drop c = ch := List.take_append_drop c ch
      have hpre : (ch.take c).length = c := by simp; omega
      have hmem : ∀ p ∈ ch.drop c, p ∈ ch := fun p hp => List.mem_of_mem_drop hp
      have hnd : ((ch.drop c).map Prod.fst).Nodup :=
        List.Nodup.sublist ((List.drop_sublist c ch).map Prod.fst) h.distinct
      obtain ⟨st', hr, _, ha⟩ := seq_run s k o h.sk (ch.drop c) (ch.take c) st fuel hrest
        (by simp; omega) (by rw [hsplit]; exact h.nodes) (by rw [hpre]; exact hA) hO h.control
        h.sink (fun p hp => h.verdict p (hmem p hp)) (fun p hp => h.apart p (hmem p hp)) hnd
      have hle := leading_le_length .Success (ch.drop c)
      simp only [List.length_drop] at hle
      have hb : c + leading .Success (ch.drop c) ≤ ch.length := by omega
      refine ⟨st', hr, ?_, fun _ => ?_, fun hge => absurd hge hcn⟩
      · rw [ha, hpre]
        exact_mod_cast (by omega : c + leading .Success (ch.drop c) < 2 ^ 63)
      · rw [ha, hpre]
        constructor
        · exact_mod_cast Nat.le_add_right c _
        · exact_mod_cast hb

theorem sequence_cursor_step_witness :
    (∃ st', invoke 15 ⟨4, .Sequence⟩ (.Start 0) (sequenceWorld [.Success, .Fail, .Success])
        = .ok st' ∧ (st'.heap 4).ActualTask = 0) ∧
    (∃ st', invoke 15 ⟨4, .Sequence⟩ (.Run 0) (sequenceWorld [.Success, .Fail, .Success])
        = .ok st' ∧
      (st'.heap 4).ActualTask < 2 ^ 63 ∧
      (0 < [((1 : Nat), Signal.Success), (2, .Fail), (3, .Success)].length →
        ((0 : Nat) : Int) ≤ (st'.heap 4).ActualTask ∧
        (st'.heap 4).ActualTask
          ≤ ([((1 : Nat), Signal.Success), (2, .Fail), (3, .Success)].length : Int)) ∧
      ([((1 : Nat), Signal.Success), (2, .Fail), (3, .Success)].length ≤ 0 →
        (st'.heap 4).ActualTask = ((0 : Nat) : Int) + 1)) :=
  sequence_cursor_step (sequenceWorld [.Success, .Fail, .Success]) 4 0
    [(1, .Success), (2, .Fail), (3, .Success)] 0
    ⟨by rfl, by rfl, by rfl,
      by
        intro p hp
        simp only [List.mem_cons, List.mem_singleton, List.not_mem_nil, or_false] at hp
        rcases hp with rfl | rfl | rfl <;> rfl,
      by decide, by decide, by decide⟩
    0 (by rfl) (by rfl) (by decide) (by decide) 15 (by decide)

theorem index_mid_map {α : Type} (g : α → Option Ref) (pre rest : List α) (p : α) :
    index ((pre ++ p :: rest).map g) (pre.length : Int) = .ok (g p) := by
  have h0 : ¬ ((pre.length : Int) < 0) := by omega
  have h1 : ((pre ++ p :: rest).map g)[pre.length]? = some (g p) := by
    rw [List.getElem?_map, List.getElem?_append_right (le_refl _)]
    simp
  simp only [index, h0, if_false, Int.toNat_ofNat, h1]

theorem invoke_BehaviorTree_Running_to (fuel b : Nat) (st : State) (c : Ref)
    (hc : (st.heap b).ControlNode = some c) :
    invoke (fuel + 1) ⟨b, .BehaviorTree⟩ .Running st
      = andThen (invoke fuel c .Running (st.log ⟨⟨b, .BehaviorTree⟩, .Running⟩))
          (fun s => .ok (s.modify b fun n => { n with Started := true })) := by
  simp only [invoke_succ, step, dispatch, BehaviorTree.method, BehaviorTree.Running, log_heap, hc,
    notify_some]

/-- `Sequence.Run` over children that are tasks or drivers over tasks: the trace. -/
theorem nest_run (wrap : Nat → Option Nat) (s k : Nat) (o : Obj) (hsk : s ≠ k) :
    ∀ (rest pre : List (Nat × Signal)) (st : State) (fuel : Nat), rest ≠ [] →
      6 * rest.length + 1 ≤ fuel →
      (st.heap s).Nodes = (pre ++ rest).map (nestRef wrap) →
      (st.heap s).ActualTask = (pre.length : Int) →
      (st.heap s).Object = o →
      (st.heap s).ControlNode = some ⟨k, .BaseNode⟩ →
      (st.heap k).ControlNode = none →
      (∀ p ∈ rest, childSignals st p.1 o = [p.2]) →
      (∀ p ∈ rest, p.1 ≠ s ∧ p.1 ≠ k) →
      (rest.map Prod.fst).Nodup →
      (∀ p ∈ rest, ∀ b, wrap p.1 = some b →
        b ≠ s ∧ b ≠ k ∧ (st.heap b).RootNode = some ⟨p.1, .Task⟩ ∧ (∀ q ∈ rest, q.1 ≠ b) ∧
          ∀ q ∈ rest, q.1 ≠ p.1 → wrap q.1 ≠ some b) →
      ∃ st', invoke fuel ⟨s, .Sequence⟩ (.Run o) st = .ok st' ∧
        st'.trace = st.trace ++ nestTrace wrap s k o rest ∧
        (st'.heap s).ActualTask = ((pre.length + leading .Success rest : Nat) : Int) := by
  intro rest
  induction rest with
  | nil => intro _ _ _ h; exact absurd rfl h
  | cons p rest ih =>
    intro pre st fuel _ hfuel hN hA hO hC hK hV hD hND hW
    obtain ⟨a, v⟩ := p
    obtain ⟨F, rfl⟩ : ∃ F, fuel = F + 6 := ⟨fuel - 6, by simp at hfuel; omega⟩
    have hF : 6 * rest.length + 1 ≤ F := by simp at hfuel; omega
    have hps : s ≠ a := fun h => (hD (a, v) (by simp)).1 h.symm
    have hpk : k ≠ a := fun h => (hD (a, v) (by simp)).2 h.symm
    have hVp : childSignals st a o = [v] := hV (a, v) (by simp)
    have hlen : (st.heap s).Nodes.length = pre.length + (rest.length + 1) := by
      rw [hN]; simp
    have hmem : ∀ q ∈ rest, q.1 ≠ a := by
      intro q hq hqa
      have hnd := (List.nodup_cons.mp hND).1
      exact hnd (List.mem_map.mpr ⟨q, hq, hqa⟩)
    have hidx : index (st.heap s).Nodes (st.heap s).ActualTask = .ok (nestRef wrap (a, v)) := by
      rw [hN, hA]; exact index_mid_map (nestRef wrap) pre rest (a, v)
    -- what the sequence does with the verdict of this child
    have key : ∀ (G : Nat) (st2 : State), F ≤ G → st2.heap s = st.heap s →
        st2.heap k = st.heap k → (∀ q ∈ rest, st2.heap q.1 = st.heap q.1) →
        (∀ q ∈ rest, ∀ b, wrap q.1 = some b → st2.heap b = st.heap b) →
        ∃ st4, invoke (G + 1) ⟨s, .Sequence⟩ v.toOp st2 = .ok st4 ∧
          st4.trace = st2.trace ++ ⟨⟨s, .Sequence⟩, v.toOp⟩ ::
            (if v = .Success ∧ rest ≠ [] then nestTrace wrap s k o rest
              else [⟨⟨k, .BaseNode⟩, v.toOp⟩]) ∧
          (st4.heap s).ActualTask
            = ((pre.length + leading .Success ((a, v) :: rest) : Nat) : Int) := by
      intro G st2 hG h2s h2k h2q h2b
      obtain ⟨G', rfl⟩ : ∃ G', G = G' + 1 := ⟨G - 1, by omega⟩
      cases v with
      | Running =>
        rw [Signal.toOp, invoke_Sequence_Running, h2s, hC, notify_some,
          show Op.Running = Signal.toOp .Running from rfl,
          invoke_sink _ _ _ _ (by simpa [h2k] using hK)]
        exact ⟨_, rfl, by simp [Signal.toOp], by simp [h2s, hA, leading]⟩
      | Fail =>
        rw [Signal.toOp, invoke_Sequence_Fail, h2s, hC, notify_some,
          show Op.Fail = Signal.toOp .Fail from rfl,
          invoke_sink _ _ _ _ (by simpa [h2k] using hK)]
        exact ⟨_, rfl, by simp [Signal.toOp], by simp [h2s, hA, leading]⟩
      | Success =>
        by_cases hr : rest = []
        · subst hr
          rw [Signal.toOp, invoke_Sequence_Success_last _ _ _
            (by rw [h2s, hlen, hA]; simp), h2s, hC, notify_some,
            show Op.Success = Signal.toOp .Success from rfl,
            invoke_sink _ _ _ _ (by simpa [h2k, hsk.symm] using hK)]
          exact ⟨_, rfl, by simp [Signal.toOp], by simp [h2s, hA, leading]⟩
        · rw [Signal.toOp, invoke_Sequence_Success_next _ _ _
            (by rw [h2s, hlen, hA]; have := List.length_pos.mpr hr; push_cast; omega), h2s, hO]
          generalize hst3 : ((st2.log ⟨⟨s, .Sequence⟩, .Success⟩).modify s fun n =>
            { n with ActualTask := n.ActualTask + 1 }) = st3
          have h3o : ∀ x, x ≠ s → st3.heap x = st2.heap x := by
            intro x hx; subst hst3; simp [hx]
          have h3s : st3.heap s
              = { st.heap s with ActualTask := (st.heap s).ActualTask + 1 } := by
            subst hst3; simp [h2s]
          have h3t : st3.trace = st2.trace ++ [⟨⟨s, .Sequence⟩, .Success⟩] := by
            subst hst3; simp
          obtain ⟨st4, h4, h4t, h4a⟩ := ih (pre ++ [(a, Signal.Success)]) st3 (G' + 1) hr
            (by omega)
            (by rw [h3s]; simp [hN])
            (by rw [h3s]; simp [hA])
            (by rw [h3s]; simp [hO])
            (by rw [h3s]; simp [hC])
            (by rw [h3o k hsk.symm, h2k]; exact hK)
            (by
              intro q hq
              rw [childSignals_congr o (show st3.heap q.1 = st.heap q.1 by
                rw [h3o _ (hD q (by simp [hq])).1, h2q q hq])]
              exact hV q (by simp [hq]))
            (fun q hq => hD q (by simp [hq]))
            (List.nodup_cons.mp hND).2
            (by
              intro q hq b hb
              obtain ⟨w1, w2, w3, w4, w5⟩ := hW q (by simp [hq]) b hb
              refine ⟨w1, w2, ?_, fun q' hq' => w4 q' (by simp [hq']),
                fun q' hq' => w5 q' (by simp [hq'])⟩
              rw [h3o b w1, h2b q hq b hb]; exact w3)
          refine ⟨st4, h4, ?_, ?_⟩
          · rw [h4t, h3t]; simp [Signal.toOp, hr]
          · rw [h4a]; simp [leading]; omega
    cases hw : wrap a with
    | none =>
      have hidx' : index (st.heap s).Nodes (st.heap s).ActualTask = .ok (some ⟨a, .Task⟩) := by
        rw [hidx]; simp [nestRef, hw]
      rw [show F + 6 = (F + 4) + 2 from rfl,
        invoke_Sequence_Run_child (F + 4) s o st ⟨a, .Task⟩ (by rw [hlen, hA]; omega) hidx']
      generalize hst1 : (((st.log ⟨⟨s, .Sequence⟩, .Run o⟩).log
          ⟨⟨a, .Task⟩, .SetControl (some ⟨s, .Sequence⟩)⟩).modify (Ref.mk a .Task).id fun n =>
          { n with ControlNode := some ⟨s, .Sequence⟩ }) = st1
      have h1p : st1.heap a = { st.heap a with ControlNode := some ⟨s, .Sequence⟩ } := by
        subst hst1; simp
      have h1o : ∀ x, x ≠ a → st1.heap x = st.heap x := by
        intro x hx; subst hst1; simp [hx]
      have h1t : st1.trace = st.trace ++ [⟨⟨s, .Sequence⟩, .Run o⟩,
          ⟨⟨a, .Task⟩, .SetControl (some ⟨s, .Sequence⟩)⟩] := by subst hst1; simp
      have hV1 : childSignals st1 a o = [v] := by
        rw [← hVp]; unfold childSignals; rw [h1p]
      have hf1 : (st1.heap a).RunFunc ≠ none := by
        intro h; unfold childSignals at hV1; rw [h] at hV1; simp at hV1
      rw [show F + 4 + 1 = (F + 3) + 2 from rfl, invoke_Task_Run (F + 3) a o v st1 hV1 hf1]
      generalize hst2 : (((st1.log ⟨⟨a, .Task⟩, .Run o⟩).modify a fun n =>
          { n with calls := (st1.heap a).calls + 1 }).log ⟨⟨a, .Task⟩, v.toOp⟩) = st2
      have h2o : ∀ x, x ≠ a → st2.heap x = st.heap x := by
        intro x hx; subst hst2; simp [hx, h1o x hx]
      have h2t : st2.trace = st.trace ++ [⟨⟨s, .Sequence⟩, .Run o⟩,
          ⟨⟨a, .Task⟩, .SetControl (some ⟨s, .Sequence⟩)⟩, ⟨⟨a, .Task⟩, .Run o⟩,
          ⟨⟨a, .Task⟩, v.toOp⟩] := by subst hst2; simp [h1t]
      have hc1 : (st1.heap a).ControlNode = some ⟨s, .Sequence⟩ := by rw [h1p]
      rw [hc1, notify_some]
      obtain ⟨st4, h4, h4t, h4a⟩ := key (F + 2) st2 (by omega) (h2o s hps) (h2o k hpk)
        (fun q hq => h2o _ (hmem q hq))
        (fun q hq b hb => h2o b (fun hba =>
          (hW q (by simp [hq]) b hb).2.2.2.1 (a, v) (by simp) hba.symm))
      refine ⟨st4.modify a fun n => { n with RunCalled := true }, ?_, ?_, ?_⟩
      · rw [h4]; rfl
      · rw [modify_trace, h4t, h2t]; simp [nestTrace, hw]
      · simpa [hps] using h4a
    | some b =>
      obtain ⟨hbs, hbk, hroot, hbq, hbw⟩ := hW (a, v) (by simp) b hw
      have hab : a ≠ b := hbq (a, v) (by simp)
      have hidx' : index (st.heap s).Nodes (st.heap s).ActualTask
          = .ok (some ⟨b, .BehaviorTree⟩) := by
        rw [hidx]; simp [nestRef, hw]
      rw [show F + 6 = (F + 4) + 2 from rfl,
        invoke_Sequence_Run_child (F + 4) s o st ⟨b, .BehaviorTree⟩ (by rw [hlen, hA]; omega)
          hidx']
      generalize hst1 : (((st.log ⟨⟨s, .Sequence⟩, .Run o⟩).log
          ⟨⟨b, .BehaviorTree⟩, .SetControl (some ⟨s, .Sequence⟩)⟩).modify
          (Ref.mk b .BehaviorTree).id fun n =>
          { n with ControlNode := some ⟨s, .Sequence⟩ }) = st1
      have h1b : st1.heap b = { st.heap b with ControlNode := some ⟨s, .Sequence⟩ } := by
        subst hst1; simp
      have h1o : ∀ x, x ≠ b → st1.heap x = st.heap x := by
        intro x hx; subst hst1; simp [hx]
      have h1t : st1.trace = st.trace ++ [⟨⟨s, .Sequence⟩, .Run o⟩,
          ⟨⟨b, .BehaviorTree⟩, .SetControl (some ⟨s, .Sequence⟩)⟩] := by subst hst1; simp
      rw [show F + 4 + 1 = (F + 3) + 2 from rfl,
        invoke_BehaviorTree_Run (F + 3) b o st1 ⟨a, .Task⟩ (by rw [h1b]; exact hroot) hab,
        invoke_Task_Start, andThen_ok]
      generalize hst1' : (((((st1.log ⟨⟨b, .BehaviorTree⟩, .Run o⟩).modify b fun n =>
          { n with Object := o }).log
          ⟨⟨a, .Task⟩, .SetControl (some ⟨b, .BehaviorTree⟩)⟩).modify (Ref.mk a .Task).id fun n =>
          { n with ControlNode := some ⟨b, .BehaviorTree⟩ }).log ⟨⟨a, .Task⟩, .Start o⟩) = st1'
      have h1b' : st1'.heap b
          = { st.heap b with ControlNode := some ⟨s, .Sequence⟩, Object := o } := by
        subst hst1'; simp [Ne.symm hab, h1b]
      have h1a' : st1'.heap a
          = { st.heap a with ControlNode := some ⟨b, .BehaviorTree⟩ } := by
        subst hst1'; simp [hab, h1o a hab]
      have h1o' : ∀ x, x ≠ a → x ≠ b → st1'.heap x = st.heap x := by
        intro x hxa hxb; subst hst1'; simp [hxa, hxb, h1o x hxb]
      have h1t' : st1'.trace = st.trace ++ [⟨⟨s, .Sequence⟩, .Run o⟩,
          ⟨⟨b, .BehaviorTree⟩, .SetControl (some ⟨s, .Sequence⟩)⟩, ⟨⟨b, .BehaviorTree⟩, .Run o⟩,
          ⟨⟨a, .Task⟩, .SetControl (some ⟨b, .BehaviorTree⟩)⟩, ⟨⟨a, .Task⟩, .Start o⟩] := by
        subst hst1'; simp [h1t]
      have hV1 : childSignals st1' a o = [v] := by
        rw [← hVp]; unfold childSignals; rw [h1a']
      have hf1 : (st1'.heap a).RunFunc ≠ none := by
        intro h; unfold childSignals at hV1; rw [h] at hV1; simp at hV1
      have hroot' : (st1'.heap b).RootNode = some ⟨a, .Task⟩ := by rw [h1b']; exact hroot
      have hobj' : (st1'.heap b).Object = o := by rw [h1b']
      rw [hroot', hobj', send_some, show F + 3 + 1 = (F + 2) + 2 from rfl,
        invoke_Task_Run (F + 2) a o v st1' hV1 hf1]
      generalize hst2 : (((st1'.log ⟨⟨a, .Task⟩, .Run o⟩).modify a fun n =>
          { n with calls := (st1'.heap a).calls + 1 }).log ⟨⟨a, .Task⟩, v.toOp⟩) = st2
      have h2b : st2.heap b
          = { st.heap b with ControlNode := some ⟨s, .Sequence⟩, Object := o } := by
        subst hst2; simp [Ne.symm hab, h1b']
      have h2o : ∀ x, x ≠ a → x ≠ b → st2.heap x = st.heap x := by
        intro x hxa hxb; subst hst2; simp [hxa, h1o' x hxa hxb]
      have h2t : st2.trace = st1'.trace ++ [⟨⟨a, .Task⟩, .Run o⟩, ⟨⟨a, .Task⟩, v.toOp⟩] := by
        subst hst2; simp
      have hc1 : (st1'.heap a).ControlNode = some ⟨b, .BehaviorTree⟩ := by rw [h1a']
      rw [hc1, notify_some]
      have hframe : ∀ st3 : State, (∀ x, x ≠ a → x ≠ b → st3.heap x = st.heap x) →
          st3.heap s = st.heap s ∧ st3.heap k = st.heap k ∧
          (∀ q ∈ rest, st3.heap q.1 = st.heap q.1) ∧
          (∀ q ∈ rest, ∀ b', wrap q.1 = some b' → st3.heap b' = st.heap b') := by
        intro st3 h3
        refine ⟨h3 s hps (Ne.symm hbs), h3 k hpk (Ne.symm hbk),
          fun q hq => h3 _ (hmem q hq) (hbq q (by simp [hq])), fun q hq b' hb' => ?_⟩
        refine h3 b' (fun hba => (hW q (by simp [hq]) b' hb').2.2.2.1 (a, v) (by simp) hba.symm)
          (fun hbb => ?_)
        subst hbb
        exact hbw q (by simp [hq]) (hmem q hq) hb'
      by_cases hv : v = .Running
      · subst hv
        rw [Signal.toOp, show F + 2 = (F + 1) + 1 from rfl,
          invoke_BehaviorTree_Running_to _ _ _ ⟨s, .Sequence⟩ (by rw [h2b])]
        obtain ⟨f1, f2, f3, f4⟩ := hframe (st2.log ⟨⟨b, .BehaviorTree⟩, .Running⟩)
          (by intro x h1 h2; rw [log_heap]; exact h2o x h1 h2)
        obtain ⟨st4, h4, h4t, h4a⟩ := key F (st2.log ⟨⟨b, .BehaviorTree⟩, .Running⟩)
          (le_refl _) f1 f2 f3 f4
        rw [Signal.toOp] at h4
        rw [h4]
        refine ⟨(st4.modify b fun n => { n with Started := true }).modify a fun n =>
          { n with RunCalled := true }, rfl, ?_, ?_⟩
        · simp only [modify_trace]
          rw [h4t, log_trace, h2t, h1t']
          simp [nestTrace, hw, Signal.toOp]
        · simpa [hps, Ne.symm hbs] using h4a
      · rw [show F + 2 = (F + 1) + 1 from rfl, invoke_BehaviorTree_verdict _ _ _ hv]
        simp only [log_heap, h2b, hroot, send_some, invoke_Task_Finish, andThen_ok,
          modify_heap_same, notify_some]
        generalize hst3 : ((st2.log ⟨⟨b, .BehaviorTree⟩, v.toOp⟩).log
          ⟨⟨a, .Task⟩, .Finish o⟩).modify b (fun n => { n with Started := false }) = st3
        have h3o : ∀ x, x ≠ a → x ≠ b → st3.heap x = st.heap x := by
          intro x h1 h2; subst hst3; simp [h2, h2o x h1 h2]
        have h3t : st3.trace = st2.trace ++ [⟨⟨b, .BehaviorTree⟩, v.toOp⟩,
            ⟨⟨a, .Task⟩, .Finish o⟩] := by subst hst3; simp
        obtain ⟨f1, f2, f3, f4⟩ := hframe st3 h3o
        obtain ⟨st4, h4, h4t, h4a⟩ := key F st3 (le_refl _) f1 f2 f3 f4
        rw [h4]
        refine ⟨st4.modify a fun n => { n with RunCalled := true }, rfl, ?_, ?_⟩
        · simp only [modify_trace]
          rw [h4t, h3t, h2t, h1t']
          simp [nestTrace, hw, hv]
        · simpa [hps] using h4a

theorem runsAmong_append (cs : List Nat) (E F : List Event) :
    runsAmong cs (E ++ F) = runsAmong cs E ++ runsAmong cs F := by
  simp [runsAmong]

theorem eventsAt_nestTrace (wrap : Nat → Option Nat) (s k : Nat) (o : Obj) (hsk : s ≠ k) :
    ∀ rest : List (Nat × Signal), rest ≠ [] →
      (∀ p ∈ rest, p.1 ≠ k ∧ ∀ b, wrap p.1 = some b → b ≠ k) →
      eventsAt (nestTrace wrap s k o rest) k = [(outcome .Success rest).toOp] := by
  intro rest
  induction rest with
  | nil => intro h; exact absurd rfl h
  | cons p rest ih =>
    intro _ hk
    obtain ⟨a, v⟩ := p
    have hak : a ≠ k := (hk (a, v) (by simp)).1
    rw [nestTrace, eventsAt_append]
    have h0 : eventsAt (match wrap a with
        | none =>
          [⟨⟨s, .Sequence⟩, .Run o⟩, ⟨⟨a, .Task⟩, .SetControl (some ⟨s, .Sequence⟩)⟩,
           ⟨⟨a, .Task⟩, .Run o⟩, ⟨⟨a, .Task⟩, v.toOp⟩, ⟨⟨s, .Sequence⟩, v.toOp⟩]
        | some b =>
          [⟨⟨s, .Sequence⟩, .Run o⟩, ⟨⟨b, .BehaviorTree⟩, .SetControl (some ⟨s, .Sequence⟩)⟩,
           ⟨⟨b, .BehaviorTree⟩, .Run o⟩,
           ⟨⟨a, .Task⟩, .SetControl (some ⟨b, .BehaviorTree⟩)⟩, ⟨⟨a, .Task⟩, .Start o⟩,
           ⟨⟨a, .Task⟩, .Run o⟩, ⟨⟨a, .Task⟩, v.toOp⟩, ⟨⟨b, .BehaviorTree⟩, v.toOp⟩] ++
          (if v = .Running then [] else [⟨⟨a, .Task⟩, .Finish o⟩]) ++
          [⟨⟨s, .Sequence⟩, v.toOp⟩]) k = [] := by
      cases hw : wrap a with
      | none => simp [eventsAt, List.filter, hsk, hak]
      | some b =>
        have hbk : b ≠ k := (hk (a, v) (by simp)).2 b hw
        by_cases hv : v = .Running <;> simp [eventsAt, List.filter, hsk, hak, hbk, hv]
    rw [h0, List.nil_append]
    by_cases hc : v = .Success ∧ rest ≠ []
    · rw [if_pos hc, ih hc.2 (fun q hq => hk q (by simp [hq]))]
      simp [outcome, hc.1]
    · rw [if_neg hc]
      by_cases hv : v = .Success
      · have hr : rest = [] := by
          by_contra h; exact hc ⟨hv, h⟩
        subst hr; subst hv
        simp [eventsAt, outcome]
      · simp [eventsAt, outcome, hv]

theorem runsAmong_nestTrace (wrap : Nat → Option Nat) (s k : Nat) (o : Obj) (cs : List Nat)
    (hs : s ∉ cs) :
    ∀ rest : List (Nat × Signal),
      (∀ p ∈ rest, p.1 ∈ cs ∧ ∀ b, wrap p.1 = some b → b ∉ cs) →
      runsAmong cs (nestTrace wrap s k o rest)
        = (rest.take (leading .Success rest + 1)).map Prod.fst := by
  intro rest
  induction rest with
  | nil => intro _; simp [nestTrace, runsAmong]
  | cons p rest ih =>
    intro hcs
    obtain ⟨a, v⟩ := p
    have ha : a ∈ cs := (hcs (a, v) (by simp)).1
    rw [nestTrace, runsAmong_append]
    have h0 : runsAmong cs (match wrap a with
        | none =>
          [⟨⟨s, .Sequence⟩, .Run o⟩, ⟨⟨a, .Task⟩, .SetControl (some ⟨s, .Sequence⟩)⟩,
           ⟨⟨a, .Task⟩, .Run o⟩, ⟨⟨a, .Task⟩, v.toOp⟩, ⟨⟨s, .Sequence⟩, v.toOp⟩]
        | some b =>
          [⟨⟨s, .Sequence⟩, .Run o⟩, ⟨⟨b, .BehaviorTree⟩, .SetControl (some ⟨s, .Sequence⟩)⟩,
           ⟨⟨b, .BehaviorTree⟩, .Run o⟩,
           ⟨⟨a, .Task⟩, .SetControl (some ⟨b, .BehaviorTree⟩)⟩, ⟨⟨a, .Task⟩, .Start o⟩,
           ⟨⟨a, .Task⟩, .Run o⟩, ⟨⟨a, .Task⟩, v.toOp⟩, ⟨⟨b, .BehaviorTree⟩, v.toOp⟩] ++
          (if v = .Running then [] else [⟨⟨a, .Task⟩, .Finish o⟩]) ++
          [⟨⟨s, .Sequence⟩, v.toOp⟩]) = [a] := by
      cases hw : wrap a with
      | none => cases v <;> simp [runsAmong, Signal.toOp, hs, ha]
      | some b =>
        have hb : b ∉ cs := (hcs (a, v) (by simp)).2 b hw
        cases v <;> simp [runsAmong, Signal.toOp, hs, ha, hb]
    rw [h0]
    by_cases hc : v = .Success ∧ rest ≠ []
    · rw [if_pos hc, ih (fun q hq => hcs q (by simp [hq]))]
      simp [leading, hc.1]
    · rw [if_neg hc]
      by_cases hv : v = .Success
      · have hr : rest = [] := by
          by_contra h; exact hc ⟨hv, h⟩
        subst hr; subst hv
        simp [runsAmong, leading, Signal.toOp]
      · cases v <;> simp [runsAmong, leading, Signal.toOp] at hv ⊢

theorem forEach_start_nest (wrap : Nat → Option Nat) (fuel : Nat) (o : Obj) :
    ∀ (l : List (Nat × Signal)) (st : State),
      forEach (l.map (nestRef wrap)) (fun node => send (invoke (fuel + 1)) node (.Start o)) st
        = .ok { st with trace := st.trace ++
            (l.filterMap (nestRef wrap)).map fun r => ⟨r, .Start o⟩ } := by
  intro l
  induction l with
  | nil => intro st; simp [forEach]
  | cons p rest ih =>
    intro st
    have hb : ∀ b, invoke (fuel + 1) ⟨b, .BehaviorTree⟩ (.Start o) st
        = .ok (st.log ⟨⟨b, .BehaviorTree⟩, .Start o⟩) := fun _ => rfl
    cases hw : wrap p.1 with
    | none =>
      simp only [List.map_cons, List.filterMap_cons, forEach, nestRef, hw, send,
        invoke_Task_Start, andThen_ok]
      rw [ih]
      simp [State.log]
    | some b =>
      simp only [List.map_cons, List.filterMap_cons, forEach, nestRef, hw, send, hb, andThen_ok]
      rw [ih]
      simp [State.log]

/-- `Start` then `Run` on a `Sequence` over tasks and drivers over tasks: verdict, children
run, and cursor are those determined by the verdicts of the tasks alone. -/
theorem nest_startRun (wrap : Nat → Option Nat) (st : State) (s k : Nat)
    (ch : List (Nat × Signal)) (o : Obj) (h : NestChildren wrap st s k ch o) (hne : ch ≠ [])
    (fuel : Nat) (hf : 6 * ch.length + 1 ≤ fuel) :
    ∃ st' E, startRun fuel ⟨s, .Sequence⟩ o st = .ok st' ∧ st'.trace = st.trace ++ E ∧
      eventsAt E k = [(outcome .Success ch).toOp] ∧
      runsAmong (ch.map Prod.fst) E = (ch.take (leading .Success ch + 1)).map Prod.fst ∧
      (st'.heap s).ActualTask = (leading .Success ch : Nat) := by
  have hl : 0 < ch.length := List.length_pos.mpr hne
  obtain ⟨F, rfl⟩ : ∃ F, fuel = F + 2 := ⟨fuel - 2, by omega⟩
  have hsch : s ∉ ch.map Prod.fst := by
    intro hs
    obtain ⟨p, hp, hps⟩ := List.mem_map.mp hs
    exact (h.apart p hp).1 hps
  unfold startRun
  rw [show F + 2 = (F + 1) + 1 from rfl, invoke_Sequence_Start_children]
  simp only [modify_heap_same, log_heap, h.nodes]
  rw [forEach_start_nest wrap F o ch, andThen_ok]
  generalize hst1 : ({ ((st.log ⟨⟨s, .Sequence⟩, .Start o⟩).modify s fun n =>
      { n with Object := o, ActualTask := 0 }) with
      trace := ((st.log ⟨⟨s, .Sequence⟩, .Start o⟩).modify s fun n =>
        { n with Object := o, ActualTask := 0 }).trace ++
        (ch.filterMap (nestRef wrap)).map fun r => ⟨r, .Start o⟩ } : State) = st1
  have h1s : st1.heap s = { st.heap s with Object := o, ActualTask := 0 } := by
    subst hst1; simp [State.modify, State.log]
  have h1o : ∀ x, x ≠ s → st1.heap x = st.heap x := by
    intro x hx; subst hst1; simp [State.modify, State.log, hx]
  have h1t : st1.trace = st.trace ++ ⟨⟨s, .Sequence⟩, .Start o⟩ ::
      (ch.filterMap (nestRef wrap)).map fun r => ⟨r, .Start o⟩ := by
    subst hst1; simp [State.modify, State.log]
  obtain ⟨st', hr, ht, ha⟩ := nest_run wrap s k o h.sk ch [] st1 (F + 1 + 1) hne (by omega)
    (by rw [h1s]; simpa using h.nodes) (by rw [h1s]; simp) (by rw [h1s])
    (by rw [h1s]; simpa using h.control) (by rw [h1o k h.sk.symm]; exact h.sink)
    (fun p hp => by
      rw [childSignals_congr o (h1o p.1 (h.apart p hp).1)]; exact h.verdict p hp)
    h.apart h.distinct
    (fun p hp b hb => by
      obtain ⟨w1, w2, w3, w4, w5⟩ := h.driver p hp b hb
      exact ⟨w1, w2, by rw [h1o b w1]; exact w3, w4, w5⟩)
  refine ⟨st', _, hr, by rw [ht, h1t, List.append_assoc], ?_, ?_, by simpa using ha⟩
  · rw [eventsAt_append, eventsAt_nestTrace wrap s k o h.sk ch hne
      (fun p hp => ⟨(h.apart p hp).2, fun b hb => (h.driver p hp b hb).2.1⟩)]
    have : eventsAt ((⟨⟨s, .Sequence⟩, .Start o⟩ : Event) ::
        (ch.filterMap (nestRef wrap)).map fun r => ⟨r, .Start o⟩) k = [] := by
      simp only [eventsAt, List.map_eq_nil_iff, List.filter_eq_nil_iff]
      intro e he
      simp only [List.mem_cons, List.mem_map, List.mem_filterMap] at he
      rcases he with rfl | ⟨r, ⟨p, hp, hr⟩, rfl⟩
      · simpa using h.sk
      · unfold nestRef at hr
        cases hw : wrap p.1 with
        | none =>
          rw [hw] at hr
          simp only [Option.some.injEq] at hr
          subst hr
          simpa using (h.apart p hp).2
        | some b =>
          rw [hw] at hr
          simp only [Option.some.injEq] at hr
          subst hr
          simpa using (h.driver p hp b hw).2.1
    rw [this, List.nil_append]
  · rw [runsAmong_append, runsAmong_nestTrace wrap s k o _ hsch ch
      (fun p hp => ⟨List.mem_map.mpr ⟨p, hp, rfl⟩, fun b hb hbc => by
        obtain ⟨q, hq, hqb⟩ := List.mem_map.mp hbc
        exact (h.driver p hp b hb).2.2.2.1 q hq hqb⟩)]
    have : runsAmong (ch.map Prod.fst) ((⟨⟨s, .Sequence⟩, .Start o⟩ : Event) ::
        (ch.filterMap (nestRef wrap)).map fun r => ⟨r, .Start o⟩) = [] := by
      simp only [runsAmong, List.filterMap_eq_nil_iff]
      intro e he
      simp only [List.mem_cons, List.mem_map] at he
      rcases he with rfl | ⟨r, _, rfl⟩ <;> rfl
    rw [this, List.nil_append]

theorem TaskChildren.toNest {st : State} {s k : Nat} {ch : List (Nat × Signal)} {o : Obj}
    (h : TaskChildren st s k ch o) : NestChildren (fun _ => none) st s k ch o where
  nodes := by
    have : nestRef (fun _ => none) = taskRef := by funext p; rfl
    rw [this]; exact h.nodes
  control := h.control
  sink := h.sink
  verdict := h.verdict
  apart := h.apart
  distinct := h.distinct
  sk := h.sk
  driver := by intro p _ b hb; simp at hb

/-- C24: two outer `Sequence`s over the same tasks, each task signalling one verdict (any of
`Running`, `Success`, `Fail`) on its next run: in the first the children are the tasks
themselves, in the second any of the tasks is wrapped in a `BehaviorTree` of its own
(`NewBehaviorTree(task)`) that takes its position.  After `Start(o)` and `Run(o)`, both
return, the outer control has received the same calls (exactly one verdict), `Run` has been
invoked on the same tasks in the same order, and the outer `ActualTask` is the same. -/
theorem nested_driver_equivalent (wrap : Nat → Option Nat) (st stB : State) (s sB k : Nat)
    (ch : List (Nat × Signal)) (o : Obj) (hT : TaskChildren st s k ch o)
    (hB : NestChildren wrap stB sB k ch o) (hne : ch ≠ []) (fuel : Nat)
    (hf : 6 * ch.length + 1 ≤ fuel) :
    ∃ st' stB' E EB, startRun fuel ⟨s, .Sequence⟩ o st = .ok st' ∧
      startRun fuel ⟨sB, .Sequence⟩ o stB = .ok stB' ∧
      st'.trace = st.trace ++ E ∧ stB'.trace = stB.trace ++ EB ∧
      eventsAt EB k = eventsAt E k ∧ (∃ v : Signal, eventsAt E k = [v.toOp]) ∧
      runsAmong (ch.map Prod.fst) EB = runsAmong (ch.map Prod.fst) E ∧
      (stB'.heap sB).ActualTask = (st'.heap s).ActualTask := by
  obtain ⟨st', E, hr, ht, hk, hrun, ha⟩ :=
    nest_startRun (fun _ => none) st s k ch o hT.toNest hne fuel hf
  obtain ⟨stB', EB, hrB, htB, hkB, hrunB, haB⟩ := nest_startRun wrap stB sB k ch o hB hne fuel hf
  exact ⟨st', stB', E, EB, hr, hrB, ht, htB, by rw [hk, hkB], ⟨_, hk⟩, by rw [hrun, hrunB],
    by rw [ha, haB]⟩

theorem nested_driver_equivalent_witness :
    ∃ st' stB' E EB, startRun 13 ⟨3, .Sequence⟩ 42 (sequenceWorld [.Success, .Success])
        = .ok st' ∧
      startRun 13 ⟨4, .Sequence⟩ 42 (nestedWorld .Success .Success) = .ok stB' ∧
      st'.trace = (sequenceWorld [.Success, .Success]).trace ++ E ∧
      stB'.trace = (nestedWorld .Success .Success).trace ++ EB ∧
      eventsAt EB 0 = eventsAt E 0 ∧ (∃ v : Signal, eventsAt E 0 = [v.toOp]) ∧
      runsAmong ([((1 : Nat), Signal.Success), (2, .Success)].map Prod.fst) EB
        = runsAmong ([((1 : Nat), Signal.Success), (2, .Success)].map Prod.fst) E ∧
      (stB'.heap 4).ActualTask = (st'.heap 3).ActualTask :=
  nested_driver_equivalent (fun a => if a = 2 then some 3 else none)
    (sequenceWorld [.Success, .Success]) (nestedWorld .Success .Success) 3 4 0
    [(1, .Success), (2, .Success)] 42
    ⟨by rfl, by rfl, by rfl,
      by
        intro p hp
        simp only [List.mem_cons, List.mem_singleton, List.not_mem_nil, or_false] at hp
        rcases hp with rfl | rfl <;> rfl,
      by decide, by decide, by decide⟩
    ⟨by rfl, by rfl, by rfl,
      by
        intro p hp
        simp only [List.mem_cons, List.mem_singleton, List.not_mem_nil, or_false] at hp
        rcases hp with rfl | rfl <;> rfl,
      by decide, by decide, by decide,
      by
        intro p hp b hb
        simp only [List.mem_cons, List.mem_singleton, List.not_mem_nil, or_false] at hp
        rcases hp with rfl | rfl
        · simp at hb
        · simp only [if_true, Option.some.injEq] at hb
          subst hb
          exact ⟨by decide, by decide, by rfl, by decide, by decide⟩⟩
    (by simp) 13 (by decide)

/-- `Run` on a task that always succeeds, under an `UntilFailDecorator`, does not return:
every bound on the depth of the call stack is exceeded. -/
theorem untilFail_task_diverges (d a : Nat) (f : StepFn) (hf : ∀ c o, f c o = [.Success])
    (hda : d ≠ a) :
    ∀ (fuel : Nat) (o : Obj) (st : State), (st.heap d).Node = some ⟨a, .Task⟩ →
      (st.heap a).ControlNode = some ⟨d, .UntilFailDecorator⟩ →
      (st.heap a).RunFunc = some f →
      invoke fuel ⟨a, .Task⟩ (.Run o) st = .error .fuel := by
  intro fuel
  induction fuel using Nat.strong_induction_on with
  | _ fuel ih =>
    intro o st hN hC hF
    match fuel with
    | 0 => rfl
    | 1 =>
      simp [step, dispatch, Task.method, Task.Run, hF, hf, forEach, invoke, andThen]
    | 2 =>
      simp [step, dispatch, Task.method, Task.Run, hF, hf, forEach, invoke, andThen,
        Signal.toOp, BaseNode.method, BaseNode.Success, hC, notify]
    | 3 =>
      simp [step, dispatch, Task.method, Task.Run, hF, hf, forEach, invoke, andThen,
        Signal.toOp, BaseNode.method, BaseNode.Success, hC, notify, UntilFailDecorator.method,
        UntilFailDecorator.Success, hN, send, hda]
    | K + 4 =>
      have hV : childSignals st a o = [.Success] := by simp [childSignals, hF, hf]
      rw [show K + 4 = (K + 2) + 2 from rfl,
        invoke_Task_Run _ _ _ .Success _ hV (by simp [hF])]
      simp only [log_heap, modify_heap_same, hC, notify_some, Signal.toOp]
      rw [show K + 2 = (K + 1) + 1 from rfl, invoke_UntilFail_Success]
      simp only [log_heap, modify_heap_same, modify_heap_ne _ _ hda, hN, send_some]
      rw [invoke_Task_Start]
      simp only [andThen_ok, log_heap, modify_heap_same, modify_heap_ne _ _ hda, hN, send_some]
      rw [ih (K + 1) (by omega) _ _ (by simp [hda, hN]) (by simp [Ne.symm hda, hC])
        (by simp [Ne.symm hda, hF])]
      rfl

/-- C25 on the code: a driver (address `3`, external control at `0`) whose root is an
`UntilFailDecorator` (address `2`) around a task (address `1`) whose step function always
signals `Success`, a function of its arguments that never signals `Running`.
`BehaviorTree.Run(42)` does not return, whatever the bound on the depth of the call stack: the
decorator restarts the child within the child's own `Success` call, without end.  No verdict is
delivered and there is no second tick. -/
theorem driver_untilFail_never_returns :
    NeverReturns ⟨3, .BehaviorTree⟩ (.Run 42)
      (driverWorld (.deco .UntilFailDecorator (.task (always .Success)))) := by
  intro fuel
  match fuel with
  | 0 => rfl
  | 1 => rfl
  | 2 => rfl
  | 3 => rfl
  | F + 4 =>
    have hroot : ((driverWorld (.deco .UntilFailDecorator (.task (always .Success)))).heap 3).RootNode
        = some ⟨2, .UntilFailDecorator⟩ := rfl
    rw [show F + 4 = (F + 2) + 2 from rfl,
      invoke_BehaviorTree_Run (F + 2) 3 42 _ ⟨2, .UntilFailDecorator⟩ hroot (by decide),
      show F + 2 + 1 = (F + 1) + 2 from rfl,
      invoke_UntilFail_Start (F + 1) 2 42 _ ⟨1, .Task⟩ (by rfl), andThen_ok]
    generalize hs : State.modify _ _ _ = s
    have h2 : s.heap 2 = { (driverWorld (.deco .UntilFailDecorator
        (.task (always .Success)))).heap 2 with
        ControlNode := some ⟨3, .BehaviorTree⟩, Object := 42, NodeRunning := false } := by
      subst hs; simp
    have h1 : s.heap 1 = { (driverWorld (.deco .UntilFailDecorator
        (.task (always .Success)))).heap 1 with
        ControlNode := some ⟨2, .UntilFailDecorator⟩ } := by
      subst hs; simp
    have h3 : (s.heap 3).RootNode = some ⟨2, .UntilFailDecorator⟩ := by
      subst hs; simp; rfl
    have h3o : (s.heap 3).Object = 42 := by
      subst hs; simp
    rw [h3, h3o, send_some, show F + 1 + 2 = (F + 2) + 1 from rfl,
      invoke_UntilFail_Run_fresh _ _ _ _ (by rw [h2])]
    have hN : (s.heap 2).Node = some ⟨1, .Task⟩ := by rw [h2]; rfl
    simp only [log_heap, hN, send_some]
    rw [invoke_Task_Start]
    simp only [andThen_ok, log_heap, hN, send_some]
    exact untilFail_task_diverges 2 1 (always .Success) (fun _ _ => rfl) (by decide) _ _ _
      (by simpa using hN) (by rw [log_heap, log_heap, h1]) (by rw [log_heap, log_heap, h1]; rfl)

theorem invoke_decorator_Finish (fuel d : Nat) (view : Kind)
    (hview : view.isTranslator = true ∨ view = .UntilFailDecorator) (o : Obj) (st : State) :
    invoke (fuel + 1) ⟨d, view⟩ (.Finish o) st
      = send (invoke fuel) (st.heap d).Node (.Finish o) (st.log ⟨⟨d, view⟩, .Finish o⟩) := by
  rcases hview with h | rfl
  · exact invoke_translator_Finish fuel d view h o st
  · rfl

theorem Signal.eq_of_ne_running {v : Signal} (h : v ≠ .Running) : v = .Success ∨ v = .Fail := by
  cases v <;> simp at h ⊢

theorem verdictMap_ne_running (view : Kind) (v : Signal) (h : v ≠ .Running) :
    verdictMap view v ≠ .Running := by
  cases view <;> cases v <;> simp [verdictMap] at h ⊢

mutual
theorem Tree.verdict_ne_running (o : Obj) : ∀ t : Tree, t.Shaped o → t.verdict o ≠ some .Running
  | .task f, h => by
    simp only [Tree.Shaped] at h
    obtain ⟨v, hv, hf⟩ := h
    simp only [Tree.verdict, hf 0, List.head?_cons, ne_eq, Option.some.injEq]
    exact hv
  | .seq cs, h => by
    simp only [Tree.Shaped] at h
    simpa [Tree.verdict] using Forest.seqVerdict_ne_running o cs h
  | .prio cs, h => by
    simp only [Tree.Shaped] at h
    simpa [Tree.verdict] using Forest.prioVerdict_ne_running o cs h true
  | .deco view c, h => by
    simp only [Tree.Shaped] at h
    have ih := Tree.verdict_ne_running o c h.2
    simp only [Tree.verdict]
    split
    · split
      · simp
      · rename_i h1; exact absurd h1 ih
      · simp
    · cases hc : c.verdict o with
      | none => simp
      | some v =>
        simp only [Option.map_some', ne_eq, Option.some.injEq]
        exact verdictMap_ne_running view v (by rintro rfl; exact ih hc)
theorem Forest.seqVerdict_ne_running (o : Obj) : ∀ cs : Forest, cs.Shaped o →
    cs.seqVerdict o ≠ some .Running
  | .nil, _ => by simp [Forest.seqVerdict]
  | .cons t rest, h => by
    simp only [Forest.Shaped] at h
    simp only [Forest.seqVerdict]
    split
    · exact Forest.seqVerdict_ne_running o rest h.2
    · exact Tree.verdict_ne_running o t h.1
theorem Forest.prioVerdict_ne_running (o : Obj) : ∀ cs : Forest, cs.Shaped o → ∀ b,
    cs.prioVerdict o b ≠ some .Running
  | .nil, _, b => by cases b <;> simp [Forest.prioVerdict]
  | .cons t rest, h, b => by
    simp only [Forest.Shaped] at h
    simp only [Forest.prioVerdict]
    split
    · exact Forest.prioVerdict_ne_running o rest h.2 false
    · exact Tree.verdict_ne_running o t h.1
end

mutual
theorem Tree.primed_congr_tree (o : Obj) : ∀ (t : Tree) (n : Nat) (st st' : State),
    (∀ x, n ≤ x → x < n + t.size → (st'.heap x).ActualTask = (st.heap x).ActualTask ∧
      (st'.heap x).Object = (st.heap x).Object ∧
      (st'.heap x).NodeRunning = (st.heap x).NodeRunning) →
    t.Primed o n st → t.Primed o n st'
  | .task _, _, _, _, _, _ => by simp [Tree.Primed]
  | .seq cs, n, st, st', h, hr => by
    simp only [Tree.Primed] at hr ⊢
    have hsz : n + cs.size < n + (Tree.seq cs).size := by simp [Tree.size, Tree.span]
    refine ⟨?_, ?_, Forest.primed_congr_forest o cs n st st' (fun x h1 h2 => h x h1 (by omega))
      hr.2.2⟩
    · rw [(h (n + cs.size) (by omega) hsz).1]; exact hr.1
    · rw [(h (n + cs.size) (by omega) hsz).2.1]; exact hr.2.1
  | .prio cs, n, st, st', h, hr => by
    simp only [Tree.Primed] at hr ⊢
    have hsz : n + cs.size < n + (Tree.prio cs).size := by simp [Tree.size, Tree.span]
    rw [(h (n + cs.size) (by omega) hsz).1, (h (n + cs.size) (by omega) hsz).2.1]; exact hr
  | .deco view c, n, st, st', h, hr => by
    simp only [Tree.Primed] at hr ⊢
    have hsz : n + c.size < n + (Tree.deco view c).size := by simp [Tree.size, Tree.span]
    by_cases hv : view = .UntilFailDecorator
    · rw [if_pos hv] at hr ⊢
      rw [(h (n + c.size) (by omega) hsz).2.2, (h (n + c.size) (by omega) hsz).2.1]; exact hr
    · rw [if_neg hv] at hr ⊢
      exact Tree.primed_congr_tree o c n st st' (fun x h1 h2 => h x h1 (by omega)) hr
theorem Forest.primed_congr_forest (o : Obj) : ∀ (cs : Forest) (n : Nat) (st st' : State),
    (∀ x, n ≤ x → x < n + cs.size → (st'.heap x).ActualTask = (st.heap x).ActualTask ∧
      (st'.heap x).Object = (st.heap x).Object ∧
      (st'.heap x).NodeRunning = (st.heap x).NodeRunning) →
    cs.Primed o n st → cs.Primed o n st'
  | .nil, _, _, _, _, _ => by simp [Forest.Primed]
  | .cons t rest, n, st, st', h, hr => by
    simp only [Forest.Primed] at hr ⊢
    have hsz : (Forest.cons t rest).size = t.size + rest.size := rfl
    exact ⟨Tree.primed_congr_tree o t n st st' (fun x h1 h2 => h x h1 (by omega)) hr.1,
      Forest.primed_congr_forest o rest (n + t.size) st st'
        (fun x h1 h2 => h x (by omega) (by omega)) hr.2⟩
end

theorem Tree.primed_of_heapOut_tree {o : Obj} {t : Tree} {n lo hi : Nat} {st st' : State}
    (h : HeapOut lo hi st st') (hd : n + t.size ≤ lo ∨ hi ≤ n) (hl : t.Primed o n st) :
    t.Primed o n st' :=
  Tree.primed_congr_tree o t n st st'
    (fun x h1 h2 => by rw [h x (by omega)]; exact ⟨rfl, rfl, rfl⟩) hl

theorem Forest.primed_of_heapOut_forest {o : Obj} {cs : Forest} {n lo hi : Nat}
    {st st' : State} (h : HeapOut lo hi st st') (hd : n + cs.size ≤ lo ∨ hi ≤ n)
    (hl : cs.Primed o n st) : cs.Primed o n st' :=
  Forest.primed_congr_forest o cs n st st'
    (fun x h1 h2 => by rw [h x (by omega)]; exact ⟨rfl, rfl, rfl⟩) hl

theorem Tree.Shaped.deco_view {o : Obj} {view : Kind} {c : Tree}
    (h : (Tree.deco view c).Shaped o) :
    view.isTranslator = true ∨ view = .UntilFailDecorator := by
  simp only [Tree.Shaped] at h
  exact h.1

theorem Tree.finish_full : ∀ (t : Tree) (n : Nat) (o : Obj) (st : State), t.Shaped o →
    t.Laid n st →
    ∃ st1, (∀ fuel, t.size ≤ fuel → invoke fuel (t.rootRef n) (.Finish o) st = .ok st1) ∧
      st1.heap = st.heap ∧ st1.trace = st.trace ++ t.finishEvents n o
  | .task f, n, o, st, _, _ => by
    refine ⟨st.log ⟨⟨n, .Task⟩, .Finish o⟩, ?_, rfl, rfl⟩
    intro fuel hf
    obtain ⟨F, rfl⟩ : ∃ F, fuel = F + 1 := ⟨fuel - 1, by simp [Tree.size] at hf; omega⟩
    rfl
  | .seq cs, n, o, st, _, _ => by
    refine ⟨st.log ⟨⟨n + cs.size, .Sequence⟩, .Finish o⟩, ?_, rfl, rfl⟩
    intro fuel hf
    obtain ⟨F, rfl⟩ : ∃ F, fuel = F + 1 := ⟨fuel - 1, by simp [Tree.size] at hf; omega⟩
    rfl
  | .prio cs, n, o, st, _, _ => by
    refine ⟨st.log ⟨⟨n + cs.size, .Priority⟩, .Finish o⟩, ?_, rfl, rfl⟩
    intro fuel hf
    obtain ⟨F, rfl⟩ : ∃ F, fuel = F + 1 := ⟨fuel - 1, by simp [Tree.size] at hf; omega⟩
    rfl
  | .deco view c, n, o, st, hw, hl => by
    have hview := hw.deco_view
    simp only [Tree.Shaped] at hw
    simp only [Tree.Laid] at hl
    obtain ⟨st1, h1, hh, ht⟩ := Tree.finish_full c n o (st.log ⟨⟨n + c.size, view⟩, .Finish o⟩)
      hw.2 (Tree.laid_congr_tree c n st _ (fun x _ _ => SameLayout.refl_layout _) hl.1)
    refine ⟨st1, ?_, by rw [hh]; rfl, ?_⟩
    · intro fuel hf
      obtain ⟨F, rfl⟩ : ∃ F, fuel = F + 1 := ⟨fuel - 1, by simp [Tree.size] at hf; omega⟩
      have hr : (Tree.deco view c).rootRef n = ⟨n + c.size, view⟩ := rfl
      rw [hr, invoke_decorator_Finish _ _ _ hview, hl.2.1, send_some]
      exact h1 F (by simp [Tree.size, Tree.span] at hf ⊢; omega)
    · rw [ht]; simp [Tree.finishEvents]

mutual
theorem Tree.start_full_tree : ∀ (t : Tree) (n : Nat) (o : Obj) (st : State), t.Shaped o →
    t.Laid n st →
    ∃ st1, (∀ fuel, t.size ≤ fuel → invoke fuel (t.rootRef n) (.Start o) st = .ok st1) ∧
      (∀ x, SameLayout (st1.heap x) (st.heap x)) ∧ t.Primed o n st1 ∧
      HeapOut n (n + t.size) st st1 ∧ st1.trace = st.trace ++ t.startEvents n o
  | .task f, n, o, st, _, _ => by
    refine ⟨st.log ⟨⟨n, .Task⟩, .Start o⟩, ?_, fun _ => SameLayout.refl_layout _,
      by simp [Tree.Primed], HeapOut.refl_heap _ _ _, rfl⟩
    intro fuel hf
    obtain ⟨F, rfl⟩ : ∃ F, fuel = F + 1 := ⟨fuel - 1, by simp [Tree.size] at hf; omega⟩
    rfl
  | .seq cs, n, o, st, hw, hl => by
    simp only [Tree.Shaped] at hw
    simp only [Tree.Laid] at hl
    have hlay0 : ∀ x, SameLayout (((st.log ⟨⟨n + cs.size, .Sequence⟩, .Start o⟩).modify
        (n + cs.size) fun m => { m with Object := o, ActualTask := 0 }).heap x) (st.heap x) :=
      fun x => sameLayout_modify _ _ _ ⟨rfl, rfl, rfl, rfl, rfl⟩ x
    obtain ⟨st1, h1, hlay, hrdy, hout, htr⟩ := Forest.start_full_forest cs n o
      ((st.log ⟨⟨n + cs.size, .Sequence⟩, .Start o⟩).modify (n + cs.size) fun m =>
        { m with Object := o, ActualTask := 0 }) hw
      (Forest.laid_congr_forest cs n st _ (fun x _ _ => hlay0 x) hl.1)
    refine ⟨st1, ?_, fun x => (hlay x).trans_layout (hlay0 x), ?_, ?_, ?_⟩
    · intro fuel hf
      obtain ⟨F, rfl⟩ : ∃ F, fuel = F + 1 := ⟨fuel - 1, by simp [Tree.size] at hf; omega⟩
      have hr : (Tree.seq cs).rootRef n = ⟨n + cs.size, .Sequence⟩ := rfl
      rw [hr, invoke_Sequence_Start_children, hl.2]
      exact h1 F (by simp [Tree.size, Tree.span] at hf; omega)
    · simp only [Tree.Primed]
      refine ⟨?_, ?_, hrdy⟩ <;>
      · rw [hout (n + cs.size) (Or.inr (le_refl _))]
        simp
    · have hsz : n + cs.size < n + (Tree.seq cs).size := by simp [Tree.size, Tree.span]
      exact HeapOut.trans_heap (heapOut_log_modify st _ (n + cs.size) n _ _ (by omega) hsz)
        (hout.mono_heap (le_refl _) (le_of_lt hsz))
    · rw [htr]; simp [Tree.startEvents]
  | .prio cs, n, o, st, _, _ => by
    have hsz : n + cs.size < n + (Tree.prio cs).size := by simp [Tree.size, Tree.span]
    refine ⟨(st.log ⟨⟨n + cs.size, .Priority⟩, .Start o⟩).modify (n + cs.size) fun m =>
        { m with Object := o, ActualTask := 0 }, ?_,
      fun x => sameLayout_modify _ _ _ ⟨rfl, rfl, rfl, rfl, rfl⟩ x, by simp [Tree.Primed],
      heapOut_log_modify st _ (n + cs.size) n _ _ (by omega) hsz, by simp [Tree.startEvents]⟩
    intro fuel hf
    obtain ⟨F, rfl⟩ : ∃ F, fuel = F + 1 := ⟨fuel - 1, by simp [Tree.size] at hf; omega⟩
    exact invoke_Priority_Start F _ o st
  | .deco view c, n, o, st, hw, hl => by
    have hview := hw.deco_view
    simp only [Tree.Shaped] at hw
    simp only [Tree.Laid] at hl
    have hsz : n + c.size < n + (Tree.deco view c).size := by simp [Tree.size, Tree.span]
    have hr : (Tree.deco view c).rootRef n = ⟨n + c.size, view⟩ := rfl
    by_cases hv : view = .UntilFailDecorator
    · subst hv
      have hcid : (c.rootRef n).id = n + c.span := rfl
      have hne : n + c.span ≠ n + c.size := by simp [Tree.size]
      refine ⟨(((st.log ⟨⟨n + c.size, .UntilFailDecorator⟩, .Start o⟩).modify (n + c.size)
          fun m => { m with Object := o, NodeRunning := false }).log
          ⟨c.rootRef n, .SetControl (some ⟨n + c.size, .UntilFailDecorator⟩)⟩).modify
          (c.rootRef n).id fun m =>
            { m with ControlNode := some ⟨n + c.size, .UntilFailDecorator⟩ }, ?_, ?_, ?_, ?_, ?_⟩
      · intro fuel hf
        obtain ⟨F, rfl⟩ : ∃ F, fuel = F + 2 :=
          ⟨fuel - 2, by simp [Tree.size, Tree.span] at hf; omega⟩
        rw [hr]
        exact invoke_UntilFail_Start F _ o st (c.rootRef n) hl.2.1
      · intro x
        rw [hcid]
        have h2 : ∀ y, SameLayout (((st.log ⟨⟨n + c.size, .UntilFailDecorator⟩, .Start o⟩).modify
            (n + c.size) fun m => { m with Object := o, NodeRunning := false }).heap y)
            (st.heap y) :=
          fun y => sameLayout_modify _ _ _ ⟨rfl, rfl, rfl, rfl, rfl⟩ y
        refine (sameLayout_modify _ _ _ ?_ x).trans_layout (h2 x)
        refine ⟨?_, rfl, rfl, rfl, rfl⟩
        simp only [log_heap, modify_heap_ne _ _ hne]
        exact hl.2.2.symm
      · simp only [Tree.Primed, if_true]
        rw [hcid]
        simp [Ne.symm hne]
      · intro x hx
        have hs1 : c.size = c.span + 1 := rfl
        have hs2 : (Tree.deco .UntilFailDecorator c).size = c.span + 2 := rfl
        rw [hcid, modify_heap_ne _ _ (by omega), log_heap, modify_heap_ne _ _ (by omega)]
        rfl
      · simp [Tree.startEvents]
    · have htr : view.isTranslator = true := by
        rcases hview with h | h
        · exact h
        · exact absurd h hv
      obtain ⟨st1, h1, hlay, hrdy, hout, htr1⟩ := Tree.start_full_tree c n o
        (st.log ⟨⟨n + c.size, view⟩, .Start o⟩) hw.2
        (Tree.laid_congr_tree c n st _ (fun x _ _ => SameLayout.refl_layout _) hl.1)
      refine ⟨st1, ?_, hlay, ?_, hout.mono_heap (le_refl _) (le_of_lt hsz), ?_⟩
      · intro fuel hf
        obtain ⟨F, rfl⟩ : ∃ F, fuel = F + 1 := ⟨fuel - 1, by simp [Tree.size] at hf; omega⟩
        rw [hr, invoke_translator_Start _ _ _ htr, hl.2.1, send_some]
        exact h1 F (by simp [Tree.size, Tree.span] at hf ⊢; omega)
      · simp only [Tree.Primed, if_neg hv]; exact hrdy
      · rw [htr1]; simp [Tree.startEvents, hv]
theorem Forest.start_full_forest : ∀ (cs : Forest) (n : Nat) (o : Obj) (st : State),
    cs.Shaped o → cs.Laid n st →
    ∃ st1, (∀ fuel, cs.size ≤ fuel →
        forEach (cs.refs n) (fun node => send (invoke fuel) node (.Start o)) st = .ok st1) ∧
      (∀ x, SameLayout (st1.heap x) (st.heap x)) ∧ cs.Primed o n st1 ∧
      HeapOut n (n + cs.size) st st1 ∧ st1.trace = st.trace ++ cs.startEvents n o
  | .nil, n, o, st, _, _ =>
    ⟨st, fun _ _ => rfl, fun _ => SameLayout.refl_layout _, by simp [Forest.Primed],
      HeapOut.refl_heap _ _ _, by simp [Forest.startEvents]⟩
  | .cons t rest, n, o, st, hw, hl => by
    simp only [Forest.Shaped] at hw
    simp only [Forest.Laid] at hl
    obtain ⟨st1, h1, hlay1, hrdy1, hout1, htr1⟩ := Tree.start_full_tree t n o st hw.1 hl.1
    obtain ⟨st2, h2, hlay2, hrdy2, hout2, htr2⟩ := Forest.start_full_forest rest (n + t.size) o st1 hw.2
      (Forest.laid_congr_forest rest _ st _ (fun x _ _ => hlay1 x) hl.2)
    have hsz : (Forest.cons t rest).size = t.size + rest.size := rfl
    refine ⟨st2, ?_, fun x => (hlay2 x).trans_layout (hlay1 x), ?_, ?_, ?_⟩
    · intro fuel hf
      simp only [Forest.refs, forEach, send_some]
      rw [h1 fuel (by omega), andThen_ok]
      exact h2 fuel (by omega)
    · simp only [Forest.Primed]
      exact ⟨Tree.primed_of_heapOut_tree hout2 (Or.inl (le_refl _)) hrdy1, hrdy2⟩
    · exact HeapOut.trans_heap (hout1.mono_heap (le_refl _) (by omega))
        (hout2.mono_heap (by omega) (by omega))
    · rw [htr2, htr1]; simp [Forest.startEvents]
end

theorem deliver_some (rec : Call) (c : Ref) (v : Signal) (st : State) :
    deliver rec c (some v) st = rec c v.toOp st := rfl

theorem deliver_none (rec : Call) (c : Ref) (st : State) : deliver rec c none st = .ok st := rfl

theorem RunsAs.imp_as {r : Ref} {lo hi : Nat} {o : Obj} {st : State} {c : Ref}
    {P Q : State → Prop} {v : Option Signal} {E : List Event} (h : RunsAs r lo hi o st c P v E)
    (hPQ : ∀ s, P s → Q s) : RunsAs r lo hi o st c Q v E := by
  obtain ⟨st1, d, h1, h2, h3, h4, h5⟩ := h
  exact ⟨st1, d, h1, hPQ st1 h2, h3, h4, h5⟩

theorem Tree.run_task_full (f : StepFn) (n : Nat) (o : Obj) (st : State) (c : Ref)
    (hw : (Tree.task f).Shaped o) (hl : (Tree.task f).Laid n st)
    (hc : (st.heap n).ControlNode = some c) :
    RunsAs ((Tree.task f).rootRef n) n (n + (Tree.task f).size) o st c
      ((Tree.task f).Laid n) ((Tree.task f).verdict o) ((Tree.task f).runEvents n o) := by
  simp only [Tree.Shaped] at hw
  obtain ⟨v, _, hf⟩ := hw
  simp only [Tree.Laid] at hl
  have hV : childSignals st n o = [v] := by simp [childSignals, hl, hf]
  have hv0 : (Tree.task f).verdict o = some v := by simp [Tree.verdict, hf 0]
  have hE : (Tree.task f).runEvents n o = [⟨⟨n, .Task⟩, .Run o⟩, ⟨⟨n, .Task⟩, v.toOp⟩] := by
    simp [Tree.runEvents, hf 0, reportTo]
  rw [hv0, hE]
  refine ⟨((st.log ⟨⟨n, .Task⟩, .Run o⟩).modify n fun m =>
      { m with calls := (st.heap n).calls + 1 }).log ⟨⟨n, .Task⟩, v.toOp⟩, 2, ?_, ?_, ?_, ?_, ?_⟩
  · intro G st2 h2
    rw [deliver_some] at h2
    refine ⟨st2.modify n fun m => { m with RunCalled := true }, ?_,
      settled_modify _ _ _ ⟨rfl, rfl, rfl, rfl, rfl⟩⟩
    intro fuel hf
    apply invoke_mono hf
    have hr : (Tree.task f).rootRef n = ⟨n, .Task⟩ := rfl
    rw [hr, invoke_Task_Run G n o v st hV (by simp [hl]), hc, notify_some, h2]
    rfl
  · simp [Tree.Laid, hl]
  · intro x hx
    have : x ≠ n := by simp [Tree.size, Tree.span] at hx; omega
    simp [this]
  · simp
  · simpa [Tree.rootRef, Tree.span] using hc

theorem Kind.ne_untilFail_of_translator {view : Kind} (h : view.isTranslator = true) :
    view ≠ .UntilFailDecorator := by
  rintro rfl
  simp [Kind.isTranslator] at h

theorem Tree.run_deco_full (view : Kind) (c : Tree) (n : Nat) (o : Obj) (st : State) (cc : Ref)
    (hview : view.isTranslator = true) (hl : (Tree.deco view c).Laid n st)
    (hc : (st.heap (n + c.size)).ControlNode = some cc)
    (ih : RunsAs (c.rootRef n) n (n + c.size) o (st.log ⟨⟨n + c.size, view⟩, .Run o⟩)
      ⟨n + c.size, view⟩ (c.Laid n) (c.verdict o) (c.runEvents n o)) :
    RunsAs ((Tree.deco view c).rootRef n) n (n + (Tree.deco view c).size) o st cc
      ((Tree.deco view c).Laid n) ((Tree.deco view c).verdict o)
      ((Tree.deco view c).runEvents n o) := by
  have hnu := Kind.ne_untilFail_of_translator hview
  simp only [Tree.Laid] at hl
  obtain ⟨st1, d0, hrep, hlaid, hout, htr, hctl⟩ := ih
  have hsz : n + c.size < n + (Tree.deco view c).size := by simp [Tree.size, Tree.span]
  have hr : (Tree.deco view c).rootRef n = ⟨n + c.size, view⟩ := rfl
  have h1a : st1.heap (n + c.size) = st.heap (n + c.size) := hout _ (Or.inr (le_refl _))
  have hV : (Tree.deco view c).verdict o = (c.verdict o).map (verdictMap view) := by
    simp [Tree.verdict, hnu]
  have hE : (Tree.deco view c).runEvents n o = ⟨⟨n + c.size, view⟩, .Run o⟩ ::
      (c.runEvents n o ++ reportTo ⟨n + c.size, view⟩ (c.verdict o)) := by
    simp [Tree.runEvents, hnu]
  rw [hV, hE]
  have hrun : ∀ F, invoke (F + 1) ((Tree.deco view c).rootRef n) (.Run o) st
      = invoke F (c.rootRef n) (.Run o) (st.log ⟨⟨n + c.size, view⟩, .Run o⟩) := by
    intro F
    rw [hr, invoke_translator_Run _ _ _ hview, hl.2.1, send_some]
  cases hv0 : c.verdict o with
  | none =>
    rw [hv0] at hrep
    refine ⟨st1, d0 + 1, ?_, ?_, ?_, ?_, ?_⟩
    · intro G st2 h2
      obtain ⟨st3, h3, hset⟩ := hrep G st2 h2
      refine ⟨st3, ?_, hset⟩
      intro fuel hf
      obtain ⟨F, rfl⟩ : ∃ F, fuel = F + 1 := ⟨fuel - 1, by omega⟩
      rw [hrun]
      exact h3 F (by omega)
    · simp only [Tree.Laid]
      exact ⟨hlaid, by rw [h1a]; exact hl.2.1, hctl⟩
    · exact hout.mono_heap (le_refl _) (le_of_lt hsz)
    · rw [htr]; simp [reportTo]
    · rw [hr, h1a]; exact hc
  | some w =>
    rw [hv0] at hrep
    refine ⟨st1.log ⟨⟨n + c.size, view⟩, w.toOp⟩, d0 + 2, ?_, ?_, ?_, ?_, ?_⟩
    · intro G st2 h2
      have hh : deliver (invoke (G + 1)) ⟨n + c.size, view⟩ (some w) st1 = .ok st2 := by
        rw [deliver_some, invoke_translator_signal _ _ _ hview, h1a, hc, notify_some]
        exact h2
      obtain ⟨st3, h3, hset⟩ := hrep (G + 1) st2 hh
      refine ⟨st3, ?_, hset⟩
      intro fuel hf
      obtain ⟨F, rfl⟩ : ∃ F, fuel = F + 1 := ⟨fuel - 1, by omega⟩
      rw [hrun]
      exact h3 F (by omega)
    · simp only [Tree.Laid]
      refine ⟨Tree.laid_congr_tree c n st1 _ (fun x _ _ => SameLayout.refl_layout _) hlaid, ?_, ?_⟩
      · rw [log_heap, h1a]; exact hl.2.1
      · rw [log_heap]; exact hctl
    · exact HeapOut.trans_heap (hout.mono_heap (le_refl _) (le_of_lt hsz)) (fun x _ => rfl)
    · rw [log_trace, htr]; simp [reportTo]
    · rw [hr, log_heap, h1a]; exact hc

theorem Tree.run_seq_nil_full (n : Nat) (o : Obj) (st : State) (c : Ref)
    (hl : (Tree.seq .nil).Laid n st) (hrdy : (Tree.seq .nil).Primed o n st)
    (hc : (st.heap n).ControlNode = some c) :
    RunsAs ((Tree.seq .nil).rootRef n) n (n + (Tree.seq .nil).size) o st c
      ((Tree.seq .nil).Laid n) ((Tree.seq .nil).verdict o) ((Tree.seq .nil).runEvents n o) := by
  simp only [Tree.Laid, Forest.Laid, Forest.size, Forest.refs, Nat.add_zero, true_and] at hl
  simp only [Tree.Primed, Forest.Primed, Forest.size, Nat.add_zero, and_true] at hrdy
  have hr : (Tree.seq .nil).rootRef n = ⟨n, .Sequence⟩ := rfl
  have hsz : (Tree.seq .nil).size = 1 := rfl
  have hV : (Tree.seq .nil).verdict o = some .Success := rfl
  rw [hr, hsz, hV]
  refine ⟨((st.log ⟨⟨n, .Sequence⟩, .Run o⟩).log ⟨⟨n, .Sequence⟩, .Success⟩).modify n
    fun m => { m with ActualTask := m.ActualTask + 1 }, 2, ?_, ?_, ?_, ?_, ?_⟩
  · intro G st2 h2
    rw [deliver_some] at h2
    refine ⟨st2, ?_, Settled.refl_settled _⟩
    intro fuel hf
    apply invoke_mono hf
    rw [show G + 2 = (G + 1) + 1 from rfl,
      invoke_Sequence_Run_end _ _ _ _ (by simp [hl, hrdy.1]),
      invoke_Sequence_Success_last _ _ _ (by simp [hl, hrdy.1]), log_heap, hc, notify_some]
    exact h2
  · simp [Tree.Laid, Forest.Laid, Forest.size, Forest.refs, hl]
  · intro x hx
    have : x ≠ n := by omega
    simp [this]
  · simp [Tree.runEvents, Forest.seqEvents, Forest.size]
  · simpa using hc

theorem Tree.run_prio_nil_full (n : Nat) (o : Obj) (st : State) (c : Ref)
    (hl : (Tree.prio .nil).Laid n st) (hrdy : (Tree.prio .nil).Primed o n st)
    (hc : (st.heap n).ControlNode = some c) :
    RunsAs ((Tree.prio .nil).rootRef n) n (n + (Tree.prio .nil).size) o st c
      ((Tree.prio .nil).Laid n) ((Tree.prio .nil).verdict o) ((Tree.prio .nil).runEvents n o) := by
  simp only [Tree.Laid, Forest.Laid, Forest.size, Forest.refs, Nat.add_zero, true_and] at hl
  simp only [Tree.Primed, Forest.size, Nat.add_zero] at hrdy
  have hr : (Tree.prio .nil).rootRef n = ⟨n, .Priority⟩ := rfl
  have hsz : (Tree.prio .nil).size = 1 := rfl
  have hV : (Tree.prio .nil).verdict o = none := rfl
  rw [hr, hsz, hV]
  refine ⟨st.log ⟨⟨n, .Priority⟩, .Run o⟩, 1, ?_, ?_, ?_, ?_, ?_⟩
  · intro G st2 h2
    rw [deliver_none] at h2
    cases h2
    refine ⟨_, ?_, Settled.refl_settled _⟩
    intro fuel hf
    apply invoke_mono hf
    rw [invoke_Priority_Run_end _ _ _ _ (by simp [hl, hrdy.1])]
  · simp [Tree.Laid, Forest.Laid, Forest.size, Forest.refs, hl]
  · intro x _
    rfl
  · simp [Tree.runEvents, Forest.prioEvents, Forest.size]
  · simpa using hc

theorem Tree.run_untilFail_full (c : Tree) (n : Nat) (o : Obj) (st : State) (cc : Ref)
    (hw : (Tree.deco .UntilFailDecorator c).Shaped o) (hnS : c.verdict o ≠ some .Success)
    (hl : (Tree.deco .UntilFailDecorator c).Laid n st)
    (hrdy : (Tree.deco .UntilFailDecorator c).Primed o n st)
    (hc : (st.heap (n + c.size)).ControlNode = some cc)
    (ih : ∀ sta, c.Laid n sta → c.Primed o n sta →
      (sta.heap (n + c.span)).ControlNode = some ⟨n + c.size, .UntilFailDecorator⟩ →
      RunsAs (c.rootRef n) n (n + c.size) o sta ⟨n + c.size, .UntilFailDecorator⟩ (c.Laid n)
        (c.verdict o) (c.runEvents n o)) :
    RunsAs ((Tree.deco .UntilFailDecorator c).rootRef n) n
      (n + (Tree.deco .UntilFailDecorator c).size) o st cc
      ((Tree.deco .UntilFailDecorator c).Laid n) ((Tree.deco .UntilFailDecorator c).verdict o)
      ((Tree.deco .UntilFailDecorator c).runEvents n o) := by
  simp only [Tree.Shaped] at hw
  have hnR := Tree.verdict_ne_running o c hw.2
  simp only [Tree.Laid] at hl
  simp only [Tree.Primed, if_true] at hrdy
  have hs1 : c.size = c.span + 1 := rfl
  have hs2 : (Tree.deco .UntilFailDecorator c).size = c.span + 2 := rfl
  have hr : (Tree.deco .UntilFailDecorator c).rootRef n = ⟨n + c.size, .UntilFailDecorator⟩ := rfl
  have hcid : (c.rootRef n).id = n + c.span := rfl
  -- the child is started, then run
  obtain ⟨sts, hstart, hlays, hrdys, houts, htrs⟩ := Tree.start_full_tree c n o
    (st.log ⟨⟨n + c.size, .UntilFailDecorator⟩, .Run o⟩) hw.2
    (Tree.laid_congr_tree c n st _ (fun x _ _ => SameLayout.refl_layout _) hl.1)
  have hsd : sts.heap (n + c.size) = st.heap (n + c.size) :=
    houts _ (Or.inr (le_refl _))
  have hrun : ∀ F, c.size ≤ F →
      invoke (F + 1) ((Tree.deco .UntilFailDecorator c).rootRef n) (.Run o) st
        = invoke F (c.rootRef n) (.Run o) sts := by
    intro F hF
    rw [hr, invoke_UntilFail_Run_fresh _ _ _ _ hrdy.1, hl.2.1, send_some, hstart F hF, andThen_ok,
      hsd, hl.2.1, send_some]
  obtain ⟨st1, d0, hrep, hlaid1, hout1, htr1, hctl1⟩ := ih sts
    (Tree.laid_congr_tree c n _ sts (fun x _ _ => hlays x)
      (Tree.laid_congr_tree c n st _ (fun x _ _ => SameLayout.refl_layout _) hl.1))
    hrdys (by rw [(hlays (n + c.span)).ControlNode, log_heap]; exact hl.2.2)
  have h1d : st1.heap (n + c.size) = st.heap (n + c.size) := by
    rw [hout1 _ (Or.inr (le_refl _)), hsd]
  have h1o : HeapOut n (n + c.size) st st1 :=
    HeapOut.trans_heap (HeapOut.trans_heap (fun x _ => rfl) houts) hout1
  have h1t : st1.trace = st.trace ++ (⟨⟨n + c.size, .UntilFailDecorator⟩, .Run o⟩ ::
      (c.startEvents n o ++ c.runEvents n o)) := by
    rw [htr1, htrs]; simp
  cases hv0 : c.verdict o with
  | none =>
    rw [hv0] at hrep
    have hV : (Tree.deco .UntilFailDecorator c).verdict o = none := by simp [Tree.verdict, hv0]
    have hE : (Tree.deco .UntilFailDecorator c).runEvents n o
        = ⟨⟨n + c.size, .UntilFailDecorator⟩, .Run o⟩ ::
          (c.startEvents n o ++ c.runEvents n o) := by
      simp [Tree.runEvents, hv0]
    rw [hV, hE]
    refine ⟨st1, d0 + c.size + 1, ?_, ?_, ?_, h1t, ?_⟩
    · intro G st2 h2
      obtain ⟨st3, h3, hset⟩ := hrep G st2 h2
      refine ⟨st3, ?_, hset⟩
      intro fuel hf
      obtain ⟨F, rfl⟩ : ∃ F, fuel = F + 1 := ⟨fuel - 1, by omega⟩
      rw [hrun F (by omega)]
      exact h3 F (by omega)
    · simp only [Tree.Laid]
      exact ⟨hlaid1, by rw [h1d]; exact hl.2.1, hctl1⟩
    · exact h1o.mono_heap (le_refl _) (by omega)
    · rw [hr, h1d]; exact hc
  | some w =>
    cases w with
    | Running => exact absurd hv0 hnR
    | Success => exact absurd hv0 hnS
    | Fail =>
      rw [hv0] at hrep
      have hV : (Tree.deco .UntilFailDecorator c).verdict o = some .Success := by
        simp [Tree.verdict, hv0]
      have hE : (Tree.deco .UntilFailDecorator c).runEvents n o
          = ⟨⟨n + c.size, .UntilFailDecorator⟩, .Run o⟩ ::
            (c.startEvents n o ++ c.runEvents n o ++
              ⟨⟨n + c.size, .UntilFailDecorator⟩, .Fail⟩ :: c.finishEvents n o) := by
        simp [Tree.runEvents, hv0]
      rw [hV, hE]
      generalize hst1' : ((st1.log ⟨⟨n + c.size, .UntilFailDecorator⟩, .Fail⟩).modify (n + c.size)
        fun m => { m with NodeRunning := false }) = st1'
      have h1'd : st1'.heap (n + c.size) = { st.heap (n + c.size) with NodeRunning := false } := by
        subst hst1'; simp [h1d]
      have h1'o : HeapOut (n + c.size) (n + c.size + 1) st1 st1' := by
        subst hst1'; exact heapOut_log_modify st1 _ _ _ _ _ (le_refl _) (by omega)
      have h1't : st1'.trace = st1.trace ++ [⟨⟨n + c.size, .UntilFailDecorator⟩, .Fail⟩] := by
        subst hst1'; simp
      obtain ⟨stf, hfin, hfh, hft⟩ := Tree.finish_full c n o st1' hw.2
        (Tree.laid_of_heapOut_tree h1'o (Or.inl (le_refl _)) hlaid1)
      have hfail : ∀ G st2, invoke G cc Signal.Success.toOp stf = .ok st2 →
          invoke (G + c.size + 1) ⟨n + c.size, .UntilFailDecorator⟩ .Fail st1 = .ok st2 := by
        intro G st2 h2
        rw [invoke_UntilFail_Fail, hst1', h1d, hl.2.1, send_some, hrdy.2,
          hfin (G + c.size) (by omega), andThen_ok, hfh, h1'd]
        simp only [hc, notify_some]
        exact invoke_mono (by omega) h2
      refine ⟨stf, d0 + 2 * c.size + 2, ?_, ?_, ?_, ?_, ?_⟩
      · intro G st2 h2
        rw [deliver_some] at h2
        obtain ⟨st3, h3, hset⟩ := hrep (G + c.size + 1) st2 (hfail G st2 h2)
        refine ⟨st3, ?_, hset⟩
        intro fuel hf
        obtain ⟨F, rfl⟩ : ∃ F, fuel = F + 1 := ⟨fuel - 1, by omega⟩
        rw [hrun F (by omega)]
        exact h3 F (by omega)
      · simp only [Tree.Laid]
        have hl' : c.Laid n st1' := Tree.laid_of_heapOut_tree h1'o (Or.inl (le_refl _)) hlaid1
        refine ⟨Tree.laid_congr_tree c n st1' stf (fun x _ _ => SameLayout.of_eq (by rw [hfh]))
          hl', ?_, ?_⟩
        · rw [hfh, h1'd]; exact hl.2.1
        · rw [hfh, h1'o _ (Or.inl (by omega))]; exact hctl1
      · intro x hx
        rw [hfh, h1'o x (by omega), h1o x (by omega)]
      · rw [hft, h1't, h1t]; simp
      · rw [hr, hfh, h1'd]; exact hc

/-- One step of a `Sequence` over trees, with the verdict and the calls made explicit. -/
theorem seq_step_full (t : Tree) (rest : Forest) (m a i : Nat) (o : Obj) (st : State) (c : Ref)
    (hl : (Forest.cons t rest).Laid m st) (hrdy : (Forest.cons t rest).Primed o m st)
    (hma : m + (Forest.cons t rest).size ≤ a)
    (hA : (st.heap a).ActualTask = (i : Int))
    (hN : (st.heap a).Nodes.drop i = (Forest.cons t rest).refs m)
    (hC : (st.heap a).ControlNode = some c)
    (hO : (st.heap a).Object = o)
    (hchild : ∀ sta, t.Laid m sta → t.Primed o m sta →
      (sta.heap (m + t.span)).ControlNode = some ⟨a, .Sequence⟩ →
      RunsAs (t.rootRef m) m (m + t.size) o sta ⟨a, .Sequence⟩ (t.Laid m) (t.verdict o)
        (t.runEvents m o))
    (hrest : t.verdict o = some .Success → rest ≠ .nil → ∀ st', rest.Laid (m + t.size) st' →
      rest.Primed o (m + t.size) st' →
      (st'.heap a).ActualTask = ((i + 1 : Nat) : Int) →
      (st'.heap a).Nodes.drop (i + 1) = rest.refs (m + t.size) →
      (st'.heap a).ControlNode = some c → (st'.heap a).Object = o →
      RunsAs ⟨a, .Sequence⟩ (m + t.size) (a + 1) o st' c
        (fun st1 => rest.Laid (m + t.size) st1 ∧ (st1.heap a).Nodes = (st'.heap a).Nodes)
        (rest.seqVerdict o) (rest.seqEvents (m + t.size) a o false)) :
    RunsAs ⟨a, .Sequence⟩ m (a + 1) o st c
      (fun st1 => (Forest.cons t rest).Laid m st1 ∧ (st1.heap a).Nodes = (st.heap a).Nodes)
      ((Forest.cons t rest).seqVerdict o) ((Forest.cons t rest).seqEvents m a o false) := by
  simp only [Forest.Laid] at hl
  simp only [Forest.Primed] at hrdy
  rw [Forest.size_cons] at hma
  rw [Forest.refs_cons] at hN
  obtain ⟨hidx, hdrop, hlen⟩ := index_of_drop _ _ _ _ hN
  have hsz : t.size = t.span + 1 := rfl
  have hra : m + t.span ≠ a := by omega
  have hrid : (t.rootRef m).id = m + t.span := rfl
  -- the state in which the child is run
  generalize hsta : (((st.log ⟨⟨a, .Sequence⟩, .Run o⟩).log
      ⟨t.rootRef m, .SetControl (some ⟨a, .Sequence⟩)⟩).modify (t.rootRef m).id fun n =>
      { n with ControlNode := some ⟨a, .Sequence⟩ }) = sta
  have hrun : ∀ F, invoke (F + 2) ⟨a, .Sequence⟩ (.Run o) st
      = invoke (F + 1) (t.rootRef m) (.Run o) sta := by
    intro F
    rw [invoke_Sequence_Run_child F a o st (t.rootRef m) (by rw [hlen, hA]; omega)
      (by rw [hA]; exact hidx), hsta]
  have hao : ∀ x, x ≠ m + t.span → sta.heap x = st.heap x := by
    intro x hx; subst hsta; rw [hrid]; simp [hx]
  have har : sta.heap (m + t.span)
      = { st.heap (m + t.span) with ControlNode := some ⟨a, .Sequence⟩ } := by
    subst hsta; rw [hrid]; simp
  have hatr : sta.trace = st.trace ++ [⟨⟨a, .Sequence⟩, .Run o⟩,
      ⟨t.rootRef m, .SetControl (some ⟨a, .Sequence⟩)⟩] := by
    subst hsta; simp
  have hlaida : t.Laid m sta := by
    refine Tree.laid_congr_root_tree t m st sta (fun x _ _ => ?_) hl.1
    by_cases hx : x = m + t.span
    · subst hx; rw [har]; exact ⟨rfl, rfl, rfl, fun h => absurd rfl h⟩
    · rw [hao x hx]; exact ⟨rfl, rfl, rfl, fun _ => rfl⟩
  have hrdya : t.Primed o m sta := by
    refine Tree.primed_congr_tree o t m st sta (fun x _ _ => ?_) hrdy.1
    by_cases hx : x = m + t.span
    · subst hx; rw [har]; exact ⟨rfl, rfl, rfl⟩
    · rw [hao x hx]; exact ⟨rfl, rfl, rfl⟩
  obtain ⟨st1, d0, hrep, hlaid1, hout1, htr1, hctl1⟩ :=
    hchild sta hlaida hrdya (by rw [har])
  have h1o : ∀ x, (x < m ∨ m + t.size ≤ x) → st1.heap x = st.heap x := by
    intro x hx
    rw [hout1 x hx, hao x (by omega)]
  have h1a : st1.heap a = st.heap a := h1o a (Or.inr (by omega))
  have h1tr : st1.trace = st.trace ++ ([⟨⟨a, .Sequence⟩, .Run o⟩,
      ⟨t.rootRef m, .SetControl (some ⟨a, .Sequence⟩)⟩] ++ t.runEvents m o) := by
    rw [htr1, hatr, List.append_assoc]
  have hrestLaid1 : rest.Laid (m + t.size) st1 :=
    Forest.laid_congr_forest rest _ st st1 (fun x h1 _ => SameLayout.of_eq (h1o x (Or.inr h1))) hl.2
  have hrestRdy1 : rest.Primed o (m + t.size) st1 :=
    Forest.primed_congr_forest o rest _ st st1
      (fun x h1 _ => by rw [h1o x (Or.inr h1)]; exact ⟨rfl, rfl, rfl⟩) hrdy.2
  cases hv0 : t.verdict o with
  | none =>
    -- the child reports nothing: so does the sequence
    rw [hv0] at hrep
    have hV : (Forest.cons t rest).seqVerdict o = none := by simp [Forest.seqVerdict, hv0]
    have hE : (Forest.cons t rest).seqEvents m a o false
        = [⟨⟨a, .Sequence⟩, .Run o⟩, ⟨t.rootRef m, .SetControl (some ⟨a, .Sequence⟩)⟩] ++
          t.runEvents m o := by
      simp [Forest.seqEvents, hv0, reportTo]
    rw [hV, hE]
    refine ⟨st1, d0 + 2, ?_, ⟨?_, by rw [h1a]⟩, ?_, h1tr, by rw [h1a]; exact hC⟩
    · intro G st2 h2
      obtain ⟨st3, h3, hset⟩ := hrep G st2 h2
      refine ⟨st3, ?_, hset⟩
      intro fuel hf
      obtain ⟨F, rfl⟩ : ∃ F, fuel = F + 2 := ⟨fuel - 2, by omega⟩
      rw [hrun]
      exact h3 (F + 1) (by omega)
    · simp only [Forest.Laid]
      exact ⟨hlaid1, hrestLaid1⟩
    · intro x hx
      exact h1o x (by omega)
  | some w =>
    rw [hv0] at hrep
    -- a verdict other than Success, and Success of the last child, go to the control
    have hup : ∀ (v : Signal) (st1' : State) (_ : HeapOut a (a + 1) st1 st1')
        (_ : st1'.trace = st1.trace ++ [⟨⟨a, .Sequence⟩, w.toOp⟩])
        (_ : (st1'.heap a).ControlNode = some c)
        (_ : (st1'.heap a).Nodes = (st.heap a).Nodes)
        (_ : ∀ G, invoke (G + 1) ⟨a, .Sequence⟩ w.toOp st1
          = notify (invoke G) (some c) v.toOp st1'),
        RunsAs ⟨a, .Sequence⟩ m (a + 1) o st c
          (fun st1 => (Forest.cons t rest).Laid m st1 ∧ (st1.heap a).Nodes = (st.heap a).Nodes)
          (some v) ([⟨⟨a, .Sequence⟩, .Run o⟩,
            ⟨t.rootRef m, .SetControl (some ⟨a, .Sequence⟩)⟩] ++
            t.runEvents m o ++ [⟨⟨a, .Sequence⟩, w.toOp⟩]) := by
      intro v st1' ho ht hcc hnn heq
      refine ⟨st1', d0 + 2, ?_, ⟨?_, hnn⟩, ?_, by rw [ht, h1tr]; simp, hcc⟩
      · intro G st2 h2
        rw [deliver_some] at h2
        obtain ⟨st3, h3, hset⟩ := hrep (G + 1) st2
          (by rw [deliver_some, heq, notify_some]; exact h2)
        refine ⟨st3, ?_, hset⟩
        intro fuel hf
        obtain ⟨F, rfl⟩ : ∃ F, fuel = F + 2 := ⟨fuel - 2, by omega⟩
        rw [hrun]
        exact h3 (F + 1) (by omega)
      · simp only [Forest.Laid]
        exact ⟨Tree.laid_of_heapOut_tree ho (Or.inl (by omega)) hlaid1,
          Forest.laid_of_heapOut_forest ho (Or.inl (by omega)) hrestLaid1⟩
      · intro x hx
        rw [ho x (by omega), h1o x (by omega)]
    cases w with
    | Running =>
      have := hup .Running (st1.log ⟨⟨a, .Sequence⟩, Signal.Running.toOp⟩) (fun _ _ => rfl)
        rfl (by rw [log_heap, h1a, hC]) (by rw [log_heap, h1a])
        (fun G => by rw [Signal.toOp, invoke_Sequence_Running, h1a, hC])
      simpa [Forest.seqVerdict, Forest.seqEvents, hv0, reportTo] using this
    | Fail =>
      have := hup .Fail (st1.log ⟨⟨a, .Sequence⟩, Signal.Fail.toOp⟩) (fun _ _ => rfl)
        rfl (by rw [log_heap, h1a, hC]) (by rw [log_heap, h1a])
        (fun G => by rw [Signal.toOp, invoke_Sequence_Fail, h1a, hC])
      simpa [Forest.seqVerdict, Forest.seqEvents, hv0, reportTo] using this
    | Success =>
      generalize hst1' : ((st1.log ⟨⟨a, .Sequence⟩, .Success⟩).modify a fun n =>
        { n with ActualTask := n.ActualTask + 1 }) = st1'
      have h1'a : st1'.heap a = { st.heap a with ActualTask := (st.heap a).ActualTask + 1 } := by
        subst hst1'; simp [h1a]
      have h1'o : HeapOut a (a + 1) st1 st1' := by
        subst hst1'; exact heapOut_log_modify st1 _ a a (a + 1) _ (le_refl _) (by omega)
      have h1't : st1'.trace = st1.trace ++ [⟨⟨a, .Sequence⟩, Signal.Success.toOp⟩] := by
        subst hst1'; simp [Signal.toOp]
      by_cases hr : rest = .nil
      · subst hr
        have := hup .Success st1' h1'o h1't (by rw [h1'a]; exact hC) (by rw [h1'a])
          (fun G => by
            rw [Signal.toOp, invoke_Sequence_Success_last G a st1
              (by rw [h1a, hlen, hA]; simp [Forest.refs]), h1a, hC, hst1'])
        simpa [Forest.seqVerdict, Forest.seqEvents, hv0, reportTo] using this
      · have hpos := Forest.refs_length_pos rest (m + t.size) hr
        have hnext : ∀ G, invoke (G + 1) ⟨a, .Sequence⟩ .Success st1
            = invoke G ⟨a, .Sequence⟩ (.Run o) st1' := by
          intro G
          rw [invoke_Sequence_Success_next G a st1 (by rw [h1a, hlen, hA]; push_cast; omega),
            hst1', h1a, hO]
        obtain ⟨st1s, ds, hreps, ⟨hlaids, hnodes⟩, houts, htrs, hctls⟩ :=
          hrest hv0 hr st1'
            (Forest.laid_of_heapOut_forest h1'o (Or.inl (by omega)) hrestLaid1)
            (Forest.primed_of_heapOut_forest h1'o (Or.inl (by omega)) hrestRdy1)
            (by rw [h1'a]; simp [hA])
            (by rw [h1'a]; exact hdrop)
            (by rw [h1'a]; exact hC)
            (by rw [h1'a]; exact hO)
        have hE : (Forest.cons t rest).seqEvents m a o false
            = [⟨⟨a, .Sequence⟩, .Run o⟩, ⟨t.rootRef m, .SetControl (some ⟨a, .Sequence⟩)⟩] ++
              t.runEvents m o ++ [⟨⟨a, .Sequence⟩, Signal.Success.toOp⟩] ++
              rest.seqEvents (m + t.size) a o false := by
          simp [Forest.seqEvents, hv0, reportTo]
        have hV : (Forest.cons t rest).seqVerdict o = rest.seqVerdict o := by
          simp [Forest.seqVerdict, hv0]
        rw [hE, hV]
        refine ⟨st1s, ds + d0 + 3, ?_, ⟨?_, ?_⟩, ?_, ?_, hctls⟩
        · intro G st2 h2
          obtain ⟨st3', h3', hset'⟩ := hreps G st2 h2
          obtain ⟨st3, h3, hset⟩ := hrep (G + ds + 1) st3'
            (by rw [deliver_some, Signal.toOp, hnext]; exact h3' (G + ds) (le_refl _))
          refine ⟨st3, ?_, hset'.trans_settled hset⟩
          intro fuel hf
          obtain ⟨F, rfl⟩ : ∃ F, fuel = F + 2 := ⟨fuel - 2, by omega⟩
          rw [hrun]
          exact h3 (F + 1) (by omega)
        · simp only [Forest.Laid]
          refine ⟨?_, hlaids⟩
          exact Tree.laid_of_heapOut_tree houts (Or.inl (le_refl _))
            (Tree.laid_of_heapOut_tree h1'o (Or.inl (by omega)) hlaid1)
        · rw [hnodes, h1'a]
        · intro x hx
          rw [houts x (by omega), h1'o x (by omega), h1o x (by omega)]
        · rw [htrs, h1't, h1tr]; simp

/-- One step of a `Priority` over trees, with the verdict and the calls made explicit. -/
theorem prio_step_full (t : Tree) (rest : Forest) (m a i : Nat) (o : Obj) (st : State) (c : Ref)
    (hw : t.Shaped o) (hl : (Forest.cons t rest).Laid m st)
    (hma : m + (Forest.cons t rest).size ≤ a)
    (hA : (st.heap a).ActualTask = (i : Int))
    (hN : (st.heap a).Nodes.drop i = (Forest.cons t rest).refs m)
    (hC : (st.heap a).ControlNode = some c)
    (hO : (st.heap a).Object = o)
    (hchild : ∀ stb, t.Laid m stb → t.Primed o m stb →
      (stb.heap (m + t.span)).ControlNode = some ⟨a, .Priority⟩ →
      RunsAs (t.rootRef m) m (m + t.size) o stb ⟨a, .Priority⟩ (t.Laid m) (t.verdict o)
        (t.runEvents m o))
    (hrest : t.verdict o = some .Fail → rest ≠ .nil → ∀ st', rest.Laid (m + t.size) st' →
      (st'.heap a).ActualTask = ((i + 1 : Nat) : Int) →
      (st'.heap a).Nodes.drop (i + 1) = rest.refs (m + t.size) →
      (st'.heap a).ControlNode = some c → (st'.heap a).Object = o →
      RunsAs ⟨a, .Priority⟩ (m + t.size) (a + 1) o st' c
        (fun st1 => rest.Laid (m + t.size) st1 ∧ (st1.heap a).Nodes = (st'.heap a).Nodes)
        (rest.prioVerdict o false) (rest.prioEvents (m + t.size) a o false)) :
    RunsAs ⟨a, .Priority⟩ m (a + 1) o st c
      (fun st1 => (Forest.cons t rest).Laid m st1 ∧ (st1.heap a).Nodes = (st.heap a).Nodes)
      ((Forest.cons t rest).prioVerdict o false) ((Forest.cons t rest).prioEvents m a o false) := by
  simp only [Forest.Laid] at hl
  rw [Forest.size_cons] at hma
  rw [Forest.refs_cons] at hN
  obtain ⟨hidx, hdrop, hlen⟩ := index_of_drop _ _ _ _ hN
  have hsz : t.size = t.span + 1 := rfl
  have hra : m + t.span ≠ a := by omega
  have hrid : (t.rootRef m).id = m + t.span := rfl
  -- the state in which the child is started
  generalize hsta : (((st.log ⟨⟨a, .Priority⟩, .Run o⟩).log
      ⟨t.rootRef m, .SetControl (some ⟨a, .Priority⟩)⟩).modify (t.rootRef m).id fun n =>
      { n with ControlNode := some ⟨a, .Priority⟩ }) = sta
  have hao : ∀ x, x ≠ m + t.span → sta.heap x = st.heap x := by
    intro x hx; subst hsta; rw [hrid]; simp [hx]
  have har : sta.heap (m + t.span)
      = { st.heap (m + t.span) with ControlNode := some ⟨a, .Priority⟩ } := by
    subst hsta; rw [hrid]; simp
  have hatr : sta.trace = st.trace ++ [⟨⟨a, .Priority⟩, .Run o⟩,
      ⟨t.rootRef m, .SetControl (some ⟨a, .Priority⟩)⟩] := by
    subst hsta; simp
  have hlaida : t.Laid m sta := by
    refine Tree.laid_congr_root_tree t m st sta (fun x _ _ => ?_) hl.1
    by_cases hx : x = m + t.span
    · subst hx; rw [har]; exact ⟨rfl, rfl, rfl, fun h => absurd rfl h⟩
    · rw [hao x hx]; exact ⟨rfl, rfl, rfl, fun _ => rfl⟩
  -- the state in which the child is run
  obtain ⟨stb, hstart, hlayb, hrdyb, houtb, htrb⟩ := Tree.start_full_tree t m o sta hw hlaida
  have hrun : ∀ F, t.size ≤ F + 1 → invoke (F + 2) ⟨a, .Priority⟩ (.Run o) st
      = invoke (F + 1) (t.rootRef m) (.Run o) stb := by
    intro F hF
    rw [invoke_Priority_Run_child F a o st (t.rootRef m) (by rw [hlen, hA]; omega)
      (by rw [hA]; exact hidx), hsta, hstart (F + 1) hF, andThen_ok]
  obtain ⟨st1, d0, hrep, hlaid1, hout1, htr1, hctl1⟩ :=
    hchild stb (Tree.laid_congr_tree t m sta stb (fun x _ _ => hlayb x) hlaida) hrdyb
      (by rw [(hlayb (m + t.span)).ControlNode, har])
  have h1o : ∀ x, (x < m ∨ m + t.size ≤ x) → st1.heap x = st.heap x := by
    intro x hx
    rw [hout1 x hx, houtb x hx, hao x (by omega)]
  have h1a : st1.heap a = st.heap a := h1o a (Or.inr (by omega))
  have h1tr : st1.trace = st.trace ++ ([⟨⟨a, .Priority⟩, .Run o⟩,
      ⟨t.rootRef m, .SetControl (some ⟨a, .Priority⟩)⟩] ++ t.startEvents m o ++
      t.runEvents m o) := by
    rw [htr1, htrb, hatr]; simp
  have hrestLaid1 : rest.Laid (m + t.size) st1 :=
    Forest.laid_congr_forest rest _ st st1 (fun x h1 _ => SameLayout.of_eq (h1o x (Or.inr h1))) hl.2
  cases hv0 : t.verdict o with
  | none =>
    -- the child reports nothing: so does the priority
    rw [hv0] at hrep
    have hV : (Forest.cons t rest).prioVerdict o false = none := by
      simp [Forest.prioVerdict, hv0]
    have hE : (Forest.cons t rest).prioEvents m a o false
        = [⟨⟨a, .Priority⟩, .Run o⟩, ⟨t.rootRef m, .SetControl (some ⟨a, .Priority⟩)⟩] ++
          t.startEvents m o ++ t.runEvents m o := by
      simp [Forest.prioEvents, hv0, reportTo]
    rw [hV, hE]
    refine ⟨st1, d0 + 2 + t.size, ?_, ⟨?_, by rw [h1a]⟩, ?_, h1tr, by rw [h1a]; exact hC⟩
    · intro G st2 h2
      obtain ⟨st3, h3, hset⟩ := hrep G st2 h2
      refine ⟨st3, ?_, hset⟩
      intro fuel hf
      obtain ⟨F, rfl⟩ : ∃ F, fuel = F + 2 := ⟨fuel - 2, by omega⟩
      rw [hrun F (by omega)]
      exact h3 (F + 1) (by omega)
    · simp only [Forest.Laid]
      exact ⟨hlaid1, hrestLaid1⟩
    · intro x hx
      exact h1o x (by omega)
  | some w =>
    rw [hv0] at hrep
    -- a verdict other than Fail, and Fail of the last child, go to the control
    have hup : ∀ (v : Signal) (st1' : State) (_ : HeapOut a (a + 1) st1 st1')
        (_ : st1'.trace = st1.trace ++ [⟨⟨a, .Priority⟩, w.toOp⟩])
        (_ : (st1'.heap a).ControlNode = some c)
        (_ : (st1'.heap a).Nodes = (st.heap a).Nodes)
        (_ : ∀ G, invoke (G + 1) ⟨a, .Priority⟩ w.toOp st1
          = notify (invoke G) (some c) v.toOp st1'),
        RunsAs ⟨a, .Priority⟩ m (a + 1) o st c
          (fun st1 => (Forest.cons t rest).Laid m st1 ∧ (st1.heap a).Nodes = (st.heap a).Nodes)
          (some v) ([⟨⟨a, .Priority⟩, .Run o⟩,
            ⟨t.rootRef m, .SetControl (some ⟨a, .Priority⟩)⟩] ++
            t.startEvents m o ++ t.runEvents m o ++ [⟨⟨a, .Priority⟩, w.toOp⟩]) := by
      intro v st1' ho ht hcc hnn heq
      refine ⟨st1', d0 + 2 + t.size, ?_, ⟨?_, hnn⟩, ?_, by rw [ht, h1tr]; simp, hcc⟩
      · intro G st2 h2
        rw [deliver_some] at h2
        obtain ⟨st3, h3, hset⟩ := hrep (G + 1) st2
          (by rw [deliver_some, heq, notify_some]; exact h2)
        refine ⟨st3, ?_, hset⟩
        intro fuel hf
        obtain ⟨F, rfl⟩ : ∃ F, fuel = F + 2 := ⟨fuel - 2, by omega⟩
        rw [hrun F (by omega)]
        exact h3 (F + 1) (by omega)
      · simp only [Forest.Laid]
        exact ⟨Tree.laid_of_heapOut_tree ho (Or.inl (by omega)) hlaid1,
          Forest.laid_of_heapOut_forest ho (Or.inl (by omega)) hrestLaid1⟩
      · intro x hx
        rw [ho x (by omega), h1o x (by omega)]
    cases w with
    | Running =>
      have := hup .Running (st1.log ⟨⟨a, .Priority⟩, Signal.Running.toOp⟩) (fun _ _ => rfl)
        rfl (by rw [log_heap, h1a, hC]) (by rw [log_heap, h1a])
        (fun G => by rw [Signal.toOp, invoke_Priority_Running, h1a, hC])
      simpa [Forest.prioVerdict, Forest.prioEvents, hv0, reportTo] using this
    | Success =>
      have := hup .Success (st1.log ⟨⟨a, .Priority⟩, Signal.Success.toOp⟩) (fun _ _ => rfl)
        rfl (by rw [log_heap, h1a, hC]) (by rw [log_heap, h1a])
        (fun G => by rw [Signal.toOp, invoke_Priority_Success, h1a, hC])
      simpa [Forest.prioVerdict, Forest.prioEvents, hv0, reportTo] using this
    | Fail =>
      generalize hst1' : ((st1.log ⟨⟨a, .Priority⟩, .Fail⟩).modify a fun n =>
        { n with ActualTask := n.ActualTask + 1 }) = st1'
      have h1'a : st1'.heap a = { st.heap a with ActualTask := (st.heap a).ActualTask + 1 } := by
        subst hst1'; simp [h1a]
      have h1'o : HeapOut a (a + 1) st1 st1' := by
        subst hst1'; exact heapOut_log_modify st1 _ a a (a + 1) _ (le_refl _) (by omega)
      have h1't : st1'.trace = st1.trace ++ [⟨⟨a, .Priority⟩, Signal.Fail.toOp⟩] := by
        subst hst1'; simp [Signal.toOp]
      by_cases hr : rest = .nil
      · subst hr
        have := hup .Fail st1' h1'o h1't (by rw [h1'a]; exact hC) (by rw [h1'a])
          (fun G => by
            rw [Signal.toOp, invoke_Priority_Fail_last G a st1
              (by rw [h1a, hlen, hA]; simp [Forest.refs]), h1a, hC, hst1'])
        simpa [Forest.prioVerdict, Forest.prioEvents, hv0, reportTo] using this
      · have hpos := Forest.refs_length_pos rest (m + t.size) hr
        have hnext : ∀ G, invoke (G + 1) ⟨a, .Priority⟩ .Fail st1
            = invoke G ⟨a, .Priority⟩ (.Run o) st1' := by
          intro G
          rw [invoke_Priority_Fail_next G a st1 (by rw [h1a, hlen, hA]; push_cast; omega),
            hst1', h1a, hO]
        obtain ⟨st1s, ds, hreps, ⟨hlaids, hnodes⟩, houts, htrs, hctls⟩ :=
          hrest hv0 hr st1'
            (Forest.laid_of_heapOut_forest h1'o (Or.inl (by omega)) hrestLaid1)
            (by rw [h1'a]; simp [hA])
            (by rw [h1'a]; exact hdrop)
            (by rw [h1'a]; exact hC)
            (by rw [h1'a]; exact hO)
        have hE : (Forest.cons t rest).prioEvents m a o false
            = [⟨⟨a, .Priority⟩, .Run o⟩, ⟨t.rootRef m, .SetControl (some ⟨a, .Priority⟩)⟩] ++
              t.startEvents m o ++ t.runEvents m o ++ [⟨⟨a, .Priority⟩, Signal.Fail.toOp⟩] ++
              rest.prioEvents (m + t.size) a o false := by
          simp [Forest.prioEvents, hv0, reportTo]
        have hV : (Forest.cons t rest).prioVerdict o false = rest.prioVerdict o false := by
          simp [Forest.prioVerdict, hv0]
        rw [hE, hV]
        refine ⟨st1s, ds + d0 + 3 + t.size, ?_, ⟨?_, ?_⟩, ?_, ?_, hctls⟩
        · intro G st2 h2
          obtain ⟨st3', h3', hset'⟩ := hreps G st2 h2
          obtain ⟨st3, h3, hset⟩ := hrep (G + ds + 1) st3'
            (by rw [deliver_some, Signal.toOp, hnext]; exact h3' (G + ds) (le_refl _))
          refine ⟨st3, ?_, hset'.trans_settled hset⟩
          intro fuel hf
          obtain ⟨F, rfl⟩ : ∃ F, fuel = F + 2 := ⟨fuel - 2, by omega⟩
          rw [hrun F (by omega)]
          exact h3 (F + 1) (by omega)
        · simp only [Forest.Laid]
          refine ⟨?_, hlaids⟩
          exact Tree.laid_of_heapOut_tree houts (Or.inl (le_refl _))
            (Tree.laid_of_heapOut_tree h1'o (Or.inl (by omega)) hlaid1)
        · rw [hnodes, h1'a]
        · intro x hx
          rw [houts x (by omega), h1'o x (by omega), h1o x (by omega)]
        · rw [htrs, h1't, h1tr]; simp

/-- Calls on objects at addresses in `[lo, hi)`, appended. -/
theorem inRange_append {lo hi : Nat} {E F : List Event}
    (h1 : ∀ e ∈ E, lo ≤ e.target.id ∧ e.target.id < hi)
    (h2 : ∀ e ∈ F, lo ≤ e.target.id ∧ e.target.id < hi) :
    ∀ e ∈ E ++ F, lo ≤ e.target.id ∧ e.target.id < hi := by
  intro e he
  rcases List.mem_append.mp he with h | h
  · exact h1 e h
  · exact h2 e h

theorem inRange_mono {lo hi lo' hi' : Nat} {E : List Event}
    (h : ∀ e ∈ E, lo ≤ e.target.id ∧ e.target.id < hi) (hlo : lo' ≤ lo) (hhi : hi ≤ hi') :
    ∀ e ∈ E, lo' ≤ e.target.id ∧ e.target.id < hi' := by
  intro e he
  have := h e he
  omega

theorem inRange_reportTo {lo hi : Nat} (r : Ref) (v : Option Signal) (h1 : lo ≤ r.id)
    (h2 : r.id < hi) : ∀ e ∈ reportTo r v, lo ≤ e.target.id ∧ e.target.id < hi := by
  intro e he
  cases v with
  | none => simp [reportTo] at he
  | some w =>
    simp only [reportTo, List.mem_singleton] at he
    subst he
    exact ⟨h1, h2⟩

mutual
theorem Tree.startEvents_range (o : Obj) : ∀ (t : Tree) (n : Nat),
    ∀ e ∈ t.startEvents n o, n ≤ e.target.id ∧ e.target.id < n + t.size
  | .task _, n => by
    intro e he
    simp only [Tree.startEvents, List.mem_singleton] at he
    subst he
    simp [Tree.size]
  | .seq cs, n => by
    intro e he
    simp only [Tree.startEvents, List.mem_cons] at he
    have hs : (Tree.seq cs).size = cs.size + 1 := rfl
    rcases he with rfl | he
    · simp only; omega
    · have := Forest.startEvents_range_forest o cs n e he
      omega
  | .prio cs, n => by
    intro e he
    simp only [Tree.startEvents, List.mem_singleton] at he
    have hs : (Tree.prio cs).size = cs.size + 1 := rfl
    subst he
    simp only; omega
  | .deco view c, n => by
    intro e he
    have hs : (Tree.deco view c).size = c.span + 2 := rfl
    have hs1 : c.size = c.span + 1 := rfl
    simp only [Tree.startEvents] at he
    split at he
    · simp only [List.mem_cons, List.mem_singleton, List.not_mem_nil, or_false] at he
      rcases he with rfl | rfl
      · simp only; omega
      · simp only [Tree.rootRef]; omega
    · simp only [List.mem_cons] at he
      rcases he with rfl | he
      · simp only; omega
      · have := Tree.startEvents_range o c n e he
        omega
theorem Forest.startEvents_range_forest (o : Obj) : ∀ (cs : Forest) (n : Nat),
    ∀ e ∈ cs.startEvents n o, n ≤ e.target.id ∧ e.target.id < n + cs.size
  | .nil, n => by
    intro e he
    simp [Forest.startEvents] at he
  | .cons t rest, n => by
    intro e he
    have hs : (Forest.cons t rest).size = t.size + rest.size := rfl
    simp only [Forest.startEvents, List.mem_append] at he
    rcases he with he | he
    · have := Tree.startEvents_range o t n e he
      omega
    · have := Forest.startEvents_range_forest o rest (n + t.size) e he
      omega
end

theorem Tree.finishEvents_range (o : Obj) : ∀ (t : Tree) (n : Nat),
    ∀ e ∈ t.finishEvents n o, n ≤ e.target.id ∧ e.target.id < n + t.size
  | .task _, n => by
    intro e he
    simp only [Tree.finishEvents, List.mem_singleton] at he
    subst he
    simp [Tree.size]
  | .seq cs, n => by
    intro e he
    simp only [Tree.finishEvents, List.mem_singleton] at he
    have hs : (Tree.seq cs).size = cs.size + 1 := rfl
    subst he
    simp only; omega
  | .prio cs, n => by
    intro e he
    simp only [Tree.finishEvents, List.mem_singleton] at he
    have hs : (Tree.prio cs).size = cs.size + 1 := rfl
    subst he
    simp only; omega
  | .deco view c, n => by
    intro e he
    have hs : (Tree.deco view c).size = c.span + 2 := rfl
    have hs1 : c.size = c.span + 1 := rfl
    simp only [Tree.finishEvents, List.mem_cons] at he
    rcases he with rfl | he
    · simp only; omega
    · have := Tree.finishEvents_range o c n e he
      omega

mutual
theorem Tree.runEvents_range (o : Obj) : ∀ (t : Tree) (n : Nat),
    ∀ e ∈ t.runEvents n o, n ≤ e.target.id ∧ e.target.id < n + t.size
  | .task f, n => by
    intro e he
    simp only [Tree.runEvents, List.mem_cons] at he
    rcases he with rfl | he
    · simp [Tree.size]
    · exact inRange_reportTo ⟨n, .Task⟩ _ (le_refl _) (by simp [Tree.size]) e he
  | .seq cs, n => by
    have hs : (Tree.seq cs).size = cs.size + 1 := rfl
    simp only [Tree.runEvents]
    rw [hs, ← Nat.add_assoc]
    exact Forest.seqEvents_range o cs n (n + cs.size) true (le_refl _)
  | .prio cs, n => by
    have hs : (Tree.prio cs).size = cs.size + 1 := rfl
    simp only [Tree.runEvents]
    rw [hs, ← Nat.add_assoc]
    exact Forest.prioEvents_range o cs n (n + cs.size) true (le_refl _)
  | .deco view c, n => by
    intro e he
    have hs : (Tree.deco view c).size = c.span + 2 := rfl
    have hs1 : c.size = c.span + 1 := rfl
    have hst := Tree.startEvents_range o c n
    have hfi := Tree.finishEvents_range o c n
    have hru := Tree.runEvents_range o c n
    simp only [Tree.runEvents] at he
    split at he
    · simp only [List.mem_cons, List.mem_append] at he
      rcases he with rfl | (he | he) | he
      · simp only; omega
      · have := hst e he; omega
      · have := hru e he; omega
      · split at he
        · simp only [List.mem_cons] at he
          rcases he with rfl | he
          · simp only; omega
          · have := hfi e he; omega
        · simp only [List.mem_singleton] at he
          subst he
          simp only; omega
        · simp at he
    · simp only [List.mem_cons, List.mem_append] at he
      rcases he with rfl | he | he
      · simp only; omega
      · have := hru e he; omega
      · have hlt : n + c.size < n + (Tree.deco view c).size := by omega
        exact @inRange_reportTo n (n + (Tree.deco view c).size) ⟨n + c.size, view⟩
          (c.verdict o) (by simp) hlt e he
theorem Forest.seqEvents_range (o : Obj) : ∀ (cs : Forest) (m a : Nat) (first : Bool),
    m + cs.size ≤ a → ∀ e ∈ cs.seqEvents m a o first, m ≤ e.target.id ∧ e.target.id < a + 1
  | .nil, m, a, first, hma => by
    intro e he
    simp only [Forest.size, Nat.add_zero] at hma
    cases first
    · simp [Forest.seqEvents] at he
    · simp only [Forest.seqEvents, if_true, List.mem_cons, List.mem_singleton, List.not_mem_nil,
        or_false] at he
      rcases he with rfl | rfl <;> (simp only; omega)
  | .cons t rest, m, a, first, hma => by
    intro e he
    have hs : (Forest.cons t rest).size = t.size + rest.size := rfl
    have hs1 : t.size = t.span + 1 := rfl
    simp only [Forest.seqEvents, List.mem_append, List.mem_cons, List.mem_singleton,
      List.not_mem_nil, or_false] at he
    rcases he with ((( rfl | rfl) | he) | he) | he
    · simp only; omega
    · simp only [Tree.rootRef]; omega
    · have := Tree.runEvents_range o t m e he; omega
    · exact inRange_reportTo ⟨a, .Sequence⟩ _ (by simp only; omega) (by simp) e he
    · split at he
      · have := Forest.seqEvents_range o rest (m + t.size) a false (by omega) e he
        omega
      · simp at he
theorem Forest.prioEvents_range (o : Obj) : ∀ (cs : Forest) (m a : Nat) (first : Bool),
    m + cs.size ≤ a → ∀ e ∈ cs.prioEvents m a o first, m ≤ e.target.id ∧ e.target.id < a + 1
  | .nil, m, a, first, hma => by
    intro e he
    simp only [Forest.size, Nat.add_zero] at hma
    cases first
    · simp [Forest.prioEvents] at he
    · simp only [Forest.prioEvents, if_true, List.mem_singleton] at he
      subst he
      simp only; omega
  | .cons t rest, m, a, first, hma => by
    intro e he
    have hs : (Forest.cons t rest).size = t.size + rest.size := rfl
    have hs1 : t.size = t.span + 1 := rfl
    simp only [Forest.prioEvents, List.mem_append, List.mem_cons, List.mem_singleton,
      List.not_mem_nil, or_false] at he
    rcases he with (((( rfl | rfl) | he) | he) | he) | he
    · simp only; omega
    · simp only [Tree.rootRef]; omega
    · have := Tree.startEvents_range o t m e he; omega
    · have := Tree.runEvents_range o t m e he; omega
    · exact inRange_reportTo ⟨a, .Priority⟩ _ (by simp only; omega) (by simp) e he
    · split at he
      · have := Forest.prioEvents_range o rest (m + t.size) a false (by omega) e he
        omega
      · simp at he
end

mutual
theorem Tree.run_full : ∀ (t : Tree) (n : Nat) (o : Obj) (st : State) (c : Ref), t.Shaped o →
    t.Halts o → t.Laid n st → t.Primed o n st →
    (st.heap (n + t.span)).ControlNode = some c →
    RunsAs (t.rootRef n) n (n + t.size) o st c (t.Laid n) (t.verdict o) (t.runEvents n o)
  | .task f, n, o, st, c, hw, _, hl, _, hc => Tree.run_task_full f n o st c hw hl hc
  | .deco view ch, n, o, st, c, hw, hh, hl, hrdy, hc => by
    by_cases hv : view = .UntilFailDecorator
    · subst hv
      exact Tree.run_untilFail_full ch n o st c hw (hh.2 rfl) hl hrdy hc
        (fun sta h1 h2 h3 => Tree.run_full ch n o sta _ hw.2 hh.1 h1 h2 h3)
    · have htr : view.isTranslator = true := by
        rcases hw.deco_view with h | h
        · exact h
        · exact absurd h hv
      simp only [Tree.Primed, if_neg hv] at hrdy
      exact Tree.run_deco_full view ch n o st c htr hl hc
        (Tree.run_full ch n o (st.log ⟨⟨n + ch.size, view⟩, .Run o⟩) ⟨n + ch.size, view⟩ hw.2
          hh.1 (Tree.laid_congr_tree ch n st _ (fun _ _ _ => SameLayout.refl_layout _) hl.1)
          (Tree.primed_congr_tree o ch n st _ (fun _ _ _ => ⟨rfl, rfl, rfl⟩) hrdy) hl.2.2)
  | .seq cs, n, o, st, c, hw, hh, hl, hrdy, hc => by
    by_cases hcs : cs = .nil
    · subst hcs
      exact Tree.run_seq_nil_full n o st c hl hrdy hc
    · simp only [Tree.Shaped] at hw
      simp only [Tree.Halts] at hh
      simp only [Tree.Laid] at hl
      simp only [Tree.Primed] at hrdy
      have h := Forest.seq_run_full cs n (n + cs.size) 0 o st c hcs hw hh hl.1 hrdy.2.2
        (le_refl _) (by simpa using hrdy.1) (by simpa using hl.2) hc hrdy.2.1
      have hE : (Tree.seq cs).runEvents n o = cs.seqEvents n (n + cs.size) o false := by
        cases cs with
        | nil => exact absurd rfl hcs
        | cons t rest => simp [Tree.runEvents, Forest.seqEvents]
      rw [hE]
      refine RunsAs.imp_as h (fun s hs => ?_)
      simp only [Tree.Laid]
      exact ⟨hs.1, by rw [hs.2, hl.2]⟩
  | .prio cs, n, o, st, c, hw, hh, hl, hrdy, hc => by
    by_cases hcs : cs = .nil
    · subst hcs
      exact Tree.run_prio_nil_full n o st c hl hrdy hc
    · simp only [Tree.Shaped] at hw
      simp only [Tree.Halts] at hh
      simp only [Tree.Laid] at hl
      simp only [Tree.Primed] at hrdy
      have h := Forest.prio_run_full cs n (n + cs.size) 0 o st c hcs hw hh hl.1 (le_refl _)
        (by simpa using hrdy.1) (by simpa using hl.2) hc hrdy.2
      have hE : (Tree.prio cs).runEvents n o = cs.prioEvents n (n + cs.size) o false := by
        cases cs with
        | nil => exact absurd rfl hcs
        | cons t rest => simp [Tree.runEvents, Forest.prioEvents]
      have hV : (Tree.prio cs).verdict o = cs.prioVerdict o false := by
        cases cs with
        | nil => exact absurd rfl hcs
        | cons t rest => simp [Tree.verdict, Forest.prioVerdict]
      rw [hE, hV]
      refine RunsAs.imp_as h (fun s hs => ?_)
      simp only [Tree.Laid]
      exact ⟨hs.1, by rw [hs.2, hl.2]⟩
theorem Forest.seq_run_full : ∀ (cs : Forest) (m a i : Nat) (o : Obj) (st : State) (c : Ref),
    cs ≠ .nil → cs.Shaped o → cs.seqHalts o → cs.Laid m st → cs.Primed o m st →
    m + cs.size ≤ a →
    (st.heap a).ActualTask = (i : Int) → (st.heap a).Nodes.drop i = cs.refs m →
    (st.heap a).ControlNode = some c → (st.heap a).Object = o →
    RunsAs ⟨a, .Sequence⟩ m (a + 1) o st c
      (fun st1 => cs.Laid m st1 ∧ (st1.heap a).Nodes = (st.heap a).Nodes)
      (cs.seqVerdict o) (cs.seqEvents m a o false)
  | .nil, _, _, _, _, _, _, h, _, _, _, _, _, _, _, _, _ => absurd rfl h
  | .cons t rest, m, a, i, o, st, c, _, hw, hh, hl, hrdy, hma, hA, hN, hC, hO =>
    seq_step_full t rest m a i o st c hl hrdy hma hA hN hC hO
      (fun sta h1 h2 h3 => Tree.run_full t m o sta ⟨a, .Sequence⟩ hw.1 hh.1 h1 h2 h3)
      (fun hv hr st' h1 h2 h3 h4 h5 h6 =>
        Forest.seq_run_full rest (m + t.size) a (i + 1) o st' c hr hw.2 (hh.2 hv) h1 h2
          (by rw [Forest.size_cons] at hma; omega) h3 h4 h5 h6)
theorem Forest.prio_run_full : ∀ (cs : Forest) (m a i : Nat) (o : Obj) (st : State) (c : Ref),
    cs ≠ .nil → cs.Shaped o → cs.prioHalts o → cs.Laid m st → m + cs.size ≤ a →
    (st.heap a).ActualTask = (i : Int) → (st.heap a).Nodes.drop i = cs.refs m →
    (st.heap a).ControlNode = some c → (st.heap a).Object = o →
    RunsAs ⟨a, .Priority⟩ m (a + 1) o st c
      (fun st1 => cs.Laid m st1 ∧ (st1.heap a).Nodes = (st.heap a).Nodes)
      (cs.prioVerdict o false) (cs.prioEvents m a o false)
  | .nil, _, _, _, _, _, _, h, _, _, _, _, _, _, _, _ => absurd rfl h
  | .cons t rest, m, a, i, o, st, c, _, hw, hh, hl, hma, hA, hN, hC, hO =>
    prio_step_full t rest m a i o st c hw.1 hl hma hA hN hC hO
      (fun stb h1 h2 h3 => Tree.run_full t m o stb ⟨a, .Priority⟩ hw.1 hh.1 h1 h2 h3)
      (fun hv hr st' h1 h3 h4 h5 h6 =>
        Forest.prio_run_full rest (m + t.size) a (i + 1) o st' c hr hw.2 (hh.2 hv) h1
          (by rw [Forest.size_cons] at hma; omega) h3 h4 h5 h6)
end

/-- What the driver does with a verdict of its root, with the calls made explicit. -/
theorem driver_handler_full (t : Tree) (n b k : Nat) (o : Obj) (st1 : State) (v : Signal)
    (hw : t.Shaped o) (h : DriverOver st1 t n b k) (hO : (st1.heap b).Object = o) :
    ∃ st2, (∀ G, t.size + 2 ≤ G → invoke G ⟨b, .BehaviorTree⟩ v.toOp st1 = .ok st2) ∧
      st2.trace = st1.trace ++ ([⟨⟨b, .BehaviorTree⟩, v.toOp⟩] ++
        (if v = .Running then [] else t.finishEvents n o) ++ [⟨⟨k, .BaseNode⟩, v.toOp⟩]) ∧
      (∀ x, SameLayout (st2.heap x) (st1.heap x)) := by
  by_cases hv : v = .Running
  · subst hv
    refine ⟨((st1.log ⟨⟨b, .BehaviorTree⟩, .Running⟩).log ⟨⟨k, .BaseNode⟩, .Running⟩).modify b
        fun m => { m with Started := true }, ?_, ?_, ?_⟩
    · intro G hG
      obtain ⟨F, rfl⟩ : ∃ F, G = F + 2 := ⟨G - 2, by omega⟩
      exact invoke_BehaviorTree_Running F b k st1 h.control h.sink
    · simp [Signal.toOp]
    · exact fun x => sameLayout_modify _ _ _ ⟨rfl, rfl, rfl, rfl, rfl⟩ x
  · obtain ⟨stf, hfin, hheap, hE⟩ := Tree.finish_full t n o
      (st1.log ⟨⟨b, .BehaviorTree⟩, v.toOp⟩) hw
      (Tree.laid_congr_tree t n st1 _ (fun _ _ _ => SameLayout.refl_layout _) h.laid)
    have hfb : stf.heap = st1.heap := hheap
    refine ⟨(stf.modify b fun m => { m with Started := false }).log ⟨⟨k, .BaseNode⟩, v.toOp⟩,
      ?_, ?_, ?_⟩
    · intro G hG
      obtain ⟨F, rfl⟩ : ∃ F, G = F + 2 := ⟨G - 2, by omega⟩
      rw [show F + 2 = (F + 1) + 1 from rfl, invoke_BehaviorTree_verdict _ _ _ hv, h.root,
        send_some, hO, hfin (F + 1) (by omega), andThen_ok]
      simp only [modify_heap_same, hfb, h.control, notify_some]
      rw [invoke_sink]
      simp [hfb, h.apart.symm, h.sink]
    · simp [hE, hv]
    · intro x
      rw [log_heap]
      refine (sameLayout_modify stf b _ ⟨rfl, rfl, rfl, rfl, rfl⟩ x).trans_layout ?_
      rw [hfb]
      exact SameLayout.refl_layout _

theorem eventsAt_cons_ne (e : Event) (E : List Event) (k : Nat) (h : e.target.id ≠ k) :
    eventsAt (e :: E) k = eventsAt E k := by
  simp [eventsAt, List.filter_cons, h]

theorem eventsAt_cons_eq (e : Event) (E : List Event) (k : Nat) (h : e.target.id = k) :
    eventsAt (e :: E) k = e.op :: eventsAt E k := by
  simp [eventsAt, List.filter_cons, h]

/-- Of the calls of a tick, the external control receives the verdict of the tree and nothing
else. -/
theorem eventsAt_tickEvents (t : Tree) (n b k : Nat) (o : Obj) (hbk : b ≠ k)
    (hk : k < n ∨ n + t.size ≤ k) :
    eventsAt (tickEvents t n b k o) k = (t.verdict o).toList.map Signal.toOp := by
  have hs : t.size = t.span + 1 := rfl
  have h1 := eventsAt_of_range (Tree.startEvents_range o t n) hk
  have h2 := eventsAt_of_range (Tree.runEvents_range o t n) hk
  have h3 := eventsAt_of_range (Tree.finishEvents_range o t n) hk
  have hr : (t.rootRef n).id ≠ k := by simp only [Tree.rootRef]; omega
  simp only [tickEvents, eventsAt_append, h1, h2, List.append_nil, List.nil_append]
  rw [show ([⟨⟨b, .BehaviorTree⟩, .Run o⟩,
      ⟨t.rootRef n, .SetControl (some ⟨b, .BehaviorTree⟩)⟩] : List Event)
      = ⟨⟨b, .BehaviorTree⟩, .Run o⟩ ::
        [⟨t.rootRef n, .SetControl (some ⟨b, .BehaviorTree⟩)⟩] from rfl,
    eventsAt_cons_ne _ _ _ hbk, eventsAt_cons_ne _ _ _ hr]
  cases t.verdict o with
  | none => simp [eventsAt]
  | some v =>
    simp only [eventsAt_append, Option.toList, List.map_cons, List.map_nil]
    rw [eventsAt_cons_ne _ _ _ hbk, eventsAt_cons_eq _ _ _ rfl]
    by_cases hv : v = .Running
    · simp [hv, eventsAt]
    · simp only [if_neg hv, h3, List.nil_append]
      simp [eventsAt]

/-- One tick of a driver over a tree that is `Shaped` and `Halts`: the calls made are
`tickEvents`, a function of the tree, the addresses and the object. -/
theorem driver_tick_events (t : Tree) (n b k : Nat) (o : Obj) (st : State) (hw : t.Shaped o)
    (hh : t.Halts o) (h : DriverOver st t n b k) :
    ∃ fuel st', (∀ f, fuel ≤ f → invoke f ⟨b, .BehaviorTree⟩ (.Run o) st = .ok st') ∧
      st'.trace = st.trace ++ tickEvents t n b k o ∧ DriverOver st' t n b k := by
  have hsz : t.size = t.span + 1 := rfl
  have hrid : (t.rootRef n).id = n + t.span := rfl
  have hrb : (t.rootRef n).id ≠ b := by rw [hrid]; have := h.driverOut; omega
  have hrk : (t.rootRef n).id ≠ k := by rw [hrid]; have := h.controlOut; omega
  generalize hsta : ((((st.log ⟨⟨b, .BehaviorTree⟩, .Run o⟩).modify b fun m =>
      { m with Object := o }).log ⟨t.rootRef n, .SetControl (some ⟨b, .BehaviorTree⟩)⟩).modify
      (t.rootRef n).id fun m => { m with ControlNode := some ⟨b, .BehaviorTree⟩ }) = sta
  have hab : sta.heap b = { st.heap b with Object := o } := by
    subst hsta; simp [Ne.symm hrb]
  have har : sta.heap (n + t.span)
      = { st.heap (n + t.span) with ControlNode := some ⟨b, .BehaviorTree⟩ } := by
    subst hsta; rw [hrid]; rw [hrid] at hrb; simp [hrb]
  have hao : ∀ x, x ≠ b → x ≠ n + t.span → sta.heap x = st.heap x := by
    intro x h1 h2; subst hsta; rw [hrid]; simp [h1, h2]
  have hat : sta.trace = st.trace ++ [⟨⟨b, .BehaviorTree⟩, .Run o⟩,
      ⟨t.rootRef n, .SetControl (some ⟨b, .BehaviorTree⟩)⟩] := by subst hsta; simp
  have hlaida : t.Laid n sta := by
    refine Tree.laid_congr_root_tree t n st sta (fun x h1 h2 => ?_) h.laid
    have hxb : x ≠ b := by have := h.driverOut; omega
    by_cases hx : x = n + t.span
    · subst hx; rw [har]; exact ⟨rfl, rfl, rfl, fun hh => absurd rfl hh⟩
    · rw [hao x hxb hx]; exact ⟨rfl, rfl, rfl, fun _ => rfl⟩
  obtain ⟨stb, hstart, hlayb, hrdyb, houtb, hEb⟩ := Tree.start_full_tree t n o sta hw hlaida
  have hbb : stb.heap b = { st.heap b with Object := o } := by
    rw [houtb b (by have := h.driverOut; omega), hab]
  obtain ⟨st1, d, hrep, hlaid1, hout1, hE1, hctl1⟩ :=
    Tree.run_full t n o stb ⟨b, .BehaviorTree⟩ hw hh
      (Tree.laid_congr_tree t n sta stb (fun x _ _ => hlayb x) hlaida) hrdyb
      (by rw [(hlayb (n + t.span)).ControlNode, har])
  have h1b : st1.heap b = { st.heap b with Object := o } := by
    rw [hout1 b (by have := h.driverOut; omega), hbb]
  have h1k : st1.heap k = st.heap k := by
    rw [hout1 k (by have := h.controlOut; omega), houtb k (by have := h.controlOut; omega),
      hao k h.apart.symm (by rw [hrid] at hrk; exact Ne.symm hrk)]
  have hd1 : DriverOver st1 t n b k :=
    { laid := hlaid1
      root := by rw [h1b]; exact h.root
      control := by rw [h1b]; exact h.control
      sink := by rw [h1k]; exact h.sink
      driverOut := h.driverOut
      controlOut := h.controlOut
      apart := h.apart }
  have hrun : ∀ F, t.size ≤ F + 1 → invoke (F + 2) ⟨b, .BehaviorTree⟩ (.Run o) st
      = invoke (F + 1) (t.rootRef n) (.Run o) stb := by
    intro F hF
    rw [invoke_BehaviorTree_Run F b o st (t.rootRef n) h.root hrb, hsta,
      hstart (F + 1) hF, andThen_ok, hbb]
    simp only [h.root, send_some]
  cases hv0 : t.verdict o with
  | none =>
    rw [hv0] at hrep
    obtain ⟨st3, h3, hset⟩ := hrep 0 st1 rfl
    refine ⟨t.size + d + 1, st3, ?_, ?_, hd1.of_sameLayout hset.2⟩
    · intro f hf
      obtain ⟨F, rfl⟩ : ∃ F, f = F + 2 := ⟨f - 2, by omega⟩
      rw [hrun F (by omega)]
      exact h3 (F + 1) (by omega)
    · rw [hset.1, hE1, hEb, hat]
      simp [tickEvents, hv0]
  | some v =>
    rw [hv0] at hrep
    obtain ⟨st2, hH, hEh, hlay2⟩ := driver_handler_full t n b k o st1 v hw hd1 (by rw [h1b])
    obtain ⟨st3, h3, hset⟩ := hrep (t.size + 2) st2 (hH _ (le_refl _))
    refine ⟨t.size + 2 + d + 1, st3, ?_, ?_, ?_⟩
    · intro f hf
      obtain ⟨F, rfl⟩ : ∃ F, f = F + 2 := ⟨f - 2, by omega⟩
      rw [hrun F (by omega)]
      exact h3 (F + 1) (by omega)
    · rw [hset.1, hEh, hE1, hEb, hat]
      simp [tickEvents, hv0]
    · exact (hd1.of_sameLayout hlay2).of_sameLayout hset.2

/-- C25, amended: a driver whose root is a tree of tasks, sequences, priorities and
`AlwaysSucceed`/`AlwaysFail`/`Invert`/`UntilFail` decorators, each task signalling on every
`Run` with `o` the same single verdict, `Success` or `Fail`, in which no `UntilFail` decorator
that the tick reaches has a child that reports `Success` for `o`.  Two consecutive calls of
`BehaviorTree.Run(o)` both return, and the calls made during the second are exactly the calls
made during the first, in the same order: the same nodes are run, as often and in the same
order, and in each tick the external control receives the same calls, namely the verdict of
the tree once, or nothing when the tree reports nothing (a `Priority` without children is
reached). -/
theorem driver_tick_repeatable (t : Tree) (n b k : Nat) (o : Obj) (st : State)
    (hw : t.Shaped o) (hh : t.Halts o) (h : DriverOver st t n b k) :
    ∃ fuel st1 st2 E, (∀ f, fuel ≤ f → invoke f ⟨b, .BehaviorTree⟩ (.Run o) st = .ok st1) ∧
      (∀ f, fuel ≤ f → invoke f ⟨b, .BehaviorTree⟩ (.Run o) st1 = .ok st2) ∧
      st1.trace = st.trace ++ E ∧ st2.trace = st1.trace ++ E ∧
      eventsAt E k = (t.verdict o).toList.map Signal.toOp := by
  obtain ⟨fuel1, st1, hr1, ht1, hd1⟩ := driver_tick_events t n b k o st hw hh h
  obtain ⟨fuel2, st2, hr2, ht2, _⟩ := driver_tick_events t n b k o st1 hw hh hd1
  exact ⟨max fuel1 fuel2, st1, st2, tickEvents t n b k o,
    fun f hf => hr1 f (le_trans (le_max_left _ _) hf),
    fun f hf => hr2 f (le_trans (le_max_right _ _) hf), ht1, ht2,
    eventsAt_tickEvents t n b k o h.apart h.controlOut⟩

theorem loopTree_shaped : loopTree.Shaped 42 := by
  simp only [loopTree, Tree.Shaped, Forest.Shaped, Kind.isTranslator, always]
  simp

theorem loopTree_halts : loopTree.Halts 42 := by
  simp only [loopTree, Tree.Halts, Forest.seqHalts, Forest.prioHalts, always, Tree.verdict]
  simp

theorem loopTree_driver : DriverOver (driverWorld loopTree) loopTree 1 12 0 where
  laid := by
    simp only [loopTree, Tree.Laid, Forest.Laid, Forest.size, Tree.span, Tree.size, Forest.refs,
      Tree.rootRef, Tree.kind]
    repeat' apply And.intro
    all_goals first | rfl | trivial
  root := by rfl
  control := by rfl
  sink := by rfl
  driverOut := by decide
  controlOut := by decide
  apart := by decide

theorem driver_tick_repeatable_witness :
    ∃ fuel st1 st2 E,
      (∀ f, fuel ≤ f → invoke f ⟨12, .BehaviorTree⟩ (.Run 42) (driverWorld loopTree) = .ok st1) ∧
      (∀ f, fuel ≤ f → invoke f ⟨12, .BehaviorTree⟩ (.Run 42) st1 = .ok st2) ∧
      st1.trace = (driverWorld loopTree).trace ++ E ∧ st2.trace = st1.trace ++ E ∧
      eventsAt E 0 = [.Success] :=
  driver_tick_repeatable loopTree 1 12 0 42 (driverWorld loopTree) loopTree_shaped
    loopTree_halts loopTree_driver

/-- A task whose verdict changes from one invocation to the next (`Success` on the first run,
`Fail` afterwards: its step function reads state that its own earlier invocation changed)
under a driver (address `2`, external control at `0`): two consecutive calls of
`BehaviorTree.Run(42)` deliver `Success` and then `Fail`.  The condition of
`driver_tick_repeatable` that a task signals the same verdict on every invocation cannot be
dropped. -/
theorem driver_tick_changing_task :
    observe (ticks 6 ⟨2, .BehaviorTree⟩ 42 2 (driverWorld (.task (succeedsThenFails 1))))
        (fun st => eventsAt st.trace 0)
      = some [.Success, .Fail] := by
  decide!

end BT
